import Mathlib

/-!
# `RBTree.c`, `RailWayPlanner.c` and `manageStudents.c`: embedding and verification

The red-black tree of `src/ex3/RBTree.c` comes first.  The C tree is a graph
of heap nodes with `parent`, `left` and `right` links.  It is embedded as
follows.

* The nodes below a pointer are an inductive tree (`Node`), `NULL` being the
  absent child.
* A pointer to a node *inside* a tree (what the C code follows `parent` links
  from) is a location `Loc`: the subtree rooted at the node together with the
  chain of its ancestors, nearest first (`Ctx`, a list of `Frame`s).  Each
  frame records whether the node below is the `left` or the `right` child of
  the ancestor, the ancestor's colour and data, and the ancestor's other
  child.  `tree->root` is the tree obtained by closing all frames (`zip`).
* Where a C function receives a node together with its sibling, uncle or
  parent, the model receives the location of the node; the relatives are read
  from its nearest frames.
* A dereference of `NULL` (undefined behaviour in C) is the result `none`.
* `malloc` is taken to succeed.
* The destructor `freeFunc` and the `forEach` visitor act on the world
  outside the tree; they are state transformers of an explicit world value.
* The global `gFuncSucceeded` is an explicit `Int` passed in and out.
* Insertion, deletion and the rotations are embedded a second time on the
  nodes themselves (section "The tree in memory"): a heap of cells with
  `parent`, `left` and `right` pointers, every read and write of the C code
  explicit.  What is proved about the links of the nodes is proved there; the
  memory of a tree is related to the inductive tree by `layout`.

The two other programs of the repository follow the tree, each in a namespace
of its own.

* `src/ex2/RailWayPlanner.c` (namespace `Railway`): an `int` is an `Int`, and
  the one addition of prices is taken modulo `2 ^ 32`.  The array of the
  indices of the connections is a function on its cells, the table of prices
  a function on its rows and columns with its two dimensions; a read or a
  write outside an array is the result `none`.  A loop is a function with a
  bound on the number of tests of its condition.
* `src/ex1/manageStudents.c` (namespace `Students`): the array of students is
  a list, indexed by `int`s, a read or a write outside it being `none`; so is
  an assignment past the last cell of a temporary array of `merge`.  A string
  is the list of its characters before the NUL.  A `double` is the rational
  number it stands for, a division being rounded to 53 binary digits.  The
  recursive functions take a bound on the depth of the nested calls.
-/

/-! ## The type `double`

A `double` is the rational number it stands for.  The result of an operation
is the exact result rounded to the nearest number with 53 significant binary
digits, ties to even.  The range of the exponent is not modelled: no result
overflows or falls among the subnormal numbers. -/

/-- The integer nearest to `q`, the even one of the two when `q` lies halfway
between two integers. -/
def roundHalfEven (q : ℚ) : ℤ :=
  if q - ⌊q⌋ < 1 / 2 then ⌊q⌋
  else if 1 / 2 < q - ⌊q⌋ then ⌊q⌋ + 1
  else if ⌊q⌋ % 2 = 0 then ⌊q⌋ else ⌊q⌋ + 1

/-- The `double` nearest to the rational `q`: 53 significant binary digits,
rounded to nearest, ties to even.  The range of the exponent is not modelled:
the quotients `findBestStudent` forms from grades up to 100 and ages from 18
to 120 are 0 or lie between `2 ^ (-7)` and `2 ^ 3`, and the squares and sums
`calculateSquareVecNorm` forms are taken to stay in the range of `double`. -/
def toDouble (q : ℚ) : ℚ :=
  if q = 0 then 0
  else (roundHalfEven (q * 2 ^ (52 - Int.log 2 |q|)) : ℚ) / 2 ^ (52 - Int.log 2 |q|)

namespace RBT

/-! ## Constants of `RBTree.c` -/

abbrev EMPTY_TREE : Int := 0
abbrev SUCCESS : Int := 1
abbrev FAILURE : Int := 0
abbrev NO_PARENT : Int := 0
abbrev RIGHT_CHILD : Int := 1
abbrev LEFT_CHILD : Int := -1
abbrev RIGHT_UNCLE : Int := 1
abbrev LEFT_UNCLE : Int := -1
abbrev YES : Int := 1
abbrev NO : Int := 0
abbrev EQUAL : Int := 0
abbrev ONLY_NODE : Int := 1

/-! ## Data model -/

/-- Colour tag of a node. -/
inductive Color where
  | RED
  | BLACK
  deriving DecidableEq, Repr

/-- The nodes reachable from a `Node *` through `left` and `right`;
`NULL` is the null pointer. -/
inductive Node (α : Type) where
  | NULL : Node α
  | mk (color : Color) (left : Node α) (data : α) (right : Node α) : Node α
  deriving DecidableEq, Repr

/-- One ancestor seen from below: `ofLeft c x r` is an ancestor with colour `c`,
data `x` and right child `r` whose `left` link leads to the node below;
`ofRight c l x` is an ancestor with left child `l` whose `right` link leads to
the node below. -/
inductive Frame (α : Type) where
  | ofLeft (color : Color) (data : α) (right : Node α) : Frame α
  | ofRight (color : Color) (left : Node α) (data : α) : Frame α
  deriving DecidableEq, Repr

/-- The chain of `parent` links of a node, nearest ancestor first. -/
abbrev Ctx (α : Type) := List (Frame α)

/-- A `Node *` pointing into a tree: the ancestors and the subtree at the node. -/
structure Loc (α : Type) where
  ctx : Ctx α
  node : Node α
  deriving DecidableEq, Repr

/-- The tree object: `root`, `compFunc`, `freeFunc`, `size`.  The destructor
transforms a world of type `σ`. -/
structure RBTree (α σ : Type) where
  root : Node α
  compFunc : α → α → Int
  freeFunc : α → σ → σ
  size : Int

variable {α σ ω β : Type}

/-- Colour read through a possibly null pointer by the tests
`p == NULL || p->color == BLACK`: an absent child counts as black. -/
def Node.colorOf : Node α → Color
  | .NULL => .BLACK
  | .mk c _ _ _ => c

/-- The assignment `p->color = c`; `none` when `p` is `NULL`. -/
def Node.setColor (c : Color) : Node α → Option (Node α)
  | .NULL => none
  | .mk _ l x r => some (.mk c l x r)

/-- Colour of the ancestor described by a frame. -/
def Frame.color : Frame α → Color
  | .ofLeft c _ _ => c
  | .ofRight c _ _ => c

/-- Data of the ancestor described by a frame. -/
def Frame.data : Frame α → α
  | .ofLeft _ x _ => x
  | .ofRight _ _ x => x

/-- The other child of the ancestor described by a frame. -/
def Frame.sibling : Frame α → Node α
  | .ofLeft _ _ r => r
  | .ofRight _ l _ => l

/-- The ancestor of a frame with another colour. -/
def Frame.withColor (c : Color) : Frame α → Frame α
  | .ofLeft _ x r => .ofLeft c x r
  | .ofRight _ l x => .ofRight c l x

/-- The ancestor node of a frame, given the subtree below. -/
def Frame.plug : Frame α → Node α → Node α
  | .ofLeft c x r, t => .mk c t x r
  | .ofRight c l x, t => .mk c l x t

/-- The whole tree around a location: follow the `parent` links up to the root. -/
def zip : Ctx α → Node α → Node α
  | [], t => t
  | f :: up, t => zip up (f.plug t)

/-- The root of the tree a location points into. -/
def Loc.root (p : Loc α) : Node α := zip p.ctx p.node

/-- The pointer `node->parent`; `none` when it is `NULL`. -/
def Loc.parent (p : Loc α) : Option (Loc α) :=
  match p.ctx with
  | [] => none
  | f :: up => some ⟨up, f.plug p.node⟩

/-- The pointer `node->left`, for a non-null `node` (it may point to `NULL`). -/
def Loc.left (p : Loc α) : Option (Loc α) :=
  match p.node with
  | .NULL => none
  | .mk c l x r => some ⟨.ofLeft c x r :: p.ctx, l⟩

/-- The pointer `node->right`, for a non-null `node` (it may point to `NULL`). -/
def Loc.right (p : Loc α) : Option (Loc α) :=
  match p.node with
  | .NULL => none
  | .mk c l x r => some ⟨.ofRight c l x :: p.ctx, r⟩

/-- In-order sequence of the data below a node: left subtree, node, right subtree. -/
def inorder : Node α → List α
  | .NULL => []
  | .mk _ l x r => inorder l ++ x :: inorder r

/-- Number of nodes below a pointer. -/
def nodeCount : Node α → Nat
  | .NULL => 0
  | .mk _ l _ r => nodeCount l + 1 + nodeCount r

/-! ## Construction -/

/-- `newRBTree`: a tree with no root and size 0 holding the two functions. -/
def newRBTree (compFunc : α → α → Int) (freeFunc : α → σ → σ) : Option (RBTree α σ) :=
  some { root := .NULL, compFunc := compFunc, freeFunc := freeFunc, size := EMPTY_TREE }

/-- `createNewNode`: a red node without children. -/
def createNewNode (data : α) : Node α :=
  .mk .RED .NULL data .NULL

/-! ## Search -/

/-- `findNodeInTree`, started at the node of location `⟨ctx, node⟩`:
the location of the node found, `none` for `NULL`. -/
def findNodeInTree : Node α → (α → α → Int) → α → Ctx α → Option (Loc α)
  | .NULL, _, _, _ => none
  | .mk c l x r, compFunc, data, ctx =>
    if compFunc data x = EQUAL then some ⟨ctx, .mk c l x r⟩
    else if compFunc data x > 0 then findNodeInTree r compFunc data (.ofRight c l x :: ctx)
    else findNodeInTree l compFunc data (.ofLeft c x r :: ctx)

/-- `RBTreeContains`. -/
def RBTreeContains (tree : Option (RBTree α σ)) (data : α) : Int :=
  match tree with
  | none => FAILURE
  | some t =>
    match findNodeInTree t.root t.compFunc data [] with
    | none => FAILURE
    | some _ => SUCCESS

/-! ## Traversal -/

/-- `forEachHelper`: the state is the global `gFuncSucceeded` and the world the
visitor acts on; `func x args w` is the visitor's return value and the world
it leaves. -/
def forEachHelper : Node α → (α → β → ω → Int × ω) → β → Int × ω → Int × ω
  | .NULL, _, _, s => s
  | .mk _ l x r, func, args, s =>
    let s1 := if s.1 ≠ 0 then forEachHelper l func args s else s
    if s1.1 ≠ 0 then
      let res := func x args s1.2
      if res.1 = FAILURE then (NO, res.2)
      else forEachHelper r func args (s1.1, res.2)
    else s1

/-- `forEachRBTree`: the returned value, then the global flag and the world
after the call. -/
def forEachRBTree (tree : Option (RBTree α σ)) (func : α → β → ω → Int × ω) (args : β)
    (s : Int × ω) : Int × (Int × ω) :=
  match tree with
  | none => (FAILURE, s)
  | some t =>
    let s1 := forEachHelper t.root func args s
    (s1.1, s1)

/-! ## Insertion -/

/-- The loop of `basicInsert`: the walk from `node` (whose ancestors are
`parent`) down to an absent child; the result is the `parent` chain at that
position, `none` when an equal element is met. -/
def basicInsertWalk (data : α) (compFunc : α → α → Int) : Node α → Ctx α → Option (Ctx α)
  | .NULL, parent => some parent
  | .mk c l x r, parent =>
    if compFunc data x > 0 then basicInsertWalk data compFunc r (.ofRight c l x :: parent)
    else if compFunc data x < 0 then basicInsertWalk data compFunc l (.ofLeft c x r :: parent)
    else none

/-- `basicInsert`: the location of the new red node, `none` for the `NULL`
result.  After the walk the code compares `data` with `parent->data` once
more and stores the new node in `parent->right` or `parent->left`. -/
def basicInsert (root : Node α) (data : α) (compFunc : α → α → Int) : Option (Loc α) :=
  match basicInsertWalk data compFunc root [] with
  | none => none
  | some [] => some ⟨[], createNewNode data⟩
  | some (f :: up) =>
    if compFunc data f.data > 0 then
      match f with
      | .ofLeft c x _ => some ⟨.ofRight c .NULL x :: up, createNewNode data⟩
      | .ofRight c l x => some ⟨.ofRight c l x :: up, createNewNode data⟩
    else
      match f with
      | .ofLeft c x r => some ⟨.ofLeft c x r :: up, createNewNode data⟩
      | .ofRight c _ x => some ⟨.ofLeft c x .NULL :: up, createNewNode data⟩

/-- `whichChildNodeIs` for a non-null node. -/
def whichChildNodeIs (p : Loc α) : Int :=
  match p.ctx with
  | [] => NO_PARENT
  | .ofRight _ _ _ :: _ => RIGHT_CHILD
  | .ofLeft _ _ _ :: _ => LEFT_CHILD

/-- `leftRotation` at the node of `p`: the result is the location of that
same node after the rotation (it is now the left child of its former right
child, which hangs where the node was).  `none` when `node->right` is `NULL`
(the code reads `node2->left`). -/
def leftRotation (p : Loc α) : Option (Loc α) :=
  match p.node with
  | .mk c l x (.mk c2 l2 x2 r2) => some ⟨.ofLeft c2 x2 r2 :: p.ctx, .mk c l x l2⟩
  | _ => none

/-- `rightRotation` at the node of `p`: the location of that same node after
the rotation.  `none` when `node->left` is `NULL`. -/
def rightRotation (p : Loc α) : Option (Loc α) :=
  match p.node with
  | .mk c (.mk c2 l2 x2 r2) x r => some ⟨.ofRight c2 l2 x2 :: p.ctx, .mk c r2 x r⟩
  | _ => none

/-- The assignment `node->parent->color = c`. -/
def Loc.setParentColor (c : Color) (p : Loc α) : Option (Loc α) :=
  match p.ctx with
  | f :: up => some ⟨f.withColor c :: up, p.node⟩
  | [] => none

/-- The assignment `node->parent->parent->color = c`. -/
def Loc.setGrandparentColor (c : Color) (p : Loc α) : Option (Loc α) :=
  match p.ctx with
  | f :: g :: up => some ⟨f :: g.withColor c :: up, p.node⟩
  | _ => none

/-- `redUncleAfterInsertion`; the uncle is the other child of the grandparent.
The result is the new `*currentNode`, the grandparent. -/
def redUncleAfterInsertion (cur : Loc α) : Option (Loc α) :=
  match cur.ctx with
  | pf :: .ofLeft _ gx uncle :: rest =>
    match uncle.setColor .BLACK with
    | some u => some ⟨rest, .mk .RED ((pf.withColor .BLACK).plug cur.node) gx u⟩
    | none => none
  | pf :: .ofRight _ uncle gx :: rest =>
    match uncle.setColor .BLACK with
    | some u => some ⟨rest, .mk .RED u gx ((pf.withColor .BLACK).plug cur.node)⟩
    | none => none
  | _ => none

/-- `blackUncleAfterInsertion`; the result is the location of `*currentNode`
when the function returns. -/
def blackUncleAfterInsertion (cur : Loc α) (whichUncle : Int) : Option (Loc α) := do
  let cur1 ←
    if whichUncle = RIGHT_UNCLE then do
      let c ←
        if whichChildNodeIs cur = RIGHT_CHILD then do
          -- leftRotation(tree, (*currentNode)->parent); *currentNode = (*currentNode)->left
          let p ← cur.parent
          let p ← leftRotation p
          let c ← p.parent
          c.left
        else pure cur
      let c ← c.setParentColor .BLACK
      let c ← c.setGrandparentColor .RED
      -- rightRotation(tree, (*currentNode)->parent->parent)
      let p ← c.parent
      let g ← p.parent
      let g ← rightRotation g
      -- the parent is now the parent of the old grandparent; the node is still its left child
      let p ← g.parent
      p.left
    else pure cur
  if whichUncle = LEFT_UNCLE then do
    let c ←
      if whichChildNodeIs cur1 = LEFT_CHILD then do
        -- rightRotation(tree, (*currentNode)->parent); *currentNode = (*currentNode)->right
        let p ← cur1.parent
        let p ← rightRotation p
        let c ← p.parent
        c.right
      else pure cur1
    let c ← c.setParentColor .BLACK
    let c ← c.setGrandparentColor .RED
    -- leftRotation(tree, (*currentNode)->parent->parent)
    let p ← c.parent
    let g ← p.parent
    let g ← leftRotation g
    let p ← g.parent
    p.right
  else pure cur1

/-- The `while` loop of `fixTreeAfterInsertion`, at most `fuel` tests of the
loop condition; the result is the final `currentNode`.  In the loop body,
when the parent has no parent the code reads `parent->parent->left`. -/
def fixTreeLoop : Nat → Loc α → Option (Loc α)
  | 0, _ => none
  | fuel + 1, cur =>
    match cur.ctx with
    | [] => some cur
    | [pf] => if pf.color = .RED then none else some cur
    | pf :: .ofLeft _ _ uncle :: _ =>
      if pf.color = .RED then
        if uncle.colorOf = .RED then (redUncleAfterInsertion cur).bind (fixTreeLoop fuel)
        else (blackUncleAfterInsertion cur RIGHT_UNCLE).bind (fixTreeLoop fuel)
      else some cur
    | pf :: .ofRight _ uncle _ :: _ =>
      if pf.color = .RED then
        if uncle.colorOf = .RED then (redUncleAfterInsertion cur).bind (fixTreeLoop fuel)
        else (blackUncleAfterInsertion cur LEFT_UNCLE).bind (fixTreeLoop fuel)
      else some cur

/-- `fixTreeAfterInsertion`: the new `tree->root`.  Every pass through the
loop body shortens the chain of ancestors of `currentNode`, so the fuel given
here is never used up (`fixTreeLoop_fuel`). -/
def fixTreeAfterInsertion (node : Loc α) : Option (Node α) := do
  let cur ← fixTreeLoop (node.ctx.length + 1) node
  cur.root.setColor .BLACK

/-- `insertToRBTree`: the returned value and the tree object after the call;
the outer `none` is undefined behaviour. -/
def insertToRBTree (tree : Option (RBTree α σ)) (data : Option α) :
    Option (Int × Option (RBTree α σ)) :=
  match tree, data with
  | none, _ => some (FAILURE, none)
  | some t, none => some (FAILURE, some t)
  | some t, some d =>
    match basicInsert t.root d t.compFunc with
    | none => some (FAILURE, some t)
    | some newNode =>
      match newNode.ctx with
      | [] =>
        (newNode.node.setColor .BLACK).map
          fun r => (SUCCESS, some { t with root := r, size := t.size + 1 })
      | f :: _ =>
        if f.color = .RED then
          (fixTreeAfterInsertion newNode).map
            fun r => (SUCCESS, some { t with root := r, size := t.size + 1 })
        else some (SUCCESS, some { t with root := newNode.root, size := t.size + 1 })

/-! ## Deletion -/

/-- The loop of `getSuccFromRightChild`: from `successor` go left while
`successor->left` is not `NULL`. -/
def getSuccLoop : Node α → Ctx α → Option (Loc α)
  | .NULL, _ => none
  | .mk c l x r, ctx =>
    match l with
    | .NULL => some ⟨ctx, .mk c .NULL x r⟩
    | _ => getSuccLoop l (.ofLeft c x r :: ctx)

/-- `getSuccFromRightChild`: the location of the leftmost node below
`node->right`. -/
def getSuccFromRightChild (node : Loc α) : Option (Loc α) :=
  match node.node with
  | .NULL => none
  | .mk c l x r => getSuccLoop r (.ofRight c l x :: node.ctx)

/-- The data of the ancestor `k` links up is replaced by `d`. -/
def setDataAt (d : α) : Nat → Ctx α → Ctx α
  | _, [] => []
  | 0, .ofLeft c _ r :: up => .ofLeft c d r :: up
  | 0, .ofRight c l _ :: up => .ofRight c l d :: up
  | k + 1, f :: up => f :: setDataAt d k up

/-- `swapData(node1, node2)` for a `node2` that lies below `node1` (the only
use in the code): the location of `node2` after the swap. -/
def swapData (node1 node2 : Loc α) : Option (Loc α) :=
  match node1.node, node2.node with
  | .mk _ _ x1 _, .mk c2 l2 x2 r2 =>
    some ⟨setDataAt x2 (node2.ctx.length - node1.ctx.length - 1) node2.ctx, .mk c2 l2 x1 r2⟩
  | _, _ => none

/-- `getSibling`: the sibling pointer and the value stored in `*whichChild`;
`none` when `node->parent` is `NULL`. -/
def getSibling (node : Loc α) : Option (Node α × Int) :=
  match node.ctx with
  | [] => none
  | .ofLeft _ _ r :: _ => some (r, LEFT_CHILD)
  | .ofRight _ l _ :: _ => some (l, RIGHT_CHILD)

/-- The other child of the parent: the pointer `node->parent->right` for a
left child, `node->parent->left` for a right child. -/
def Loc.brother (p : Loc α) : Option (Loc α) :=
  match p.ctx with
  | [] => none
  | .ofLeft c x r :: up => some ⟨.ofRight c p.node x :: up, r⟩
  | .ofRight c l x :: up => some ⟨.ofLeft c x p.node :: up, l⟩

/-- The child of `p` on the side `whichChild`. -/
def Loc.childOn (whichChild : Int) (p : Loc α) : Option (Loc α) :=
  if whichChild = LEFT_CHILD then p.left else p.right

/-- The child of `p` on the side on which the ancestor of frame `f` has the
node below it. -/
def Loc.childLike (f : Frame α) (p : Loc α) : Option (Loc α) :=
  match f with
  | .ofLeft _ _ _ => p.left
  | .ofRight _ _ _ => p.right

/-- `delete6` (case 3B); `delete3` is the function declared ahead in the C
file.  The argument `sibling` of the C function is the other child of
`node->parent`.  The result is the location of `node` on return. -/
def delete6 (delete3 : Loc α → Option (Loc α)) (node : Loc α) : Option (Loc α) :=
  match node.ctx, node.brother with
  | f :: _, some sibling =>
    if f.color = .RED then do
      -- node->parent->color = BLACK; sibling->color = RED
      let s ← sibling.node.setColor .RED
      let n ← (Loc.mk sibling.ctx s).brother
      n.setParentColor .BLACK
    else do
      -- sibling->color = RED; delete3(tree, node->parent)
      let s ← sibling.node.setColor .RED
      let n ← (Loc.mk sibling.ctx s).brother
      let p ← n.parent
      let p ← delete3 p
      -- node is still the child of its parent on the same side
      p.childLike f
  | _, _ => none

/-- `delete5` (case 3C): red sibling.  The result is the location of `node`
on return. -/
def delete5 (delete3 : Loc α → Option (Loc α)) (node : Loc α) (whichChild : Int) :
    Option (Loc α) := do
  -- sibling->color = BLACK; node->parent->color = RED
  let sibling ← node.brother
  let s ← sibling.node.setColor .BLACK
  let n ← (Loc.mk sibling.ctx s).brother
  let n ← n.setParentColor .RED
  let p ← n.parent
  let p ← if whichChild = LEFT_CHILD then leftRotation p else rightRotation p
  -- node is still the child of its parent on the same side
  let n ← p.childOn whichChild
  delete3 n

/-- `delete4`: black sibling (cases 3B, 3D, 3E).  The result is the location
of `node` on return.  After case 3B the code goes on to the two tests of
case 3E; they read `sibling->right` and `sibling->left`, which `delete6` and
the `delete3` it calls do not assign to and which case 3B found black or
absent, so both tests fail. -/
def delete4 (delete3 : Loc α → Option (Loc α)) (node : Loc α) (whichChild : Int) :
    Option (Loc α) := do
  let sibling ← node.brother
  match sibling.node with
  | .NULL => none
  | .mk _ sl sx sr =>
    if sl.colorOf = .BLACK ∧ sr.colorOf = .BLACK then
      delete6 delete3 node
    else do
      let sibling ←
        if whichChild = LEFT_CHILD ∧ sr.colorOf = .BLACK ∧ sl.colorOf = .RED then do
          -- case 3D LEFT
          let l ← sl.setColor .BLACK
          let s ← rightRotation ⟨sibling.ctx, .mk .RED l sx sr⟩
          s.parent
        else if whichChild = RIGHT_CHILD ∧ sl.colorOf = .BLACK ∧ sr.colorOf = .RED then do
          -- case 3D RIGHT
          let r ← sr.setColor .BLACK
          let s ← leftRotation ⟨sibling.ctx, .mk .RED sl sx r⟩
          s.parent
        else pure sibling
      match sibling.ctx, sibling.node with
      | f :: up, .mk _ sl sx sr =>
        if whichChild = LEFT_CHILD ∧ sr.colorOf = .RED then do
          -- case 3E LEFT
          let r ← sr.setColor .BLACK
          let n ← (Loc.mk (f.withColor .BLACK :: up) (.mk f.color sl sx r)).brother
          let p ← n.parent
          let p ← leftRotation p
          p.childOn whichChild
        else if whichChild = RIGHT_CHILD ∧ sl.colorOf = .RED then do
          -- case 3E RIGHT
          let l ← sl.setColor .BLACK
          let n ← (Loc.mk (f.withColor .BLACK :: up) (.mk f.color l sx sr)).brother
          let p ← n.parent
          let p ← rightRotation p
          p.childOn whichChild
        else (Loc.mk sibling.ctx sibling.node).brother
      | _, _ => none

/-- `delete3` with at most `fuel` nested calls.  The result is the location
of `node` on return: the code does not assign to the fields of `node` or of
the nodes below it. -/
def delete3 : Nat → Loc α → Option (Loc α)
  | 0, _ => none
  | fuel + 1, node =>
    match node.ctx with
    | [] => some node
    | _ :: _ =>
      match getSibling node with
      | none => none
      | some (sibling, whichChild) =>
        match sibling with
        | .NULL => none
        | .mk sc _ _ _ =>
          if sc = .BLACK then delete4 (delete3 fuel) node whichChild
          else delete5 (delete3 fuel) node whichChild

/-- A bound on the nested calls of `delete3`: each call made through
`delete6` drops the nearest ancestor, each call made through `delete5` splits
the sibling subtree of the nearest ancestor in two; with this much fuel the
result no longer depends on the fuel (`delete3_fuel`). -/
def delete3Fuel : Ctx α → Nat
  | [] => 1
  | f :: up => 2 * nodeCount f.sibling + 1 + delete3Fuel up

/-- `changeNode`: the location of `child` afterwards; `none` when `child` is
`NULL`. -/
def changeNode (node : Loc α) (child : Node α) : Option (Loc α) :=
  match child with
  | .NULL => none
  | .mk c l x r => some ⟨node.ctx, .mk c l x r⟩

/-- `delete2`: the root of the tree on return, with `node` no longer linked.
When `node` has no parent at the unlink step the code changes nothing and
`tree->root` is left pointing to the node its caller frees: `none`. -/
def delete2 (node : Loc α) : Option (Node α) :=
  match node.node with
  | .NULL => none
  | .mk color left _ right =>
    let unlink (n : Loc α) : Option (Node α) :=
      match n.ctx with
      | [] => none
      | _ :: _ => some (zip n.ctx .NULL)
    if color = .BLACK then
      let child := match right with
        | .NULL => left
        | _ => right
      match child with
      | .NULL => (delete3 (delete3Fuel node.ctx) node).bind unlink
      | _ => do
        let c ← changeNode node child
        let n ← c.node.setColor .BLACK
        some (zip c.ctx n)
    else unlink node

/-- `deleteFromRBTree`: the returned value, the tree object and the world
after the call; the outer `none` is undefined behaviour. -/
def deleteFromRBTree (tree : Option (RBTree α σ)) (data : α) (w : σ) :
    Option (Int × Option (RBTree α σ) × σ) :=
  match tree with
  | none => some (FAILURE, none, w)
  | some t =>
    match findNodeInTree t.root t.compFunc data [] with
    | none => some (FAILURE, some t, w)
    | some node =>
      if t.size = ONLY_NODE then
        match t.root with
        | .NULL => none
        | .mk _ _ x _ =>
          some (SUCCESS, some { t with root := .NULL, size := t.size - 1 }, t.freeFunc x w)
      else do
        let node ←
          match node.node with
          | .mk _ (.mk _ _ _ _) _ (.mk _ _ _ _) => do
            let successor ← getSuccFromRightChild node
            swapData node successor
          | _ => pure node
        let root ← delete2 node
        match node.node with
        | .NULL => none
        | .mk _ _ x _ =>
          some (SUCCESS, some { t with root := root, size := t.size - 1 }, t.freeFunc x w)

/-- The colours and data of the nodes below a pointer, in in-order. -/
def colouredInorder : Node α → List (Color × α)
  | .NULL => []
  | .mk c l x r => colouredInorder l ++ (c, x) :: colouredInorder r

/-- Number of nodes on the longest path from a node down to an absent child. -/
def height : Node α → Nat
  | .NULL => 0
  | .mk _ l _ r => max (height l) (height r) + 1

/-- The node `deleteFromRBTree` goes on to remove, given the node found: for
a node with two children the code swaps its data with that of the successor
and goes on with the successor; otherwise it goes on with the node itself. -/
def deleteTarget (node : Loc α) : Option (Loc α) :=
  match node.node with
  | .mk _ (.mk _ _ _ _) _ (.mk _ _ _ _) => do
    let successor ← getSuccFromRightChild node
    swapData node successor
  | _ => pure node

/-- The value of `whichUncle` that the loop of `fixTreeAfterInsertion` passes
to `blackUncleAfterInsertion`, read from the frame of the grandparent:
`RIGHT_UNCLE` when the parent is a left child, `LEFT_UNCLE` otherwise. -/
def whichUncleOf (gf : Frame α) : Int :=
  match gf with
  | .ofLeft _ _ _ => RIGHT_UNCLE
  | .ofRight _ _ _ => LEFT_UNCLE

/-! ## Insertion fixup with a count of the rotations

The functions of the insertion fixup once more, with a counter beside the
current node that every call of `leftRotation` or `rightRotation` adds one
to.  Without the counter they are the functions above
(`blackUncleAfterInsertionCounted_fst`, `fixTreeLoopCounted_fst`). -/

/-- `leftRotation`, counted. -/
def leftRotationCounted (p : Loc α) (n : Nat) : Option (Loc α × Nat) :=
  (leftRotation p).map fun q => (q, n + 1)

/-- `rightRotation`, counted. -/
def rightRotationCounted (p : Loc α) (n : Nat) : Option (Loc α × Nat) :=
  (rightRotation p).map fun q => (q, n + 1)

/-- `blackUncleAfterInsertion` with the count of rotations. -/
def blackUncleAfterInsertionCounted (cur : Loc α) (whichUncle : Int) (n : Nat) :
    Option (Loc α × Nat) := do
  let s1 ←
    if whichUncle = RIGHT_UNCLE then do
      let s ←
        if whichChildNodeIs cur = RIGHT_CHILD then do
          let p ← cur.parent
          let q ← leftRotationCounted p n
          let c ← q.1.parent
          let c ← c.left
          pure (c, q.2)
        else pure (cur, n)
      let c ← s.1.setParentColor .BLACK
      let c ← c.setGrandparentColor .RED
      let p ← c.parent
      let g ← p.parent
      let q ← rightRotationCounted g s.2
      let p ← q.1.parent
      let c ← p.left
      pure (c, q.2)
    else pure (cur, n)
  if whichUncle = LEFT_UNCLE then do
    let s ←
      if whichChildNodeIs s1.1 = LEFT_CHILD then do
        let p ← s1.1.parent
        let q ← rightRotationCounted p s1.2
        let c ← q.1.parent
        let c ← c.right
        pure (c, q.2)
      else pure s1
    let c ← s.1.setParentColor .BLACK
    let c ← c.setGrandparentColor .RED
    let p ← c.parent
    let g ← p.parent
    let q ← leftRotationCounted g s.2
    let p ← q.1.parent
    let c ← p.right
    pure (c, q.2)
  else pure s1

/-- The loop of `fixTreeAfterInsertion` with the count of rotations. -/
def fixTreeLoopCounted : Nat → Loc α → Nat → Option (Loc α × Nat)
  | 0, _, _ => none
  | fuel + 1, cur, n =>
    match cur.ctx with
    | [] => some (cur, n)
    | [pf] => if pf.color = .RED then none else some (cur, n)
    | pf :: .ofLeft _ _ uncle :: _ =>
      if pf.color = .RED then
        if uncle.colorOf = .RED then
          (redUncleAfterInsertion cur).bind fun c => fixTreeLoopCounted fuel c n
        else (blackUncleAfterInsertionCounted cur RIGHT_UNCLE n).bind
          fun s => fixTreeLoopCounted fuel s.1 s.2
      else some (cur, n)
    | pf :: .ofRight _ uncle _ :: _ =>
      if pf.color = .RED then
        if uncle.colorOf = .RED then
          (redUncleAfterInsertion cur).bind fun c => fixTreeLoopCounted fuel c n
        else (blackUncleAfterInsertionCounted cur LEFT_UNCLE n).bind
          fun s => fixTreeLoopCounted fuel s.1 s.2
      else some (cur, n)

/-- `fixTreeAfterInsertion` with the count of rotations: the new `tree->root`
and the number of rotations made. -/
def fixTreeAfterInsertionCounted (node : Loc α) : Option (Node α × Nat) := do
  let s ← fixTreeLoopCounted (node.ctx.length + 1) node 0
  let root ← s.1.root.setColor .BLACK
  pure (root, s.2)

/-! ## Teardown -/

/-- `freeHelper`: the world after the destructor calls of the subtree, left
subtree first, then right subtree, then the node's own data. -/
def freeHelper : Node α → (α → σ → σ) → σ → σ
  | .NULL, _, w => w
  | .mk _ l x r, freeFunc, w => freeFunc x (freeHelper r freeFunc (freeHelper l freeFunc w))

/-- `freeRBTree`; the argument is `*tree`, the result is `*tree` on return
(`NULL`) and the world after the destructor calls.  The code reads
`(*tree)->root` without a test: `none` when `*tree` is `NULL`. -/
def freeRBTree (tree : Option (RBTree α σ)) (w : σ) : Option (Option (RBTree α σ) × σ) :=
  match tree with
  | none => none
  | some t => some (none, freeHelper t.root t.freeFunc w)

/-! ## `Structs.c`

* A NUL-terminated string is the list of its bytes before the terminator, as
  `unsigned char` values.  `strncmp` is a parameter of `stringCompare`, bound
  in the theorems by what the C standard says of it.
* The components of a vector (`double` in C) are exact numbers.  The
  comparator only compares them, and is stated over any linearly ordered ring
  `K`; `calculateSquareVecNorm` multiplies and adds them, and is stated over
  the rational numbers, every product and sum rounded to `double`.
* The array of a `Vector` is a list, `NULL` being `none`.  A read
  `v->vector[i]` outside the array or through `NULL` is undefined behaviour in
  C; the model gives it the value 0, and every theorem is about vectors whose
  array holds `len` components, where no such read occurs.
* Values of type `int` are taken not to overflow and `(int)strlen(s)` to keep
  its value (fewer than 2^31 nodes, strings shorter than 2^31 bytes).
* The outcomes of the calls of `malloc` and `realloc` still to come are a
  list of booleans, taken from the front; past its end the calls succeed. -/

abbrev NEG : Int := -1
abbrev POS : Int := 1

/-- The bytes of a NUL-terminated string before the terminator. -/
abbrev CString := List Nat

/-- `strlen`. -/
def strlen (s : CString) : Int := s.length

/-- `getMinLenOf2Strings`. -/
def getMinLenOf2Strings (a b : CString) : Int :=
  if strlen a > strlen b then strlen b else strlen a

/-- `stringCompare`, given the library's `strncmp`. -/
def stringCompare (strncmp : CString → CString → Nat → Int) (a b : CString) : Int :=
  let minLen := getMinLenOf2Strings a b
  let res := strncmp a b minLen.toNat
  if res = EQUAL then
    if strlen a = strlen b then EQUAL
    else if strlen a > strlen b then POS
    else NEG
  else res

/-- The struct `Vector`: `len` and the array `vector`. -/
structure Vector (K : Type) where
  len : Int
  vector : Option (List K)
  deriving DecidableEq, Repr

variable {K : Type} [LinearOrderedRing K]

/-- The read `v->vector[i]`. -/
def Vector.at (v : Vector K) (i : Nat) : K :=
  (v.vector.getD []).getD i 0

/-- `getMinLenOf2Vectors`. -/
def getMinLenOf2Vectors (a b : Vector K) : Int :=
  if a.len > b.len then b.len else a.len

/-- The `for` loop of `vectorCompare1By1` from index `i`, with `n` passes
left: the value returned inside the loop, `none` when the loop ends. -/
def vectorCompareLoop (a b : Vector K) : Nat → Nat → Option Int
  | _, 0 => none
  | i, n + 1 =>
    if a.at i > b.at i then some POS
    else if a.at i < b.at i then some NEG
    else vectorCompareLoop a b (i + 1) n

/-- `vectorCompare1By1`. -/
def vectorCompare1By1 (a b : Vector K) : Int :=
  let minLen := getMinLenOf2Vectors a b
  match vectorCompareLoop a b 0 minLen.toNat with
  | some r => r
  | none =>
    if a.len = b.len then EQUAL
    else if a.len > b.len then POS
    else NEG

/-- `calculateSquareVecNorm`: the loop over `i < len`.  The components are
`double`s, each the rational number it stands for; the product and the sum of
each pass are rounded to `double`. -/
def calculateSquareVecNorm (pVector : Vector ℚ) : ℚ :=
  (List.range pVector.len.toNat).foldl
    (fun sum i => toDouble (sum + toDouble (pVector.at i * pVector.at i))) 0

/-- `copyIfNormIsLarger`.  `pVector` is the possibly null pointer to the
visited vector; `pMaxVector` is the possibly null pointer to the accumulator;
the world is the accumulator object and the outcomes of the allocations to
come.  When `realloc` fails the accumulator is left with the new `len` and a
null array. -/
def copyIfNormIsLarger (pVector : Option (Vector ℚ)) (pMaxVector : Option Unit)
    (w : Vector ℚ × List Bool) : Int × (Vector ℚ × List Bool) :=
  match pVector, pMaxVector with
  | none, _ => (FAILURE, w)
  | _, none => (FAILURE, w)
  | some pVec, some _ =>
    if pVec.vector.isNone then (FAILURE, w)
    else if w.1.vector.isNone ∨ calculateSquareVecNorm pVec > calculateSquareVecNorm w.1 then
      if w.2.headD true then
        (SUCCESS, ({ len := pVec.len,
                     vector := some ((List.range pVec.len.toNat).map pVec.at) }, w.2.tail))
      else (FAILURE, ({ len := pVec.len, vector := none }, w.2.tail))
    else (SUCCESS, w)

/-- `findMaxNormVectorInTree`: the pointer returned, the global flag and the
allocation outcomes left. -/
def findMaxNormVectorInTree (tree : Option (RBTree (Vector ℚ) σ)) (gFuncSucceeded : Int)
    (allocs : List Bool) : Option (Vector ℚ) × Int × List Bool :=
  match tree with
  | none => (none, gFuncSucceeded, allocs)
  | some t =>
    if allocs.headD true then
      let maxVec : Vector ℚ := { len := 0, vector := none }
      let r := forEachRBTree (some t) (fun x a w => copyIfNormIsLarger (some x) a w) (some ())
        (gFuncSucceeded, (maxVec, allocs.tail))
      if r.1 = FAILURE then (none, r.2.1, r.2.2.2)
      else (some r.2.2.1, r.2.1, r.2.2.2)
    else (none, gFuncSucceeded, allocs.tail)

/-! ## Properties the claims are stated with -/

/-- The comparator contract: negative, zero, positive for less, equal,
greater, where "less" is a strict order and "equal" is compatible with it.
A comparator that is a strict total order on the data (zero exactly on equal
data) satisfies it. -/
structure StrictTotalOrderCmp (cmp : α → α → Int) : Prop where
  antisymm : ∀ a b, cmp a b < 0 ↔ 0 < cmp b a
  trans : ∀ a b c, cmp a b < 0 → cmp b c < 0 → cmp a c < 0
  eq_lt : ∀ a b c, cmp a b = 0 → cmp b c < 0 → cmp a c < 0
  lt_eq : ∀ a b c, cmp a b < 0 → cmp b c = 0 → cmp a c < 0

/-- The tree is a binary search tree: its in-order sequence is strictly
ascending under the comparator. -/
def BSTOrdered (cmp : α → α → Int) (t : Node α) : Prop :=
  (inorder t).Pairwise (fun a b => cmp a b < 0)

/-- The root, if present, is black. -/
def RootBlack (t : Node α) : Prop := t.colorOf = .BLACK

/-- No red node has a red child. -/
def NoRedRed : Node α → Prop
  | .NULL => True
  | .mk c l _ r => (c = .RED → l.colorOf = .BLACK ∧ r.colorOf = .BLACK) ∧ NoRedRed l ∧ NoRedRed r

/-- What a node adds to the number of black nodes of a path through it. -/
def blackInc : Color → Nat
  | .BLACK => 1
  | .RED => 0

/-- For every path from the node down to an absent child, the number of black
nodes on it. -/
def blackPaths : Node α → List Nat
  | .NULL => [0]
  | .mk c l _ r => (blackPaths l ++ blackPaths r).map (· + blackInc c)

/-- Every path from the node to an absent child passes through the same
number of black nodes. -/
def EqualBlackPaths (t : Node α) : Prop :=
  ∀ a ∈ blackPaths t, ∀ b ∈ blackPaths t, a = b

/-- The red-black colour invariants of a whole tree. -/
def RBInvariants (t : Node α) : Prop :=
  RootBlack t ∧ NoRedRed t ∧ EqualBlackPaths t

/-- Number of black nodes on the leftmost path. -/
def blackHeight : Node α → Nat
  | .NULL => 0
  | .mk c l _ _ => blackHeight l + blackInc c

/-- At every node the two children have the same black height. -/
def Balanced : Node α → Prop
  | .NULL => True
  | .mk _ l _ r => blackHeight l = blackHeight r ∧ Balanced l ∧ Balanced r

/-- The world after the visitor has been called on the elements of a list in
order, each time with `args`. -/
def worldAfter (func : α → β → ω → Int × ω) (args : β) (xs : List α) (w : ω) : ω :=
  xs.foldl (fun w x => (func x args w).2) w

/-- A visitor that behaves as `func` and also appends each call it receives,
element and context, to a log kept beside the world. -/
def recordCalls (func : α → β → ω → Int × ω) :
    α → β → ω × List (α × β) → Int × (ω × List (α × β)) :=
  fun x a s => ((func x a s.1).1, ((func x a s.1).2, s.2 ++ [(x, a)]))

/-- Calling the visitor on the elements of a list in order until it first
returns `FAILURE`; the state is as in `forEachHelper`. -/
def visitList (func : α → β → ω → Int × ω) (args : β) : List α → Int × ω → Int × ω
  | [], s => s
  | x :: xs, s =>
    if s.1 ≠ 0 then
      if (func x args s.2).1 = FAILURE then (NO, (func x args s.2).2)
      else visitList func args xs (s.1, (func x args s.2).2)
    else s

/-- The data before a location in the in-order sequence of the whole tree. -/
def ctxBefore : Ctx α → List α
  | [] => []
  | .ofLeft _ _ _ :: up => ctxBefore up
  | .ofRight _ l x :: up => ctxBefore up ++ (inorder l ++ [x])

/-- The data after a location in the in-order sequence of the whole tree. -/
def ctxAfter : Ctx α → List α
  | [] => []
  | .ofLeft _ x r :: up => (x :: inorder r) ++ ctxAfter up
  | .ofRight _ _ _ :: up => ctxAfter up

/-- Whether the nearest frame agrees with the comparison `basicInsert`
repeats after its walk. -/
def HeadAgrees (cmp : α → α → Int) (d : α) : Ctx α → Prop
  | [] => True
  | .ofRight _ _ x :: _ => cmp d x > 0
  | .ofLeft _ x _ :: _ => ¬ cmp d x > 0

instance (cmp : α → α → Int) (t : Node α) : Decidable (BSTOrdered cmp t) :=
  inferInstanceAs (Decidable ((inorder t).Pairwise (fun a b => cmp a b < 0)))

instance (t : Node α) : Decidable (RootBlack t) :=
  inferInstanceAs (Decidable (t.colorOf = .BLACK))

instance decNoRedRed : (t : Node α) → Decidable (NoRedRed t)
  | .NULL => isTrue trivial
  | .mk c l _ r =>
    have := decNoRedRed l
    have := decNoRedRed r
    inferInstanceAs
      (Decidable ((c = .RED → l.colorOf = .BLACK ∧ r.colorOf = .BLACK) ∧ NoRedRed l ∧ NoRedRed r))

instance decBalanced : (t : Node α) → Decidable (Balanced t)
  | .NULL => isTrue trivial
  | .mk _ l _ r =>
    have := decBalanced l
    have := decBalanced r
    inferInstanceAs (Decidable (blackHeight l = blackHeight r ∧ Balanced l ∧ Balanced r))

instance (t : Node α) : Decidable (EqualBlackPaths t) :=
  inferInstanceAs (Decidable (∀ a ∈ blackPaths t, ∀ b ∈ blackPaths t, a = b))

instance (t : Node α) : Decidable (RBInvariants t) :=
  inferInstanceAs (Decidable (RootBlack t ∧ NoRedRed t ∧ EqualBlackPaths t))

/-- Colour of the nearest ancestor; black when there is none. -/
def ctxColor : Ctx α → Color
  | [] => .BLACK
  | f :: _ => f.color

/-- The colour invariants of everything around a location whose subtree has
black height `n`: every ancestor's other child is balanced with the right
black height and free of red-red pairs, and a red ancestor has a black other
child and no red parent. -/
def CtxRB : Ctx α → Nat → Prop
  | [], _ => True
  | f :: up, n =>
    blackHeight f.sibling = n ∧ Balanced f.sibling ∧ NoRedRed f.sibling ∧
      (f.color = .RED → f.sibling.colorOf = .BLACK ∧ ctxColor up = .BLACK) ∧
      CtxRB up (n + blackInc f.color)

/-- The farthest ancestor, the root, is black. -/
def CtxRootBlack : Ctx α → Prop
  | [] => True
  | [f] => f.color = .BLACK
  | _ :: g :: up => CtxRootBlack (g :: up)

instance decCtxRB : (ctx : Ctx α) → (n : Nat) → Decidable (CtxRB ctx n)
  | [], _ => isTrue trivial
  | f :: up, n =>
    have := decCtxRB up (n + blackInc f.color)
    inferInstanceAs (Decidable (blackHeight f.sibling = n ∧ Balanced f.sibling ∧
      NoRedRed f.sibling ∧ (f.color = .RED → f.sibling.colorOf = .BLACK ∧ ctxColor up = .BLACK) ∧
      CtxRB up (n + blackInc f.color)))

instance decCtxRootBlack : (ctx : Ctx α) → Decidable (CtxRootBlack ctx)
  | [] => isTrue trivial
  | [f] => inferInstanceAs (Decidable (f.color = .BLACK))
  | _ :: g :: up => decCtxRootBlack (g :: up)

/-- What the deletion fixup achieves when called at a location whose context
satisfies the invariants for a subtree of black height `k + 1`: it returns
the location of the same node in a context that satisfies them for a subtree
of black height `k`, with the same data before and after. -/
def Delete3Ok (rec : Loc α → Option (Loc α)) (bound : Nat) : Prop :=
  ∀ (ctx : Ctx α) (n : Node α) (k : Nat), delete3Fuel ctx ≤ bound → CtxRB ctx (k + 1) →
    CtxRootBlack ctx →
    ∃ ctx', rec ⟨ctx, n⟩ = some ⟨ctx', n⟩ ∧ CtxRB ctx' k ∧ CtxRootBlack ctx' ∧
      ctxBefore ctx' = ctxBefore ctx ∧ ctxAfter ctx' = ctxAfter ctx ∧ (ctx' = [] ↔ ctx = [])

/-- The trees that calls of the interface can produce, starting from a new
tree with the given comparator and destructor. -/
inductive Reachable (compFunc : α → α → Int) (freeFunc : α → σ → σ) : RBTree α σ → Prop where
  | new (t : RBTree α σ) : newRBTree compFunc freeFunc = some t → Reachable compFunc freeFunc t
  | insert (t t' : RBTree α σ) (d : Option α) (r : Int) :
      Reachable compFunc freeFunc t → insertToRBTree (some t) d = some (r, some t') →
      Reachable compFunc freeFunc t'
  | delete (t t' : RBTree α σ) (d : α) (w w' : σ) (r : Int) :
      Reachable compFunc freeFunc t → deleteFromRBTree (some t) d w = some (r, some t', w') →
      Reachable compFunc freeFunc t'

/-- Strictly below in lexicographic order, a proper prefix being below the
longer list. -/
def lexLess {K : Type} [LT K] : List K → List K → Prop
  | [], [] => False
  | [], _ :: _ => True
  | _ :: _, [] => False
  | x :: xs, y :: ys => x < y ∨ (x = y ∧ lexLess xs ys)

/-- The bytes of a NUL-terminated string: none of them is the terminator, and
each is an `unsigned char`. -/
def IsCString (s : CString) : Prop := ∀ c ∈ s, 0 < c ∧ c < 256

instance IsCString.decidable (s : CString) : Decidable (IsCString s) :=
  inferInstanceAs (Decidable (∀ c ∈ s, 0 < c ∧ c < 256))

/-- What the C standard says of `strncmp(a, b, n)` on NUL-terminated strings:
it is negative, zero or positive as the first `n` bytes of `a` (or all of `a`,
if shorter) are below, equal to or above those of `b`. -/
def StrncmpSpec (strncmp : CString → CString → Nat → Int) : Prop :=
  ∀ a b n, IsCString a → IsCString b →
    (strncmp a b n < 0 ↔ lexLess (a.take n) (b.take n)) ∧
      (strncmp a b n = 0 ↔ a.take n = b.take n)

/-- A vector whose array is present and holds `len` components. -/
def Vector.WellFormed {K : Type} (v : Vector K) : Prop :=
  match v.vector with
  | some xs => (xs.length : Int) = v.len
  | none => False

instance Vector.WellFormed.decidable {K : Type} (v : Vector K) : Decidable v.WellFormed :=
  match v with
  | ⟨len, some xs⟩ => inferInstanceAs (Decidable ((xs.length : Int) = len))
  | ⟨_, none⟩ => inferInstanceAs (Decidable False)

/-- The data in the order of the destructor calls of a teardown: left
subtree, right subtree, node. -/
def postorder : Node α → List α
  | .NULL => []
  | .mk _ l x r => postorder l ++ (postorder r ++ [x])

/-- A destructor that behaves as `freeFunc` and also appends the element it
receives to a log kept beside the world. -/
def recordFree (freeFunc : α → σ → σ) : α → σ × List α → σ × List α :=
  fun x s => (freeFunc x s.1, s.2 ++ [x])

/-- The tree object with its destructor replaced by the recording one. -/
def RBTree.recording (t : RBTree α σ) : RBTree α (σ × List α) :=
  { root := t.root, compFunc := t.compFunc, freeFunc := recordFree t.freeFunc, size := t.size }

/-! ## The tree in memory

The same functions once more, on the nodes as the C code has them: cells of a
heap with `parent`, `left` and `right` pointers.  A pointer is an address or
`NULL` (`none`); a read or write through `NULL` or through an address without
a cell is undefined behaviour (`none`). -/

/-- A pointer to a node: an address, or `NULL`. -/
abbrev Ptr := Option Nat

/-- The struct `Node` at an address. -/
structure Cell (α : Type) where
  parent : Ptr
  left : Ptr
  right : Ptr
  color : Color
  data : α

/-- The nodes in memory and the field `tree->root`. -/
structure Mem (α : Type) where
  heap : Nat → Option (Cell α)
  root : Ptr

/-- The read `*p`. -/
def Mem.read (m : Mem α) (p : Ptr) : Option (Cell α) := p.bind m.heap

/-- The cell at address `a` replaced. -/
def Mem.write (m : Mem α) (a : Nat) (c : Cell α) : Mem α :=
  { m with heap := fun z => if z = a then some c else m.heap z }

/-- An assignment to a field of `*p`. -/
def Mem.modify (m : Mem α) (p : Ptr) (f : Cell α → Cell α) : Option (Mem α) :=
  match p with
  | none => none
  | some a => (m.heap a).map fun c => m.write a (f c)

/-- `whichChildNodeIs` on the heap. -/
def whichChildNodeIsH (m : Mem α) (node : Ptr) : Option Int := do
  let n ← m.read node
  if n.parent = none then pure NO_PARENT
  else do
    let p ← m.read n.parent
    if p.right = node then pure RIGHT_CHILD else pure LEFT_CHILD

/-- `leftRotation` on the heap.  `whichChildNodeIs(node)`, which the code
calls up to three times in a row, is read once. -/
def leftRotationH (m : Mem α) (node : Ptr) : Option (Mem α) := do
  let n ← m.read node
  let node2 := n.right
  let node3 := n.parent
  -- node->right = node2->left
  let n2 ← m.read node2
  let m ← m.modify node fun c => { c with right := n2.left }
  -- if (node2->left != NULL) node2->left->parent = node
  let n2 ← m.read node2
  let m ← if n2.left ≠ none then m.modify n2.left fun c => { c with parent := node } else pure m
  -- node2->parent = node3
  let m ← m.modify node2 fun c => { c with parent := node3 }
  let w ← whichChildNodeIsH m node
  let m ←
    if w = NO_PARENT then pure { m with root := node2 }
    else if w = RIGHT_CHILD ∧ node3 ≠ none then m.modify node3 fun c => { c with right := node2 }
    else if w = LEFT_CHILD ∧ node3 ≠ none then m.modify node3 fun c => { c with left := node2 }
    else pure m
  -- node2->left = node; node->parent = node2
  let m ← m.modify node2 fun c => { c with left := node }
  m.modify node fun c => { c with parent := node2 }

/-- `rightRotation` on the heap. -/
def rightRotationH (m : Mem α) (node : Ptr) : Option (Mem α) := do
  let n ← m.read node
  let node2 := n.left
  let node3 := n.parent
  -- node->left = node2->right
  let n2 ← m.read node2
  let m ← m.modify node fun c => { c with left := n2.right }
  -- if (node2->right != NULL) node2->right->parent = node
  let n2 ← m.read node2
  let m ← if n2.right ≠ none then m.modify n2.right fun c => { c with parent := node } else pure m
  -- node2->parent = node3
  let m ← m.modify node2 fun c => { c with parent := node3 }
  let w ← whichChildNodeIsH m node
  let m ←
    if w = NO_PARENT then pure { m with root := node2 }
    else if w = RIGHT_CHILD ∧ node3 ≠ none then m.modify node3 fun c => { c with right := node2 }
    else if w = LEFT_CHILD ∧ node3 ≠ none then m.modify node3 fun c => { c with left := node2 }
    else pure m
  -- node2->right = node; node->parent = node2
  let m ← m.modify node2 fun c => { c with right := node }
  m.modify node fun c => { c with parent := node2 }

/-! ### A tree laid out in memory -/

/-- The address of the node a labelled tree starts with; `NULL` for the
absent tree. -/
def ptr : Node Nat → Ptr
  | .NULL => none
  | .mk _ _ a _ => some a

/-- The cell at address `z` of a tree whose nodes are labelled with their
addresses, `par` being the pointer to the parent of its first node and `dat`
giving the data stored at each address. -/
def cellAt (dat : Nat → α) : Node Nat → Ptr → Nat → Option (Cell α)
  | .NULL, _, _ => none
  | .mk c l a r, par, z =>
    if z = a then some ⟨par, ptr l, ptr r, c, dat a⟩
    else (cellAt dat l (some a) z).or (cellAt dat r (some a) z)

/-- The memory that holds exactly the nodes of a labelled tree, linked as the
tree says. -/
def layout (dat : Nat → α) (t : Node Nat) : Mem α :=
  { heap := cellAt dat t none, root := ptr t }

/-- The pointer to the nearest ancestor. -/
def ctxParent : Ctx Nat → Ptr
  | [] => none
  | f :: _ => some f.data

/-- The cell at address `z` among the ancestors of a location and the
subtrees beside them, `p` being the pointer to the node at the location. -/
def ctxCell (dat : Nat → α) : Ctx Nat → Ptr → Nat → Option (Cell α)
  | [], _, _ => none
  | .ofLeft c a r :: up, p, z =>
    if z = a then some ⟨ctxParent up, p, ptr r, c, dat a⟩
    else (cellAt dat r (some a) z).or (ctxCell dat up (some a) z)
  | .ofRight c l a :: up, p, z =>
    if z = a then some ⟨ctxParent up, ptr l, p, c, dat a⟩
    else (cellAt dat l (some a) z).or (ctxCell dat up (some a) z)

/-- The address at the top of a context, or `p` when there is no ancestor:
the value of `tree->root`. -/
def ctxRoot : Ctx Nat → Ptr → Ptr
  | [], p => p
  | f :: up, _ => ctxRoot up (some f.data)

/-! ### Insertion and deletion in memory -/

/-- The tree object: `tree->root` with the nodes in memory, and `tree->size`.
`compFunc` and `freeFunc` are passed along. -/
structure TreeH (α : Type) where
  mem : Mem α
  size : Int

/-- The assignment `p->color = c`. -/
def Mem.setColor (m : Mem α) (p : Ptr) (c : Color) : Option (Mem α) :=
  m.modify p fun x => { x with color := c }

/-- The assignment `p->left = q`. -/
def Mem.setLeft (m : Mem α) (p q : Ptr) : Option (Mem α) :=
  m.modify p fun x => { x with left := q }

/-- The assignment `p->right = q`. -/
def Mem.setRight (m : Mem α) (p q : Ptr) : Option (Mem α) :=
  m.modify p fun x => { x with right := q }

/-- The assignment `p->parent = q`. -/
def Mem.setParent (m : Mem α) (p q : Ptr) : Option (Mem α) :=
  m.modify p fun x => { x with parent := q }

/-- The call `free(p)`; `none` for a pointer without a cell. -/
def Mem.free (m : Mem α) (p : Ptr) : Option (Mem α) :=
  match p with
  | none => none
  | some a =>
    (m.heap a).map fun _ => { m with heap := fun z => if z = a then none else m.heap z }

/-- `newRBTree` in memory: no node, `root` is `NULL`, `size` is 0. -/
def newRBTreeH : TreeH α :=
  { mem := { heap := fun _ => none, root := none }, size := EMPTY_TREE }

/-- The loop of `basicInsert` on the heap, at most `fuel` tests of the loop
condition: the final value of `parent`, the inner `none` when an equal
element is met (the function returns `NULL`). -/
def basicInsertWalkH (m : Mem α) (data : α) (compFunc : α → α → Int) :
    Nat → Ptr → Ptr → Option (Option Ptr)
  | 0, _, _ => none
  | fuel + 1, node, parent =>
    match node with
    | none => some (some parent)
    | some a =>
      match m.heap a with
      | none => none
      | some n =>
        if compFunc data n.data > 0 then basicInsertWalkH m data compFunc fuel n.right (some a)
        else if compFunc data n.data < 0 then
          basicInsertWalkH m data compFunc fuel n.left (some a)
        else some none

/-- `basicInsert` on the heap: the pointer returned and the memory
afterwards.  `addr` is the address `malloc` returns in `createNewNode`. -/
def basicInsertH (fuel : Nat) (m : Mem α) (root : Ptr) (data : α) (compFunc : α → α → Int)
    (addr : Nat) : Option (Ptr × Mem α) := do
  let w ← basicInsertWalkH m data compFunc fuel root none
  match w with
  | none => pure (none, m)
  | some parent =>
    -- createNewNode(data)
    let m := m.write addr ⟨none, none, none, .RED, data⟩
    match parent with
    | none => pure (some addr, m)
    | some p => do
      let pc ← m.heap p
      let m ←
        if compFunc data pc.data > 0 then m.setRight (some p) (some addr)
        else m.setLeft (some p) (some addr)
      let m ← m.setParent (some addr) (some p)
      pure (some addr, m)

/-- `redUncleAfterInsertion` on the heap: the memory and `*currentNode`
afterwards. -/
def redUncleAfterInsertionH (m : Mem α) (currentNode uncle : Ptr) : Option (Mem α × Ptr) := do
  let m ← m.setColor uncle .BLACK
  let n ← m.read currentNode
  let m ← m.setColor n.parent .BLACK
  let n ← m.read currentNode
  let p ← m.read n.parent
  let m ← m.setColor p.parent .RED
  let n ← m.read currentNode
  let p ← m.read n.parent
  pure (m, p.parent)

/-- The branch of `blackUncleAfterInsertion` for `RIGHT_UNCLE`. -/
def blackUncleRightH (m : Mem α) (currentNode : Ptr) : Option (Mem α × Ptr) := do
  let w ← whichChildNodeIsH m currentNode
  let mc ←
    if w = RIGHT_CHILD then do
      let n ← m.read currentNode
      let m ← leftRotationH m n.parent
      let n ← m.read currentNode
      pure (m, n.left)
    else pure (m, currentNode)
  let n ← mc.1.read mc.2
  let m ← mc.1.setColor n.parent .BLACK
  let n ← m.read mc.2
  let p ← m.read n.parent
  let m ← m.setColor p.parent .RED
  let n ← m.read mc.2
  let p ← m.read n.parent
  let m ← rightRotationH m p.parent
  pure (m, mc.2)

/-- The branch of `blackUncleAfterInsertion` for `LEFT_UNCLE`. -/
def blackUncleLeftH (m : Mem α) (currentNode : Ptr) : Option (Mem α × Ptr) := do
  let w ← whichChildNodeIsH m currentNode
  let mc ←
    if w = LEFT_CHILD then do
      let n ← m.read currentNode
      let m ← rightRotationH m n.parent
      let n ← m.read currentNode
      pure (m, n.right)
    else pure (m, currentNode)
  let n ← mc.1.read mc.2
  let m ← mc.1.setColor n.parent .BLACK
  let n ← m.read mc.2
  let p ← m.read n.parent
  let m ← m.setColor p.parent .RED
  let n ← m.read mc.2
  let p ← m.read n.parent
  let m ← leftRotationH m p.parent
  pure (m, mc.2)

/-- `blackUncleAfterInsertion` on the heap: the memory and `*currentNode`
afterwards. -/
def blackUncleAfterInsertionH (m : Mem α) (currentNode : Ptr) (whichUncle : Int) :
    Option (Mem α × Ptr) := do
  let mc ← if whichUncle = RIGHT_UNCLE then blackUncleRightH m currentNode
    else pure (m, currentNode)
  if whichUncle = LEFT_UNCLE then blackUncleLeftH mc.1 mc.2 else pure mc

/-- The test `p != NULL && p->color == RED`. -/
def isRedH (m : Mem α) (p : Ptr) : Option Bool :=
  match p with
  | none => some false
  | some a => (m.heap a).map fun c => decide (c.color = .RED)

/-- The `while` loop of `fixTreeAfterInsertion` on the heap, at most `fuel`
tests of the loop condition. -/
def fixTreeLoopH : Nat → Mem α → Ptr → Option (Mem α × Ptr)
  | 0, _, _ => none
  | fuel + 1, m, currentNode =>
    if currentNode = m.root then some (m, currentNode)
    else
      match (m.read currentNode).bind fun n => (m.read n.parent).map fun p => (n, p) with
      | none => none
      | some (n, p) =>
        if p.color = .RED then
          match whichChildNodeIsH m n.parent, m.read p.parent with
          | some w, some g =>
            let uncle := if w = LEFT_CHILD then g.right else g.left
            let whichUncle := if w = LEFT_CHILD then RIGHT_UNCLE else LEFT_UNCLE
            match isRedH m uncle with
            | none => none
            | some true =>
              (redUncleAfterInsertionH m currentNode uncle).bind
                fun mc => fixTreeLoopH fuel mc.1 mc.2
            | some false =>
              (blackUncleAfterInsertionH m currentNode whichUncle).bind
                fun mc => fixTreeLoopH fuel mc.1 mc.2
          | _, _ => none
        else some (m, currentNode)

/-- `fixTreeAfterInsertion` on the heap. -/
def fixTreeAfterInsertionH (fuel : Nat) (m : Mem α) (node : Ptr) : Option (Mem α) := do
  let mc ← fixTreeLoopH fuel m node
  mc.1.setColor mc.1.root .BLACK

/-- `insertToRBTree` on the heap, for a tree pointer that is not `NULL`:
the returned value and the tree afterwards.  `addr` is the address `malloc`
returns if a node is created. -/
def insertToRBTreeH (fuel : Nat) (compFunc : α → α → Int) (t : TreeH α) (data : Option α)
    (addr : Nat) : Option (Int × TreeH α) :=
  match data with
  | none => some (FAILURE, t)
  | some d =>
    match basicInsertH fuel t.mem t.mem.root d compFunc addr with
    | none => none
    | some (none, _) => some (FAILURE, t)
    | some (some a, m) =>
      match m.heap a with
      | none => none
      | some n =>
        if n.parent = none then
          -- tree->root = newNode; tree->root->color = BLACK
          ({ m with root := some a } : Mem α).setColor (some a) .BLACK |>.map
            fun m => (SUCCESS, ⟨m, t.size + 1⟩)
        else
          match m.read n.parent with
          | none => none
          | some p =>
            if p.color = .RED then
              (fixTreeAfterInsertionH fuel m (some a)).map fun m => (SUCCESS, ⟨m, t.size + 1⟩)
            else some (SUCCESS, ⟨m, t.size + 1⟩)

/-- `findNodeInTree` on the heap, at most `fuel` nested calls. -/
def findNodeInTreeH (m : Mem α) (compFunc : α → α → Int) (data : α) : Nat → Ptr → Option Ptr
  | 0, _ => none
  | fuel + 1, node =>
    match node with
    | none => some none
    | some a =>
      match m.heap a with
      | none => none
      | some n =>
        if compFunc data n.data = EQUAL then some (some a)
        else if compFunc data n.data > 0 then findNodeInTreeH m compFunc data fuel n.right
        else findNodeInTreeH m compFunc data fuel n.left

/-- The loop of `getSuccFromRightChild` on the heap. -/
def getSuccLoopH (m : Mem α) : Nat → Ptr → Option Ptr
  | 0, _ => none
  | fuel + 1, successor =>
    match m.read successor with
    | none => none
    | some s => if s.left ≠ none then getSuccLoopH m fuel s.left else some successor

/-- `getSuccFromRightChild` on the heap. -/
def getSuccFromRightChildH (fuel : Nat) (m : Mem α) (node : Ptr) : Option Ptr :=
  (m.read node).bind fun n => getSuccLoopH m fuel n.right

/-- `swapData` on the heap. -/
def swapDataH (m : Mem α) (node1 node2 : Ptr) : Option (Mem α) := do
  let n1 ← m.read node1
  let temp := n1.data
  let n2 ← m.read node2
  let m ← m.modify node1 fun x => { x with data := n2.data }
  m.modify node2 fun x => { x with data := temp }

/-- `getSibling` on the heap: the sibling and the value stored in
`*whichChild`. -/
def getSiblingH (m : Mem α) (node : Ptr) : Option (Ptr × Int) := do
  let w ← whichChildNodeIsH m node
  let n ← m.read node
  let p ← m.read n.parent
  if w = LEFT_CHILD then pure (p.right, LEFT_CHILD) else pure (p.left, RIGHT_CHILD)

/-- `delete6` on the heap; `delete3` is the function declared ahead. -/
def delete6H (delete3 : Mem α → Ptr → Option (Mem α)) (m : Mem α) (sibling node : Ptr) :
    Option (Mem α) := do
  let n ← m.read node
  let p ← m.read n.parent
  if p.color = .RED then do
    let m ← m.setColor n.parent .BLACK
    m.setColor sibling .RED
  else do
    let m ← m.setColor sibling .RED
    let n ← m.read node
    delete3 m n.parent

/-- `delete5` on the heap. -/
def delete5H (delete3 : Mem α → Ptr → Option (Mem α)) (m : Mem α) (sibling node : Ptr)
    (whichChild : Int) : Option (Mem α) := do
  let m ← m.setColor sibling .BLACK
  let n ← m.read node
  let m ← m.setColor n.parent .RED
  let n ← m.read node
  let m ← if whichChild = LEFT_CHILD then leftRotationH m n.parent else rightRotationH m n.parent
  delete3 m node

/-- The test `p == NULL || p->color == BLACK`. -/
def isBlackH (m : Mem α) (p : Ptr) : Option Bool :=
  match p with
  | none => some true
  | some a => (m.heap a).map fun c => decide (c.color = .BLACK)

/-- The first `if` chain of `delete4` (cases 3B and 3D): the memory and the
variable `sibling` afterwards.  The colour tests of the three conditions are
read beforehand; the code reads a subset of them. -/
def delete4FirstH (delete3 : Mem α → Ptr → Option (Mem α)) (m : Mem α) (sibling node : Ptr)
    (whichChild : Int) : Option (Mem α × Ptr) := do
  let s ← m.read sibling
  let lb ← isBlackH m s.left
  let rb ← isBlackH m s.right
  let lr ← isRedH m s.left
  let rr ← isRedH m s.right
  if lb = true ∧ rb = true then do
    let m ← delete6H delete3 m sibling node
    pure (m, sibling)
  else if whichChild = LEFT_CHILD ∧ rb = true ∧ lr = true then do
    let m ← m.setColor s.left .BLACK
    let m ← m.setColor sibling .RED
    let m ← rightRotationH m sibling
    let s ← m.read sibling
    pure (m, s.parent)
  else if whichChild = RIGHT_CHILD ∧ lb = true ∧ rr = true then do
    let m ← m.setColor s.right .BLACK
    let m ← m.setColor sibling .RED
    let m ← leftRotationH m sibling
    let s ← m.read sibling
    pure (m, s.parent)
  else pure (m, sibling)

/-- The second `if` chain of `delete4` (case 3E). -/
def delete4SecondH (m : Mem α) (sibling node : Ptr) (whichChild : Int) : Option (Mem α) := do
  let s ← m.read sibling
  let rr ← isRedH m s.right
  let lr ← isRedH m s.left
  if whichChild = LEFT_CHILD ∧ rr = true then do
    let n ← m.read node
    let p ← m.read n.parent
    let m ← m.setColor sibling p.color
    let n ← m.read node
    let m ← m.setColor n.parent .BLACK
    let s ← m.read sibling
    let m ← m.setColor s.right .BLACK
    let n ← m.read node
    leftRotationH m n.parent
  else if whichChild = RIGHT_CHILD ∧ lr = true then do
    let n ← m.read node
    let p ← m.read n.parent
    let m ← m.setColor sibling p.color
    let n ← m.read node
    let m ← m.setColor n.parent .BLACK
    let s ← m.read sibling
    let m ← m.setColor s.left .BLACK
    let n ← m.read node
    rightRotationH m n.parent
  else pure m

/-- `delete4` on the heap. -/
def delete4H (delete3 : Mem α → Ptr → Option (Mem α)) (m : Mem α) (sibling node : Ptr)
    (whichChild : Int) : Option (Mem α) :=
  (delete4FirstH delete3 m sibling node whichChild).bind
    fun ms => delete4SecondH ms.1 ms.2 node whichChild

/-- `delete3` on the heap, at most `fuel` nested calls. -/
def delete3H : Nat → Mem α → Ptr → Option (Mem α)
  | 0, _, _ => none
  | fuel + 1, m, node =>
    match m.read node with
    | none => none
    | some n =>
      if n.parent = none then some m
      else
        match getSiblingH m node with
        | none => none
        | some (sibling, whichChild) =>
          match m.read sibling with
          | none => none
          | some s =>
            if s.color = .BLACK then delete4H (delete3H fuel) m sibling node whichChild
            else delete5H (delete3H fuel) m sibling node whichChild

/-- `changeNode` on the heap. -/
def changeNodeH (m : Mem α) (node child : Ptr) : Option (Mem α) := do
  let n ← m.read node
  let m ← m.setParent child n.parent
  let w ← whichChildNodeIsH m node
  let n ← m.read node
  if w = LEFT_CHILD then m.setLeft n.parent child
  else if w = RIGHT_CHILD then m.setRight n.parent child
  else pure { m with root := child }

/-- The last statements of `delete2`: the parent of `node` no longer points
to it. -/
def unlinkH (m : Mem α) (node : Ptr) : Option (Mem α) := do
  let whichChild ← whichChildNodeIsH m node
  let n ← m.read node
  if whichChild = RIGHT_CHILD then m.setRight n.parent none
  else if whichChild = LEFT_CHILD then m.setLeft n.parent none
  else pure m

/-- `delete2` on the heap. -/
def delete2H (fuel : Nat) (m : Mem α) (node : Ptr) : Option (Mem α) := do
  let n ← m.read node
  if n.color = .BLACK then
    let child := if n.right = none then n.left else n.right
    if child = none then do
      let m ← delete3H fuel m node
      unlinkH m node
    else do
      let m ← changeNodeH m node child
      m.setColor child .BLACK
  else unlinkH m node

/-- The calls `tree->freeFunc(node->data)` and `free(node)`: the data handed
to the destructor and the memory afterwards. -/
def freeNodeH (m : Mem α) (node : Ptr) : Option (α × Mem α) := do
  let n ← m.read node
  let m ← m.free node
  pure (n.data, m)

/-- `deleteFromRBTree` on the heap, for a tree pointer that is not `NULL`:
the returned value, the tree and the world of the destructor afterwards. -/
def deleteFromRBTreeH (fuel : Nat) (compFunc : α → α → Int) (freeFunc : α → σ → σ)
    (t : TreeH α) (data : α) (w : σ) : Option (Int × TreeH α × σ) :=
  match findNodeInTreeH t.mem compFunc data fuel t.mem.root with
  | none => none
  | some none => some (FAILURE, t, w)
  | some (some a) =>
    if t.size = ONLY_NODE then do
      let dm ← freeNodeH t.mem t.mem.root
      pure (SUCCESS, ⟨{ dm.2 with root := none }, t.size - 1⟩, freeFunc dm.1 w)
    else do
      let n ← t.mem.heap a
      let mn ←
        if n.left ≠ none ∧ n.right ≠ none then do
          let successor ← getSuccFromRightChildH fuel t.mem (some a)
          let m ← swapDataH t.mem (some a) successor
          pure (m, successor)
        else pure (t.mem, some a)
      let m ← delete2H fuel mn.1 mn.2
      let dm ← freeNodeH m mn.2
      pure (SUCCESS, ⟨dm.2, t.size - 1⟩, freeFunc dm.1 w)

/-! ### Consistency of the links -/

/-- The pointer reached from `p` along a path of child links, `false` for
`left` and `true` for `right`; `NULL` when the path leaves the nodes. -/
def follow (m : Mem α) : Ptr → List Bool → Ptr
  | p, [] => p
  | p, b :: path =>
    match m.read p with
    | none => none
    | some c => follow m (if b then c.right else c.left) path

/-- The in-order sequence of the nodes below the pointer `p` in memory, read
along the `left` and `right` pointers: the address, the colour and the data of
each node.  `fuel` bounds the depth; `none` when it is used up and for a
pointer to an address without a node. -/
def inorderH : Nat → Mem α → Ptr → Option (List (Nat × Color × α))
  | _, _, none => some []
  | 0, _, some _ => none
  | fuel + 1, m, some a =>
    match m.heap a with
    | none => none
    | some c =>
      (inorderH fuel m c.left).bind fun l =>
      (inorderH fuel m c.right).bind fun r =>
      some (l ++ (a, c.color, c.data) :: r)

/-- Parent and child links agree: the root has no parent; a node that is the
left or right child of a node has that node as its parent; every node in
memory is reached from the root along exactly one path. -/
structure LinksConsistent (m : Mem α) : Prop where
  root_parent : ∀ c, m.read m.root = some c → c.parent = none
  child_parent : ∀ a n ch, m.heap a = some n → (n.left = some ch ∨ n.right = some ch) →
    ∃ c, m.heap ch = some c ∧ c.parent = some a
  unique_path : ∀ a n, m.heap a = some n → ∃! path, follow m m.root path = some a

/-- The trees in memory that calls of the interface can produce from a new
tree.  A call returns a result when the function with enough fuel does;
`addr` is an address that `malloc` may return, one without a node. -/
inductive HReachable (compFunc : α → α → Int) (freeFunc : α → σ → σ) : TreeH α → Prop where
  | new : HReachable compFunc freeFunc newRBTreeH
  | insert (t t' : TreeH α) (data : Option α) (addr : Nat) (r : Int) (bound : Nat) :
      HReachable compFunc freeFunc t → t.mem.heap addr = none →
      (∀ fuel, bound ≤ fuel → insertToRBTreeH fuel compFunc t data addr = some (r, t')) →
      HReachable compFunc freeFunc t'
  | delete (t t' : TreeH α) (data : α) (w w' : σ) (r : Int) (bound : Nat) :
      HReachable compFunc freeFunc t →
      (∀ fuel, bound ≤ fuel →
        deleteFromRBTreeH fuel compFunc freeFunc t data w = some (r, t', w')) →
      HReachable compFunc freeFunc t'

/-- The pointer reached in a labelled tree along a path of child links. -/
def followT : Node Nat → List Bool → Ptr
  | t, [] => ptr t
  | .NULL, _ :: _ => none
  | .mk _ l _ r, b :: path => followT (if b then r else l) path

/-! ## Example data -/

/-- The usual order on the integers as a comparator. -/
def intCmp (a b : Int) : Int := a - b

/-- A destructor that appends the destroyed element to a log. -/
def logFree (x : Int) (w : List Int) : List Int := w ++ [x]

/-- The tree built by inserting 5, 3, 8, 1, 4, 7, 9. -/
def exampleRoot : Node Int :=
  .mk .BLACK
    (.mk .BLACK (.mk .RED .NULL 1 .NULL) 3 (.mk .RED .NULL 4 .NULL))
    5
    (.mk .BLACK (.mk .RED .NULL 7 .NULL) 8 (.mk .RED .NULL 9 .NULL))

/-- The tree object around `exampleRoot`. -/
def exampleTree : RBTree Int (List Int) :=
  { root := exampleRoot, compFunc := intCmp, freeFunc := logFree, size := 7 }

/-- A visitor that adds the element to the world and fails on elements
greater than its context. -/
def sumUpTo (x : Int) (bound : Int) (w : Int) : Int × Int :=
  (if x ≤ bound then SUCCESS else FAILURE, w + x)

/-- The new tree over the integers. -/
def emptyTree : RBTree Int (List Int) :=
  { root := .NULL, compFunc := intCmp, freeFunc := logFree, size := 0 }

/-- The tree after inserting 5 into the new tree. -/
def oneTree : RBTree Int (List Int) :=
  { root := .mk .BLACK .NULL 5 .NULL, compFunc := intCmp, freeFunc := logFree, size := 1 }

/-- One implementation of `strncmp`: the difference of the first bytes that
differ among the first `n`, the terminator counting as 0. -/
def strncmpRef : CString → CString → Nat → Int
  | _, _, 0 => 0
  | [], [], _ + 1 => 0
  | [], y :: _, _ + 1 => 0 - (y : Int)
  | x :: _, [], _ + 1 => (x : Int)
  | x :: xs, y :: ys, n + 1 => if x = y then strncmpRef xs ys n else (x : Int) - (y : Int)

/-- The tree holding the vectors (1,2), (3,0), (0,0), inserted in that order. -/
def vecTree : RBTree (Vector ℚ) (List (Vector ℚ)) :=
  { root := .mk .BLACK (.mk .RED .NULL ⟨2, some [0, 0]⟩ .NULL) ⟨2, some [1, 2]⟩
      (.mk .RED .NULL ⟨2, some [3, 0]⟩ .NULL),
    compFunc := vectorCompare1By1, freeFunc := fun x w => w ++ [x], size := 3 }

/-- The new tree of vectors. -/
def emptyVecTree : RBTree (Vector ℚ) (List (Vector ℚ)) :=
  { root := .NULL, compFunc := vectorCompare1By1, freeFunc := fun x w => w ++ [x], size := 0 }

/-- The tree holding the vectors (134217728, 16384) and (134217729), inserted
in that order: the squared norms are `2 ^ 54 + 2 ^ 28` and
`2 ^ 54 + 2 ^ 28 + 1`, and the nearest `double` to both is the first. -/
def roundTree : RBTree (Vector ℚ) (List (Vector ℚ)) :=
  { root := .mk .BLACK .NULL ⟨2, some [134217728, 16384]⟩
      (.mk .RED .NULL ⟨1, some [134217729]⟩ .NULL),
    compFunc := vectorCompare1By1, freeFunc := fun x w => w ++ [x], size := 2 }

/-- A tree of five nodes labelled with their addresses: the root 5 has the
children 3 and 8, and 8 has the children 7 and 9. -/
def addressTree : Node Nat :=
  .mk .BLACK (.mk .BLACK .NULL 3 .NULL) 5
    (.mk .RED (.mk .BLACK .NULL 7 .NULL) 8 (.mk .BLACK .NULL 9 .NULL))

/-- The calls of `insertToRBTree` for a list of data, one after the other:
the values returned and the tree at the end. -/
def insertAll : RBTree α σ → List α → Option (List Int × RBTree α σ)
  | t, [] => some ([], t)
  | t, d :: ds =>
    match insertToRBTree (some t) (some d) with
    | some (r, some t') => (insertAll t' ds).map fun p => (r :: p.1, p.2)
    | _ => none

/-- The calls of `deleteFromRBTree` for a list of data, one after the other:
the values returned, the tree and the world at the end. -/
def deleteAll : RBTree α σ → List α → σ → Option (List Int × RBTree α σ × σ)
  | t, [], w => some ([], t, w)
  | t, d :: ds, w =>
    match deleteFromRBTree (some t) d w with
    | some (r, some t', w') => (deleteAll t' ds w').map fun p => (r :: p.1, p.2)
    | _ => none


/-- The memory of a tree that holds the single element 5 at address 0. -/
def oneTreeH : TreeH Int :=
  { mem := { heap := fun z => if z = 0 then some ⟨none, none, none, .BLACK, 5⟩ else none,
             root := some 0 },
    size := 1 }

end RBT

namespace Railway

/-! ## `RailWayPlanner.c` -/

abbrev NUM_OF_ALL_CHARS : Int := 256
abbrev NOT_USED : Int := -1
abbrev SUCCESSFUL : Int := 1
abbrev UNSUCCESSFUL : Int := 0
abbrev INT_MAX : Int := 2147483647
/-- The character `,`. -/
abbrev DELIMITER : Int := 44

/-- The contents of `int indexOfConnectionArray[NUM_OF_ALL_CHARS]`, cell by
cell; only the cells `0 .. 255` belong to the array. -/
abbrev IndexArray := Nat → Int

/-- The read `indexOfConnectionArray[i]`; `none` outside the array. -/
def IndexArray.read (a : IndexArray) (i : Int) : Option Int :=
  if 0 ≤ i ∧ i < NUM_OF_ALL_CHARS then some (a i.toNat) else none

/-- The assignment `indexOfConnectionArray[i] = v`; `none` outside the array. -/
def IndexArray.write (a : IndexArray) (i : Int) (v : Int) : Option IndexArray :=
  if 0 ≤ i ∧ i < NUM_OF_ALL_CHARS then some (fun j => if j = i.toNat then v else a j) else none

/-- `initializeArrayOfChars`: every cell holds `NOT_USED`. -/
def initializeArrayOfChars : IndexArray := fun _ => NOT_USED

/-- The `for` loop of `lineOfConnProcessAndValidate` from `i` on, at most
`fuel` tests of its condition.  The result is `false` when the loop returned
`UNSUCCESSFUL`, with the counter and the array at that point.  The string is
the list of its characters, each as the `int` the code converts it to; a read
past its end is `none`. -/
def lineOfConnLoop (connectionsStr : List Int) (lenOfConnections : Int) :
    Nat → Nat → Int → IndexArray → Option (Bool × Int × IndexArray)
  | 0, _, _, _ => none
  | fuel + 1, i, connectionsCounter, arr =>
    if (i : Int) < lenOfConnections - 1 then
      match connectionsStr[i + 1]? with
      | none => none
      | some d =>
        if d ≠ DELIMITER then some (false, connectionsCounter, arr)
        else
          match connectionsStr[i]? with
          | none => none
          | some c =>
            match arr.read c with
            | none => none
            | some v =>
              if v = NOT_USED then
                (arr.write c connectionsCounter).bind fun arr1 =>
                  lineOfConnLoop connectionsStr lenOfConnections fuel (i + 2)
                    (connectionsCounter + 1) arr1
              else
                lineOfConnLoop connectionsStr lenOfConnections fuel (i + 2) connectionsCounter
                  arr
    else some (true, connectionsCounter, arr)

/-- `lineOfConnProcessAndValidate`: the returned value and the array
afterwards; `none` when a read or a write falls outside the string or the
array.  The loop advances by two, so `lenOfConnections` tests are enough. -/
def lineOfConnProcessAndValidate (connectionsStr : List Int) (lenOfConnections : Int)
    (indexOfConnectionArray : IndexArray) : Option (Int × IndexArray) :=
  match lineOfConnLoop connectionsStr lenOfConnections (lenOfConnections.toNat + 1) 0 0
      indexOfConnectionArray with
  | none => none
  | some (false, _, arr) => some (UNSUCCESSFUL, arr)
  | some (true, connectionsCounter, arr) =>
    if 0 ≤ lenOfConnections - 1 then
      match connectionsStr[(lenOfConnections - 1).toNat]? with
      | none => none
      | some c => (arr.write c connectionsCounter).map fun arr1 => (SUCCESSFUL, arr1)
    else none

end Railway

namespace Railway

/-- The `int ** table` of `calculateMinPrice`: `rows` pointers to rows of
`cols` cells; a cell is `none` until it is assigned. -/
structure Table where
  rows : Nat
  cols : Nat
  cell : Nat → Nat → Option Int

/-- The read `table[row][col]`; `none` outside the table and at a cell not
assigned yet. -/
def Table.read (t : Table) (row col : Int) : Option Int :=
  if 0 ≤ row ∧ row < t.rows ∧ 0 ≤ col ∧ col < t.cols then t.cell row.toNat col.toNat else none

/-- The assignment `table[row][col] = v`; `none` outside the table. -/
def Table.write (t : Table) (row col : Int) (v : Int) : Option Table :=
  if 0 ≤ row ∧ row < t.rows ∧ 0 ≤ col ∧ col < t.cols then
    some { t with cell := fun r c => if r = row.toNat ∧ c = col.toNat then some v else t.cell r c }
  else none

end Railway

namespace Railway

/-- The value `v` stands for the least member of `S`, `INT_MAX` standing for
an empty `S`. -/
def IsMin (S : Int → Prop) (v : Int) : Prop :=
  (v = INT_MAX ∧ ∀ x, ¬ S x) ∨ (v < INT_MAX ∧ S v ∧ ∀ x, S x → v ≤ x)

/-- What holds of the index array while `lineOfConnProcessAndValidate` fills
it, `n` being the counter: a cell of the array is `NOT_USED` or holds an index
below the counter, and no index is in two cells. -/
structure Numbered (arr : IndexArray) (n : Int) : Prop where
  counter : 0 ≤ n
  below : ∀ j, arr j = NOT_USED ∨ (0 ≤ arr j ∧ arr j < n)
  distinct : ∀ i j, arr i = arr j → arr i ≠ NOT_USED → i = j

end Railway

namespace Students

/-! ## `manageStudents.c` -/

abbrev MAX_NUM_STUDENTS : Nat := 5500
abbrev HALF_SIZE_OF_ARR : Nat := 2750
abbrev FIRST : Int := 1
abbrev SECOND : Int := 2

/-- `struct Student`.  A `char` array field is the list of the characters
before its terminating NUL, each as the value the `char` has. -/
structure Student where
  id : List Int
  name : List Int
  grade : Int
  age : Int
  country : List Int
  city : List Int
deriving DecidableEq, Repr

/-- The read `studentsArray[i]`; `none` outside the array. -/
def readAt (studentsArray : List Student) (i : Int) : Option Student :=
  if 0 ≤ i then studentsArray[i.toNat]? else none

/-- The assignment `studentsArray[i] = s`; `none` outside the array. -/
def writeAt (studentsArray : List Student) (i : Int) (s : Student) : Option (List Student) :=
  if 0 ≤ i ∧ i < studentsArray.length then some (studentsArray.set i.toNat s) else none

/-! ### `findBestStudent` -/

/-- The `for` loop of `findBestStudent` from `j` on, at most `fuel` tests of
its condition.  The two `long` fields convert to `double` without rounding;
the quotient is rounded.  A division by an age of 0 is not modelled: `none`. -/
def findBestLoop (studentsArray : List Student) (numOfStudents : Int) :
    Nat → Nat → Int → ℚ → Option Int
  | 0, _, _, _ => none
  | fuel + 1, j, bestStudentIndex, bestValue =>
    if (j : Int) < numOfStudents then
      match readAt studentsArray j with
      | none => none
      | some s =>
        if s.age = 0 then none
        else
          let currValue := toDouble ((s.grade : ℚ) / (s.age : ℚ))
          if currValue > bestValue then
            findBestLoop studentsArray numOfStudents fuel (j + 1) j currValue
          else findBestLoop studentsArray numOfStudents fuel (j + 1) bestStudentIndex bestValue
    else some bestStudentIndex

/-- `findBestStudent`. -/
def findBestStudent (studentsArray : List Student) (numOfStudents : Int) : Option Int :=
  findBestLoop studentsArray numOfStudents (numOfStudents.toNat + 1) 0 0 0

/-- The value grade/age of a student, as a rational number. -/
def Student.ratio (s : Student) : ℚ := (s.grade : ℚ) / (s.age : ℚ)

/-- A grade in 0..100 and an age in 18..120. -/
def Student.InRange (s : Student) : Prop :=
  0 ≤ s.grade ∧ s.grade ≤ 100 ∧ 18 ≤ s.age ∧ s.age ≤ 120

instance (s : Student) : Decidable s.InRange :=
  inferInstanceAs (Decidable (0 ≤ s.grade ∧ s.grade ≤ 100 ∧ 18 ≤ s.age ∧ s.age ≤ 120))

/-! ### `mergeSort` -/

/-- The loops of `merge` that copy `n` students, from `studentsArray[base]`
on, into a temporary array of `HALF_SIZE_OF_ARR` cells: `temp` holds the cells
filled so far, `i` is the index, and at most `fuel` tests of the loop condition
are made.  `none` for an assignment past the last cell of the temporary array
and for a read outside `studentsArray`. -/
def copyLoop (studentsArray : List Student) (base n : Int) :
    Nat → Nat → List Student → Option (List Student)
  | 0, _, _ => none
  | fuel + 1, i, temp =>
    if (i : Int) < n then
      if i < HALF_SIZE_OF_ARR then
        match readAt studentsArray (base + i) with
        | none => none
        | some s => copyLoop studentsArray base n fuel (i + 1) (temp ++ [s])
      else none
    else some temp

/-- The first `while` loop of `merge`; the result is the array with the
values of `i`, `j` and `k` at the end of the loop. -/
def mergeLoop (L R : List Student) (n1 n2 : Int) :
    Nat → List Student → Nat → Nat → Int → Option (List Student × Nat × Nat × Int)
  | 0, _, _, _, _ => none
  | fuel + 1, studentsArray, i, j, k =>
    if (i : Int) < n1 ∧ (j : Int) < n2 then
      match L[i]?, R[j]? with
      | some l, some r =>
        if l.grade ≤ r.grade then
          (writeAt studentsArray k l).bind fun arr => mergeLoop L R n1 n2 fuel arr (i + 1) j (k + 1)
        else
          (writeAt studentsArray k r).bind fun arr => mergeLoop L R n1 n2 fuel arr i (j + 1) (k + 1)
      | _, _ => none
    else some (studentsArray, i, j, k)

/-- The second and the third `while` loop of `merge`: the remaining elements
of the temporary array `temp` (which holds `n` students) are copied back. -/
def copyBackLoop (temp : List Student) (n : Int) :
    Nat → List Student → Nat → Int → Option (List Student × Int)
  | 0, _, _, _ => none
  | fuel + 1, studentsArray, i, k =>
    if (i : Int) < n then
      match temp[i]? with
      | some t =>
        (writeAt studentsArray k t).bind fun arr => copyBackLoop temp n fuel arr (i + 1) (k + 1)
      | none => none
    else some (studentsArray, k)

/-- `merge`: the array afterwards.  Each loop is given one test of its
condition more than it has passes. -/
def merge (studentsArray : List Student) (left middle right : Int) : Option (List Student) :=
  let n1 := middle - left + 1
  let n2 := right - middle
  (copyLoop studentsArray left n1 (n1.toNat + 1) 0 []).bind fun L =>
  (copyLoop studentsArray (middle + 1) n2 (n2.toNat + 1) 0 []).bind fun R =>
  (mergeLoop L R n1 n2 (n1.toNat + n2.toNat + 1) studentsArray 0 0 left).bind fun s =>
  (copyBackLoop L n1 (n1.toNat + 1) s.1 s.2.1 s.2.2.2).bind fun t =>
  (copyBackLoop R n2 (n2.toNat + 1) t.1 s.2.2.1 t.2).map fun u => u.1

/-- `mergeSort` with at most `fuel` nested calls: the array afterwards. -/
def mergeSort : Nat → List Student → Int → Int → Option (List Student)
  | 0, _, _, _ => none
  | fuel + 1, studentsArray, left, right =>
    if left < right then
      let middle := left + (right - left).tdiv 2
      (mergeSort fuel studentsArray left middle).bind fun arr1 =>
      (mergeSort fuel arr1 (middle + 1) right).bind fun arr2 =>
      merge arr2 left middle right
    else some studentsArray

/-! ### `quickSort` -/

/-- The read `name[i]` of a `char` array that holds a string: its
characters, then the terminating NUL; what lies behind the NUL is not defined
by the string: `none`. -/
def charAt (name : List Int) (i : Nat) : Option Int :=
  if i < name.length then name[i]? else if i = name.length then some 0 else none

/-- The `for` loop of `compareNames` from index `i`, with `n` passes to go
until `i` reaches `name1Len`. -/
def compareNamesLoop (name1 name2 : List Int) : Nat → Nat → Option Int
  | 0, _ => some SECOND
  | n + 1, i =>
    match charAt name1 i, charAt name2 i with
    | some c1, some c2 =>
      if c1 > c2 then some FIRST
      else if c1 < c2 then some SECOND
      else compareNamesLoop name1 name2 n (i + 1)
    | _, _ => none

/-- `compareNames`; `strlen(name1)` is the length of the list. -/
def compareNames (name1 name2 : List Int) : Option Int :=
  compareNamesLoop name1 name2 name1.length 0

/-- The first inner `while` loop of `quickSort`: the final value of `i`. -/
def scanRight (studentsArray : List Student) (pivot right : Int) : Nat → Int → Option Int
  | 0, _ => none
  | fuel + 1, i =>
    match readAt studentsArray i, readAt studentsArray pivot with
    | some a, some p =>
      match compareNames a.name p.name with
      | none => none
      | some c =>
        if c = SECOND ∧ i < right then scanRight studentsArray pivot right fuel (i + 1)
        else some i
    | _, _ => none

/-- The second inner `while` loop of `quickSort`: the final value of `j`. -/
def scanLeft (studentsArray : List Student) (pivot : Int) : Nat → Int → Option Int
  | 0, _ => none
  | fuel + 1, j =>
    match readAt studentsArray j, readAt studentsArray pivot with
    | some a, some p =>
      match compareNames a.name p.name with
      | none => none
      | some c =>
        if c = FIRST then scanLeft studentsArray pivot fuel (j - 1)
        else some j
    | _, _ => none

/-- The three assignments `temp = a[i]; a[i] = a[j]; a[j] = temp`. -/
def swapAt (studentsArray : List Student) (i j : Int) : Option (List Student) :=
  match readAt studentsArray i, readAt studentsArray j with
  | some temp, some aj => (writeAt studentsArray i aj).bind fun arr => writeAt arr j temp
  | _, _ => none

/-- The outer `while` loop of `quickSort`, at most `fuel` tests of its
condition: the array and `j` at its end.  An inner loop moves its index by
one at each pass and reads the array at it, so it makes at most as many
passes as the array is long. -/
def partitionLoop (pivot right : Int) : Nat → List Student → Int → Int →
    Option (List Student × Int)
  | 0, _, _, _ => none
  | fuel + 1, studentsArray, i, j =>
    if i < j then
      (scanRight studentsArray pivot right (studentsArray.length + 1) i).bind fun i1 =>
      (scanLeft studentsArray pivot (studentsArray.length + 1) j).bind fun j1 =>
      (if i1 < j1 then swapAt studentsArray i1 j1 else some studentsArray).bind fun arr =>
      partitionLoop pivot right fuel arr i1 j1
    else some (studentsArray, j)

/-- `quickSort` with at most `fuel` nested calls: the array afterwards.  Each
pass of the outer loop but the last moves `i` up, so it is given as many
tests as the array is long, and one more. -/
def quickSort : Nat → List Student → Int → Int → Option (List Student)
  | 0, _, _, _ => none
  | fuel + 1, studentsArray, left, right =>
    if left < right then
      (partitionLoop left right (studentsArray.length + 1) studentsArray left right).bind fun s =>
      (swapAt s.1 left s.2).bind fun arr =>
      (quickSort fuel arr left (s.2 - 1)).bind fun arr1 =>
      quickSort fuel arr1 (s.2 + 1) right
    else some studentsArray

/-- The comparison `merge` makes: `L[i].grade <= R[j].grade`. -/
abbrev gradeLE (a b : Student) : Bool := decide (a.grade ≤ b.grade)

/-- The name `a` comes strictly after the name `b` in lexicographic order. -/
def NameGreater (a b : List Int) : Prop := List.Lex (· < ·) b a

instance (a b : List Int) : Decidable (NameGreater a b) :=
  inferInstanceAs (Decidable (List.Lex (· < ·) b a))

/-- A string of `char`s with positive codes. -/
def IsName (name : List Int) : Prop := ∀ c ∈ name, 0 < c

instance (name : List Int) : Decidable (IsName name) :=
  inferInstanceAs (Decidable (∀ c ∈ name, 0 < c))

/-- What holds of the run being partitioned at each test of the condition
of the outer loop of `quickSort`, with the indices counted from `left`: the
run `seg` is a rearrangement of the run `seg0` at the start, the pivot `P` is
at its first place, no student before `i` comes after the pivot and every
student behind `j` does; the student at `i` does not come after the pivot
when the loop goes on, nor does the student at `j` when it ends. -/
structure PartInv (seg0 seg : List Student) (P : Student) (i j : Nat) : Prop where
  perm : seg.Perm seg0
  pivot : seg[0]? = some P
  i_lt : i < seg.length
  j_lt : j < seg.length
  low : ∀ k, k < i → ∀ s, seg[k]? = some s → ¬ NameGreater s.name P.name
  high : ∀ k, j < k → ∀ s, seg[k]? = some s → NameGreater s.name P.name
  cont : i < j → ∀ s, seg[i]? = some s → ¬ NameGreater s.name P.name
  stop : j ≤ i → ∀ s, seg[j]? = some s → ¬ NameGreater s.name P.name

/-- Two students of a list with their places exchanged. -/
def swapped (seg : List Student) (i j : Nat) (hi : i < seg.length) (hj : j < seg.length) :
    List Student :=
  (seg.set i seg[j]).set j seg[i]

/-- Three students; the second and the third have the same value grade/age. -/
def threeStudents : List Student :=
  [⟨[49], [97], 60, 40, [120], [121]⟩, ⟨[50], [98], 90, 30, [120], [121]⟩,
    ⟨[51], [99], 60, 20, [120], [121]⟩]

/-- A student with the given name and grade. -/
def mkStudent (name : List Int) (grade : Int) : Student := ⟨[49], name, grade, 20, [120], [121]⟩

/-- Five students with their grades out of order, two of them equal. -/
def fiveStudents : List Student :=
  [mkStudent [100] 70, mkStudent [98] 50, mkStudent [101] 90, mkStudent [97] 50,
    mkStudent [99] 60]

end Students

/-! ## Lemmas -/

namespace RBT
variable {α σ ω β : Type}

theorem inorder_zip (ctx : Ctx α) (t : Node α) :
    inorder (zip ctx t) = ctxBefore ctx ++ inorder t ++ ctxAfter ctx := by
  induction ctx generalizing t with
  | nil => simp [zip, ctxBefore, ctxAfter]
  | cons f up ih =>
    cases f <;> simp [zip, Frame.plug, ctxBefore, ctxAfter, ih, inorder]

theorem nodeCount_eq_length (t : Node α) : nodeCount t = (inorder t).length := by
  induction t with
  | NULL => rfl
  | mk c l x r ihl ihr => simp [nodeCount, inorder, ihl, ihr]; omega

/-- A comparator that is zero exactly on equal data, antisymmetric in sign and
transitive meets the contract. -/
theorem StrictTotalOrderCmp.of_eq_iff {cmp : α → α → Int} (heq : ∀ a b, cmp a b = 0 ↔ a = b)
    (hanti : ∀ a b, cmp a b < 0 ↔ 0 < cmp b a)
    (htrans : ∀ a b c, cmp a b < 0 → cmp b c < 0 → cmp a c < 0) : StrictTotalOrderCmp cmp where
  antisymm := hanti
  trans := htrans
  eq_lt := by
    intro a b c h1 h2
    rw [(heq a b).1 h1]; exact h2
  lt_eq := by
    intro a b c h1 h2
    rw [← (heq b c).1 h2]; exact h1

theorem StrictTotalOrderCmp.refl {cmp : α → α → Int} (h : StrictTotalOrderCmp cmp) (a : α) :
    cmp a a = 0 := by
  have h1 := h.antisymm a a
  omega

theorem StrictTotalOrderCmp.symm {cmp : α → α → Int} (h : StrictTotalOrderCmp cmp) {a b : α}
    (e : cmp a b = 0) : cmp b a = 0 := by
  have h1 := h.antisymm a b
  have h2 := h.antisymm b a
  omega

theorem StrictTotalOrderCmp.gt_of_lt {cmp : α → α → Int} (h : StrictTotalOrderCmp cmp)
    {a b : α} (e : cmp a b < 0) : 0 < cmp b a :=
  (h.antisymm a b).1 e

theorem StrictTotalOrderCmp.lt_of_gt {cmp : α → α → Int} (h : StrictTotalOrderCmp cmp)
    {a b : α} (e : 0 < cmp a b) : cmp b a < 0 :=
  (h.antisymm b a).2 e

/-- In a search tree the data of the left subtree are below the node's and
those of the right subtree above. -/
theorem BSTOrdered.mk_iff {cmp : α → α → Int} {c : Color} {l r : Node α} {x : α} :
    BSTOrdered cmp (.mk c l x r) ↔
      BSTOrdered cmp l ∧ BSTOrdered cmp r ∧ (∀ a ∈ inorder l, cmp a x < 0) ∧
        (∀ b ∈ inorder r, cmp x b < 0) ∧ (∀ a ∈ inorder l, ∀ b ∈ inorder r, cmp a b < 0) := by
  unfold BSTOrdered
  simp only [inorder, List.pairwise_append, List.pairwise_cons, List.mem_cons]
  constructor
  · rintro ⟨hl, ⟨hx, hr⟩, hlr⟩
    exact ⟨hl, hr, fun a ha => hlr a ha x (Or.inl rfl), hx,
      fun a ha b hb => hlr a ha b (Or.inr hb)⟩
  · rintro ⟨hl, hr, hlx, hxr, hlr⟩
    refine ⟨hl, ⟨hxr, hr⟩, ?_⟩
    rintro a ha b (rfl | hb)
    · exact hlx a ha
    · exact hlr a ha b hb

/-! ### Search -/

theorem findNodeInTree_some {cmp : α → α → Int} {d : α} :
    ∀ (t : Node α) (ctx : Ctx α) (p : Loc α), findNodeInTree t cmp d ctx = some p →
      zip p.ctx p.node = zip ctx t ∧
        ∃ c l e r, p.node = .mk c l e r ∧ cmp d e = 0 ∧ e ∈ inorder t := by
  intro t
  induction t with
  | NULL => intro ctx p h; simp [findNodeInTree] at h
  | mk c l x r ihl ihr =>
    intro ctx p h
    unfold findNodeInTree at h
    split at h
    · rename_i he
      cases h
      exact ⟨rfl, c, l, x, r, rfl, he, by simp [inorder]⟩
    · split at h
      · obtain ⟨hz, c', l', e, r', hn, he, hm⟩ := ihr _ _ h
        exact ⟨by simpa [zip, Frame.plug] using hz, c', l', e, r', hn, he, by simp [inorder, hm]⟩
      · obtain ⟨hz, c', l', e, r', hn, he, hm⟩ := ihl _ _ h
        exact ⟨by simpa [zip, Frame.plug] using hz, c', l', e, r', hn, he, by simp [inorder, hm]⟩

theorem findNodeInTree_complete {cmp : α → α → Int} (hc : StrictTotalOrderCmp cmp) {d : α} :
    ∀ (t : Node α) (ctx : Ctx α) (e : α), BSTOrdered cmp t → e ∈ inorder t → cmp d e = 0 →
      ∃ p c l r, findNodeInTree t cmp d ctx = some p ∧ p.node = .mk c l e r := by
  intro t
  induction t with
  | NULL => intro ctx e _ hm; simp [inorder] at hm
  | mk c l x r ihl ihr =>
    intro ctx e hb hm he
    obtain ⟨hbl, hbr, hlx, hxr, -⟩ := BSTOrdered.mk_iff.1 hb
    simp only [inorder, List.mem_append, List.mem_cons] at hm
    unfold findNodeInTree
    rcases hm with hm | rfl | hm
    · -- e in the left subtree: d is below x
      have h1 : cmp d x < 0 := hc.eq_lt _ _ _ he (hlx e hm)
      have h2 : ¬ cmp d x = EQUAL := by simp only [EQUAL]; omega
      have h3 : ¬ cmp d x > 0 := by omega
      simp only [h2, h3, if_false]
      exact ihl _ e hbl hm he
    · simp only [EQUAL, he, if_true]
      exact ⟨_, c, l, r, rfl, rfl⟩
    · have h1 : cmp e d = 0 := hc.symm he
      have h0 : cmp x d < 0 := hc.lt_eq _ _ _ (hxr e hm) h1
      have h4 : 0 < cmp d x := hc.gt_of_lt h0
      have h2 : ¬ cmp d x = EQUAL := by simp only [EQUAL]; omega
      have h3 : cmp d x > 0 := h4
      simp only [h2, h3, if_false, if_true]
      exact ihr _ e hbr hm he

theorem findNodeInTree_none {cmp : α → α → Int} {d : α} :
    ∀ (t : Node α) (ctx : Ctx α), (∀ e ∈ inorder t, cmp d e ≠ 0) →
      findNodeInTree t cmp d ctx = none := by
  intro t ctx h
  cases hf : findNodeInTree t cmp d ctx with
  | none => rfl
  | some p =>
    obtain ⟨-, c, l, e, r, -, he, hm⟩ := findNodeInTree_some t ctx p hf
    exact absurd he (h e hm)

end RBT

namespace RBT
variable {α σ ω β : Type}

/-! ### The walk of `basicInsert` -/

theorem basicInsertWalk_head {cmp : α → α → Int} {d : α} :
    ∀ (t : Node α) (ctx ctx' : Ctx α), HeadAgrees cmp d ctx →
      basicInsertWalk d cmp t ctx = some ctx' → HeadAgrees cmp d ctx' := by
  intro t
  induction t with
  | NULL => intro ctx ctx' h hw; simp [basicInsertWalk] at hw; subst hw; exact h
  | mk c l x r ihl ihr =>
    intro ctx ctx' h hw
    unfold basicInsertWalk at hw
    split at hw
    · rename_i hgt
      exact ihr _ _ (by simpa [HeadAgrees] using hgt) hw
    · rename_i hgt
      split at hw
      · exact ihl _ _ (by simpa [HeadAgrees] using hgt) hw
      · cases hw

theorem basicInsert_eq_walk (root : Node α) (d : α) (cmp : α → α → Int) :
    basicInsert root d cmp =
      (basicInsertWalk d cmp root []).map (fun ctx => ⟨ctx, createNewNode d⟩) := by
  unfold basicInsert
  cases hw : basicInsertWalk d cmp root [] with
  | none => rfl
  | some ctx' =>
    have hh := basicInsertWalk_head root [] ctx' (by simp [HeadAgrees]) hw
    cases ctx' with
    | nil => rfl
    | cons f up =>
      cases f with
      | ofLeft c x r =>
        simp only [HeadAgrees] at hh
        simp [Frame.data, hh]
      | ofRight c l x =>
        simp only [HeadAgrees] at hh
        simp [Frame.data, hh]

theorem basicInsertWalk_zip {cmp : α → α → Int} {d : α} :
    ∀ (t : Node α) (ctx ctx' : Ctx α), basicInsertWalk d cmp t ctx = some ctx' →
      zip ctx' .NULL = zip ctx t := by
  intro t
  induction t with
  | NULL => intro ctx ctx' hw; simp [basicInsertWalk] at hw; subst hw; rfl
  | mk c l x r ihl ihr =>
    intro ctx ctx' hw
    unfold basicInsertWalk at hw
    split at hw
    · simpa [zip, Frame.plug] using ihr _ _ hw
    · split at hw
      · simpa [zip, Frame.plug] using ihl _ _ hw
      · cases hw

theorem basicInsertWalk_none {cmp : α → α → Int} (hc : StrictTotalOrderCmp cmp) {d : α} :
    ∀ (t : Node α) (ctx : Ctx α) (e : α), BSTOrdered cmp t → e ∈ inorder t → cmp d e = 0 →
      basicInsertWalk d cmp t ctx = none := by
  intro t
  induction t with
  | NULL => intro ctx e _ hm; simp [inorder] at hm
  | mk c l x r ihl ihr =>
    intro ctx e hb hm he
    obtain ⟨hbl, hbr, hlx, hxr, -⟩ := BSTOrdered.mk_iff.1 hb
    simp only [inorder, List.mem_append, List.mem_cons] at hm
    unfold basicInsertWalk
    rcases hm with hm | rfl | hm
    · have h1 : cmp d x < 0 := hc.eq_lt _ _ _ he (hlx e hm)
      have h3 : ¬ cmp d x > 0 := by omega
      simp only [h3, h1, if_false, if_true]
      exact ihl _ e hbl hm he
    · have h3 : ¬ cmp d e > 0 := by omega
      have h1 : ¬ cmp d e < 0 := by omega
      simp only [h3, h1, if_false]
    · have h0 : cmp x d < 0 := hc.lt_eq _ _ _ (hxr e hm) (hc.symm he)
      have h3 : cmp d x > 0 := hc.gt_of_lt h0
      simp only [h3, if_true]
      exact ihr _ e hbr hm he

theorem basicInsertWalk_some (cmp : α → α → Int) (d : α) :
    ∀ (t : Node α) (ctx : Ctx α), (∀ e ∈ inorder t, cmp d e ≠ 0) →
      ∃ ctx', basicInsertWalk d cmp t ctx = some ctx' := by
  intro t
  induction t with
  | NULL => intro ctx _; exact ⟨ctx, rfl⟩
  | mk c l x r ihl ihr =>
    intro ctx h
    have hx : cmp d x ≠ 0 := h x (by simp [inorder])
    unfold basicInsertWalk
    by_cases hgt : cmp d x > 0
    · simp only [hgt, if_true]
      exact ihr _ (fun e he => h e (by simp [inorder, he]))
    · have hlt : cmp d x < 0 := by omega
      simp only [hgt, hlt, if_false, if_true]
      exact ihl _ (fun e he => h e (by simp [inorder, he]))

/-- Where the walk ends: the data before the position are below `d`, the
data after it above. -/
theorem basicInsertWalk_sorted {cmp : α → α → Int} (hc : StrictTotalOrderCmp cmp) {d : α} :
    ∀ (t : Node α) (ctx ctx' : Ctx α), BSTOrdered cmp t →
      basicInsertWalk d cmp t ctx = some ctx' →
      ∃ pre post, inorder t = pre ++ post ∧ ctxBefore ctx' = ctxBefore ctx ++ pre ∧
        ctxAfter ctx' = post ++ ctxAfter ctx ∧ (∀ a ∈ pre, cmp a d < 0) ∧
        (∀ b ∈ post, cmp d b < 0) := by
  intro t
  induction t with
  | NULL =>
    intro ctx ctx' _ hw
    simp [basicInsertWalk] at hw; subst hw
    exact ⟨[], [], by simp [inorder]⟩
  | mk c l x r ihl ihr =>
    intro ctx ctx' hb hw
    obtain ⟨hbl, hbr, hlx, hxr, -⟩ := BSTOrdered.mk_iff.1 hb
    unfold basicInsertWalk at hw
    split at hw
    · rename_i hgt
      obtain ⟨pre, post, hio, hbef, haft, hpre, hpost⟩ := ihr _ _ hbr hw
      have hxd : cmp x d < 0 := hc.lt_of_gt hgt
      refine ⟨inorder l ++ x :: pre, post, by simp [inorder, hio], ?_, ?_, ?_, hpost⟩
      · simp [hbef, ctxBefore]
      · simp [haft, ctxAfter]
      · intro a ha
        simp only [List.mem_append, List.mem_cons] at ha
        rcases ha with ha | rfl | ha
        · exact hc.trans _ _ _ (hlx a ha) hxd
        · exact hxd
        · exact hpre a ha
    · split at hw
      · rename_i hlt
        obtain ⟨pre, post, hio, hbef, haft, hpre, hpost⟩ := ihl _ _ hbl hw
        refine ⟨pre, post ++ x :: inorder r, by simp [inorder, hio], ?_, ?_, hpre, ?_⟩
        · simp [hbef, ctxBefore]
        · simp [haft, ctxAfter]
        · intro b hb'
          simp only [List.mem_append, List.mem_cons] at hb'
          rcases hb' with hb' | rfl | hb'
          · exact hpost b hb'
          · exact hlt
          · exact hc.trans _ _ _ hlt (hxr b hb')
      · cases hw

/-! ### Traversal -/

theorem visitList_zero (func : α → β → ω → Int × ω) (args : β) (xs : List α) (w : ω) :
    visitList func args xs (0, w) = (0, w) := by
  cases xs <;> simp [visitList]

theorem visitList_append (func : α → β → ω → Int × ω) (args : β) (xs ys : List α)
    (s : Int × ω) :
    visitList func args (xs ++ ys) s = visitList func args ys (visitList func args xs s) := by
  induction xs generalizing s with
  | nil => rfl
  | cons x xs ih =>
    obtain ⟨g, w⟩ := s
    by_cases hg : g = 0
    · subst hg
      simp [visitList_zero]
    · by_cases hf : (func x args w).1 = 0
      · simp [visitList, hg, hf, visitList_zero]
      · simp [visitList, hg, hf, ih]

theorem forEachHelper_eq_visitList (func : α → β → ω → Int × ω) (args : β) :
    ∀ (t : Node α) (s : Int × ω),
      forEachHelper t func args s = visitList func args (inorder t) s := by
  intro t
  induction t with
  | NULL => intro s; rfl
  | mk c l x r ihl ihr =>
    intro s
    obtain ⟨g, w⟩ := s
    by_cases hg : g = 0
    · subst hg
      simp [forEachHelper, visitList_zero]
    · simp only [forEachHelper, inorder, visitList_append, ihl, ihr, hg, ne_eq,
        not_false_eq_true, if_true]
      generalize visitList func args (inorder l) (g, w) = s1
      obtain ⟨g1, w1⟩ := s1
      by_cases hg1 : g1 = 0
      · subst hg1
        simp [visitList_zero]
      · by_cases hf : (func x args w1).1 = 0
        · simp [visitList, hg1, hf, visitList_zero]
        · simp [visitList, hg1, hf]

end RBT

namespace RBT
variable {α σ ω β : Type}

theorem intCmp_order : StrictTotalOrderCmp intCmp where
  antisymm := by intro a b; unfold intCmp; omega
  trans := by intro a b c; unfold intCmp; omega
  eq_lt := by intro a b c; unfold intCmp; omega
  lt_eq := by intro a b c; unfold intCmp; omega

theorem worldAfter_cons (func : α → β → ω → Int × ω) (args : β) (x : α) (xs : List α) (w : ω) :
    worldAfter func args (x :: xs) w = worldAfter func args xs (func x args w).2 := rfl

theorem worldAfter_append (func : α → β → ω → Int × ω) (args : β) (xs ys : List α) (w : ω) :
    worldAfter func args (xs ++ ys) w = worldAfter func args ys (worldAfter func args xs w) := by
  simp [worldAfter, List.foldl_append]

/-- A recorded run over a list on which every call succeeds. -/
theorem visitList_record_all (func : α → β → ω → Int × ω) (args : β) :
    ∀ (xs : List α) (g : Int) (w : ω) (log : List (α × β)), g ≠ 0 →
      (∀ p y q, xs = p ++ y :: q → (func y args (worldAfter func args p w)).1 ≠ FAILURE) →
      visitList (recordCalls func) args xs (g, (w, log)) =
        (g, (worldAfter func args xs w, log ++ xs.map (fun x => (x, args)))) := by
  intro xs
  induction xs with
  | nil => intro g w log _ _; simp [visitList, worldAfter]
  | cons x xs ih =>
    intro g w log hg h
    have hx : (func x args w).1 ≠ 0 := h [] x xs rfl
    have ht : ∀ p y q, xs = p ++ y :: q →
        (func y args (worldAfter func args p (func x args w).2)).1 ≠ FAILURE := by
      intro p y q e
      have := h (x :: p) y q (by simp [e])
      simpa [worldAfter_cons] using this
    have hrec := ih g (func x args w).2 (log ++ [(x, args)]) hg ht
    simp only [visitList, recordCalls, hg, hx, ne_eq, not_false_eq_true, if_true, if_false]
    simp only [recordCalls] at hrec
    rw [hrec]
    simp [worldAfter_cons]

/-- A recorded run over a list on which the first failing call is the one
on `x`. -/
theorem visitList_record_fail (func : α → β → ω → Int × ω) (args : β)
    (pre : List α) (x : α) (post : List α) (w : ω)
    (hpre : ∀ p y q, pre = p ++ y :: q → (func y args (worldAfter func args p w)).1 ≠ FAILURE)
    (hx : (func x args (worldAfter func args pre w)).1 = FAILURE) :
    visitList (recordCalls func) args (pre ++ x :: post) (YES, (w, [])) =
      (NO, (worldAfter func args (pre ++ [x]) w, (pre ++ [x]).map (fun y => (y, args)))) := by
  rw [visitList_append, visitList_record_all func args pre YES w [] (by decide) hpre]
  have hx' : (func x args (worldAfter func args pre w)).1 = 0 := hx
  have hw : worldAfter func args [x] (worldAfter func args pre w) =
      (func x args (worldAfter func args pre w)).2 := rfl
  simp [visitList, recordCalls, hx', worldAfter_append, hw]

end RBT

namespace RBT
variable {α σ ω β : Type}

/-! ### Colour invariants and locations -/

theorem blackHeight_mem_blackPaths (t : Node α) : blackHeight t ∈ blackPaths t := by
  induction t with
  | NULL => simp [blackHeight, blackPaths]
  | mk c l x r ihl _ =>
    simp only [blackHeight, blackPaths, List.mem_map, List.mem_append]
    exact ⟨blackHeight l, Or.inl ihl, rfl⟩

theorem Balanced.blackPaths_eq {t : Node α} (h : Balanced t) :
    ∀ a ∈ blackPaths t, a = blackHeight t := by
  induction t with
  | NULL => intro a ha; simpa [blackPaths, blackHeight] using ha
  | mk c l x r ihl ihr =>
    obtain ⟨hlr, hl, hr⟩ := h
    intro a ha
    simp only [blackPaths, List.mem_map, List.mem_append] at ha
    obtain ⟨b, hb | hb, rfl⟩ := ha
    · simp [blackHeight, ihl hl b hb]
    · simp [blackHeight, ihr hr b hb, hlr]

theorem equalBlackPaths_iff_balanced (t : Node α) : EqualBlackPaths t ↔ Balanced t := by
  constructor
  · intro h
    induction t with
    | NULL => trivial
    | mk c l x r ihl ihr =>
      have hsub : ∀ a ∈ blackPaths l ++ blackPaths r, ∀ b ∈ blackPaths l ++ blackPaths r,
          a = b := by
        intro a ha b hb
        have := h (a + blackInc c) (by simp only [blackPaths, List.mem_map]; exact ⟨a, ha, rfl⟩)
          (b + blackInc c) (by simp only [blackPaths, List.mem_map]; exact ⟨b, hb, rfl⟩)
        omega
      refine ⟨?_, ihl ?_, ihr ?_⟩
      · exact hsub _ (List.mem_append_left _ (blackHeight_mem_blackPaths l)) _
          (List.mem_append_right _ (blackHeight_mem_blackPaths r))
      · intro a ha b hb
        exact hsub a (List.mem_append_left _ ha) b (List.mem_append_left _ hb)
      · intro a ha b hb
        exact hsub a (List.mem_append_right _ ha) b (List.mem_append_right _ hb)
  · intro h a ha b hb
    rw [h.blackPaths_eq a ha, h.blackPaths_eq b hb]

theorem blackHeight_plug (f : Frame α) (t : Node α) (h : Balanced (f.plug t)) :
    blackHeight (f.plug t) = blackHeight t + blackInc f.color ∧
      blackHeight f.sibling = blackHeight t := by
  cases f with
  | ofLeft c x r => exact ⟨rfl, h.1.symm⟩
  | ofRight c l x =>
    obtain ⟨h1, -, -⟩ := h
    simp only [Frame.plug, blackHeight, Frame.color, Frame.sibling]
    omega

/-- Closing the frames of a context that satisfies the invariants around a
subtree that satisfies them gives a tree that satisfies them. -/
theorem zip_valid : ∀ (ctx : Ctx α) (t : Node α), CtxRB ctx (blackHeight t) → Balanced t →
    NoRedRed t → (ctxColor ctx = .RED → t.colorOf = .BLACK) →
    Balanced (zip ctx t) ∧ NoRedRed (zip ctx t) := by
  intro ctx
  induction ctx with
  | nil => intro t _ hb hn _; exact ⟨hb, hn⟩
  | cons f up ih =>
    intro t hc hb hn hcol
    obtain ⟨hs1, hs2, hs3, hred, hup⟩ := hc
    apply ih (f.plug t)
    · have : blackHeight (f.plug t) = blackHeight t + blackInc f.color := by
        cases f <;> simp [Frame.plug, blackHeight, Frame.color, Frame.sibling] at hs1 ⊢
        omega
      rw [this]; exact hup
    · cases f with
      | ofLeft c x r => exact ⟨hs1.symm, hb, hs2⟩
      | ofRight c l x => exact ⟨hs1, hs2, hb⟩
    · cases f with
      | ofLeft c x r =>
        refine ⟨fun hc' => ⟨hcol (by simpa [ctxColor, Frame.color] using hc'), ?_⟩, hn, hs3⟩
        exact (hred hc').1
      | ofRight c l x =>
        refine ⟨fun hc' => ⟨(hred hc').1, hcol (by simpa [ctxColor, Frame.color] using hc')⟩,
          hs3, hn⟩
    · intro hu
      cases f with
      | ofLeft c x r =>
        cases c with
        | RED => exact absurd hu (by simp [(hred rfl).2])
        | BLACK => rfl
      | ofRight c l x =>
        cases c with
        | RED => exact absurd hu (by simp [(hred rfl).2])
        | BLACK => rfl

/-- The converse: the invariants of a whole tree give those of a location in
it and of the context around the location. -/
theorem unzip_valid : ∀ (ctx : Ctx α) (t : Node α), Balanced (zip ctx t) → NoRedRed (zip ctx t) →
    CtxRB ctx (blackHeight t) ∧ Balanced t ∧ NoRedRed t ∧
      (ctxColor ctx = .RED → t.colorOf = .BLACK) := by
  intro ctx
  induction ctx with
  | nil => intro t hb hn; exact ⟨trivial, hb, hn, by simp [ctxColor]⟩
  | cons f up ih =>
    intro t hb hn
    obtain ⟨hup, hbp, hnp, hcp⟩ := ih (f.plug t) hb hn
    obtain ⟨hbh, hsib⟩ := blackHeight_plug f t hbp
    rw [hbh] at hup
    cases f with
    | ofLeft c x r =>
      obtain ⟨-, hbt, hbr⟩ := hbp
      obtain ⟨hred, hnt, hnr⟩ := hnp
      refine ⟨⟨hsib, hbr, hnr, ?_, hup⟩, hbt, hnt, fun hc' => (hred hc').1⟩
      intro hc'
      refine ⟨(hred hc').2, ?_⟩
      cases hu : ctxColor up with
      | BLACK => rfl
      | RED =>
        have := hcp hu
        simp [Frame.plug, Node.colorOf] at this
        simp [Frame.color] at hc'
        rw [this] at hc'; cases hc'
    | ofRight c l x =>
      obtain ⟨-, hbl, hbt⟩ := hbp
      obtain ⟨hred, hnl, hnt⟩ := hnp
      refine ⟨⟨hsib, hbl, hnl, ?_, hup⟩, hbt, hnt, fun hc' => (hred hc').2⟩
      intro hc'
      refine ⟨(hred hc').1, ?_⟩
      cases hu : ctxColor up with
      | BLACK => rfl
      | RED =>
        have := hcp hu
        simp [Frame.plug, Node.colorOf] at this
        simp [Frame.color] at hc'
        rw [this] at hc'; cases hc'

theorem zip_colorOf_cons (f : Frame α) (up : Ctx α) (t : Node α) :
    (zip (f :: up) t).colorOf = .BLACK ↔ CtxRootBlack (f :: up) := by
  induction up generalizing f t with
  | nil => cases f <;> simp [zip, Frame.plug, Node.colorOf, CtxRootBlack, Frame.color]
  | cons g up ih =>
    simp only [zip, CtxRootBlack] 
    exact ih g (f.plug t)

theorem zip_setColor_black (f : Frame α) (up : Ctx α) (t : Node α)
    (h : CtxRootBlack (f :: up)) : (zip (f :: up) t).setColor .BLACK = some (zip (f :: up) t) := by
  have hc := (zip_colorOf_cons f up t).2 h
  cases hz : zip (f :: up) t with
  | NULL =>
    exfalso
    clear hc h
    induction up generalizing f t with
    | nil => cases f <;> simp [zip, Frame.plug] at hz
    | cons g up ih => exact ih g (f.plug t) (by simpa [zip] using hz)
  | mk c l x r =>
    rw [hz] at hc
    simp [Node.colorOf] at hc
    simp [Node.setColor, hc]

theorem CtxRootBlack.tail {f : Frame α} {up : Ctx α} (h : CtxRootBlack (f :: up)) :
    CtxRootBlack up := by
  cases up with
  | nil => trivial
  | cons g up => exact h

theorem CtxRootBlack.cons_of {f g : Frame α} {up : Ctx α} (h : CtxRootBlack (f :: up))
    (hne : up ≠ []) : CtxRootBlack (g :: up) := by
  cases up with
  | nil => exact absurd rfl hne
  | cons g' up => exact h

end RBT

namespace RBT
variable {α σ ω β : Type}

/-! ### Insertion fixup -/

theorem Frame.color_eq_black_of_ne_red {f : Frame α} (h : ¬ f.color = .RED) : f.color = .BLACK := by
  cases hc : f.color with
  | RED => exact absurd hc h
  | BLACK => rfl

theorem Node.colorOf_eq_black_of_ne_red {t : Node α} (h : ¬ t.colorOf = .RED) :
    t.colorOf = .BLACK := by
  cases hc : t.colorOf with
  | RED => exact absurd hc h
  | BLACK => rfl

theorem blackUncle_left_left (pc gc : Color) (px gx : α) (ps u : Node α) (rest : Ctx α)
    (n : Node α) :
    blackUncleAfterInsertion ⟨.ofLeft pc px ps :: .ofLeft gc gx u :: rest, n⟩ RIGHT_UNCLE =
      some ⟨.ofLeft .BLACK px (.mk .RED ps gx u) :: rest, n⟩ := rfl

theorem blackUncle_right_left (pc gc c : Color) (px gx x : α) (pl u l r : Node α)
    (rest : Ctx α) :
    blackUncleAfterInsertion ⟨.ofRight pc pl px :: .ofLeft gc gx u :: rest, .mk c l x r⟩
        RIGHT_UNCLE =
      some ⟨.ofLeft .BLACK x (.mk .RED r gx u) :: rest, .mk pc pl px l⟩ := rfl

theorem blackUncle_right_right (pc gc : Color) (px gx : α) (pl u : Node α) (rest : Ctx α)
    (n : Node α) :
    blackUncleAfterInsertion ⟨.ofRight pc pl px :: .ofRight gc u gx :: rest, n⟩ LEFT_UNCLE =
      some ⟨.ofRight .BLACK (.mk .RED u gx pl) px :: rest, n⟩ := rfl

theorem blackUncle_left_right (pc gc c : Color) (px gx x : α) (ps u l r : Node α)
    (rest : Ctx α) :
    blackUncleAfterInsertion ⟨.ofLeft pc px ps :: .ofRight gc u gx :: rest, .mk c l x r⟩
        LEFT_UNCLE =
      some ⟨.ofRight .BLACK (.mk .RED u gx l) x :: rest, .mk pc r px ps⟩ := rfl

theorem redUncle_left (pf : Frame α) (gc : Color) (gx ux : α) (ul ur : Node α) (rest : Ctx α)
    (n : Node α) :
    redUncleAfterInsertion ⟨pf :: .ofLeft gc gx (.mk .RED ul ux ur) :: rest, n⟩ =
      some ⟨rest, .mk .RED ((pf.withColor .BLACK).plug n) gx (.mk .BLACK ul ux ur)⟩ := rfl

theorem redUncle_right (pf : Frame α) (gc : Color) (gx ux : α) (ul ur : Node α) (rest : Ctx α)
    (n : Node α) :
    redUncleAfterInsertion ⟨pf :: .ofRight gc (.mk .RED ul ux ur) gx :: rest, n⟩ =
      some ⟨rest, .mk .RED (.mk .BLACK ul ux ur) gx ((pf.withColor .BLACK).plug n)⟩ := rfl

theorem fixTreeLoop_left (fuel : Nat) (pf : Frame α) (gc : Color) (gx : α) (u : Node α)
    (rest : Ctx α) (n : Node α) (hp : pf.color = .RED) :
    fixTreeLoop (fuel + 1) ⟨pf :: .ofLeft gc gx u :: rest, n⟩ =
      if u.colorOf = .RED then
        (redUncleAfterInsertion ⟨pf :: .ofLeft gc gx u :: rest, n⟩).bind (fixTreeLoop fuel)
      else (blackUncleAfterInsertion ⟨pf :: .ofLeft gc gx u :: rest, n⟩ RIGHT_UNCLE).bind
        (fixTreeLoop fuel) := by
  simp only [fixTreeLoop, hp, if_true]

theorem fixTreeLoop_right (fuel : Nat) (pf : Frame α) (gc : Color) (gx : α) (u : Node α)
    (rest : Ctx α) (n : Node α) (hp : pf.color = .RED) :
    fixTreeLoop (fuel + 1) ⟨pf :: .ofRight gc u gx :: rest, n⟩ =
      if u.colorOf = .RED then
        (redUncleAfterInsertion ⟨pf :: .ofRight gc u gx :: rest, n⟩).bind (fixTreeLoop fuel)
      else (blackUncleAfterInsertion ⟨pf :: .ofRight gc u gx :: rest, n⟩ LEFT_UNCLE).bind
        (fixTreeLoop fuel) := by
  simp only [fixTreeLoop, hp, if_true]

theorem fixTreeLoop_black (fuel : Nat) (pf : Frame α) (up : Ctx α) (n : Node α)
    (hp : ¬ pf.color = .RED) :
    fixTreeLoop (fuel + 1) ⟨pf :: up, n⟩ = some ⟨pf :: up, n⟩ := by
  cases up with
  | nil => simp only [fixTreeLoop, hp, if_false]
  | cons gf rest => cases gf <;> simp only [fixTreeLoop, hp, if_false]

end RBT

namespace RBT
variable {α σ ω β : Type}

/-- The loop of the insertion fixup, started at a red node that satisfies the
invariants in a context that satisfies them, ends, and painting the root black
then gives a tree that satisfies them, with the same in-order sequence. -/
theorem fixTreeLoop_spec : ∀ (fuel : Nat) (ctx : Ctx α) (l : Node α) (x : α) (r : Node α),
    ctx.length < fuel → NoRedRed (.mk .RED l x r) → Balanced (.mk .RED l x r) →
    CtxRB ctx (blackHeight (Node.mk .RED l x r)) → CtxRootBlack ctx →
    ∃ cur root, fixTreeLoop fuel ⟨ctx, .mk .RED l x r⟩ = some cur ∧
      cur.root.setColor .BLACK = some root ∧ Balanced root ∧ NoRedRed root ∧
      inorder root = inorder (zip ctx (.mk .RED l x r)) := by
  intro fuel
  induction fuel with
  | zero => intro ctx l x r h; simp at h
  | succ fuel ih =>
    intro ctx l x r hfuel hn hb hctx hroot
    cases ctx with
    | nil =>
      refine ⟨⟨[], .mk .RED l x r⟩, .mk .BLACK l x r, by simp [fixTreeLoop], by
        simp [Loc.root, zip, Node.setColor], hb, ⟨by simp, hn.2⟩, by simp [zip, inorder]⟩
    | cons pf up =>
      by_cases hpc : pf.color = .RED
      · -- red parent
        cases up with
        | nil => simp [CtxRootBlack, hpc] at hroot
        | cons gf rest =>
          obtain ⟨hps1, hps2, hps3, hpred, hg⟩ := hctx
          obtain ⟨hpsb, hgcol⟩ := hpred hpc
          obtain ⟨hu1, hu2, hu3, -, hrest⟩ := hg
          simp only [ctxColor] at hgcol
          simp only [hpc, hgcol, blackInc, Nat.add_zero] at hu1 hrest
          simp only [blackHeight, blackInc, Nat.add_zero] at hu1 hrest hps1
          have hrootR : CtxRootBlack rest := hroot.tail.tail
          have hrootF : ∀ f : Frame α, f.color = .BLACK → CtxRootBlack (f :: rest) := by
            intro f hf
            cases rest with
            | nil => exact hf
            | cons g' rest' => exact hrootR
          have hlb : l.colorOf = .BLACK := (hn.1 rfl).1
          have hrb : r.colorOf = .BLACK := (hn.1 rfl).2
          have hnl : NoRedRed l := hn.2.1
          have hnr : NoRedRed r := hn.2.2
          obtain ⟨hlr, hbl, hbr⟩ := hb
          have hlen : rest.length + 1 < fuel := by simp at hfuel; omega
          cases gf with
          | ofLeft gc gx u =>
            simp only [Frame.color] at hgcol; subst hgcol
            simp only [Frame.sibling] at hu1 hu2 hu3
            rw [fixTreeLoop_left fuel pf _ gx u rest _ hpc]
            by_cases huc : u.colorOf = .RED
            · cases u with
              | NULL => simp [Node.colorOf] at huc
              | mk uc ul ux ur =>
                simp only [Node.colorOf] at huc; subst huc
                simp only [Node.colorOf, if_true, redUncle_left, Option.bind]
                obtain ⟨hul, hbul, hbur⟩ := hu2
                have hulb := (hu3.1 rfl)
                simp only [blackHeight, blackInc, Nat.add_zero] at hu1
                obtain ⟨cur, root, h1, h2, h3, h4, h5⟩ := ih rest
                  ((pf.withColor .BLACK).plug (.mk .RED l x r)) gx (.mk .BLACK ul ux ur)
                  (by omega)
                  (by
                    cases pf with
                    | ofLeft pc px ps =>
                      exact ⟨fun _ => ⟨rfl, rfl⟩, ⟨by simp, ⟨fun _ => ⟨hlb, hrb⟩, hnl, hnr⟩, hps3⟩,
                        ⟨by simp, hu3.2.1, hu3.2.2⟩⟩
                    | ofRight pc pl px =>
                      exact ⟨fun _ => ⟨rfl, rfl⟩, ⟨by simp, hps3, ⟨fun _ => ⟨hlb, hrb⟩, hnl, hnr⟩⟩,
                        ⟨by simp, hu3.2.1, hu3.2.2⟩⟩)
                  (by
                    cases pf with
                    | ofLeft pc px ps =>
                      simp only [Frame.sibling] at hps1 hps2
                      refine ⟨?_, ⟨?_, ⟨hlr, hbl, hbr⟩, hps2⟩, ⟨hul, hbul, hbur⟩⟩
                      · simp only [Frame.plug, Frame.withColor, blackHeight, blackInc]; omega
                      · simp only [blackHeight, blackInc]; omega
                    | ofRight pc pl px =>
                      simp only [Frame.sibling] at hps1 hps2
                      refine ⟨?_, ⟨?_, hps2, ⟨hlr, hbl, hbr⟩⟩, ⟨hul, hbul, hbur⟩⟩
                      · simp only [Frame.plug, Frame.withColor, blackHeight, blackInc]; omega
                      · simp only [blackHeight, blackInc]; omega)
                  (by
                    have : blackHeight (Node.mk .RED ((pf.withColor .BLACK).plug (.mk .RED l x r))
                        gx (.mk .BLACK ul ux ur)) = blackHeight l + 1 := by
                      cases pf with
                      | ofLeft pc px ps =>
                        simp only [Frame.plug, Frame.withColor, blackHeight, blackInc]
                      | ofRight pc pl px =>
                        simp only [Frame.sibling] at hps1
                        simp only [Frame.plug, Frame.withColor, blackHeight, blackInc]; omega
                    rw [this]; exact hrest)
                  hrootR
                refine ⟨cur, root, h1, h2, h3, h4, h5.trans ?_⟩
                cases pf <;> simp [inorder_zip, inorder, ctxBefore, ctxAfter, Frame.plug,
                  Frame.withColor]
            · have hub := Node.colorOf_eq_black_of_ne_red huc
              simp only [huc, if_false]
              cases pf with
              | ofLeft pc px ps =>
                simp only [Frame.sibling] at hps1 hps2 hps3 hpsb
                simp only [blackUncle_left_left, Option.bind]
                obtain ⟨cur, root, h1, h2, h3, h4, h5⟩ := ih
                  (.ofLeft .BLACK px (.mk .RED ps gx u) :: rest) l x r
                  (by simp; omega) hn ⟨hlr, hbl, hbr⟩
                  ⟨by simp only [Frame.sibling, blackHeight, blackInc]; omega,
                    ⟨by omega, hps2, hu2⟩, ⟨fun _ => ⟨hpsb, hub⟩, hps3, hu3⟩, by simp [Frame.color],
                    by simpa [Frame.color, blackHeight, blackInc] using hrest⟩
                  (hrootF _ rfl)
                refine ⟨cur, root, h1, h2, h3, h4, h5.trans ?_⟩
                simp [inorder_zip, inorder, ctxBefore, ctxAfter]
              | ofRight pc pl px =>
                simp only [Frame.sibling] at hps1 hps2 hps3 hpsb
                simp only [blackUncle_right_left, Option.bind]
                simp only [Frame.color] at hpc; subst hpc
                obtain ⟨cur, root, h1, h2, h3, h4, h5⟩ := ih
                  (.ofLeft .BLACK x (.mk .RED r gx u) :: rest) pl px l
                  (by simp; omega) ⟨fun _ => ⟨hpsb, hlb⟩, hps3, hnl⟩ ⟨by omega, hps2, hbl⟩
                  ⟨by simp only [Frame.sibling, blackHeight, blackInc]; omega,
                    ⟨by omega, hbr, hu2⟩, ⟨fun _ => ⟨hrb, hub⟩, hnr, hu3⟩, by simp [Frame.color],
                    by simpa [Frame.color, blackHeight, blackInc, hps1] using hrest⟩
                  (hrootF _ rfl)
                refine ⟨cur, root, h1, h2, h3, h4, h5.trans ?_⟩
                simp [inorder_zip, inorder, ctxBefore, ctxAfter]
          | ofRight gc u gx =>
            simp only [Frame.color] at hgcol; subst hgcol
            simp only [Frame.sibling] at hu1 hu2 hu3
            rw [fixTreeLoop_right fuel pf _ gx u rest _ hpc]
            by_cases huc : u.colorOf = .RED
            · cases u with
              | NULL => simp [Node.colorOf] at huc
              | mk uc ul ux ur =>
                simp only [Node.colorOf] at huc; subst huc
                simp only [Node.colorOf, if_true, redUncle_right, Option.bind]
                obtain ⟨hul, hbul, hbur⟩ := hu2
                have hulb := (hu3.1 rfl)
                simp only [blackHeight, blackInc, Nat.add_zero] at hu1
                obtain ⟨cur, root, h1, h2, h3, h4, h5⟩ := ih rest
                  (.mk .BLACK ul ux ur) gx ((pf.withColor .BLACK).plug (.mk .RED l x r))
                  (by omega)
                  (by
                    cases pf with
                    | ofLeft pc px ps =>
                      exact ⟨fun _ => ⟨rfl, rfl⟩, ⟨by simp, hu3.2.1, hu3.2.2⟩,
                        ⟨by simp, ⟨fun _ => ⟨hlb, hrb⟩, hnl, hnr⟩, hps3⟩⟩
                    | ofRight pc pl px =>
                      exact ⟨fun _ => ⟨rfl, rfl⟩, ⟨by simp, hu3.2.1, hu3.2.2⟩,
                        ⟨by simp, hps3, ⟨fun _ => ⟨hlb, hrb⟩, hnl, hnr⟩⟩⟩)
                  (by
                    cases pf with
                    | ofLeft pc px ps =>
                      simp only [Frame.sibling] at hps1 hps2
                      refine ⟨?_, ⟨hul, hbul, hbur⟩, ⟨?_, ⟨hlr, hbl, hbr⟩, hps2⟩⟩
                      · simp only [Frame.plug, Frame.withColor, blackHeight, blackInc]; omega
                      · simp only [blackHeight, blackInc]; omega
                    | ofRight pc pl px =>
                      simp only [Frame.sibling] at hps1 hps2
                      refine ⟨?_, ⟨hul, hbul, hbur⟩, ⟨?_, hps2, ⟨hlr, hbl, hbr⟩⟩⟩
                      · simp only [Frame.plug, Frame.withColor, blackHeight, blackInc]; omega
                      · simp only [blackHeight, blackInc]; omega)
                  (by
                    have : blackHeight (Node.mk .RED (.mk .BLACK ul ux ur) gx
                        ((pf.withColor .BLACK).plug (.mk .RED l x r))) = blackHeight l + 1 := by
                      simp only [blackHeight, blackInc]; omega
                    rw [this]; exact hrest)
                  hrootR
                refine ⟨cur, root, h1, h2, h3, h4, h5.trans ?_⟩
                cases pf <;> simp [inorder_zip, inorder, ctxBefore, ctxAfter, Frame.plug,
                  Frame.withColor]
            · have hub := Node.colorOf_eq_black_of_ne_red huc
              simp only [huc, if_false]
              cases pf with
              | ofRight pc pl px =>
                simp only [Frame.sibling] at hps1 hps2 hps3 hpsb
                simp only [blackUncle_right_right, Option.bind]
                obtain ⟨cur, root, h1, h2, h3, h4, h5⟩ := ih
                  (.ofRight .BLACK (.mk .RED u gx pl) px :: rest) l x r
                  (by simp; omega) hn ⟨hlr, hbl, hbr⟩
                  ⟨by simp only [Frame.sibling, blackHeight, blackInc]; omega,
                    ⟨by omega, hu2, hps2⟩, ⟨fun _ => ⟨hub, hpsb⟩, hu3, hps3⟩, by simp [Frame.color],
                    by simpa [Frame.color, blackHeight, blackInc] using hrest⟩
                  (hrootF _ rfl)
                refine ⟨cur, root, h1, h2, h3, h4, h5.trans ?_⟩
                simp [inorder_zip, inorder, ctxBefore, ctxAfter]
              | ofLeft pc px ps =>
                simp only [Frame.sibling] at hps1 hps2 hps3 hpsb
                simp only [blackUncle_left_right, Option.bind]
                simp only [Frame.color] at hpc; subst hpc
                obtain ⟨cur, root, h1, h2, h3, h4, h5⟩ := ih
                  (.ofRight .BLACK (.mk .RED u gx l) x :: rest) r px ps
                  (by simp; omega) ⟨fun _ => ⟨hrb, hpsb⟩, hnr, hps3⟩ ⟨by omega, hbr, hps2⟩
                  ⟨by simp only [Frame.sibling, blackHeight, blackInc]; omega,
                    ⟨by omega, hu2, hbl⟩, ⟨fun _ => ⟨hub, hlb⟩, hu3, hnl⟩, by simp [Frame.color],
                    by simpa [Frame.color, blackHeight, blackInc, hlr] using hrest⟩
                  (hrootF _ rfl)
                refine ⟨cur, root, h1, h2, h3, h4, h5.trans ?_⟩
                simp [inorder_zip, inorder, ctxBefore, ctxAfter]
      · -- black parent: the loop ends at once
        have hpb := Frame.color_eq_black_of_ne_red hpc
        have hv := zip_valid (pf :: up) (.mk .RED l x r) hctx hb hn (by simp [ctxColor, hpb])
        exact ⟨⟨pf :: up, .mk .RED l x r⟩, zip (pf :: up) (.mk .RED l x r),
          fixTreeLoop_black fuel pf up _ hpc, zip_setColor_black _ _ _ hroot, hv.1, hv.2, rfl⟩

end RBT

namespace RBT
variable {α σ ω β : Type}

/-! ## The claims -/

/-- C5: in a tree that is BST-ordered under a comparator meeting the
contract, `RBTreeContains` returns non-zero exactly when some element of the
tree compares equal to the data, and then `findNodeInTree` returns a node of
this tree that holds that element. -/
theorem RBTreeContains_iff (t : RBTree α σ) (d : α)
    (hc : StrictTotalOrderCmp t.compFunc) (hb : BSTOrdered t.compFunc t.root) :
    (RBTreeContains (some t) d ≠ 0 ↔ ∃ e ∈ inorder t.root, t.compFunc d e = 0) ∧
      (∀ e ∈ inorder t.root, t.compFunc d e = 0 →
        ∃ p c l r, findNodeInTree t.root t.compFunc d [] = some p ∧
          p.node = .mk c l e r ∧ p.root = t.root) := by
  have hfind : ∀ e ∈ inorder t.root, t.compFunc d e = 0 →
      ∃ p c l r, findNodeInTree t.root t.compFunc d [] = some p ∧
        p.node = .mk c l e r ∧ p.root = t.root := by
    intro e hm he
    obtain ⟨p, c, l, r, hf, hn⟩ := findNodeInTree_complete hc t.root [] e hb hm he
    exact ⟨p, c, l, r, hf, hn, (findNodeInTree_some _ _ _ hf).1⟩
  refine ⟨?_, hfind⟩
  constructor
  · intro h
    unfold RBTreeContains at h
    cases hf : findNodeInTree t.root t.compFunc d [] with
    | none => simp [hf] at h
    | some p =>
      obtain ⟨-, c, l, e, r, -, he, hm⟩ := findNodeInTree_some _ _ _ hf
      exact ⟨e, hm, he⟩
  · rintro ⟨e, hm, he⟩
    obtain ⟨p, c, l, r, hf, -⟩ := hfind e hm he
    simp [RBTreeContains, hf]

theorem RBTreeContains_iff_witness :
    BSTOrdered exampleTree.compFunc exampleTree.root ∧
      (RBTreeContains (some exampleTree) 4 ≠ 0 ↔
        ∃ e ∈ inorder exampleTree.root, exampleTree.compFunc 4 e = 0) :=
  ⟨by decide, (RBTreeContains_iff exampleTree 4 intCmp_order (by decide)).1⟩

/-- C6: in a tree that is BST-ordered under a comparator meeting the contract,
inserting data that compares equal to an element of the tree returns
`FAILURE` and leaves the tree object as it was. -/
theorem insertToRBTree_duplicate (t : RBTree α σ) (d : α)
    (hc : StrictTotalOrderCmp t.compFunc) (hb : BSTOrdered t.compFunc t.root)
    (hd : ∃ e ∈ inorder t.root, t.compFunc d e = 0) :
    insertToRBTree (some t) (some d) = some (FAILURE, some t) := by
  obtain ⟨e, hm, he⟩ := hd
  have hw := basicInsertWalk_none hc t.root [] e hb hm he
  simp [insertToRBTree, basicInsert_eq_walk, hw]

theorem insertToRBTree_duplicate_witness :
    BSTOrdered exampleTree.compFunc exampleTree.root ∧
      (∃ e ∈ inorder exampleTree.root, exampleTree.compFunc 7 e = 0) ∧
      insertToRBTree (some exampleTree) (some 7) = some (FAILURE, some exampleTree) :=
  ⟨by decide, ⟨7, by decide, by decide⟩,
    insertToRBTree_duplicate exampleTree 7 intCmp_order (by decide) ⟨7, by decide, by decide⟩⟩

/-- C7: deleting data that compares equal to no element of the tree returns
`FAILURE`, leaves the tree object as it was and leaves the world of the
destructor as it was, whatever the destructor. -/
theorem deleteFromRBTree_absent (t : RBTree α σ) (d : α) (w : σ)
    (hd : ∀ e ∈ inorder t.root, t.compFunc d e ≠ 0) :
    deleteFromRBTree (some t) d w = some (FAILURE, some t, w) := by
  simp [deleteFromRBTree, findNodeInTree_none t.root [] hd]

theorem deleteFromRBTree_absent_witness :
    (∀ e ∈ inorder exampleTree.root, exampleTree.compFunc 6 e ≠ 0) ∧
      deleteFromRBTree (some exampleTree) 6 [] = some (FAILURE, some exampleTree, []) :=
  ⟨by decide, deleteFromRBTree_absent exampleTree 6 [] (by decide)⟩

/-- C9: on a BST-ordered tree, started with the flag `gFuncSucceeded` set,
with a visitor that returns success at every call of the traversal,
`forEachRBTree` calls the visitor once on every element, in the in-order
sequence (which is ascending), each time with the given context, and returns
success; the number of calls is the number of nodes. -/
theorem forEachRBTree_visits_all (t : RBTree α σ) (func : α → β → ω → Int × ω) (args : β)
    (w : ω) (hb : BSTOrdered t.compFunc t.root)
    (hok : ∀ p y q, inorder t.root = p ++ y :: q →
      (func y args (worldAfter func args p w)).1 ≠ FAILURE) :
    forEachRBTree (some t) (recordCalls func) args (YES, (w, [])) =
        (SUCCESS, (YES, (worldAfter func args (inorder t.root) w,
          (inorder t.root).map (fun x => (x, args))))) ∧
      ((inorder t.root).map (fun x => (x, args))).length = nodeCount t.root ∧
      (inorder t.root).Pairwise (fun a b => t.compFunc a b < 0) := by
  refine ⟨?_, by simp [nodeCount_eq_length], hb⟩
  simp only [forEachRBTree, forEachHelper_eq_visitList]
  rw [visitList_record_all func args (inorder t.root) YES w [] (by decide) hok]
  simp

theorem forEachRBTree_visits_all_witness :
    BSTOrdered exampleTree.compFunc exampleTree.root ∧
      forEachRBTree (some exampleTree) (recordCalls sumUpTo) 10 (YES, (0, [])) =
        (SUCCESS, (YES, (37, [(1, 10), (3, 10), (4, 10), (5, 10), (7, 10), (8, 10), (9, 10)]))) :=
  ⟨by decide,
    (forEachRBTree_visits_all exampleTree sumUpTo 10 0 (by decide) (by
      intro p y q h
      have hy : y ∈ inorder exampleTree.root := by rw [h]; simp
      have hle : y ≤ 10 := by
        simp [exampleTree, exampleRoot, inorder] at hy
        omega
      simp [sumUpTo, hle])).1⟩

/-- C10: started with the flag `gFuncSucceeded` set, with a visitor whose
first failing call in the in-order sequence is the one on the element `x`
(the `k`-th, `k = pre.length + 1`), `forEachRBTree` calls the visitor on the
first `k` elements of the in-order sequence, in that order, on no later
element, and returns failure; in a BST-ordered tree these are the `k`
smallest elements in ascending order. -/
theorem forEachRBTree_stops_at_failure (t : RBTree α σ) (func : α → β → ω → Int × ω)
    (args : β) (w : ω) (pre : List α) (x : α) (post : List α)
    (hsplit : inorder t.root = pre ++ x :: post)
    (hpre : ∀ p y q, pre = p ++ y :: q → (func y args (worldAfter func args p w)).1 ≠ FAILURE)
    (hx : (func x args (worldAfter func args pre w)).1 = FAILURE) :
    forEachRBTree (some t) (recordCalls func) args (YES, (w, [])) =
        (FAILURE, (NO, (worldAfter func args (pre ++ [x]) w,
          ((inorder t.root).take (pre.length + 1)).map (fun y => (y, args))))) ∧
      1 ≤ pre.length + 1 ∧ pre.length + 1 ≤ nodeCount t.root ∧
      (BSTOrdered t.compFunc t.root →
        (pre ++ [x]).Pairwise (fun a b => t.compFunc a b < 0) ∧
          ∀ a ∈ pre ++ [x], ∀ b ∈ post, t.compFunc a b < 0) := by
  refine ⟨?_, by omega, by simp [nodeCount_eq_length, hsplit], ?_⟩
  swap
  · intro hb
    have hb' : (pre ++ [x] ++ post).Pairwise (fun a b => t.compFunc a b < 0) := by
      have : pre ++ [x] ++ post = inorder t.root := by rw [hsplit]; simp
      rw [this]; exact hb
    rw [List.pairwise_append] at hb'
    exact ⟨hb'.1, hb'.2.2⟩
  simp only [forEachRBTree, forEachHelper_eq_visitList, hsplit]
  rw [visitList_record_fail func args pre x post w hpre hx]
  have : (pre ++ x :: post).take (pre.length + 1) = pre ++ [x] := by
    simp [List.take_append_eq_append_take]
  simp [this]

theorem forEachRBTree_stops_at_failure_witness :
    forEachRBTree (some exampleTree) (recordCalls sumUpTo) 4 (YES, (0, [])) =
        (FAILURE, (NO, (13, [(1, 4), (3, 4), (4, 4), (5, 4)]))) :=
  (forEachRBTree_stops_at_failure exampleTree sumUpTo 4 0 [1, 3, 4] 5 [7, 8, 9] (by decide)
    (by
      intro p y q h
      have hy : y ∈ [1, 3, 4] := by rw [h]; simp
      have hle : y ≤ 4 := by
        simp at hy
        omega
      simp [sumUpTo, hle])
    (by decide)).1

end RBT

namespace RBT
variable {α σ ω β : Type}

/-! ### Deletion fixup: what each case computes -/

theorem delete3_root (fuel : Nat) (n : Node α) :
    delete3 (fuel + 1) ⟨[], n⟩ = some ⟨[], n⟩ := rfl

theorem delete3_left (fuel : Nat) (pc sc : Color) (px sx : α) (sl sr : Node α) (up : Ctx α)
    (n : Node α) :
    delete3 (fuel + 1) ⟨.ofLeft pc px (.mk sc sl sx sr) :: up, n⟩ =
      if sc = .BLACK then
        delete4 (delete3 fuel) ⟨.ofLeft pc px (.mk sc sl sx sr) :: up, n⟩ LEFT_CHILD
      else delete5 (delete3 fuel) ⟨.ofLeft pc px (.mk sc sl sx sr) :: up, n⟩ LEFT_CHILD := rfl

theorem delete3_right (fuel : Nat) (pc sc : Color) (px sx : α) (sl sr : Node α) (up : Ctx α)
    (n : Node α) :
    delete3 (fuel + 1) ⟨.ofRight pc (.mk sc sl sx sr) px :: up, n⟩ =
      if sc = .BLACK then
        delete4 (delete3 fuel) ⟨.ofRight pc (.mk sc sl sx sr) px :: up, n⟩ RIGHT_CHILD
      else delete5 (delete3 fuel) ⟨.ofRight pc (.mk sc sl sx sr) px :: up, n⟩ RIGHT_CHILD := rfl

theorem delete5_left (rec : Loc α → Option (Loc α)) (pc sc : Color) (px sx : α)
    (sl sr : Node α) (up : Ctx α) (n : Node α) :
    delete5 rec ⟨.ofLeft pc px (.mk sc sl sx sr) :: up, n⟩ LEFT_CHILD =
      rec ⟨.ofLeft .RED px sl :: .ofLeft .BLACK sx sr :: up, n⟩ := rfl

theorem delete5_right (rec : Loc α → Option (Loc α)) (pc sc : Color) (px sx : α)
    (sl sr : Node α) (up : Ctx α) (n : Node α) :
    delete5 rec ⟨.ofRight pc (.mk sc sl sx sr) px :: up, n⟩ RIGHT_CHILD =
      rec ⟨.ofRight .RED sr px :: .ofRight .BLACK sl sx :: up, n⟩ := rfl

theorem delete6_left_red (rec : Loc α → Option (Loc α)) (sc : Color) (px sx : α)
    (sl sr : Node α) (up : Ctx α) (n : Node α) :
    delete6 rec ⟨.ofLeft .RED px (.mk sc sl sx sr) :: up, n⟩ =
      some ⟨.ofLeft .BLACK px (.mk .RED sl sx sr) :: up, n⟩ := rfl

theorem delete6_right_red (rec : Loc α → Option (Loc α)) (sc : Color) (px sx : α)
    (sl sr : Node α) (up : Ctx α) (n : Node α) :
    delete6 rec ⟨.ofRight .RED (.mk sc sl sx sr) px :: up, n⟩ =
      some ⟨.ofRight .BLACK (.mk .RED sl sx sr) px :: up, n⟩ := rfl

theorem delete6_left_black (rec : Loc α → Option (Loc α)) (sc : Color) (px sx : α)
    (sl sr : Node α) (up : Ctx α) (n : Node α) :
    delete6 rec ⟨.ofLeft .BLACK px (.mk sc sl sx sr) :: up, n⟩ =
      (rec ⟨up, .mk .BLACK n px (.mk .RED sl sx sr)⟩).bind (fun p => p.left) := rfl

theorem delete6_right_black (rec : Loc α → Option (Loc α)) (sc : Color) (px sx : α)
    (sl sr : Node α) (up : Ctx α) (n : Node α) :
    delete6 rec ⟨.ofRight .BLACK (.mk sc sl sx sr) px :: up, n⟩ =
      (rec ⟨up, .mk .BLACK (.mk .RED sl sx sr) px n⟩).bind (fun p => p.right) := rfl

theorem delete4_caseB (rec : Loc α → Option (Loc α)) (f : Frame α) (up : Ctx α) (n : Node α)
    (whichChild : Int) (sc : Color) (sl sr : Node α) (sx : α)
    (hs : f.sibling = .mk sc sl sx sr)
    (hl : sl.colorOf = .BLACK) (hr : sr.colorOf = .BLACK) :
    delete4 rec ⟨f :: up, n⟩ whichChild = delete6 rec ⟨f :: up, n⟩ := by
  cases f with
  | ofLeft pc px s =>
    simp only [Frame.sibling] at hs; subst hs
    simp [delete4, Loc.brother, hl, hr]
  | ofRight pc s px =>
    simp only [Frame.sibling] at hs; subst hs
    simp [delete4, Loc.brother, hl, hr]

theorem delete4_left_caseE (rec : Loc α → Option (Loc α)) (pc sc : Color) (px sx srx : α)
    (sl srl srr : Node α) (up : Ctx α) (n : Node α) :
    delete4 rec ⟨.ofLeft pc px (.mk sc sl sx (.mk .RED srl srx srr)) :: up, n⟩ LEFT_CHILD =
      some ⟨.ofLeft .BLACK px sl :: .ofLeft pc sx (.mk .BLACK srl srx srr) :: up, n⟩ := by
  rcases sl with _ | ⟨_ | _, _, _, _⟩ <;> rfl

theorem delete4_right_caseE (rec : Loc α → Option (Loc α)) (pc sc : Color) (px sx slx : α)
    (sr sll slr : Node α) (up : Ctx α) (n : Node α) :
    delete4 rec ⟨.ofRight pc (.mk sc (.mk .RED sll slx slr) sx sr) px :: up, n⟩ RIGHT_CHILD =
      some ⟨.ofRight .BLACK sr px :: .ofRight pc (.mk .BLACK sll slx slr) sx :: up, n⟩ := by
  rcases sr with _ | ⟨_ | _, _, _, _⟩ <;> rfl

theorem delete4_left_caseD (rec : Loc α → Option (Loc α)) (pc sc : Color) (px sx slx : α)
    (sr sll slr : Node α) (up : Ctx α) (n : Node α) (hr : sr.colorOf = .BLACK) :
    delete4 rec ⟨.ofLeft pc px (.mk sc (.mk .RED sll slx slr) sx sr) :: up, n⟩ LEFT_CHILD =
      some ⟨.ofLeft .BLACK px sll :: .ofLeft pc slx (.mk .BLACK slr sx sr) :: up, n⟩ := by
  rcases sr with _ | ⟨_ | _, _, _, _⟩
  · rfl
  · simp [Node.colorOf] at hr
  · rfl

theorem delete4_right_caseD (rec : Loc α → Option (Loc α)) (pc sc : Color) (px sx srx : α)
    (sl srl srr : Node α) (up : Ctx α) (n : Node α) (hl : sl.colorOf = .BLACK) :
    delete4 rec ⟨.ofRight pc (.mk sc sl sx (.mk .RED srl srx srr)) px :: up, n⟩ RIGHT_CHILD =
      some ⟨.ofRight .BLACK srr px :: .ofRight pc (.mk .BLACK sl sx srl) srx :: up, n⟩ := by
  rcases sl with _ | ⟨_ | _, _, _, _⟩
  · rfl
  · simp [Node.colorOf] at hl
  · rfl

end RBT

namespace RBT
variable {α σ ω β : Type}

/-! ### Deletion fixup: invariants -/

theorem delete3Fuel_pos (ctx : Ctx α) : 1 ≤ delete3Fuel ctx := by
  cases ctx <;> simp [delete3Fuel]
  omega

theorem CtxRootBlack.replace_head {f g : Frame α} {up : Ctx α} (h : CtxRootBlack (f :: up))
    (hg : up = [] → g.color = .BLACK) : CtxRootBlack (g :: up) := by
  cases up with
  | nil => exact hg rfl
  | cons g' up' => exact h

theorem blackHeight_pos_ne_null {t : Node α} {k : Nat} (h : blackHeight t = k + 1) :
    ∃ c l x r, t = .mk c l x r := by
  cases t with
  | NULL => simp [blackHeight] at h
  | mk c l x r => exact ⟨c, l, x, r, rfl⟩

theorem colorOf_red {t : Node α} (h : t.colorOf = .RED) : ∃ l x r, t = .mk .RED l x r := by
  cases t with
  | NULL => simp [Node.colorOf] at h
  | mk c l x r => simp only [Node.colorOf] at h; subst h; exact ⟨l, x, r, rfl⟩

set_option maxHeartbeats 1000000 in
theorem delete3_step_left (fuel : Nat) (ih : Delete3Ok (@delete3 α fuel) fuel)
    (pc : Color) (px : α) (s : Node α) (up : Ctx α) (n : Node α) (k : Nat)
    (hfuel : delete3Fuel (.ofLeft pc px s :: up) ≤ fuel + 1)
    (hctx : CtxRB (.ofLeft pc px s :: up) (k + 1))
    (hroot : CtxRootBlack (.ofLeft pc px s :: up)) :
    ∃ ctx', delete3 (fuel + 1) ⟨.ofLeft pc px s :: up, n⟩ = some ⟨ctx', n⟩ ∧ CtxRB ctx' k ∧
      CtxRootBlack ctx' ∧ ctxBefore ctx' = ctxBefore (.ofLeft pc px s :: up) ∧
      ctxAfter ctx' = ctxAfter (.ofLeft pc px s :: up) ∧
      (ctx' = [] ↔ Frame.ofLeft pc px s :: up = []) := by
  obtain ⟨hs1, hs2, hs3, hpred, hup⟩ := hctx
  simp only [Frame.sibling] at hs1 hs2 hs3 hpred
  simp only [Frame.color] at hpred hup
  obtain ⟨sc, sl, sx, sr, rfl⟩ := blackHeight_pos_ne_null hs1
  simp only [delete3Fuel, Frame.sibling, nodeCount] at hfuel
  obtain ⟨hslr, hbsl, hbsr⟩ := hs2
  obtain ⟨hsred, hnsl, hnsr⟩ := hs3
  rw [delete3_left]
  cases sc with
  | BLACK =>
    simp only [if_true]
    simp only [blackHeight, blackInc] at hs1
    have hsl : blackHeight sl = k := by omega
    have hsr : blackHeight sr = k := by omega
    by_cases hr : sr.colorOf = .RED
    · -- case 3E
      obtain ⟨srl, srx, srr, rfl⟩ := colorOf_red hr
      rw [delete4_left_caseE]
      refine ⟨_, rfl, ?_, hroot.replace_head (fun h => ?_), ?_, ?_, by simp⟩
      · simp only [blackHeight, blackInc, Nat.add_zero] at hsr
        refine ⟨hsl, hbsl, hnsl, by simp [Frame.color], ?_, ?_, ?_, ?_, hup⟩
        · simp only [Frame.sibling, Frame.color, blackHeight, blackInc]; omega
        · exact hbsr
        · exact ⟨by simp, hnsr.2.1, hnsr.2.2⟩
        · intro hp
          exact ⟨rfl, (hpred hp).2⟩
      · subst h
        exact hroot
      · simp [ctxBefore]
      · simp [ctxAfter, inorder]
    · have hrb := Node.colorOf_eq_black_of_ne_red hr
      by_cases hl : sl.colorOf = .RED
      · -- case 3D, then 3E
        obtain ⟨sll, slx, slr, rfl⟩ := colorOf_red hl
        rw [delete4_left_caseD _ _ _ _ _ _ _ _ _ _ _ hrb]
        simp only [blackHeight, blackInc, Nat.add_zero] at hsl hslr
        obtain ⟨hsll, hbsll, hbslr⟩ := hbsl
        refine ⟨_, rfl, ?_, hroot.replace_head (fun h => ?_), ?_, ?_, by simp⟩
        · refine ⟨hsl, hbsll, hnsl.2.1, by simp [Frame.color], ?_, ?_, ?_, ?_, hup⟩
          · simp only [Frame.sibling, Frame.color, blackHeight, blackInc]; omega
          · exact ⟨by omega, hbslr, hbsr⟩
          · exact ⟨by simp, hnsl.2.2, hnsr⟩
          · intro hp
            exact ⟨rfl, (hpred hp).2⟩
        · subst h
          exact hroot
        · simp [ctxBefore]
        · simp [ctxAfter, inorder]
      · -- case 3B
        have hlb := Node.colorOf_eq_black_of_ne_red hl
        rw [delete4_caseB _ (.ofLeft pc px (.mk .BLACK sl sx sr)) up n _ .BLACK sl sr sx rfl hlb hrb]
        cases pc with
        | RED =>
          rw [delete6_left_red]
          refine ⟨_, rfl, ?_, hroot.replace_head (fun _ => rfl), ?_, ?_, by simp⟩
          · refine ⟨?_, ⟨hslr, hbsl, hbsr⟩, ⟨fun _ => ⟨hlb, hrb⟩, hnsl, hnsr⟩,
              by simp [Frame.color], ?_⟩
            · simp only [Frame.sibling, Frame.color, blackHeight, blackInc]; omega
            · simpa [Frame.color, blackInc] using hup
          · simp [ctxBefore]
          · simp [ctxAfter, inorder]
        | BLACK =>
          rw [delete6_left_black]
          obtain ⟨up', h1, h2, h3, h4, h5, h6⟩ := ih up
            (.mk .BLACK n px (.mk .RED sl sx sr)) (k + 1) (by omega)
            (by simpa [blackInc] using hup) hroot.tail
          rw [h1]
          refine ⟨.ofLeft .BLACK px (.mk .RED sl sx sr) :: up', rfl, ?_, ?_, ?_, ?_, by simp⟩
          · refine ⟨?_, ⟨hslr, hbsl, hbsr⟩, ⟨fun _ => ⟨hlb, hrb⟩, hnsl, hnsr⟩,
              by simp [Frame.color], ?_⟩
            · simp only [Frame.sibling, Frame.color, blackHeight, blackInc]; omega
            · simpa [Frame.color, blackInc] using h2
          · cases up' with
            | nil =>
              have : up = [] := h6.1 rfl
              subst this
              exact hroot
            | cons g up'' => exact h3
          · simp [ctxBefore, h4]
          · simp [ctxAfter, inorder, h5]
  | RED =>
    simp only [reduceCtorEq, if_false]
    -- case 3C: the parent of a red node is black
    have hpc : pc = .BLACK := by
      cases pc with
      | BLACK => rfl
      | RED => have := (hpred rfl).1; simp [Node.colorOf] at this
    subst hpc
    rw [delete5_left]
    simp only [blackHeight, blackInc, Nat.add_zero] at hs1
    have hsrk : blackHeight sr = k + 1 := by omega
    obtain ⟨ctx', h1, h2, h3, h4, h5, h6⟩ := ih
      (.ofLeft .RED px sl :: .ofLeft .BLACK sx sr :: up) n k
      (by simp only [delete3Fuel, Frame.sibling]; omega)
      ⟨hs1, hbsl, hnsl, fun _ => ⟨(hsred rfl).1, rfl⟩, hsrk, hbsr, hnsr, by simp [Frame.color],
        by simpa [Frame.color, blackInc] using hup⟩
      (hroot.replace_head (fun _ => rfl))
    refine ⟨ctx', h1, h2, h3, ?_, ?_, by simp [h6]⟩
    · simp [h4, ctxBefore]
    · simp [h5, ctxAfter, inorder]

end RBT

namespace RBT
variable {α σ ω β : Type}

set_option maxHeartbeats 1000000 in
theorem delete3_step_right (fuel : Nat) (ih : Delete3Ok (@delete3 α fuel) fuel)
    (pc : Color) (px : α) (s : Node α) (up : Ctx α) (n : Node α) (k : Nat)
    (hfuel : delete3Fuel (.ofRight pc s px :: up) ≤ fuel + 1)
    (hctx : CtxRB (.ofRight pc s px :: up) (k + 1))
    (hroot : CtxRootBlack (.ofRight pc s px :: up)) :
    ∃ ctx', delete3 (fuel + 1) ⟨.ofRight pc s px :: up, n⟩ = some ⟨ctx', n⟩ ∧ CtxRB ctx' k ∧
      CtxRootBlack ctx' ∧ ctxBefore ctx' = ctxBefore (.ofRight pc s px :: up) ∧
      ctxAfter ctx' = ctxAfter (.ofRight pc s px :: up) ∧
      (ctx' = [] ↔ Frame.ofRight pc s px :: up = []) := by
  obtain ⟨hs1, hs2, hs3, hpred, hup⟩ := hctx
  simp only [Frame.sibling] at hs1 hs2 hs3 hpred
  simp only [Frame.color] at hpred hup
  obtain ⟨sc, sl, sx, sr, rfl⟩ := blackHeight_pos_ne_null hs1
  simp only [delete3Fuel, Frame.sibling, nodeCount] at hfuel
  obtain ⟨hslr, hbsl, hbsr⟩ := hs2
  obtain ⟨hsred, hnsl, hnsr⟩ := hs3
  rw [delete3_right]
  cases sc with
  | BLACK =>
    simp only [if_true]
    simp only [blackHeight, blackInc] at hs1
    have hsl : blackHeight sl = k := by omega
    have hsr : blackHeight sr = k := by omega
    by_cases hl : sl.colorOf = .RED
    · -- case 3E
      obtain ⟨sll, slx, slr, rfl⟩ := colorOf_red hl
      rw [delete4_right_caseE]
      simp only [blackHeight, blackInc, Nat.add_zero] at hsl hslr
      obtain ⟨hsll, hbsll, hbslr⟩ := hbsl
      refine ⟨_, rfl, ?_, hroot.replace_head (fun h => ?_), ?_, ?_, by simp⟩
      · refine ⟨hsr, hbsr, hnsr, by simp [Frame.color], ?_, ?_, ?_, ?_, hup⟩
        · simp only [Frame.sibling, Frame.color, blackHeight, blackInc]; omega
        · exact ⟨hsll, hbsll, hbslr⟩
        · exact ⟨by simp, hnsl.2.1, hnsl.2.2⟩
        · intro hp
          exact ⟨rfl, (hpred hp).2⟩
      · subst h
        exact hroot
      · simp [ctxBefore, inorder]
      · simp [ctxAfter]
    · have hlb := Node.colorOf_eq_black_of_ne_red hl
      by_cases hr : sr.colorOf = .RED
      · -- case 3D, then 3E
        obtain ⟨srl, srx, srr, rfl⟩ := colorOf_red hr
        rw [delete4_right_caseD _ _ _ _ _ _ _ _ _ _ _ hlb]
        simp only [blackHeight, blackInc, Nat.add_zero] at hsr hslr
        obtain ⟨hsrl, hbsrl, hbsrr⟩ := hbsr
        refine ⟨_, rfl, ?_, hroot.replace_head (fun h => ?_), ?_, ?_, by simp⟩
        · refine ⟨by simp only [Frame.sibling]; omega, hbsrr, hnsr.2.2, by simp [Frame.color],
            ?_, ?_, ?_, ?_, hup⟩
          · simp only [Frame.sibling, Frame.color, blackHeight, blackInc]; omega
          · exact ⟨by omega, hbsl, hbsrl⟩
          · exact ⟨by simp, hnsl, hnsr.2.1⟩
          · intro hp
            exact ⟨rfl, (hpred hp).2⟩
        · subst h
          exact hroot
        · simp [ctxBefore, inorder]
        · simp [ctxAfter]
      · -- case 3B
        have hrb := Node.colorOf_eq_black_of_ne_red hr
        rw [delete4_caseB _ (.ofRight pc (.mk .BLACK sl sx sr) px) up n _ .BLACK sl sr sx rfl
          hlb hrb]
        cases pc with
        | RED =>
          rw [delete6_right_red]
          refine ⟨_, rfl, ?_, hroot.replace_head (fun _ => rfl), ?_, ?_, by simp⟩
          · refine ⟨?_, ⟨hslr, hbsl, hbsr⟩, ⟨fun _ => ⟨hlb, hrb⟩, hnsl, hnsr⟩,
              by simp [Frame.color], ?_⟩
            · simp only [Frame.sibling, Frame.color, blackHeight, blackInc]; omega
            · simpa [Frame.color, blackInc] using hup
          · simp [ctxBefore, inorder]
          · simp [ctxAfter]
        | BLACK =>
          rw [delete6_right_black]
          obtain ⟨up', h1, h2, h3, h4, h5, h6⟩ := ih up
            (.mk .BLACK (.mk .RED sl sx sr) px n) (k + 1) (by omega)
            (by simpa [blackInc] using hup) hroot.tail
          rw [h1]
          refine ⟨.ofRight .BLACK (.mk .RED sl sx sr) px :: up', rfl, ?_, ?_, ?_, ?_, by simp⟩
          · refine ⟨?_, ⟨hslr, hbsl, hbsr⟩, ⟨fun _ => ⟨hlb, hrb⟩, hnsl, hnsr⟩,
              by simp [Frame.color], ?_⟩
            · simp only [Frame.sibling, Frame.color, blackHeight, blackInc]; omega
            · simpa [Frame.color, blackInc] using h2
          · cases up' with
            | nil =>
              have : up = [] := h6.1 rfl
              subst this
              exact hroot
            | cons g up'' => exact h3
          · simp [ctxBefore, inorder, h4]
          · simp [ctxAfter, h5]
  | RED =>
    simp only [reduceCtorEq, if_false]
    have hpc : pc = .BLACK := by
      cases pc with
      | BLACK => rfl
      | RED => have := (hpred rfl).1; simp [Node.colorOf] at this
    subst hpc
    rw [delete5_right]
    simp only [blackHeight, blackInc, Nat.add_zero] at hs1
    have hsrk : blackHeight sr = k + 1 := by omega
    obtain ⟨ctx', h1, h2, h3, h4, h5, h6⟩ := ih
      (.ofRight .RED sr px :: .ofRight .BLACK sl sx :: up) n k
      (by simp only [delete3Fuel, Frame.sibling]; omega)
      ⟨hsrk, hbsr, hnsr, fun _ => ⟨(hsred rfl).2, rfl⟩, hs1, hbsl, hnsl, by simp [Frame.color],
        by simpa [Frame.color, blackInc] using hup⟩
      (hroot.replace_head (fun _ => rfl))
    refine ⟨ctx', h1, h2, h3, ?_, ?_, by simp [h6]⟩
    · simp [h4, ctxBefore, inorder]
    · simp [h5, ctxAfter]

/-- The deletion fixup with the fuel `delete3Fuel` gives never runs out and
restores the invariants. -/
theorem delete3_spec : ∀ fuel : Nat, Delete3Ok (@delete3 α fuel) fuel := by
  intro fuel
  induction fuel with
  | zero =>
    intro ctx n k hf
    have := delete3Fuel_pos ctx
    omega
  | succ fuel ih =>
    intro ctx n k hf hctx hroot
    cases ctx with
    | nil => exact ⟨[], rfl, trivial, trivial, rfl, rfl, Iff.rfl⟩
    | cons f up =>
      cases f with
      | ofLeft pc px s => exact delete3_step_left fuel ih pc px s up n k hf hctx hroot
      | ofRight pc s px => exact delete3_step_right fuel ih pc px s up n k hf hctx hroot

end RBT

namespace RBT
variable {α σ ω β : Type}

/-! ### Successor and data swap -/

theorem zip_append (rel ctx : Ctx α) (t : Node α) :
    zip (rel ++ ctx) t = zip ctx (zip rel t) := by
  induction rel generalizing t with
  | nil => rfl
  | cons f rel ih => simp [zip, ih]

theorem setDataAt_append (d : α) (c : Color) (l : Node α) (x : α) (ctx1 : Ctx α) :
    ∀ rel : Ctx α,
      setDataAt d rel.length (rel ++ .ofRight c l x :: ctx1) = rel ++ .ofRight c l d :: ctx1 := by
  intro rel
  induction rel with
  | nil => rfl
  | cons f rel ih => simp [setDataAt, ih]

/-- The loop of `getSuccFromRightChild` ends at a node without left child,
reached through `left` links only. -/
theorem getSuccLoop_spec : ∀ (t : Node α) (ctx0 : Ctx α), t ≠ .NULL →
    ∃ rel sc s sr after, getSuccLoop t ctx0 = some ⟨rel ++ ctx0, .mk sc .NULL s sr⟩ ∧
      zip rel (.mk sc .NULL s sr) = t ∧ inorder t = s :: inorder sr ++ after ∧
      (∀ ctx1, ctxBefore (rel ++ ctx1) = ctxBefore ctx1) ∧
      (∀ ctx1, ctxAfter (rel ++ ctx1) = after ++ ctxAfter ctx1) := by
  intro t
  induction t with
  | NULL => intro ctx0 h; exact absurd rfl h
  | mk c l x r ihl _ =>
    intro ctx0 _
    cases l with
    | NULL =>
      exact ⟨[], c, x, r, [], rfl, rfl, by simp [inorder], fun _ => rfl, fun _ => rfl⟩
    | mk lc ll lx lr =>
      obtain ⟨rel, sc, s, sr, after, h1, h2, h3, h4, h5⟩ :=
        ihl (.ofLeft c x r :: ctx0) (by simp)
      have hstep : getSuccLoop (.mk c (.mk lc ll lx lr) x r) ctx0 =
          getSuccLoop (.mk lc ll lx lr) (.ofLeft c x r :: ctx0) := rfl
      refine ⟨rel ++ [.ofLeft c x r], sc, s, sr, after ++ x :: inorder r, ?_, ?_, ?_, ?_, ?_⟩
      · rw [hstep, h1]
        simp
      · rw [zip_append, h2]; rfl
      · rw [inorder, h3]; simp
      · intro ctx1
        simpa [ctxBefore] using h4 (.ofLeft c x r :: ctx1)
      · intro ctx1
        simpa [ctxAfter] using h5 (.ofLeft c x r :: ctx1)

theorem ctxColor_setDataAt (d : α) (k : Nat) (ctx : Ctx α) :
    ctxColor (setDataAt d k ctx) = ctxColor ctx := by
  cases ctx with
  | nil => cases k <;> rfl
  | cons f up =>
    cases k with
    | zero => cases f <;> rfl
    | succ k => rfl

theorem CtxRB_setDataAt (d : α) : ∀ (k : Nat) (ctx : Ctx α) (n : Nat),
    CtxRB (setDataAt d k ctx) n ↔ CtxRB ctx n := by
  intro k ctx
  induction ctx generalizing k with
  | nil => intro n; cases k <;> exact Iff.rfl
  | cons f up ih =>
    intro n
    cases k with
    | zero => cases f <;> exact Iff.rfl
    | succ k =>
      simp only [setDataAt, CtxRB, ctxColor_setDataAt, ih]

theorem CtxRootBlack_setDataAt (d : α) : ∀ (k : Nat) (ctx : Ctx α),
    CtxRootBlack (setDataAt d k ctx) ↔ CtxRootBlack ctx := by
  intro k ctx
  induction ctx generalizing k with
  | nil => cases k <;> exact Iff.rfl
  | cons f up ih =>
    cases k with
    | zero =>
      cases f <;> cases up <;> exact Iff.rfl
    | succ k =>
      cases up with
      | nil => cases k <;> exact Iff.rfl
      | cons g up' =>
        have := ih k
        cases k with
        | zero => cases g <;> cases up' <;> exact Iff.rfl
        | succ k' => simpa [setDataAt, CtxRootBlack] using this

end RBT

namespace RBT
variable {α σ ω β : Type}

/-! ### Insertion as a whole -/

theorem setColor_colorOf {c : Color} {t r : Node α} (h : t.setColor c = some r) :
    r.colorOf = c := by
  cases t with
  | NULL => simp [Node.setColor] at h
  | mk c' l x r' => simp [Node.setColor] at h; subst h; rfl

/-- What `insertToRBTree` does once the walk of `basicInsert` has ended at an
absent child, in a tree that satisfies the colour invariants. -/
theorem insertToRBTree_after_walk (t : RBTree α σ) (d : α) (ctx : Ctx α)
    (hw : basicInsertWalk d t.compFunc t.root [] = some ctx)
    (hrb : RootBlack t.root) (hn : NoRedRed t.root) (hb : Balanced t.root) :
    ∃ root, insertToRBTree (some t) (some d) =
        some (SUCCESS, some { t with root := root, size := t.size + 1 }) ∧
      RootBlack root ∧ NoRedRed root ∧ Balanced root ∧
      inorder root = ctxBefore ctx ++ d :: ctxAfter ctx := by
  have hz : zip ctx .NULL = t.root := basicInsertWalk_zip t.root [] ctx hw
  rw [← hz] at hrb hn hb
  obtain ⟨hctx, -, -, -⟩ := unzip_valid ctx .NULL hb hn
  have hnew : NoRedRed (createNewNode d) := ⟨fun _ => ⟨rfl, rfl⟩, trivial, trivial⟩
  have hbnew : Balanced (createNewNode d) := ⟨rfl, trivial, trivial⟩
  have hins : insertToRBTree (some t) (some d) =
      match ctx with
      | [] => ((createNewNode d).setColor .BLACK).map
          fun r => (SUCCESS, some { t with root := r, size := t.size + 1 })
      | f :: _ =>
        if f.color = .RED then
          (fixTreeAfterInsertion ⟨ctx, createNewNode d⟩).map
            fun r => (SUCCESS, some { t with root := r, size := t.size + 1 })
        else some (SUCCESS, some { t with root := zip ctx (createNewNode d), size := t.size + 1 }) := by
    simp only [insertToRBTree, basicInsert_eq_walk, hw, Option.map_some']
    cases ctx <;> rfl
  rw [hins]
  cases ctx with
  | nil =>
    refine ⟨.mk .BLACK .NULL d .NULL, rfl, rfl, ⟨by simp, trivial, trivial⟩,
      ⟨rfl, trivial, trivial⟩, by simp [inorder, ctxBefore, ctxAfter]⟩
  | cons f up =>
    have hroot : CtxRootBlack (f :: up) := (zip_colorOf_cons f up .NULL).1 hrb
    by_cases hf : f.color = .RED
    · simp only [hf, if_true]
      obtain ⟨cur, root, h1, h2, h3, h4, h5⟩ := fixTreeLoop_spec ((f :: up).length + 1) (f :: up)
        .NULL d .NULL (by omega) hnew hbnew hctx hroot
      refine ⟨root, ?_, setColor_colorOf h2, h4, h3, ?_⟩
      · simp only [fixTreeAfterInsertion, createNewNode]
        rw [h1]
        simp only [Option.bind_eq_bind, Option.some_bind, h2, Option.map_some']
      · rw [h5, inorder_zip]
        simp [inorder]
    · simp only [hf, if_false]
      have hv := zip_valid (f :: up) (createNewNode d) hctx hbnew hnew
        (by simp [ctxColor, Frame.color_eq_black_of_ne_red hf])
      refine ⟨_, rfl, (zip_colorOf_cons f up _).2 hroot, hv.2, hv.1, ?_⟩
      rw [inorder_zip]
      simp [inorder, createNewNode]

end RBT

namespace RBT
variable {α σ ω β : Type}

/-! ### Removing a node with at most one child -/

theorem delete2_red (f : Frame α) (up : Ctx α) (l r : Node α) (x : α) :
    delete2 ⟨f :: up, .mk .RED l x r⟩ = some (zip (f :: up) .NULL) := rfl

theorem delete2_black_leaf (ctx : Ctx α) (x : α) :
    delete2 ⟨ctx, .mk .BLACK .NULL x .NULL⟩ =
      (delete3 (delete3Fuel ctx) ⟨ctx, .mk .BLACK .NULL x .NULL⟩).bind
        (fun n => match n.ctx with
          | [] => none
          | _ :: _ => some (zip n.ctx .NULL)) := rfl

theorem delete2_black_left (ctx : Ctx α) (x cx : α) (cc : Color) (cl cr : Node α) :
    delete2 ⟨ctx, .mk .BLACK (.mk cc cl cx cr) x .NULL⟩ = some (zip ctx (.mk .BLACK cl cx cr)) :=
  rfl

theorem delete2_black_right (ctx : Ctx α) (x cx : α) (cc : Color) (l cl cr : Node α) :
    delete2 ⟨ctx, .mk .BLACK l x (.mk cc cl cx cr)⟩ = some (zip ctx (.mk .BLACK cl cx cr)) :=
  rfl

theorem eq_null_of_blackHeight_zero {t : Node α} (h : blackHeight t = 0)
    (hc : t.colorOf = .BLACK) : t = .NULL := by
  cases t with
  | NULL => rfl
  | mk c l x r =>
    simp only [Node.colorOf] at hc; subst hc
    simp [blackHeight, blackInc] at h

theorem rootBlack_zip (ctx : Ctx α) (t : Node α) (hroot : CtxRootBlack ctx)
    (ht : ctx = [] → t.colorOf = .BLACK) : RootBlack (zip ctx t) := by
  cases ctx with
  | nil => exact ht rfl
  | cons f up => exact (zip_colorOf_cons f up t).2 hroot

/-- `delete2` at a node with at most one child, in a tree that satisfies the
colour invariants and has more than this one node: the result satisfies the
invariants, and its in-order sequence is the old one without the node's
data. -/
theorem delete2_spec (ctx : Ctx α) (c : Color) (l : Node α) (x : α) (r : Node α)
    (hctx : CtxRB ctx (blackHeight (Node.mk c l x r))) (hbn : Balanced (.mk c l x r))
    (hnn : NoRedRed (.mk c l x r)) (hcol : ctxColor ctx = .RED → c = .BLACK)
    (hroot : CtxRootBlack ctx) (hrootc : ctx = [] → c = .BLACK)
    (hone : l = .NULL ∨ r = .NULL) (hnot : ¬ (ctx = [] ∧ l = .NULL ∧ r = .NULL)) :
    ∃ root, delete2 ⟨ctx, .mk c l x r⟩ = some root ∧ RootBlack root ∧ NoRedRed root ∧
      Balanced root ∧ inorder root = ctxBefore ctx ++ (inorder l ++ inorder r) ++ ctxAfter ctx := by
  obtain ⟨hlr, hbl, hbr⟩ := hbn
  obtain ⟨hred, hnl, hnr⟩ := hnn
  cases c with
  | RED =>
    -- a red node with an absent child has no child at all
    obtain ⟨hlb, hrb⟩ := hred rfl
    have hl0 : blackHeight l = 0 := by
      rcases hone with h | h
      · subst h; rfl
      · subst h; simpa [blackHeight] using hlr
    have hr0 : blackHeight r = 0 := by omega
    have hl := eq_null_of_blackHeight_zero hl0 hlb
    have hr := eq_null_of_blackHeight_zero hr0 hrb
    subst hl hr
    cases ctx with
    | nil => have := hrootc rfl; cases this
    | cons f up =>
      rw [delete2_red]
      have hv := zip_valid (f :: up) .NULL (by simpa [blackHeight, blackInc] using hctx)
        trivial trivial (fun _ => rfl)
      exact ⟨_, rfl, (zip_colorOf_cons f up _).2 hroot, hv.2, hv.1, by
        rw [inorder_zip]; simp [inorder]⟩
  | BLACK =>
    cases r with
    | mk cc cl cx cr =>
      have hl : l = .NULL := by
        rcases hone with h | h
        · exact h
        · cases h
      subst hl
      rw [delete2_black_right]
      simp only [blackHeight, blackInc] at hlr hctx
      have hv := zip_valid ctx (.mk .BLACK cl cx cr)
        (by simp only [blackHeight, blackInc]; rw [show blackHeight cl + 1 = 0 + 1 by omega]
            exact hctx)
        hbr ⟨by simp, hnr.2.1, hnr.2.2⟩ (fun _ => rfl)
      exact ⟨_, rfl, rootBlack_zip ctx _ hroot (fun _ => rfl), hv.2, hv.1, by
        rw [inorder_zip]; simp [inorder]⟩
    | NULL =>
      cases l with
      | mk cc cl cx cr =>
        rw [delete2_black_left]
        simp only [blackHeight, blackInc] at hlr hctx
        have hv := zip_valid ctx (.mk .BLACK cl cx cr)
          (by simp only [blackHeight, blackInc]
              rw [show blackHeight cl + 1 = blackHeight cl + blackInc cc + 1 by
                cases cc <;> simp [blackInc] at hlr ⊢]
              exact hctx)
          hbl ⟨by simp, hnl.2.1, hnl.2.2⟩ (fun _ => rfl)
        exact ⟨_, rfl, rootBlack_zip ctx _ hroot (fun _ => rfl), hv.2, hv.1, by
          rw [inorder_zip]; simp [inorder]⟩
      | NULL =>
        rw [delete2_black_leaf]
        have hne : ctx ≠ [] := fun h => hnot ⟨h, rfl, rfl⟩
        obtain ⟨ctx', h1, h2, h3, h4, h5, h6⟩ := delete3_spec (delete3Fuel ctx) ctx
          (.mk .BLACK .NULL x .NULL) 0 (le_refl _)
          (by simpa [blackHeight, blackInc] using hctx) hroot
        rw [h1]
        cases ctx' with
        | nil => exact absurd (h6.1 rfl) hne
        | cons f' up' =>
          have hv := zip_valid (f' :: up') .NULL (by simpa [blackHeight] using h2)
            trivial trivial (fun _ => rfl)
          exact ⟨_, rfl, (zip_colorOf_cons f' up' _).2 h3, hv.2, hv.1, by
            rw [inorder_zip, h4, h5]; simp [inorder]⟩

end RBT

namespace RBT
variable {α σ ω β : Type}

/-! ### Deletion as a whole -/

theorem rootBlack_ctx (ctx : Ctx α) (t : Node α) (h : RootBlack (zip ctx t)) :
    CtxRootBlack ctx ∧ (ctx = [] → t.colorOf = .BLACK) := by
  cases ctx with
  | nil => exact ⟨trivial, fun _ => h⟩
  | cons f up => exact ⟨(zip_colorOf_cons f up t).1 h, fun h' => by cases h'⟩

/-- The part of `deleteFromRBTree` after the test of `size`, when the node
found has two children: successor, swap, `delete2`. -/
theorem deleteFromRBTree_two_children (t : RBTree α σ) (d : α) (w : σ) (ctx : Ctx α)
    (c lc rc : Color) (ll lr rl rr : Node α) (lx e rx : α)
    (hf : findNodeInTree t.root t.compFunc d [] =
      some ⟨ctx, .mk c (.mk lc ll lx lr) e (.mk rc rl rx rr)⟩)
    (hz : zip ctx (.mk c (.mk lc ll lx lr) e (.mk rc rl rx rr)) = t.root)
    (hrb : RootBlack t.root) (hn : NoRedRed t.root) (hb : Balanced t.root)
    (hs : ¬ t.size = ONLY_NODE) :
    ∃ root, deleteFromRBTree (some t) d w =
        some (SUCCESS, some { t with root := root, size := t.size - 1 }, t.freeFunc e w) ∧
      RootBlack root ∧ NoRedRed root ∧ Balanced root ∧
      inorder root = (ctxBefore ctx ++ inorder (.mk lc ll lx lr)) ++
        (inorder (.mk rc rl rx rr) ++ ctxAfter ctx) := by
  obtain ⟨rel, sc, s, sr, after, h1, h2, h3, h4, h5⟩ :=
    getSuccLoop_spec (.mk rc rl rx rr) (.ofRight c (.mk lc ll lx lr) e :: ctx) (by simp)
  have hsucc : getSuccFromRightChild ⟨ctx, .mk c (.mk lc ll lx lr) e (.mk rc rl rx rr)⟩ =
      some ⟨rel ++ .ofRight c (.mk lc ll lx lr) e :: ctx, .mk sc .NULL s sr⟩ := h1
  have hswap : swapData ⟨ctx, .mk c (.mk lc ll lx lr) e (.mk rc rl rx rr)⟩
      ⟨rel ++ .ofRight c (.mk lc ll lx lr) e :: ctx, .mk sc .NULL s sr⟩ =
      some ⟨rel ++ .ofRight c (.mk lc ll lx lr) s :: ctx, .mk sc .NULL e sr⟩ := by
    simp only [swapData]
    have : (rel ++ Frame.ofRight c (.mk lc ll lx lr) e :: ctx).length - ctx.length - 1 =
        rel.length := by simp; omega
    rw [this, setDataAt_append]
  -- the invariants around the successor, before and after the swap
  have hzs : zip (rel ++ .ofRight c (.mk lc ll lx lr) e :: ctx) (.mk sc .NULL s sr) = t.root := by
    rw [zip_append, h2]; exact hz
  rw [← hzs] at hrb hn hb
  obtain ⟨hctx, hbn, hnn, hcol⟩ := unzip_valid _ _ hb hn
  obtain ⟨hroot, -⟩ := rootBlack_ctx _ _ hrb
  have hset : setDataAt s rel.length (rel ++ Frame.ofRight c (.mk lc ll lx lr) e :: ctx) =
      rel ++ .ofRight c (.mk lc ll lx lr) s :: ctx := setDataAt_append _ _ _ _ _ _
  rw [← CtxRB_setDataAt s rel.length, hset] at hctx
  rw [← CtxRootBlack_setDataAt s rel.length, hset] at hroot
  rw [← ctxColor_setDataAt s rel.length, hset] at hcol
  obtain ⟨root, hd, r1, r2, r3, r4⟩ := delete2_spec
    (rel ++ .ofRight c (.mk lc ll lx lr) s :: ctx) sc .NULL e sr hctx hbn hnn hcol hroot
    (fun h => by simp at h) (Or.inl rfl) (fun h => by simp at h)
  refine ⟨root, ?_, r1, r2, r3, ?_⟩
  · simp only [deleteFromRBTree, hf, hs, if_false, hsucc, hswap, hd, Option.bind_eq_bind,
      Option.some_bind, Option.pure_def]
  · rw [r4, h4, h5, h3]
    simp [ctxBefore, ctxAfter, inorder]

/-- The part of `deleteFromRBTree` after the test of `size`, when the node
found has an absent child: `delete2` at once. -/
theorem deleteFromRBTree_one_child (t : RBTree α σ) (d : α) (w : σ) (ctx : Ctx α)
    (c : Color) (l r : Node α) (e : α)
    (hf : findNodeInTree t.root t.compFunc d [] = some ⟨ctx, .mk c l e r⟩)
    (hz : zip ctx (.mk c l e r) = t.root)
    (hrb : RootBlack t.root) (hn : NoRedRed t.root) (hb : Balanced t.root)
    (hone : l = .NULL ∨ r = .NULL) (hcount : nodeCount t.root ≠ 1)
    (hs : ¬ t.size = ONLY_NODE) :
    ∃ root, deleteFromRBTree (some t) d w =
        some (SUCCESS, some { t with root := root, size := t.size - 1 }, t.freeFunc e w) ∧
      RootBlack root ∧ NoRedRed root ∧ Balanced root ∧
      inorder root = (ctxBefore ctx ++ inorder l) ++ (inorder r ++ ctxAfter ctx) := by
  have hnot : ¬ (ctx = [] ∧ l = .NULL ∧ r = .NULL) := by
    rintro ⟨h1, h2, h3⟩
    subst h1 h2 h3
    rw [← hz] at hcount
    exact hcount rfl
  rw [← hz] at hrb hn hb
  obtain ⟨hctx, hbn, hnn, hcol⟩ := unzip_valid _ _ hb hn
  obtain ⟨hroot, hrootc⟩ := rootBlack_ctx _ _ hrb
  obtain ⟨root, hd, r1, r2, r3, r4⟩ := delete2_spec ctx c l e r hctx hbn hnn hcol hroot hrootc
    hone hnot
  refine ⟨root, ?_, r1, r2, r3, by rw [r4]; simp⟩
  rcases hone with h | h
  · subst h
    simp only [deleteFromRBTree, hf, hs, if_false, hd, Option.bind_eq_bind, Option.some_bind,
      Option.pure_def]
  · subst h
    cases l <;>
    simp only [deleteFromRBTree, hf, hs, if_false, hd, Option.bind_eq_bind, Option.some_bind,
      Option.pure_def]

end RBT

namespace RBT
variable {α σ ω β : Type}

theorem eq_null_of_nodeCount_zero {t : Node α} (h : nodeCount t = 0) : t = .NULL := by
  cases t with
  | NULL => rfl
  | mk c l x r => simp [nodeCount] at h

theorem singleton_eq_split {a e : α} {A L R B : List α}
    (h : [a] = A ++ (L ++ e :: R) ++ B) : a = e ∧ A = [] ∧ L = [] ∧ R = [] ∧ B = [] := by
  have hl := congrArg List.length h
  simp at hl
  have hA : A = [] := List.length_eq_zero.1 (by omega)
  have hL : L = [] := List.length_eq_zero.1 (by omega)
  have hR : R = [] := List.length_eq_zero.1 (by omega)
  have hB : B = [] := List.length_eq_zero.1 (by omega)
  subst hA hL hR hB
  simp at h
  exact ⟨h, rfl, rfl, rfl, rfl⟩

/-- `deleteFromRBTree` when `findNodeInTree` finds a node, in a tree that
satisfies the colour invariants and whose `size` is its number of nodes. -/
theorem deleteFromRBTree_found (t : RBTree α σ) (d : α) (w : σ) (p : Loc α)
    (hf : findNodeInTree t.root t.compFunc d [] = some p)
    (hrb : RootBlack t.root) (hn : NoRedRed t.root) (hb : Balanced t.root)
    (hsize : t.size = nodeCount t.root) :
    ∃ root e pre post, deleteFromRBTree (some t) d w =
        some (SUCCESS, some { t with root := root, size := t.size - 1 }, t.freeFunc e w) ∧
      RootBlack root ∧ NoRedRed root ∧ Balanced root ∧
      inorder t.root = pre ++ e :: post ∧ inorder root = pre ++ post ∧ t.compFunc d e = 0 := by
  obtain ⟨hz, c, l, e, r, hp, he, -⟩ := findNodeInTree_some _ _ _ hf
  obtain ⟨ctx, node⟩ := p
  simp only at hp hz
  subst hp
  replace hz : zip ctx (.mk c l e r) = t.root := hz
  have hio : inorder t.root = (ctxBefore ctx ++ inorder l) ++ e :: (inorder r ++ ctxAfter ctx) := by
    rw [← hz, inorder_zip]; simp [inorder]
  by_cases hs : t.size = ONLY_NODE
  · -- the only node
    obtain ⟨root0, cmp, free, size⟩ := t
    simp only at hf hz hrb hn hb hsize hio hs he ⊢
    have hc1 : nodeCount root0 = 1 := by
      have : (nodeCount root0 : Int) = 1 := by rw [← hsize]; exact hs
      exact_mod_cast this
    cases root0 with
    | NULL => simp [nodeCount] at hc1
    | mk rc rl rx rr =>
      simp only [nodeCount] at hc1
      have hrl := @eq_null_of_nodeCount_zero α rl (by omega)
      have hrr := @eq_null_of_nodeCount_zero α rr (by omega)
      subst hrl hrr
      have hsplit : [rx] = ctxBefore ctx ++ (inorder l ++ e :: inorder r) ++ ctxAfter ctx := by
        have := hio
        simp only [inorder, List.nil_append] at this
        rw [this]; simp
      obtain ⟨hxe, hA, hL, hR, hB⟩ := singleton_eq_split hsplit
      subst hxe
      refine ⟨.NULL, rx, [], [], ?_, rfl, trivial, trivial, by simp [inorder], by simp [inorder],
        he⟩
      simp only [deleteFromRBTree, hf, hs, if_true]
  · have hcount : nodeCount t.root ≠ 1 := by
      intro h
      apply hs
      rw [hsize, h]; rfl
    cases l with
    | NULL =>
      obtain ⟨root, h1, h2, h3, h4, h5⟩ := deleteFromRBTree_one_child t d w ctx c .NULL r e hf hz
        hrb hn hb (Or.inl rfl) hcount hs
      exact ⟨root, e, _, _, h1, h2, h3, h4, hio, h5, he⟩
    | mk lc ll lx lr =>
      cases r with
      | NULL =>
        obtain ⟨root, h1, h2, h3, h4, h5⟩ := deleteFromRBTree_one_child t d w ctx c _ .NULL e hf
          hz hrb hn hb (Or.inr rfl) hcount hs
        exact ⟨root, e, _, _, h1, h2, h3, h4, hio, h5, he⟩
      | mk rc rl rx rr =>
        obtain ⟨root, h1, h2, h3, h4, h5⟩ := deleteFromRBTree_two_children t d w ctx c lc rc
          ll lr rl rr lx e rx hf hz hrb hn hb hs
        exact ⟨root, e, _, _, h1, h2, h3, h4, hio, h5, he⟩

/-- Every call of `insertToRBTree` on a tree that satisfies the colour
invariants and whose `size` is its number of nodes returns such a tree, with
`size` raised by one on success and the tree as it was on failure. -/
theorem insertToRBTree_total (t : RBTree α σ) (d : Option α)
    (hrb : RootBlack t.root) (hn : NoRedRed t.root) (hb : Balanced t.root)
    (hsize : t.size = nodeCount t.root) :
    ∃ r t', insertToRBTree (some t) d = some (r, some t') ∧
      RootBlack t'.root ∧ NoRedRed t'.root ∧ Balanced t'.root ∧ t'.size = nodeCount t'.root ∧
      t'.compFunc = t.compFunc ∧ t'.freeFunc = t.freeFunc ∧
      ((r = SUCCESS ∧ t'.size = t.size + 1) ∨ (r = FAILURE ∧ t' = t)) := by
  cases d with
  | none => exact ⟨FAILURE, t, rfl, hrb, hn, hb, hsize, rfl, rfl, Or.inr ⟨rfl, rfl⟩⟩
  | some d =>
    cases hw : basicInsertWalk d t.compFunc t.root [] with
    | none =>
      exact ⟨FAILURE, t, by simp [insertToRBTree, basicInsert_eq_walk, hw], hrb, hn, hb, hsize,
        rfl, rfl, Or.inr ⟨rfl, rfl⟩⟩
    | some ctx =>
      obtain ⟨root, h1, h2, h3, h4, h5⟩ := insertToRBTree_after_walk t d ctx hw hrb hn hb
      refine ⟨SUCCESS, _, h1, h2, h3, h4, ?_, rfl, rfl, Or.inl ⟨rfl, rfl⟩⟩
      have hz : zip ctx .NULL = t.root := basicInsertWalk_zip t.root [] ctx hw
      have h0 : nodeCount t.root = (ctxBefore ctx).length + (ctxAfter ctx).length := by
        rw [nodeCount_eq_length, ← hz, inorder_zip]; simp [inorder]
      have h6 : nodeCount root = (ctxBefore ctx).length + (ctxAfter ctx).length + 1 := by
        rw [nodeCount_eq_length, h5]; simp; omega
      simp only [hsize, h0, h6]
      push_cast
      ring

/-- Every call of `deleteFromRBTree` on a tree that satisfies the colour
invariants and whose `size` is its number of nodes returns such a tree, with
`size` lowered by one on success and the tree and the world as they were on
failure. -/
theorem deleteFromRBTree_total (t : RBTree α σ) (d : α) (w : σ)
    (hrb : RootBlack t.root) (hn : NoRedRed t.root) (hb : Balanced t.root)
    (hsize : t.size = nodeCount t.root) :
    ∃ r t' w', deleteFromRBTree (some t) d w = some (r, some t', w') ∧
      RootBlack t'.root ∧ NoRedRed t'.root ∧ Balanced t'.root ∧ t'.size = nodeCount t'.root ∧
      t'.compFunc = t.compFunc ∧ t'.freeFunc = t.freeFunc ∧
      ((r = SUCCESS ∧ t'.size = t.size - 1) ∨ (r = FAILURE ∧ t' = t ∧ w' = w)) ∧
      (r = SUCCESS ↔ (findNodeInTree t.root t.compFunc d []).isSome) := by
  cases hf : findNodeInTree t.root t.compFunc d [] with
  | none =>
    exact ⟨FAILURE, t, w, by simp [deleteFromRBTree, hf], hrb, hn, hb, hsize, rfl, rfl,
      Or.inr ⟨rfl, rfl, rfl⟩, by simp⟩
  | some p =>
    obtain ⟨root, e, pre, post, h1, h2, h3, h4, h5, h6, -⟩ :=
      deleteFromRBTree_found t d w p hf hrb hn hb hsize
    refine ⟨SUCCESS, _, _, h1, h2, h3, h4, ?_, rfl, rfl, Or.inl ⟨rfl, rfl⟩, by simp⟩
    have h0 : nodeCount t.root = pre.length + post.length + 1 := by
      rw [nodeCount_eq_length, h5]; simp; omega
    have h7 : nodeCount root = pre.length + post.length := by
      rw [nodeCount_eq_length, h6]; simp
    simp only [hsize, h0, h7]
    push_cast
    ring

end RBT

namespace RBT
variable {α σ ω β : Type}

theorem Reachable.invariants {compFunc : α → α → Int} {freeFunc : α → σ → σ} {t : RBTree α σ}
    (h : Reachable compFunc freeFunc t) :
    RootBlack t.root ∧ NoRedRed t.root ∧ Balanced t.root ∧ t.size = nodeCount t.root := by
  induction h with
  | new t h =>
    simp only [newRBTree, Option.some.injEq] at h
    subst h
    exact ⟨rfl, trivial, trivial, rfl⟩
  | insert t t' d r _ hi ih =>
    obtain ⟨h1, h2, h3, h4⟩ := ih
    obtain ⟨r0, t0, e0, g1, g2, g3, g4, -⟩ := insertToRBTree_total t d h1 h2 h3 h4
    rw [e0] at hi
    simp only [Option.some.injEq, Prod.mk.injEq] at hi
    obtain ⟨-, rfl⟩ := hi
    exact ⟨g1, g2, g3, g4⟩
  | delete t t' d w w' r _ hd ih =>
    obtain ⟨h1, h2, h3, h4⟩ := ih
    obtain ⟨r0, t0, w0, e0, g1, g2, g3, g4, -⟩ := deleteFromRBTree_total t d w h1 h2 h3 h4
    rw [e0] at hd
    simp only [Option.some.injEq, Prod.mk.injEq] at hd
    obtain ⟨-, rfl, -⟩ := hd
    exact ⟨g1, g2, g3, g4⟩

/-- C1: `insertToRBTree` on a tree that satisfies the red-black colour
invariants, or that is reachable from `newRBTree` by inserts and deletes,
returns, without undefined behaviour, a tree in which the root is black, no
red node has a red child and every path from the root to an absent child
passes through the same number of black nodes; when no element compares equal
to the data the call returns `SUCCESS`.  (The order of the elements plays no
part, so this holds in particular for BST-ordered trees.) -/
theorem insertToRBTree_preserves_invariants (t : RBTree α σ) (d : α)
    (hinv : RBInvariants t.root ∨
      ∃ (compFunc : α → α → Int) (freeFunc : α → σ → σ), Reachable compFunc freeFunc t) :
    ∃ r t', insertToRBTree (some t) (some d) = some (r, some t') ∧
      (RootBlack t'.root ∧ NoRedRed t'.root ∧ EqualBlackPaths t'.root) ∧
      ((∀ e ∈ inorder t.root, t.compFunc d e ≠ 0) → r = SUCCESS) := by
  have hall : RootBlack t.root ∧ NoRedRed t.root ∧ Balanced t.root := by
    rcases hinv with ⟨hrb, hn, he⟩ | ⟨compFunc, freeFunc, hr⟩
    · exact ⟨hrb, hn, (equalBlackPaths_iff_balanced _).1 he⟩
    · exact ⟨hr.invariants.1, hr.invariants.2.1, hr.invariants.2.2.1⟩
  obtain ⟨hrb, hn, hb⟩ := hall
  cases hw : basicInsertWalk d t.compFunc t.root [] with
  | none =>
    refine ⟨FAILURE, t, by simp [insertToRBTree, basicInsert_eq_walk, hw],
      ⟨hrb, hn, (equalBlackPaths_iff_balanced _).2 hb⟩, ?_⟩
    intro hfresh
    obtain ⟨ctx, hctx⟩ := basicInsertWalk_some t.compFunc d t.root [] hfresh
    rw [hw] at hctx
    cases hctx
  | some ctx =>
    obtain ⟨root, h1, h2, h3, h4, -⟩ := insertToRBTree_after_walk t d ctx hw hrb hn hb
    exact ⟨SUCCESS, _, h1, ⟨h2, h3, (equalBlackPaths_iff_balanced _).2 h4⟩, fun _ => rfl⟩

theorem insertToRBTree_preserves_invariants_witness :
    RBInvariants exampleTree.root ∧
      ∃ r t', insertToRBTree (some exampleTree) (some 6) = some (r, some t') ∧
        (RootBlack t'.root ∧ NoRedRed t'.root ∧ EqualBlackPaths t'.root) ∧
        ((∀ e ∈ inorder exampleTree.root, exampleTree.compFunc 6 e ≠ 0) → r = SUCCESS) :=
  ⟨by decide, insertToRBTree_preserves_invariants exampleTree 6 (Or.inl (by decide))⟩

/-- C3: on a red-black tree that is BST-ordered under a comparator meeting the
contract, inserting data that compares equal to no element returns `SUCCESS`,
and the in-order sequence of the new tree is the old one with the data put in
at its sorted position: the elements before it are below it, those after it
above it, and the new sequence is strictly ascending. -/
theorem insertToRBTree_inorder (t : RBTree α σ) (d : α)
    (hc : StrictTotalOrderCmp t.compFunc) (hb : BSTOrdered t.compFunc t.root)
    (hinv : RBInvariants t.root) (hfresh : ∀ e ∈ inorder t.root, t.compFunc d e ≠ 0) :
    ∃ t' pre post, insertToRBTree (some t) (some d) = some (SUCCESS, some t') ∧
      inorder t.root = pre ++ post ∧ inorder t'.root = pre ++ d :: post ∧
      (∀ a ∈ pre, t.compFunc a d < 0) ∧ (∀ b ∈ post, t.compFunc d b < 0) ∧
      t'.compFunc = t.compFunc ∧ BSTOrdered t'.compFunc t'.root := by
  obtain ⟨hrb, hn, he⟩ := hinv
  have hbal := (equalBlackPaths_iff_balanced _).1 he
  obtain ⟨ctx, hw⟩ := basicInsertWalk_some t.compFunc d t.root [] hfresh
  obtain ⟨pre, post, hio, hbef, haft, hpre, hpost⟩ :=
    basicInsertWalk_sorted hc t.root [] ctx hb hw
  obtain ⟨root, h1, -, -, -, h5⟩ := insertToRBTree_after_walk t d ctx hw hrb hn hbal
  simp only [ctxBefore, ctxAfter, List.nil_append, List.append_nil] at hbef haft
  rw [hbef, haft] at h5
  refine ⟨_, pre, post, h1, hio, h5, hpre, hpost, rfl, ?_⟩
  show (inorder root).Pairwise _
  rw [h5]
  have hb' : (pre ++ post).Pairwise (fun a b => t.compFunc a b < 0) := hio ▸ hb
  rw [List.pairwise_append] at hb' ⊢
  obtain ⟨hp1, hp2, hp3⟩ := hb'
  refine ⟨hp1, List.pairwise_cons.2 ⟨hpost, hp2⟩, ?_⟩
  intro a ha b hb''
  rcases List.mem_cons.1 hb'' with rfl | hb''
  · exact hpre a ha
  · exact hp3 a ha b hb''

theorem insertToRBTree_inorder_witness :
    BSTOrdered exampleTree.compFunc exampleTree.root ∧ RBInvariants exampleTree.root ∧
      (∀ e ∈ inorder exampleTree.root, exampleTree.compFunc 6 e ≠ 0) ∧
      ∃ t' pre post, insertToRBTree (some exampleTree) (some 6) = some (SUCCESS, some t') ∧
        inorder exampleTree.root = pre ++ post ∧ inorder t'.root = pre ++ 6 :: post ∧
        (∀ a ∈ pre, exampleTree.compFunc a 6 < 0) ∧ (∀ b ∈ post, exampleTree.compFunc 6 b < 0) ∧
        t'.compFunc = exampleTree.compFunc ∧ BSTOrdered t'.compFunc t'.root :=
  ⟨by decide, by decide, by decide,
    insertToRBTree_inorder exampleTree 6 intCmp_order (by decide) (by decide) (by decide)⟩

end RBT

namespace RBT
variable {α σ ω β : Type}

/-- C2: `deleteFromRBTree` on a tree that satisfies the red-black colour
invariants (its `size` being its number of nodes), or that is reachable from
`newRBTree` by inserts and deletes, returns, without undefined
behaviour, a tree in which the root, if any, is black, no red node has a red
child and every path from the root to an absent child passes through the same
number of black nodes; when the tree is BST-ordered under a comparator meeting
the contract and the data is present, the call returns `SUCCESS`. -/
theorem deleteFromRBTree_preserves_invariants (t : RBTree α σ) (d : α) (w : σ)
    (hinv : (RBInvariants t.root ∧ t.size = nodeCount t.root) ∨
      ∃ (compFunc : α → α → Int) (freeFunc : α → σ → σ), Reachable compFunc freeFunc t) :
    ∃ r t' w', deleteFromRBTree (some t) d w = some (r, some t', w') ∧
      (RootBlack t'.root ∧ NoRedRed t'.root ∧ EqualBlackPaths t'.root) ∧
      (StrictTotalOrderCmp t.compFunc → BSTOrdered t.compFunc t.root →
        (∃ e ∈ inorder t.root, t.compFunc d e = 0) → r = SUCCESS) := by
  have hall : RootBlack t.root ∧ NoRedRed t.root ∧ Balanced t.root ∧
      t.size = nodeCount t.root := by
    rcases hinv with ⟨⟨hrb, hn, he⟩, hs⟩ | ⟨compFunc, freeFunc, hr⟩
    · exact ⟨hrb, hn, (equalBlackPaths_iff_balanced _).1 he, hs⟩
    · exact hr.invariants
  obtain ⟨hrb, hn, hb, hsize⟩ := hall
  obtain ⟨r, t', w', h1, g1, g2, g3, -, -, -, -, hiff⟩ :=
    deleteFromRBTree_total t d w hrb hn hb hsize
  refine ⟨r, t', w', h1, ⟨g1, g2, (equalBlackPaths_iff_balanced _).2 g3⟩, ?_⟩
  rintro hc hbst ⟨e, hm, hde⟩
  obtain ⟨p, c, l, r', hf, -⟩ := findNodeInTree_complete hc t.root [] e hbst hm hde
  exact hiff.2 (by simp [hf])

theorem deleteFromRBTree_preserves_invariants_witness :
    RBInvariants exampleTree.root ∧ exampleTree.size = nodeCount exampleTree.root ∧
      ∃ r t' w', deleteFromRBTree (some exampleTree) 3 [] = some (r, some t', w') ∧
        (RootBlack t'.root ∧ NoRedRed t'.root ∧ EqualBlackPaths t'.root) ∧
        (StrictTotalOrderCmp exampleTree.compFunc →
          BSTOrdered exampleTree.compFunc exampleTree.root →
          (∃ e ∈ inorder exampleTree.root, exampleTree.compFunc 3 e = 0) → r = SUCCESS) :=
  ⟨by decide, by decide,
    deleteFromRBTree_preserves_invariants exampleTree 3 [] (Or.inl ⟨by decide, by decide⟩)⟩

/-- C4: on a red-black tree (its `size` being its number of nodes) that is
BST-ordered under a comparator meeting the contract, deleting data equal to
an element returns `SUCCESS`, and the in-order sequence of the new tree is the
old one with exactly that element removed; `RBTreeContains` is then zero for
the data and non-zero for every element that remains. -/
theorem deleteFromRBTree_inorder (t : RBTree α σ) (d : α) (w : σ)
    (hc : StrictTotalOrderCmp t.compFunc) (hb : BSTOrdered t.compFunc t.root)
    (hinv : RBInvariants t.root) (hsize : t.size = nodeCount t.root)
    (hd : ∃ e ∈ inorder t.root, t.compFunc d e = 0) :
    ∃ t' w' pre e post, deleteFromRBTree (some t) d w = some (SUCCESS, some t', w') ∧
      inorder t.root = pre ++ e :: post ∧ t.compFunc d e = 0 ∧
      inorder t'.root = pre ++ post ∧ t'.compFunc = t.compFunc ∧
      RBTreeContains (some t') d = 0 ∧ (∀ x ∈ pre ++ post, RBTreeContains (some t') x ≠ 0) := by
  obtain ⟨hrb, hn, he⟩ := hinv
  have hbal := (equalBlackPaths_iff_balanced _).1 he
  obtain ⟨e0, hm, hde0⟩ := hd
  obtain ⟨p, c, l, r', hf, -⟩ := findNodeInTree_complete hc t.root [] e0 hb hm hde0
  obtain ⟨root, e, pre, post, h1, -, -, -, h5, h6, h7⟩ :=
    deleteFromRBTree_found t d w p hf hrb hn hbal hsize
  have hb0 : (pre ++ e :: post).Pairwise (fun a b => t.compFunc a b < 0) := h5 ▸ hb
  have hb1 : BSTOrdered t.compFunc root := by
    show (inorder root).Pairwise _
    rw [h6]
    exact hb0.sublist (by simp)
  rw [List.pairwise_append] at hb0
  obtain ⟨-, hpost, hpre⟩ := hb0
  rw [List.pairwise_cons] at hpost
  refine ⟨_, _, pre, e, post, h1, h5, h7, h6, rfl, ?_, ?_⟩
  · have hnone : findNodeInTree root t.compFunc d [] = none := by
      apply findNodeInTree_none
      intro x hx hdx
      rw [h6, List.mem_append] at hx
      rcases hx with hx | hx
      · have h1 : t.compFunc x e < 0 := hpre x hx e (by simp)
        have h2 := hc.eq_lt _ _ _ hdx h1
        omega
      · have h1 : t.compFunc e x < 0 := hpost.1 x hx
        have h2 := hc.lt_eq _ _ _ h1 (hc.symm hdx)
        have h3 := hc.symm h7
        omega
    simp [RBTreeContains, hnone]
  · intro x hx
    obtain ⟨p', c', l', r'', hf', -⟩ :=
      findNodeInTree_complete hc root [] x hb1 (by rw [h6]; exact hx) (hc.refl x)
    simp [RBTreeContains, hf']

theorem deleteFromRBTree_inorder_witness :
    BSTOrdered exampleTree.compFunc exampleTree.root ∧ RBInvariants exampleTree.root ∧
      exampleTree.size = nodeCount exampleTree.root ∧
      (∃ e ∈ inorder exampleTree.root, exampleTree.compFunc 8 e = 0) ∧
      ∃ t' w' pre e post, deleteFromRBTree (some exampleTree) 8 [] = some (SUCCESS, some t', w') ∧
        inorder exampleTree.root = pre ++ e :: post ∧ exampleTree.compFunc 8 e = 0 ∧
        inorder t'.root = pre ++ post ∧ t'.compFunc = exampleTree.compFunc ∧
        RBTreeContains (some t') 8 = 0 ∧ (∀ x ∈ pre ++ post, RBTreeContains (some t') x ≠ 0) :=
  ⟨by decide, by decide, by decide, ⟨8, by decide, by decide⟩,
    deleteFromRBTree_inorder exampleTree 8 [] intCmp_order (by decide) (by decide) (by decide)
      ⟨8, by decide, by decide⟩⟩

/-- C8: in every tree reachable from `newRBTree` by calls of `insertToRBTree`
and `deleteFromRBTree`, `size` is the number of nodes, and it is 0 exactly
when the root is absent; every further insert returns a tree whose `size` is
one more on success and unchanged on failure, every further delete one whose
`size` is one less on success and unchanged on failure. -/
theorem size_is_nodeCount (compFunc : α → α → Int) (freeFunc : α → σ → σ) (t : RBTree α σ)
    (h : Reachable compFunc freeFunc t) :
    t.size = nodeCount t.root ∧ (t.size = 0 ↔ t.root = .NULL) ∧
      (∀ d : Option α, ∃ r t', insertToRBTree (some t) d = some (r, some t') ∧
        (r ≠ FAILURE → t'.size = t.size + 1) ∧ (r = FAILURE → t'.size = t.size) ∧
        t'.size = nodeCount t'.root) ∧
      (∀ (d : α) (w : σ), ∃ r t' w', deleteFromRBTree (some t) d w = some (r, some t', w') ∧
        (r ≠ FAILURE → t'.size = t.size - 1) ∧ (r = FAILURE → t'.size = t.size) ∧
        t'.size = nodeCount t'.root) := by
  obtain ⟨h1, h2, h3, h4⟩ := h.invariants
  refine ⟨h4, ?_, ?_, ?_⟩
  · rw [h4]
    constructor
    · intro h0
      exact eq_null_of_nodeCount_zero (by exact_mod_cast h0)
    · intro h0
      rw [h0]; rfl
  · intro d
    obtain ⟨r, t', e0, -, -, -, g4, -, -, hcase⟩ := insertToRBTree_total t d h1 h2 h3 h4
    refine ⟨r, t', e0, ?_, ?_, g4⟩
    · intro hr
      rcases hcase with ⟨-, hs⟩ | ⟨hf, -⟩
      · exact hs
      · exact absurd hf hr
    · intro hr
      rcases hcase with ⟨hs, -⟩ | ⟨-, ht⟩
      · rw [hs] at hr; cases hr
      · rw [ht]
  · intro d w
    obtain ⟨r, t', w', e0, -, -, -, g4, -, -, hcase, -⟩ :=
      deleteFromRBTree_total t d w h1 h2 h3 h4
    refine ⟨r, t', w', e0, ?_, ?_, g4⟩
    · intro hr
      rcases hcase with ⟨-, hs⟩ | ⟨hf, -⟩
      · exact hs
      · exact absurd hf hr
    · intro hr
      rcases hcase with ⟨hs, -⟩ | ⟨-, ht, -⟩
      · rw [hs] at hr; cases hr
      · rw [ht]

theorem size_is_nodeCount_witness :
    Reachable intCmp logFree oneTree ∧ oneTree.size = nodeCount oneTree.root ∧
      (oneTree.size = 0 ↔ oneTree.root = .NULL) :=
  have hr : Reachable intCmp logFree oneTree :=
    Reachable.insert emptyTree oneTree (some 5) SUCCESS (Reachable.new emptyTree rfl) rfl
  ⟨hr, (size_is_nodeCount intCmp logFree oneTree hr).1,
    (size_is_nodeCount intCmp logFree oneTree hr).2.1⟩

end RBT

namespace RBT
variable {α σ ω β : Type}

/-! ### The fuel is never used up

Beyond the bounds used by `fixTreeAfterInsertion` and `delete2` the results
do not depend on the fuel, whatever the tree: neither loop can run out. -/

theorem redUncle_ctx (pf gf : Frame α) (rest : Ctx α) (n : Node α) (c : Loc α)
    (h : redUncleAfterInsertion ⟨pf :: gf :: rest, n⟩ = some c) : c.ctx = rest := by
  cases gf with
  | ofLeft gc gx u =>
    cases u with
    | NULL => cases h
    | mk uc ul ux ur =>
      have : redUncleAfterInsertion ⟨pf :: .ofLeft gc gx (.mk uc ul ux ur) :: rest, n⟩ =
          some ⟨rest, .mk .RED ((pf.withColor .BLACK).plug n) gx (.mk .BLACK ul ux ur)⟩ := rfl
      rw [this] at h; cases h; rfl
  | ofRight gc u gx =>
    cases u with
    | NULL => cases h
    | mk uc ul ux ur =>
      have : redUncleAfterInsertion ⟨pf :: .ofRight gc (.mk uc ul ux ur) gx :: rest, n⟩ =
          some ⟨rest, .mk .RED (.mk .BLACK ul ux ur) gx ((pf.withColor .BLACK).plug n)⟩ := rfl
      rw [this] at h; cases h; rfl

theorem blackUncle_right_ctx (pf : Frame α) (gc : Color) (gx : α) (u : Node α) (rest : Ctx α)
    (n : Node α) (c : Loc α)
    (h : blackUncleAfterInsertion ⟨pf :: .ofLeft gc gx u :: rest, n⟩ RIGHT_UNCLE = some c) :
    c.ctx.length = rest.length + 1 := by
  cases pf with
  | ofLeft pc px ps =>
    rw [blackUncle_left_left] at h; cases h; rfl
  | ofRight pc pl px =>
    cases n with
    | NULL => cases h
    | mk nc nl nx nr => rw [blackUncle_right_left] at h; cases h; rfl

theorem blackUncle_left_ctx (pf : Frame α) (gc : Color) (gx : α) (u : Node α) (rest : Ctx α)
    (n : Node α) (c : Loc α)
    (h : blackUncleAfterInsertion ⟨pf :: .ofRight gc u gx :: rest, n⟩ LEFT_UNCLE = some c) :
    c.ctx.length = rest.length + 1 := by
  cases pf with
  | ofRight pc pl px =>
    rw [blackUncle_right_right] at h; cases h; rfl
  | ofLeft pc px ps =>
    cases n with
    | NULL => cases h
    | mk nc nl nx nr => rw [blackUncle_left_right] at h; cases h; rfl

/-- With more tests of the loop condition than the node has ancestors, the
result of the insertion loop does not depend on the fuel. -/
theorem fixTreeLoop_fuel : ∀ (m n : Nat) (cur : Loc α), cur.ctx.length < m →
    cur.ctx.length < n → fixTreeLoop m cur = fixTreeLoop n cur := by
  intro m
  induction m with
  | zero => intro n cur h; simp at h
  | succ m ih =>
    intro n cur hm hn
    cases n with
    | zero => simp at hn
    | succ n =>
      obtain ⟨ctx, node⟩ := cur
      cases ctx with
      | nil => rfl
      | cons pf up =>
        by_cases hp : pf.color = .RED
        · cases up with
          | nil => simp only [fixTreeLoop, hp, if_true]
          | cons gf rest =>
            simp only [List.length_cons] at hm hn
            cases gf with
            | ofLeft gc gx u =>
              rw [fixTreeLoop_left m pf gc gx u rest node hp,
                fixTreeLoop_left n pf gc gx u rest node hp]
              split
              · cases hr : redUncleAfterInsertion ⟨pf :: .ofLeft gc gx u :: rest, node⟩ with
                | none => rfl
                | some c =>
                  have := redUncle_ctx _ _ _ _ _ hr
                  exact ih n c (by rw [this]; omega) (by rw [this]; omega)
              · cases hr : blackUncleAfterInsertion ⟨pf :: .ofLeft gc gx u :: rest, node⟩
                    RIGHT_UNCLE with
                | none => rfl
                | some c =>
                  have := blackUncle_right_ctx _ _ _ _ _ _ _ hr
                  exact ih n c (by omega) (by omega)
            | ofRight gc u gx =>
              rw [fixTreeLoop_right m pf gc gx u rest node hp,
                fixTreeLoop_right n pf gc gx u rest node hp]
              split
              · cases hr : redUncleAfterInsertion ⟨pf :: .ofRight gc u gx :: rest, node⟩ with
                | none => rfl
                | some c =>
                  have := redUncle_ctx _ _ _ _ _ hr
                  exact ih n c (by rw [this]; omega) (by rw [this]; omega)
              · cases hr : blackUncleAfterInsertion ⟨pf :: .ofRight gc u gx :: rest, node⟩
                    LEFT_UNCLE with
                | none => rfl
                | some c =>
                  have := blackUncle_left_ctx _ _ _ _ _ _ _ hr
                  exact ih n c (by omega) (by omega)
        · rw [fixTreeLoop_black m pf up node hp, fixTreeLoop_black n pf up node hp]

/-- With at least `delete3Fuel` nested calls allowed, the result of the
deletion fixup does not depend on the fuel. -/
theorem delete3_fuel : ∀ (m n : Nat) (ctx : Ctx α) (node : Node α), delete3Fuel ctx ≤ m →
    delete3Fuel ctx ≤ n → delete3 m ⟨ctx, node⟩ = delete3 n ⟨ctx, node⟩ := by
  intro m
  induction m with
  | zero => intro n ctx node h; have := delete3Fuel_pos ctx; omega
  | succ m ih =>
    intro n ctx node hm hn
    cases n with
    | zero => have := delete3Fuel_pos ctx; omega
    | succ n =>
      cases ctx with
      | nil => rfl
      | cons f up =>
        cases f with
        | ofLeft pc px s =>
          cases s with
          | NULL => rfl
          | mk sc sl sx sr =>
            simp only [delete3Fuel, Frame.sibling, nodeCount] at hm hn
            rw [delete3_left, delete3_left]
            cases sc with
            | RED =>
              simp only [reduceCtorEq, if_false, delete5_left]
              exact ih n _ _ (by simp only [delete3Fuel, Frame.sibling]; omega)
                (by simp only [delete3Fuel, Frame.sibling]; omega)
            | BLACK =>
              simp only [if_true]
              by_cases hr : sr.colorOf = .RED
              · obtain ⟨srl, srx, srr, rfl⟩ := colorOf_red hr
                rw [delete4_left_caseE, delete4_left_caseE]
              · have hrb := Node.colorOf_eq_black_of_ne_red hr
                by_cases hl : sl.colorOf = .RED
                · obtain ⟨sll, slx, slr, rfl⟩ := colorOf_red hl
                  rw [delete4_left_caseD _ _ _ _ _ _ _ _ _ _ _ hrb,
                    delete4_left_caseD _ _ _ _ _ _ _ _ _ _ _ hrb]
                · have hlb := Node.colorOf_eq_black_of_ne_red hl
                  rw [delete4_caseB _ (.ofLeft pc px (.mk .BLACK sl sx sr)) up node _ .BLACK sl sr
                      sx rfl hlb hrb,
                    delete4_caseB _ (.ofLeft pc px (.mk .BLACK sl sx sr)) up node _ .BLACK sl sr
                      sx rfl hlb hrb]
                  cases pc with
                  | RED => rfl
                  | BLACK =>
                    rw [delete6_left_black, delete6_left_black,
                      ih n up _ (by omega) (by omega)]
        | ofRight pc s px =>
          cases s with
          | NULL => rfl
          | mk sc sl sx sr =>
            simp only [delete3Fuel, Frame.sibling, nodeCount] at hm hn
            rw [delete3_right, delete3_right]
            cases sc with
            | RED =>
              simp only [reduceCtorEq, if_false, delete5_right]
              exact ih n _ _ (by simp only [delete3Fuel, Frame.sibling]; omega)
                (by simp only [delete3Fuel, Frame.sibling]; omega)
            | BLACK =>
              simp only [if_true]
              by_cases hl : sl.colorOf = .RED
              · obtain ⟨sll, slx, slr, rfl⟩ := colorOf_red hl
                rw [delete4_right_caseE, delete4_right_caseE]
              · have hlb := Node.colorOf_eq_black_of_ne_red hl
                by_cases hr : sr.colorOf = .RED
                · obtain ⟨srl, srx, srr, rfl⟩ := colorOf_red hr
                  rw [delete4_right_caseD _ _ _ _ _ _ _ _ _ _ _ hlb,
                    delete4_right_caseD _ _ _ _ _ _ _ _ _ _ _ hlb]
                · have hrb := Node.colorOf_eq_black_of_ne_red hr
                  rw [delete4_caseB _ (.ofRight pc (.mk .BLACK sl sx sr) px) up node _ .BLACK sl
                      sr sx rfl hlb hrb,
                    delete4_caseB _ (.ofRight pc (.mk .BLACK sl sx sr) px) up node _ .BLACK sl
                      sr sx rfl hlb hrb]
                  cases pc with
                  | RED => rfl
                  | BLACK =>
                    rw [delete6_right_black, delete6_right_black,
                      ih n up _ (by omega) (by omega)]

end RBT

namespace RBT
variable {α σ ω β : Type}

/-! ### Teardown and the destructor -/

theorem freeHelper_record (f : α → σ → σ) : ∀ (t : Node α) (w : σ) (log : List α),
    freeHelper t (recordFree f) (w, log) =
      ((postorder t).foldl (fun w x => f x w) w, log ++ postorder t) := by
  intro t
  induction t with
  | NULL => intro w log; simp [freeHelper, postorder]
  | mk c l x r ihl ihr =>
    intro w log
    simp [freeHelper, postorder, ihl, ihr, recordFree, List.foldl_append]

theorem postorder_perm_inorder (t : Node α) : (postorder t).Perm (inorder t) := by
  induction t with
  | NULL => exact List.Perm.refl _
  | mk c l x r ihl ihr =>
    simp only [postorder, inorder]
    refine List.Perm.append ihl ?_
    refine (List.perm_append_comm).trans ?_
    exact List.Perm.cons x ihr

/-- C11 (the code does not do this): the flag `gFuncSucceeded` is never set
back to `YES`.  On the example tree a traversal whose visitor fails at the
element 5 leaves the flag at `NO`; a later traversal with a visitor that
succeeds on every element then calls the visitor on nothing and returns
`FAILURE`, while the same traversal started with the flag at `YES` visits all
seven elements and returns success. -/
theorem forEachRBTree_flag_left_cleared :
    (forEachRBTree (some exampleTree) (recordCalls sumUpTo) 4 (YES, (0, []))).2.1 = NO ∧
      forEachRBTree (some exampleTree) (recordCalls sumUpTo) 10 (NO, (0, [])) =
        (FAILURE, (NO, (0, []))) ∧
      forEachRBTree (some exampleTree) (recordCalls sumUpTo) 10 (YES, (0, [])) =
        (SUCCESS, (YES, (37, [(1, 10), (3, 10), (4, 10), (5, 10), (7, 10), (8, 10), (9, 10)]))) :=
  ⟨by decide, by decide, by decide⟩

/-- C12: from the new tree over the integers, the inserts of 5, 3, 8, 1, 4,
7, 9 and then the deletes of 3 and 8 all return `SUCCESS`; the size is then
5, the destructor has been called on 3 and 8, and a traversal started with
the flag set calls the visitor on 1, 4, 5, 7, 9 in that order and returns
success. -/
theorem round_trip_integers :
    newRBTree intCmp logFree = some emptyTree ∧
      ((insertAll emptyTree [5, 3, 8, 1, 4, 7, 9]).bind fun p =>
        (deleteAll p.2 [3, 8] []).map fun q =>
          (p.1, q.1, q.2.1.size, q.2.2,
            forEachRBTree (some q.2.1) (recordCalls sumUpTo) 100 (YES, (0, [])))) =
        some ([SUCCESS, SUCCESS, SUCCESS, SUCCESS, SUCCESS, SUCCESS, SUCCESS],
          [SUCCESS, SUCCESS], 5, [3, 8],
          (SUCCESS, (YES, (26, [(1, 100), (4, 100), (5, 100), (7, 100), (9, 100)])))) :=
  ⟨rfl, rfl⟩

/-- C15: `freeRBTree` on a tree calls the destructor on the elements of the
tree in post-order (left subtree, right subtree, node), that is once on each
element held and on nothing else, and leaves `*tree` null; on a tree without
elements it makes no call. -/
theorem freeRBTree_postorder (t : RBTree α σ) (w : σ) :
    freeRBTree (some t.recording) (w, []) =
        some (none, ((postorder t.root).foldl (fun w x => t.freeFunc x w) w, postorder t.root)) ∧
      (postorder t.root).Perm (inorder t.root) ∧
      (postorder t.root).length = nodeCount t.root ∧
      (t.root = .NULL → postorder t.root = []) := by
  refine ⟨?_, postorder_perm_inorder _, ?_, ?_⟩
  · simp [freeRBTree, RBTree.recording, freeHelper_record]
  · rw [nodeCount_eq_length]
    exact (postorder_perm_inorder _).length_eq
  · intro h
    rw [h]; rfl

/-- C16: on a red-black tree (its `size` being its number of nodes) that is
BST-ordered under a comparator meeting the contract, deleting data equal to
an element returns `SUCCESS` and calls the destructor exactly once, on that
element; every other element, the successor whose node is unlinked after a
swap included, is still in the tree. -/
theorem deleteFromRBTree_destroys_one (t : RBTree α σ) (d : α) (w : σ)
    (hc : StrictTotalOrderCmp t.compFunc) (hb : BSTOrdered t.compFunc t.root)
    (hinv : RBInvariants t.root) (hsize : t.size = nodeCount t.root)
    (hd : ∃ e ∈ inorder t.root, t.compFunc d e = 0) :
    ∃ t' pre e post, deleteFromRBTree (some t.recording) d (w, []) =
        some (SUCCESS, some t', (t.freeFunc e w, [e])) ∧
      inorder t.root = pre ++ e :: post ∧ t.compFunc d e = 0 ∧
      inorder t'.root = pre ++ post := by
  obtain ⟨hrb, hn, he⟩ := hinv
  have hbal := (equalBlackPaths_iff_balanced _).1 he
  obtain ⟨e0, hm, hde0⟩ := hd
  obtain ⟨p, c, l, r', hf, -⟩ := findNodeInTree_complete hc t.root [] e0 hb hm hde0
  obtain ⟨root, e, pre, post, h1, -, -, -, h5, h6, h7⟩ :=
    deleteFromRBTree_found t.recording d (w, []) p hf hrb hn hbal hsize
  exact ⟨_, pre, e, post, h1, h5, h7, h6⟩

theorem deleteFromRBTree_destroys_one_witness :
    BSTOrdered exampleTree.compFunc exampleTree.root ∧ RBInvariants exampleTree.root ∧
      exampleTree.size = nodeCount exampleTree.root ∧
      ∃ t' pre e post, deleteFromRBTree (some exampleTree.recording) 5 ([], []) =
          some (SUCCESS, some t', (exampleTree.freeFunc e [], [e])) ∧
        inorder exampleTree.root = pre ++ e :: post ∧ exampleTree.compFunc 5 e = 0 ∧
        inorder t'.root = pre ++ post :=
  ⟨by decide, by decide, by decide,
    deleteFromRBTree_destroys_one exampleTree 5 [] intCmp_order (by decide) (by decide)
      (by decide) ⟨5, by decide, by decide⟩⟩

/-- C17: `newRBTree` returns a tree without root, of size 0, holding the
comparator and the destructor given; `RBTreeContains` is 0 on it for every
data and a traversal of it calls the visitor on nothing. -/
theorem newRBTree_empty (compFunc : α → α → Int) (freeFunc : α → σ → σ) :
    ∃ t, newRBTree compFunc freeFunc = some t ∧ t.root = .NULL ∧ t.size = 0 ∧
      t.compFunc = compFunc ∧ t.freeFunc = freeFunc ∧
      (∀ d, RBTreeContains (some t) d = 0) ∧
      (∀ (func : α → β → ω → Int × ω) (args : β) (g : Int) (w : ω),
        forEachRBTree (some t) (recordCalls func) args (g, (w, [])) = (g, (g, (w, [])))) :=
  ⟨_, rfl, rfl, rfl, rfl, rfl, fun _ => rfl, fun _ _ _ _ => rfl⟩

end RBT

namespace RBT
variable {α σ ω β : Type}

/-! ### Lexicographic order -/

theorem lexLess_irrefl {K : Type} [LinearOrder K] : ∀ a : List K, ¬ lexLess a a := by
  intro a
  induction a with
  | nil => simp [lexLess]
  | cons x xs ih => simp [lexLess, ih]

theorem lexLess_asymm {K : Type} [LinearOrder K] :
    ∀ a b : List K, lexLess a b → ¬ lexLess b a := by
  intro a
  induction a with
  | nil => intro b _; cases b <;> simp [lexLess]
  | cons x xs ih =>
    intro b h
    cases b with
    | nil => simp [lexLess] at h
    | cons y ys =>
      simp only [lexLess] at h ⊢
      rintro (h' | ⟨rfl, h'⟩)
      · rcases h with h | ⟨rfl, h⟩
        · exact lt_asymm h h'
        · exact lt_irrefl _ h'
      · rcases h with h | ⟨-, h⟩
        · exact lt_irrefl _ h
        · exact ih ys h h'

theorem lexLess_trans {K : Type} [LinearOrder K] :
    ∀ a b c : List K, lexLess a b → lexLess b c → lexLess a c := by
  intro a
  induction a with
  | nil =>
    intro b c h1 h2
    cases b with
    | nil => simp [lexLess] at h1
    | cons y ys =>
      cases c with
      | nil => simp [lexLess] at h2
      | cons z zs => simp [lexLess]
  | cons x xs ih =>
    intro b c h1 h2
    cases b with
    | nil => simp [lexLess] at h1
    | cons y ys =>
      cases c with
      | nil => simp [lexLess] at h2
      | cons z zs =>
        simp only [lexLess] at h1 h2 ⊢
        rcases h1 with h1 | ⟨rfl, h1⟩
        · rcases h2 with h2 | ⟨rfl, h2⟩
          · exact Or.inl (lt_trans h1 h2)
          · exact Or.inl h1
        · rcases h2 with h2 | ⟨rfl, h2⟩
          · exact Or.inl h2
          · exact Or.inr ⟨rfl, ih ys zs h1 h2⟩

theorem lexLess_trichotomy {K : Type} [LinearOrder K] :
    ∀ a b : List K, lexLess a b ∨ a = b ∨ lexLess b a := by
  intro a
  induction a with
  | nil => intro b; cases b <;> simp [lexLess]
  | cons x xs ih =>
    intro b
    cases b with
    | nil => simp [lexLess]
    | cons y ys =>
      simp only [lexLess, List.cons.injEq]
      rcases lt_trichotomy x y with h | rfl | h
      · exact Or.inl (Or.inl h)
      · rcases ih ys with h | rfl | h
        · exact Or.inl (Or.inr ⟨rfl, h⟩)
        · exact Or.inr (Or.inl ⟨rfl, rfl⟩)
        · exact Or.inr (Or.inr (Or.inr ⟨rfl, h⟩))
      · exact Or.inr (Or.inr (Or.inl h))

/-- `lexLess` is the lexicographic order of the library. -/
theorem lexLess_iff_lex {K : Type} [LinearOrder K] :
    ∀ a b : List K, lexLess a b ↔ List.Lex (· < ·) a b := by
  intro a
  induction a with
  | nil =>
    intro b
    cases b with
    | nil => simp [lexLess]
    | cons y ys => simp [lexLess, List.Lex.nil]
  | cons x xs ih =>
    intro b
    cases b with
    | nil => simp [lexLess]
    | cons y ys =>
      simp only [lexLess, ih]
      constructor
      · rintro (h | ⟨rfl, h⟩)
        · exact List.Lex.rel h
        · exact List.Lex.cons h
      · intro h
        cases h with
        | rel h => exact Or.inl h
        | cons h => exact Or.inr ⟨rfl, h⟩

/-- A difference among the first `n` components decides the order of the
whole lists. -/
theorem lexLess_of_take {K : Type} [LinearOrder K] :
    ∀ (n : Nat) (a b : List K), lexLess (a.take n) (b.take n) → lexLess a b := by
  intro n
  induction n with
  | zero => intro a b h; simp [lexLess] at h
  | succ n ih =>
    intro a b h
    cases a with
    | nil =>
      cases b with
      | nil => simp [lexLess] at h
      | cons y ys => simp [lexLess]
    | cons x xs =>
      cases b with
      | nil => simp [lexLess] at h
      | cons y ys =>
        simp only [List.take_succ_cons, lexLess] at h ⊢
        rcases h with h | ⟨rfl, h⟩
        · exact Or.inl h
        · exact Or.inr ⟨rfl, ih xs ys h⟩

/-- Lists that agree up to the length of the shorter one are ordered by
their lengths. -/
theorem lexLess_of_take_eq {K : Type} [LinearOrder K] :
    ∀ (a b : List K), a.take (min a.length b.length) = b.take (min a.length b.length) →
      (lexLess a b ↔ a.length < b.length) ∧ (a = b ↔ a.length = b.length) := by
  intro a
  induction a with
  | nil =>
    intro b _
    cases b with
    | nil => simp [lexLess]
    | cons y ys => simp [lexLess]
  | cons x xs ih =>
    intro b h
    cases b with
    | nil => simp [lexLess]
    | cons y ys =>
      simp only [List.length_cons, Nat.add_min_add_right, List.take_succ_cons,
        List.cons.injEq] at h
      obtain ⟨rfl, h⟩ := h
      obtain ⟨h1, h2⟩ := ih ys h
      simp only [lexLess, lt_irrefl, false_or, true_and, List.length_cons, List.cons.injEq,
        Nat.add_lt_add_iff_right, Nat.add_right_cancel_iff]
      exact ⟨h1, h2⟩

theorem lexLess_append_cons {K : Type} [LinearOrder K] (c : K) (cs : List K) :
    ∀ a : List K, lexLess a (a ++ c :: cs) := by
  intro a
  induction a with
  | nil => simp [lexLess]
  | cons x xs ih => simp [lexLess, ih]

/-- A comparison that decides by the first `min` components and, when these
agree, by the lengths, has the sign of the lexicographic comparison. -/
theorem prefixCompare_sign {K : Type} [LinearOrder K] (a b : List K) (res : Int)
    (hlt : res < 0 ↔ lexLess (a.take (min a.length b.length)) (b.take (min a.length b.length)))
    (heq : res = 0 ↔ a.take (min a.length b.length) = b.take (min a.length b.length))
    (out : Int)
    (hout : out = if res = 0 then
        if (a.length : Int) = b.length then 0
        else if (a.length : Int) > b.length then 1 else -1
      else res) :
    (out < 0 ↔ lexLess a b) ∧ (out = 0 ↔ a = b) ∧ (0 < out ↔ lexLess b a) := by
  rw [hout]
  by_cases h0 : res = 0
  · obtain ⟨h1, h2⟩ := lexLess_of_take_eq a b (heq.1 h0)
    have hsym : b.take (min b.length a.length) = a.take (min b.length a.length) := by
      rw [Nat.min_comm]; exact (heq.1 h0).symm
    obtain ⟨h3, -⟩ := lexLess_of_take_eq b a hsym
    simp only [h0, if_true]
    by_cases hl : (a.length : Int) = b.length
    · have hl' : a.length = b.length := by exact_mod_cast hl
      simp only [hl, if_true, lt_irrefl, false_iff, true_iff]
      refine ⟨?_, h2.2 hl', ?_⟩
      · rw [h1]; omega
      · rw [h3]; omega
    · have hl' : a.length ≠ b.length := by
        intro h; apply hl; exact_mod_cast h
      by_cases hg : (a.length : Int) > b.length
      · have hg' : b.length < a.length := by exact_mod_cast hg
        simp only [hl, hg, if_false, if_true]
        refine ⟨?_, ?_, ?_⟩
        · rw [h1]; constructor
          · intro h; norm_num at h
          · intro h; omega
        · rw [h2]; constructor
          · intro h; norm_num at h
          · intro h; exact absurd h hl'
        · rw [h3]; constructor
          · intro _; exact hg'
          · intro _; norm_num
      · have hg' : a.length < b.length := by
          have : ¬ b.length < a.length := by
            intro h; apply hg; exact_mod_cast h
          omega
        simp only [hl, hg, if_false]
        refine ⟨?_, ?_, ?_⟩
        · rw [h1]; constructor
          · intro _; exact hg'
          · intro _; norm_num
        · rw [h2]; constructor
          · intro h; norm_num at h
          · intro h; exact absurd h hl'
        · rw [h3]; constructor
          · intro h; norm_num at h
          · intro h; omega
  · simp only [h0, if_false]
    have hne : a.take (min a.length b.length) ≠ b.take (min a.length b.length) :=
      fun h => h0 (heq.2 h)
    by_cases hneg : res < 0
    · have hab := lexLess_of_take _ a b (hlt.1 hneg)
      refine ⟨⟨fun _ => hab, fun _ => hneg⟩, ⟨fun h => h.elim, ?_⟩, ⟨fun h => ?_, ?_⟩⟩
      · rintro rfl; exact absurd hab (lexLess_irrefl _)
      · omega
      · intro h; exact absurd hab (lexLess_asymm _ _ h)
    · have hpos : 0 < res := by omega
      have hba : lexLess b a := by
        rcases lexLess_trichotomy (a.take (min a.length b.length))
            (b.take (min a.length b.length)) with h | h | h
        · exact absurd (hlt.2 h) hneg
        · exact absurd h hne
        · exact lexLess_of_take _ b a h
      refine ⟨⟨fun h => absurd h hneg, fun h => absurd hba (lexLess_asymm _ _ h)⟩,
        ⟨fun h => h.elim, ?_⟩, ⟨fun _ => hba, fun _ => hpos⟩⟩
      rintro rfl; exact absurd hba (lexLess_irrefl _)

/-- A comparator whose sign is that of the lexicographic comparison of keys,
and that is zero on equal data only, meets the contract of the tree. -/
theorem StrictTotalOrderCmp.of_lexLess {T K : Type} [LinearOrder K] (cmp : T → T → Int)
    (key : T → List K)
    (h : ∀ a b, (cmp a b < 0 ↔ lexLess (key a) (key b)) ∧ (cmp a b = 0 ↔ a = b) ∧
      (0 < cmp a b ↔ lexLess (key b) (key a))) : StrictTotalOrderCmp cmp :=
  StrictTotalOrderCmp.of_eq_iff (fun a b => (h a b).2.1)
    (fun a b => (h a b).1.trans (h b a).2.2.symm)
    (fun a b c h1 h2 =>
      (h a c).1.2 (lexLess_trans _ _ _ ((h a b).1.1 h1) ((h b c).1.1 h2)))

theorem sign_eq_of_iff (x y : Int) (hlt : x < 0 ↔ y < 0) (heq : x = 0 ↔ y = 0) :
    Int.sign x = Int.sign y := by
  rcases lt_trichotomy x 0 with hx | hx | hx
  · rw [Int.sign_eq_neg_one_of_neg hx, Int.sign_eq_neg_one_of_neg (hlt.1 hx)]
  · rw [hx, heq.1 hx]
  · have hy : 0 < y := by
      rcases lt_trichotomy y 0 with hy | hy | hy
      · have := hlt.2 hy; omega
      · have := heq.2 hy; omega
      · exact hy
    rw [Int.sign_eq_one_of_pos hx, Int.sign_eq_one_of_pos hy]

/-! ### `stringCompare` -/

theorem getMinLenOf2Strings_toNat (a b : CString) :
    (getMinLenOf2Strings a b).toNat = min a.length b.length := by
  unfold getMinLenOf2Strings strlen
  split
  · rename_i h
    have : b.length < a.length := by exact_mod_cast h
    simp [Nat.min_eq_right (le_of_lt this)]
  · rename_i h
    have : ¬ b.length < a.length := by
      intro h'; apply h; exact_mod_cast h'
    simp [Nat.min_eq_left (not_lt.1 this)]

/-- The sign of `stringCompare` is that of the lexicographic comparison. -/
theorem stringCompare_sign (strncmp : CString → CString → Nat → Int)
    (hs : StrncmpSpec strncmp) (a b : CString) (ha : IsCString a) (hb : IsCString b) :
    (stringCompare strncmp a b < 0 ↔ lexLess a b) ∧ (stringCompare strncmp a b = 0 ↔ a = b) ∧
      (0 < stringCompare strncmp a b ↔ lexLess b a) := by
  obtain ⟨hlt, heq⟩ := hs a b (min a.length b.length) ha hb
  refine prefixCompare_sign a b (strncmp a b (min a.length b.length)) hlt heq _ ?_
  simp only [stringCompare, getMinLenOf2Strings_toNat, strlen]

theorem isCString_of_cons {x : Nat} {xs : CString} (h : IsCString (x :: xs)) : IsCString xs :=
  fun c hc => h c (List.mem_cons_of_mem _ hc)

/-- The reference `strncmp` does what the C standard says. -/
theorem strncmpRef_spec : StrncmpSpec strncmpRef := by
  intro a b n
  induction n generalizing a b with
  | zero => intro _ _; simp [strncmpRef, lexLess]
  | succ n ih =>
    intro ha hb
    cases a with
    | nil =>
      cases b with
      | nil => simp [strncmpRef, lexLess]
      | cons y ys =>
        have hy := (hb y (List.mem_cons_self _ _)).1
        simp only [strncmpRef, List.take_nil, List.take_succ_cons, lexLess, iff_true]
        constructor
        · omega
        · constructor
          · intro h; omega
          · intro h; simp at h
    | cons x xs =>
      cases b with
      | nil =>
        have hx := (ha x (List.mem_cons_self _ _)).1
        simp only [strncmpRef, List.take_nil, List.take_succ_cons, lexLess, iff_false]
        constructor
        · omega
        · constructor
          · intro h; omega
          · intro h; simp at h
      | cons y ys =>
        simp only [strncmpRef, List.take_succ_cons, lexLess, List.cons.injEq]
        by_cases hxy : x = y
        · subst hxy
          simp only [if_true, lt_irrefl, false_or, true_and]
          exact ih xs ys (isCString_of_cons ha) (isCString_of_cons hb)
        · simp only [hxy, if_false, false_and, or_false]
          constructor
          · constructor
            · intro h; omega
            · intro h; omega
          · constructor
            · intro h; omega
            · intro h; exact absurd h (by simp)

/-- C18: for NUL-terminated strings `a` and `b`, and a `strncmp` that does
what the C standard says, `stringCompare a b` is 0 exactly when the strings
are equal, negative exactly when `a` precedes `b` in the lexicographic order
of the bytes and positive exactly when `b` precedes `a`; a proper prefix is
below the longer string; and the sign is that of `strncmp` itself on the
whole strings, which is the standard byte-wise comparison. -/
theorem stringCompare_lexicographic (strncmp : CString → CString → Nat → Int)
    (hs : StrncmpSpec strncmp) (a b : CString) (ha : IsCString a) (hb : IsCString b) :
    (stringCompare strncmp a b = 0 ↔ a = b) ∧
      (stringCompare strncmp a b < 0 ↔ lexLess a b) ∧
      (0 < stringCompare strncmp a b ↔ lexLess b a) ∧
      (∀ c cs, b = a ++ c :: cs → stringCompare strncmp a b < 0) ∧
      (∀ n, a.length ≤ n → b.length ≤ n →
        Int.sign (stringCompare strncmp a b) = Int.sign (strncmp a b n)) := by
  obtain ⟨h1, h2, h3⟩ := stringCompare_sign strncmp hs a b ha hb
  refine ⟨h2, h1, h3, ?_, ?_⟩
  · intro c cs hbc
    rw [h1, hbc]
    exact lexLess_append_cons c cs a
  · intro n han hbn
    obtain ⟨hlt, heq⟩ := hs a b n ha hb
    rw [List.take_of_length_le han, List.take_of_length_le hbn] at hlt heq
    exact sign_eq_of_iff _ _ (h1.trans hlt.symm) (h2.trans heq.symm)

theorem stringCompare_lexicographic_witness :
    StrncmpSpec strncmpRef ∧ IsCString [97, 98] ∧ IsCString [97, 98, 99] ∧
      (stringCompare strncmpRef [97, 98] [97, 98, 99] = 0 ↔ [97, 98] = [97, 98, 99]) ∧
      (stringCompare strncmpRef [97, 98] [97, 98, 99] < 0 ↔ lexLess [97, 98] [97, 98, 99]) ∧
      (0 < stringCompare strncmpRef [97, 98] [97, 98, 99] ↔ lexLess [97, 98, 99] [97, 98]) ∧
      (∀ c cs, [97, 98, 99] = [97, 98] ++ c :: cs →
        stringCompare strncmpRef [97, 98] [97, 98, 99] < 0) ∧
      (∀ n, [97, 98].length ≤ n → [97, 98, 99].length ≤ n →
        Int.sign (stringCompare strncmpRef [97, 98] [97, 98, 99]) =
          Int.sign (strncmpRef [97, 98] [97, 98, 99] n)) :=
  ⟨strncmpRef_spec, by decide, by decide,
    stringCompare_lexicographic strncmpRef strncmpRef_spec [97, 98] [97, 98, 99]
      (by decide) (by decide)⟩

end RBT

namespace RBT
variable {α σ ω β : Type}
variable {K : Type} [LinearOrderedRing K]

/-! ### `vectorCompare1By1` -/

theorem Vector.WellFormed.eq_mk {K : Type} {v : Vector K} (h : v.WellFormed) :
    ∃ xs : List K, v = ⟨(xs.length : Int), some xs⟩ := by
  obtain ⟨len, vec⟩ := v
  cases vec with
  | none => exact absurd h (by simp [Vector.WellFormed])
  | some xs =>
    refine ⟨xs, ?_⟩
    have h' : (xs.length : Int) = len := h
    rw [h']

theorem Vector.wellFormed_mk {K : Type} (xs : List K) :
    (⟨(xs.length : Int), some xs⟩ : Vector K).WellFormed := by
  simp [Vector.WellFormed]

theorem Vector.at_mk (n : Int) (xs : List K) (i : Nat) :
    (⟨n, some xs⟩ : Vector K).at i = xs.getD i 0 := rfl

theorem getMinLenOf2Vectors_eq {K : Type} (a b : Vector K) : getMinLenOf2Vectors a b = min a.len b.len := by
  unfold getMinLenOf2Vectors
  split
  · rename_i h; rw [min_eq_right (le_of_lt h)]
  · rename_i h; rw [min_eq_left (not_lt.1 h)]

theorem vectorCompareLoop_some (a b : Vector K) :
    ∀ (n i : Nat) (r : Int), vectorCompareLoop a b i n = some r → r = POS ∨ r = NEG := by
  intro n
  induction n with
  | zero => intro i r h; simp [vectorCompareLoop] at h
  | succ n ih =>
    intro i r h
    unfold vectorCompareLoop at h
    split at h
    · left; exact (Option.some.inj h).symm
    · split at h
      · right; exact (Option.some.inj h).symm
      · exact ih (i + 1) r h

/-- The loop finds no difference where the components agree. -/
theorem vectorCompareLoop_none (a b : Vector K) :
    ∀ (n i : Nat), (∀ j, i ≤ j → j < i + n → a.at j = b.at j) →
      vectorCompareLoop a b i n = none := by
  intro n
  induction n with
  | zero => intro i _; rfl
  | succ n ih =>
    intro i h
    have hi := h i (le_refl _) (by omega)
    unfold vectorCompareLoop
    rw [if_neg (by rw [hi]; exact lt_irrefl _), if_neg (by rw [hi]; exact lt_irrefl _)]
    exact ih (i + 1) (fun j h1 h2 => h j (by omega) (by omega))

/-- The loop returns at the first index where the components differ. -/
theorem vectorCompareLoop_first (a b : Vector K) :
    ∀ (n i k : Nat), i ≤ k → k < i + n → (∀ j, i ≤ j → j < k → a.at j = b.at j) →
      a.at k ≠ b.at k →
      vectorCompareLoop a b i n = some (if a.at k > b.at k then POS else NEG) := by
  intro n
  induction n with
  | zero => intro i k h1 h2; omega
  | succ n ih =>
    intro i k h1 h2 hpre hk
    unfold vectorCompareLoop
    by_cases hik : i = k
    · subst hik
      by_cases hgt : a.at i > b.at i
      · rw [if_pos hgt, if_pos hgt]
      · have hlt : a.at i < b.at i := lt_of_le_of_ne (not_lt.1 hgt) hk
        rw [if_neg hgt, if_pos hlt, if_neg hgt]
    · have hi := hpre i (le_refl _) (by omega)
      rw [if_neg (by rw [hi]; exact lt_irrefl _), if_neg (by rw [hi]; exact lt_irrefl _)]
      exact ih (i + 1) k (by omega) (by omega) (fun j h3 h4 => hpre j (by omega) h4) hk

/-- The loop over the arrays `xs` and `ys` compares their segments
lexicographically. -/
theorem vectorCompareLoop_lex (la lb : Int) (xs ys : List K) :
    ∀ (n i : Nat), i + n ≤ xs.length → i + n ≤ ys.length →
      (((vectorCompareLoop ⟨la, some xs⟩ ⟨lb, some ys⟩ i n).getD 0 < 0 ↔
          lexLess ((xs.drop i).take n) ((ys.drop i).take n)) ∧
        ((vectorCompareLoop ⟨la, some xs⟩ ⟨lb, some ys⟩ i n).getD 0 = 0 ↔
          (xs.drop i).take n = (ys.drop i).take n)) := by
  intro n
  induction n with
  | zero => intro i _ _; simp [vectorCompareLoop, lexLess]
  | succ n ih =>
    intro i hx hy
    have hix : i < xs.length := by omega
    have hiy : i < ys.length := by omega
    have hax : (⟨la, some xs⟩ : Vector K).at i = xs[i] := by
      rw [Vector.at_mk, List.getD_eq_getElem _ _ hix]
    have hay : (⟨lb, some ys⟩ : Vector K).at i = ys[i] := by
      rw [Vector.at_mk, List.getD_eq_getElem _ _ hiy]
    rw [List.drop_eq_getElem_cons hix, List.drop_eq_getElem_cons hiy]
    simp only [List.take_succ_cons, lexLess, List.cons.injEq]
    unfold vectorCompareLoop
    rw [hax, hay]
    by_cases hgt : xs[i] > ys[i]
    · rw [if_pos hgt]
      have hne : xs[i] ≠ ys[i] := ne_of_gt hgt
      have hnl : ¬ xs[i] < ys[i] := not_lt.2 (le_of_lt hgt)
      simp [hne, hnl]
    · rw [if_neg hgt]
      by_cases hlt : xs[i] < ys[i]
      · rw [if_pos hlt]
        have hne : xs[i] ≠ ys[i] := ne_of_lt hlt
        simp [hne, hlt]
      · rw [if_neg hlt]
        have he : xs[i] = ys[i] := le_antisymm (not_lt.1 hgt) (not_lt.1 hlt)
        simp only [he, lt_irrefl, false_or, true_and]
        exact ih (i + 1) (by omega) (by omega)

/-- The sign of `vectorCompare1By1` on arrays holding `len` components is that
of the lexicographic comparison of the arrays. -/
theorem vectorCompare1By1_sign (xs ys : List K) :
    (vectorCompare1By1 ⟨(xs.length : Int), some xs⟩ ⟨(ys.length : Int), some ys⟩ < 0 ↔
        lexLess xs ys) ∧
      (vectorCompare1By1 ⟨(xs.length : Int), some xs⟩ ⟨(ys.length : Int), some ys⟩ = 0 ↔
        xs = ys) ∧
      (0 < vectorCompare1By1 ⟨(xs.length : Int), some xs⟩ ⟨(ys.length : Int), some ys⟩ ↔
        lexLess ys xs) := by
  have hmin : (getMinLenOf2Vectors (⟨(xs.length : Int), some xs⟩ : Vector K)
      ⟨(ys.length : Int), some ys⟩).toNat = min xs.length ys.length := by
    rw [getMinLenOf2Vectors_eq]
    simp only
    omega
  obtain ⟨hlt, heq⟩ := vectorCompareLoop_lex (xs.length : Int) (ys.length : Int) xs ys
    (min xs.length ys.length) 0 (by simp) (by simp)
  simp only [List.drop_zero] at hlt heq
  refine prefixCompare_sign xs ys _ hlt heq _ ?_
  simp only [vectorCompare1By1, hmin]
  cases hl : vectorCompareLoop (⟨(xs.length : Int), some xs⟩ : Vector K)
      ⟨(ys.length : Int), some ys⟩ 0 (min xs.length ys.length) with
  | none => simp
  | some r =>
    rcases vectorCompareLoop_some _ _ _ _ _ hl with h | h <;> simp [h]

end RBT

namespace RBT
variable {α σ ω β : Type}
variable {K : Type} [LinearOrderedRing K]

/-- C19: for vectors `a` and `b` whose arrays hold `len` components,
`vectorCompare1By1 a b` is positive (negative) when, at the first index below
the smaller length where the components differ, the component of `a` is the
larger (smaller) one; when the components agree at all those indices it is 0
for equal lengths, negative when `a` is shorter and positive when `a` is
longer; hence it is 0 exactly when the two have the same length and the same
components, that is when they are equal. -/
theorem vectorCompare1By1_first_difference (a b : Vector K) (ha : a.WellFormed)
    (hb : b.WellFormed) :
    (∀ k : Nat, (k : Int) < min a.len b.len → (∀ j, j < k → a.at j = b.at j) →
        (a.at k > b.at k → 0 < vectorCompare1By1 a b) ∧
        (a.at k < b.at k → vectorCompare1By1 a b < 0)) ∧
      ((∀ j : Nat, (j : Int) < min a.len b.len → a.at j = b.at j) →
        (a.len = b.len → vectorCompare1By1 a b = 0) ∧
        (a.len < b.len → vectorCompare1By1 a b < 0) ∧
        (a.len > b.len → 0 < vectorCompare1By1 a b)) ∧
      (vectorCompare1By1 a b = 0 ↔
        a.len = b.len ∧ ∀ j : Nat, (j : Int) < a.len → a.at j = b.at j) ∧
      (vectorCompare1By1 a b = 0 ↔ a = b) := by
  have hfirst : ∀ k : Nat, (k : Int) < min a.len b.len → (∀ j, j < k → a.at j = b.at j) →
      a.at k ≠ b.at k →
      vectorCompare1By1 a b = if a.at k > b.at k then POS else NEG := by
    intro k hk hpre hne
    have hk' : k < 0 + (getMinLenOf2Vectors a b).toNat := by
      rw [getMinLenOf2Vectors_eq]; omega
    simp only [vectorCompare1By1,
      vectorCompareLoop_first a b _ 0 k (Nat.zero_le _) hk' (fun j _ h => hpre j h) hne]
  have hnone : (∀ j : Nat, (j : Int) < min a.len b.len → a.at j = b.at j) →
      vectorCompare1By1 a b =
        if a.len = b.len then EQUAL else if a.len > b.len then POS else NEG := by
    intro h
    have hl := vectorCompareLoop_none a b (getMinLenOf2Vectors a b).toNat 0 (by
      intro j _ hj
      apply h
      rw [getMinLenOf2Vectors_eq] at hj
      omega)
    simp only [vectorCompare1By1, hl]
  have hsecond : (∀ j : Nat, (j : Int) < min a.len b.len → a.at j = b.at j) →
      (a.len = b.len → vectorCompare1By1 a b = 0) ∧
      (a.len < b.len → vectorCompare1By1 a b < 0) ∧
      (a.len > b.len → 0 < vectorCompare1By1 a b) := by
    intro h
    rw [hnone h]
    refine ⟨fun e => by rw [if_pos e], fun e => ?_, fun e => ?_⟩
    · rw [if_neg (by omega), if_neg (by omega)]; decide
    · rw [if_neg (by omega), if_pos e]; decide
  have heq : vectorCompare1By1 a b = 0 ↔ a = b := by
    obtain ⟨xs, rfl⟩ := ha.eq_mk
    obtain ⟨ys, rfl⟩ := hb.eq_mk
    rw [(vectorCompare1By1_sign xs ys).2.1]
    constructor
    · rintro rfl; rfl
    · intro h
      have := congrArg Vector.vector h
      exact Option.some.inj this
  refine ⟨?_, hsecond, ?_, heq⟩
  · intro k hk hpre
    constructor
    · intro hgt
      rw [hfirst k hk hpre (ne_of_gt hgt), if_pos hgt]; decide
    · intro hlt
      rw [hfirst k hk hpre (ne_of_lt hlt), if_neg (not_lt.2 (le_of_lt hlt))]; decide
  · constructor
    · intro h
      rw [heq.1 h]
      exact ⟨rfl, fun _ _ => rfl⟩
    · rintro ⟨hl, hc⟩
      refine (hsecond ?_).1 hl
      intro j hj
      apply hc
      have := min_le_left a.len b.len
      omega

theorem vectorCompare1By1_first_difference_witness :
    (⟨3, some [1, 5, 2]⟩ : Vector Int).WellFormed ∧
      (⟨2, some [1, 7]⟩ : Vector Int).WellFormed ∧
      0 < vectorCompare1By1 (⟨2, some [1, 7]⟩ : Vector Int) ⟨3, some [1, 5, 2]⟩ ∧
      vectorCompare1By1 (⟨3, some [1, 5, 2]⟩ : Vector Int) ⟨2, some [1, 7]⟩ < 0 :=
  ⟨by decide, by decide,
    ((vectorCompare1By1_first_difference (⟨2, some [1, 7]⟩ : Vector Int) ⟨3, some [1, 5, 2]⟩
      (by decide) (by decide)).1 1 (by decide) (by
        intro j hj
        have hj0 : j = 0 := by omega
        subst hj0
        rfl)).1 (by decide),
    ((vectorCompare1By1_first_difference (⟨3, some [1, 5, 2]⟩ : Vector Int) ⟨2, some [1, 7]⟩
      (by decide) (by decide)).1 1 (by decide) (by
        intro j hj
        have hj0 : j = 0 := by omega
        subst hj0
        rfl)).2 (by decide)⟩

/-- The sign of `vectorCompare1By1` on vectors whose arrays hold `len`
components is that of the lexicographic comparison of the arrays, and it is 0
on equal vectors only. -/
theorem vectorCompare1By1_sign_wf (a b : Vector K) (ha : a.WellFormed) (hb : b.WellFormed) :
    (vectorCompare1By1 a b < 0 ↔ lexLess (a.vector.getD []) (b.vector.getD [])) ∧
      (vectorCompare1By1 a b = 0 ↔ a = b) ∧
      (0 < vectorCompare1By1 a b ↔ lexLess (b.vector.getD []) (a.vector.getD [])) := by
  obtain ⟨xs, rfl⟩ := ha.eq_mk
  obtain ⟨ys, rfl⟩ := hb.eq_mk
  obtain ⟨h1, h2, h3⟩ := vectorCompare1By1_sign xs ys
  refine ⟨h1, h2.trans ?_, h3⟩
  constructor
  · rintro rfl; rfl
  · intro h
    have := congrArg (fun v => v.vector) h
    exact Option.some.inj this

/-- C20: the two comparators meet the contract of the tree.  On NUL-terminated
strings (with a `strncmp` that does what the C standard says) and on vectors
whose arrays hold `len` components, `compare a b` is negative exactly when
`compare b a` is positive, the two are 0 only together, and that exactly when
`a` and `b` are equal; of two different data one is below the other, and
`compare a b < 0` is transitive (also through data that compare equal): the
relation `compare a b < 0` is a strict total order, and the result is
negative, zero or positive as `a` is less than, equal to or greater than
`b`. -/
theorem comparators_meet_contract (strncmp : CString → CString → Nat → Int)
    (hs : StrncmpSpec strncmp) :
    (StrictTotalOrderCmp (fun (a b : { s : CString // IsCString s }) =>
        stringCompare strncmp a.1 b.1) ∧
      ∀ a b : CString, IsCString a → IsCString b →
        (stringCompare strncmp a b = 0 ↔ stringCompare strncmp b a = 0) ∧
        (stringCompare strncmp a b < 0 ↔ 0 < stringCompare strncmp b a) ∧
        (stringCompare strncmp a b = 0 ↔ a = b) ∧
        (a ≠ b → stringCompare strncmp a b < 0 ∨ stringCompare strncmp b a < 0) ∧
        ¬ (stringCompare strncmp a b < 0 ∧ stringCompare strncmp b a < 0) ∧
        ∀ c, IsCString c → stringCompare strncmp a b < 0 → stringCompare strncmp b c < 0 →
          stringCompare strncmp a c < 0) ∧
    (StrictTotalOrderCmp (fun (a b : { v : Vector K // v.WellFormed }) =>
        vectorCompare1By1 a.1 b.1) ∧
      ∀ a b : Vector K, a.WellFormed → b.WellFormed →
        (vectorCompare1By1 a b = 0 ↔ vectorCompare1By1 b a = 0) ∧
        (vectorCompare1By1 a b < 0 ↔ 0 < vectorCompare1By1 b a) ∧
        (vectorCompare1By1 a b = 0 ↔ a = b) ∧
        (a ≠ b → vectorCompare1By1 a b < 0 ∨ vectorCompare1By1 b a < 0) ∧
        ¬ (vectorCompare1By1 a b < 0 ∧ vectorCompare1By1 b a < 0) ∧
        ∀ c, c.WellFormed → vectorCompare1By1 a b < 0 → vectorCompare1By1 b c < 0 →
          vectorCompare1By1 a c < 0) := by
  have hstr : StrictTotalOrderCmp (fun (a b : { s : CString // IsCString s }) =>
      stringCompare strncmp a.1 b.1) := by
    refine StrictTotalOrderCmp.of_lexLess _ (fun a => a.1) ?_
    intro a b
    obtain ⟨h1, h2, h3⟩ := stringCompare_sign strncmp hs a.1 b.1 a.2 b.2
    exact ⟨h1, h2.trans Subtype.ext_iff.symm, h3⟩
  have hvec : StrictTotalOrderCmp (fun (a b : { v : Vector K // v.WellFormed }) =>
      vectorCompare1By1 a.1 b.1) := by
    refine StrictTotalOrderCmp.of_lexLess _ (fun a => a.1.vector.getD []) ?_
    rintro ⟨a, ha⟩ ⟨b, hb⟩
    obtain ⟨h1, h2, h3⟩ := vectorCompare1By1_sign_wf a b ha hb
    exact ⟨h1, h2.trans ⟨fun h => Subtype.ext h, fun h => congrArg Subtype.val h⟩, h3⟩
  refine ⟨⟨hstr, ?_⟩, ⟨hvec, ?_⟩⟩
  · intro a b ha hb
    obtain ⟨h1, h2, h3⟩ := stringCompare_sign strncmp hs a b ha hb
    obtain ⟨g1, g2, g3⟩ := stringCompare_sign strncmp hs b a hb ha
    refine ⟨?_, h1.trans g3.symm, h2, ?_, ?_, ?_⟩
    · rw [h2, g2]
      exact eq_comm
    · intro hne
      rcases lt_trichotomy (stringCompare strncmp a b) 0 with h | h | h
      · exact Or.inl h
      · exact absurd (h2.1 h) hne
      · exact Or.inr (g1.2 (h3.1 h))
    · rintro ⟨h, g⟩
      exact lexLess_asymm _ _ (h1.1 h) (g1.1 g)
    · intro c hc hab hbc
      exact hstr.trans ⟨a, ha⟩ ⟨b, hb⟩ ⟨c, hc⟩ hab hbc
  · intro a b ha hb
    obtain ⟨h1, h2, h3⟩ := vectorCompare1By1_sign_wf a b ha hb
    obtain ⟨g1, g2, g3⟩ := vectorCompare1By1_sign_wf b a hb ha
    refine ⟨?_, h1.trans g3.symm, h2, ?_, ?_, ?_⟩
    · rw [h2, g2]
      exact eq_comm
    · intro hne
      rcases lt_trichotomy (vectorCompare1By1 a b) 0 with h | h | h
      · exact Or.inl h
      · exact absurd (h2.1 h) hne
      · exact Or.inr (g1.2 (h3.1 h))
    · rintro ⟨h, g⟩
      exact lexLess_asymm _ _ (h1.1 h) (g1.1 g)
    · intro c hc hab hbc
      exact hvec.trans ⟨a, ha⟩ ⟨b, hb⟩ ⟨c, hc⟩ hab hbc

theorem comparators_meet_contract_witness :
    StrncmpSpec strncmpRef ∧
      (StrictTotalOrderCmp (fun (a b : { s : CString // IsCString s }) =>
          stringCompare strncmpRef a.1 b.1) ∧
        ∀ a b : CString, IsCString a → IsCString b →
          (stringCompare strncmpRef a b = 0 ↔ stringCompare strncmpRef b a = 0) ∧
          (stringCompare strncmpRef a b < 0 ↔ 0 < stringCompare strncmpRef b a) ∧
          (stringCompare strncmpRef a b = 0 ↔ a = b) ∧
          (a ≠ b → stringCompare strncmpRef a b < 0 ∨ stringCompare strncmpRef b a < 0) ∧
          ¬ (stringCompare strncmpRef a b < 0 ∧ stringCompare strncmpRef b a < 0) ∧
          ∀ c, IsCString c → stringCompare strncmpRef a b < 0 →
            stringCompare strncmpRef b c < 0 → stringCompare strncmpRef a c < 0) ∧
      (StrictTotalOrderCmp (fun (a b : { v : Vector Int // v.WellFormed }) =>
          vectorCompare1By1 a.1 b.1) ∧
        ∀ a b : Vector Int, a.WellFormed → b.WellFormed →
          (vectorCompare1By1 a b = 0 ↔ vectorCompare1By1 b a = 0) ∧
          (vectorCompare1By1 a b < 0 ↔ 0 < vectorCompare1By1 b a) ∧
          (vectorCompare1By1 a b = 0 ↔ a = b) ∧
          (a ≠ b → vectorCompare1By1 a b < 0 ∨ vectorCompare1By1 b a < 0) ∧
          ¬ (vectorCompare1By1 a b < 0 ∧ vectorCompare1By1 b a < 0) ∧
          ∀ c, c.WellFormed → vectorCompare1By1 a b < 0 → vectorCompare1By1 b c < 0 →
            vectorCompare1By1 a c < 0) :=
  ⟨strncmpRef_spec, comparators_meet_contract strncmpRef strncmpRef_spec⟩

end RBT

namespace RBT
variable {α σ ω β : Type}
variable {K : Type} [LinearOrderedRing K]

/-! ### `findMaxNormVectorInTree` -/

/-- The example tree of vectors is the one the insertions build. -/
theorem vecTree_built :
    insertAll emptyVecTree [⟨2, some [1, 2]⟩, ⟨2, some [3, 0]⟩, ⟨2, some [0, 0]⟩] =
      some ([SUCCESS, SUCCESS, SUCCESS], vecTree) := rfl

/-- The tree of the two vectors whose norms round to the same `double` is the
one the insertions build. -/
theorem roundTree_built :
    insertAll emptyVecTree [⟨2, some [134217728, 16384]⟩, ⟨1, some [134217729]⟩] =
      some ([SUCCESS, SUCCESS], roundTree) := rfl

/-- C14: on a tree with no element `findMaxNormVectorInTree` returns either
the null result or a vector of length 0 without an array (the latter when no
earlier traversal has failed and the allocation succeeds), never a vector with
components; on a null tree it returns the null result. -/
theorem findMaxNormVectorInTree_empty (t : RBTree (Vector ℚ) σ) (g : Int) (allocs : List Bool)
    (hroot : t.root = .NULL) :
    ((findMaxNormVectorInTree (some t) g allocs).1 = none ∨
        (findMaxNormVectorInTree (some t) g allocs).1 = some { len := 0, vector := none }) ∧
      (g ≠ 0 → allocs.headD true = true →
        findMaxNormVectorInTree (some t) g allocs =
          (some { len := 0, vector := none }, g, allocs.tail)) ∧
      findMaxNormVectorInTree (none : Option (RBTree (Vector ℚ) σ)) g allocs =
        (none, g, allocs) := by
  have hrun : forEachRBTree (some t) (fun x a w => copyIfNormIsLarger (some x) a w)
      (some ()) (g, (({ len := 0, vector := none } : Vector ℚ), allocs.tail)) =
        (g, (g, ({ len := 0, vector := none }, allocs.tail))) := by
    simp only [forEachRBTree, hroot, forEachHelper]
  refine ⟨?_, ?_, rfl⟩
  · simp only [findMaxNormVectorInTree, hrun]
    by_cases ha : allocs.headD true = true
    · rw [if_pos ha]
      by_cases hg : g = FAILURE
      · rw [if_pos hg]; exact Or.inl rfl
      · rw [if_neg hg]; exact Or.inr rfl
    · rw [if_neg ha]; exact Or.inl rfl
  · intro hg ha
    have hg' : ¬ g = FAILURE := hg
    simp only [findMaxNormVectorInTree, hrun, ha, if_true, hg', if_false]

theorem findMaxNormVectorInTree_empty_witness :
    emptyVecTree.root = .NULL ∧
      ((findMaxNormVectorInTree (some emptyVecTree) YES []).1 = none ∨
          (findMaxNormVectorInTree (some emptyVecTree) YES []).1 =
            some { len := 0, vector := none }) ∧
      (YES ≠ 0 → ([] : List Bool).headD true = true →
        findMaxNormVectorInTree (some emptyVecTree) YES [] =
          (some { len := 0, vector := none }, YES, ([] : List Bool).tail)) ∧
      findMaxNormVectorInTree (none : Option (RBTree (Vector ℚ) (List (Vector ℚ)))) YES [] =
        (none, YES, []) :=
  ⟨rfl, findMaxNormVectorInTree_empty emptyVecTree YES [] rfl⟩

end RBT

namespace RBT
variable {α σ ω β : Type}

/-! ### Rotations -/

theorem inorder_eq_map_colouredInorder (t : Node α) :
    inorder t = (colouredInorder t).map Prod.snd := by
  induction t with
  | NULL => rfl
  | mk c l x r ihl ihr => simp [inorder, colouredInorder, ihl, ihr]

theorem colouredInorder_zip_congr (ctx : Ctx α) (t t' : Node α)
    (h : colouredInorder t = colouredInorder t') :
    colouredInorder (zip ctx t) = colouredInorder (zip ctx t') := by
  induction ctx generalizing t t' with
  | nil => exact h
  | cons f up ih =>
    apply ih
    cases f <;> simp [Frame.plug, colouredInorder, h]

/-! ### Counting the rotations of the insertion fixup -/

theorem blackUncleAfterInsertionCounted_fst (cur : Loc α) (whichUncle : Int) (n : Nat) :
    (blackUncleAfterInsertionCounted cur whichUncle n).map Prod.fst =
      blackUncleAfterInsertion cur whichUncle := by
  obtain ⟨ctx, node⟩ := cur
  by_cases h1 : whichUncle = RIGHT_UNCLE
  · subst h1
    rcases ctx with _ | ⟨pf, _ | ⟨gf, rest⟩⟩
    · rfl
    · cases pf <;> cases node <;> rfl
    · rcases pf with ⟨pc, px, ps⟩ | ⟨pc, pl, px⟩ <;> rcases gf with ⟨gc, gx, u⟩ | ⟨gc, u, gx⟩ <;>
        rcases node with _ | ⟨c, l, x, r⟩ <;> first | rfl | (cases u <;> rfl)
  · by_cases h2 : whichUncle = LEFT_UNCLE
    · subst h2
      rcases ctx with _ | ⟨pf, _ | ⟨gf, rest⟩⟩
      · rfl
      · cases pf <;> cases node <;> rfl
      · rcases pf with ⟨pc, px, ps⟩ | ⟨pc, pl, px⟩ <;> rcases gf with ⟨gc, gx, u⟩ | ⟨gc, u, gx⟩ <;>
          rcases node with _ | ⟨c, l, x, r⟩ <;> first | rfl | (cases u <;> rfl)
    · simp [blackUncleAfterInsertionCounted, blackUncleAfterInsertion, h1, h2]

theorem map_fst_bind_counted {γ : Type} (x : Option (γ × Nat)) (f : γ → Option γ)
    (g : γ × Nat → Option (γ × Nat)) (h : ∀ s, (g s).map Prod.fst = f s.1) :
    (x.bind g).map Prod.fst = (x.map Prod.fst).bind f := by
  cases x with
  | none => rfl
  | some s => simpa using h s

theorem fixTreeLoopCounted_fst : ∀ (fuel : Nat) (cur : Loc α) (n : Nat),
    (fixTreeLoopCounted fuel cur n).map Prod.fst = fixTreeLoop fuel cur := by
  intro fuel
  induction fuel with
  | zero => intro cur n; rfl
  | succ fuel ih =>
    intro cur n
    obtain ⟨ctx, node⟩ := cur
    have hred : ∀ c : Option (Loc α),
        (c.bind fun c => fixTreeLoopCounted fuel c n).map Prod.fst = c.bind (fixTreeLoop fuel) := by
      intro c
      cases c with
      | none => rfl
      | some c => exact ih c n
    have hblack : ∀ wu, ((blackUncleAfterInsertionCounted ⟨ctx, node⟩ wu n).bind
        fun s => fixTreeLoopCounted fuel s.1 s.2).map Prod.fst =
          (blackUncleAfterInsertion ⟨ctx, node⟩ wu).bind (fixTreeLoop fuel) := by
      intro wu
      rw [map_fst_bind_counted _ (fixTreeLoop fuel) _ (fun s => ih s.1 s.2),
        blackUncleAfterInsertionCounted_fst]
    rcases ctx with _ | ⟨pf, _ | ⟨gf, rest⟩⟩
    · rfl
    · simp only [fixTreeLoopCounted, fixTreeLoop]
      split <;> rfl
    · cases gf with
      | ofLeft gc gx u =>
        simp only [fixTreeLoopCounted, fixTreeLoop]
        split
        · split
          · exact hred _
          · exact hblack _
        · rfl
      | ofRight gc u gx =>
        simp only [fixTreeLoopCounted, fixTreeLoop]
        split
        · split
          · exact hred _
          · exact hblack _
        · rfl

theorem blackUncleCounted_left_left (pc gc : Color) (px gx : α) (ps u : Node α) (rest : Ctx α)
    (n : Node α) (k : Nat) :
    blackUncleAfterInsertionCounted ⟨.ofLeft pc px ps :: .ofLeft gc gx u :: rest, n⟩
        RIGHT_UNCLE k =
      some (⟨.ofLeft .BLACK px (.mk .RED ps gx u) :: rest, n⟩, k + 1) := rfl

theorem blackUncleCounted_right_left (pc gc c : Color) (px gx x : α) (pl u l r : Node α)
    (rest : Ctx α) (k : Nat) :
    blackUncleAfterInsertionCounted
        ⟨.ofRight pc pl px :: .ofLeft gc gx u :: rest, .mk c l x r⟩ RIGHT_UNCLE k =
      some (⟨.ofLeft .BLACK x (.mk .RED r gx u) :: rest, .mk pc pl px l⟩, k + 1 + 1) := rfl

theorem blackUncleCounted_right_left_null (pc gc : Color) (px gx : α) (pl u : Node α)
    (rest : Ctx α) (k : Nat) :
    blackUncleAfterInsertionCounted
        ⟨.ofRight pc pl px :: .ofLeft gc gx u :: rest, .NULL⟩ RIGHT_UNCLE k = none := rfl

theorem blackUncleCounted_right_right (pc gc : Color) (px gx : α) (pl u : Node α)
    (rest : Ctx α) (n : Node α) (k : Nat) :
    blackUncleAfterInsertionCounted ⟨.ofRight pc pl px :: .ofRight gc u gx :: rest, n⟩
        LEFT_UNCLE k =
      some (⟨.ofRight .BLACK (.mk .RED u gx pl) px :: rest, n⟩, k + 1) := rfl

theorem blackUncleCounted_left_right (pc gc c : Color) (px gx x : α) (ps u l r : Node α)
    (rest : Ctx α) (k : Nat) :
    blackUncleAfterInsertionCounted
        ⟨.ofLeft pc px ps :: .ofRight gc u gx :: rest, .mk c l x r⟩ LEFT_UNCLE k =
      some (⟨.ofRight .BLACK (.mk .RED u gx l) x :: rest, .mk pc r px ps⟩, k + 1 + 1) := rfl

theorem blackUncleCounted_left_right_null (pc gc : Color) (px gx : α) (ps u : Node α)
    (rest : Ctx α) (k : Nat) :
    blackUncleAfterInsertionCounted
        ⟨.ofLeft pc px ps :: .ofRight gc u gx :: rest, .NULL⟩ LEFT_UNCLE k = none := rfl

/-- After the black-uncle case, called with the side of the uncle that the
loop of `fixTreeAfterInsertion` passes (read here from the frame of the
grandparent, `whichUncleOf`), the parent of the current node is black, and one or two
rotations have been made. -/
theorem blackUncleCounted_parent_black (pf gf : Frame α) (rest : Ctx α) (node : Node α)
    (n : Nat) (s : Loc α × Nat) :
    blackUncleAfterInsertionCounted ⟨pf :: gf :: rest, node⟩ (whichUncleOf gf) n = some s →
    (∃ f, s.1.ctx = f :: rest ∧ f.color = .BLACK) ∧ n + 1 ≤ s.2 ∧ s.2 ≤ n + 2 := by
  intro h
  rcases pf with ⟨pc, px, ps⟩ | ⟨pc, pl, px⟩ <;> rcases gf with ⟨gc, gx, u⟩ | ⟨gc, u, gx⟩
  · simp only [whichUncleOf, blackUncleCounted_left_left] at h
    cases Option.some.inj h
    exact ⟨⟨_, rfl, rfl⟩, by omega, by omega⟩
  · cases node with
    | NULL => simp only [whichUncleOf, blackUncleCounted_left_right_null] at h; cases h
    | mk c l x r =>
      simp only [whichUncleOf, blackUncleCounted_left_right] at h
      cases Option.some.inj h
      exact ⟨⟨_, rfl, rfl⟩, by omega, by omega⟩
  · cases node with
    | NULL => simp only [whichUncleOf, blackUncleCounted_right_left_null] at h; cases h
    | mk c l x r =>
      simp only [whichUncleOf, blackUncleCounted_right_left] at h
      cases Option.some.inj h
      exact ⟨⟨_, rfl, rfl⟩, by omega, by omega⟩
  · simp only [whichUncleOf, blackUncleCounted_right_right] at h
    cases Option.some.inj h
    exact ⟨⟨_, rfl, rfl⟩, by omega, by omega⟩

/-- The loop makes at most two rotations: none in the red-uncle case, one or
two in the black-uncle case, after which it ends. -/
theorem fixTreeLoopCounted_le_two : ∀ (fuel : Nat) (cur : Loc α) (n : Nat) (s : Loc α × Nat),
    fixTreeLoopCounted fuel cur n = some s → s.2 ≤ n + 2 := by
  intro fuel
  induction fuel with
  | zero => intro cur n s h; cases h
  | succ fuel ih =>
    intro cur n s h
    obtain ⟨ctx, node⟩ := cur
    have hstop : ∀ (c : Loc α) (k : Nat) (f : Frame α) (up : Ctx α), c.ctx = f :: up →
        f.color = .BLACK → fixTreeLoopCounted fuel c k = some s → s.2 = k := by
      intro c k f up hc hf hs
      cases fuel with
      | zero => cases hs
      | succ fuel =>
        obtain ⟨cctx, cnode⟩ := c
        simp only at hc
        subst hc
        rcases up with _ | ⟨g, up⟩
        · simp only [fixTreeLoopCounted, hf] at hs
          cases Option.some.inj (by simpa using hs)
          rfl
        · cases g <;>
          · simp only [fixTreeLoopCounted, hf] at hs
            cases Option.some.inj (by simpa using hs)
            rfl
    have hblack : ∀ (pf gf : Frame α) (rest : Ctx α) (x : Option (Loc α × Nat)),
        (∀ t, x = some t → (∃ f, t.1.ctx = f :: rest ∧ f.color = .BLACK) ∧ t.2 ≤ n + 2) →
        (x.bind fun t => fixTreeLoopCounted fuel t.1 t.2) = some s → s.2 ≤ n + 2 := by
      intro pf gf rest x hx hs
      cases x with
      | none => cases hs
      | some t =>
        obtain ⟨⟨f, hc, hf⟩, hle⟩ := hx t rfl
        have := hstop t.1 t.2 f rest hc hf hs
        omega
    have hredu : ∀ (x : Option (Loc α)),
        (x.bind fun c => fixTreeLoopCounted fuel c n) = some s → s.2 ≤ n + 2 := by
      intro x hs
      cases x with
      | none => cases hs
      | some c => exact ih c n s hs
    rcases ctx with _ | ⟨pf, _ | ⟨gf, rest⟩⟩
    · simp only [fixTreeLoopCounted] at h
      cases Option.some.inj h
      simp
    · simp only [fixTreeLoopCounted] at h
      split at h
      · cases h
      · cases Option.some.inj h
        simp
    · cases gf with
      | ofLeft gc gx u =>
        simp only [fixTreeLoopCounted] at h
        split at h
        · split at h
          · exact hredu _ h
          · refine hblack pf (.ofLeft gc gx u) rest _ ?_ h
            intro t ht
            have := blackUncleCounted_parent_black pf (.ofLeft gc gx u) rest node n t ht
            exact ⟨this.1, this.2.2⟩
        · cases Option.some.inj h
          simp
      | ofRight gc u gx =>
        simp only [fixTreeLoopCounted] at h
        split at h
        · split at h
          · exact hredu _ h
          · refine hblack pf (.ofRight gc u gx) rest _ ?_ h
            intro t ht
            have := blackUncleCounted_parent_black pf (.ofRight gc u gx) rest node n t ht
            exact ⟨this.1, this.2.2⟩
        · cases Option.some.inj h
          simp

end RBT

namespace RBT
variable {α σ ω β : Type}

/-- The black-uncle case of the insertion fixup, at a red node with a red
parent in a context that satisfies the invariants: the current node ends with
a black parent in a context that satisfies them. -/
theorem blackUncle_step (pf gf : Frame α) (rest : Ctx α) (l r : Node α) (x : α)
    (hpc : pf.color = .RED) (huc : ¬ gf.sibling.colorOf = .RED)
    (hn : NoRedRed (.mk .RED l x r)) (hb : Balanced (.mk .RED l x r))
    (hctx : CtxRB (pf :: gf :: rest) (blackHeight (Node.mk .RED l x r))) :
    ∃ f node k,
      blackUncleAfterInsertionCounted ⟨pf :: gf :: rest, .mk .RED l x r⟩ (whichUncleOf gf) 0 =
        some (⟨f :: rest, node⟩, k) ∧ 1 ≤ k ∧ k ≤ 2 ∧ f.color = .BLACK ∧
      CtxRB (f :: rest) (blackHeight node) ∧ NoRedRed node ∧ Balanced node ∧
      inorder (zip (f :: rest) node) = inorder (zip (pf :: gf :: rest) (.mk .RED l x r)) := by
  obtain ⟨hps1, hps2, hps3, hpred, hg⟩ := hctx
  obtain ⟨hpsb, hgcol⟩ := hpred hpc
  obtain ⟨hu1, hu2, hu3, -, hrest⟩ := hg
  simp only [ctxColor] at hgcol
  simp only [hpc, hgcol, blackInc, Nat.add_zero] at hu1 hrest
  simp only [blackHeight, blackInc, Nat.add_zero] at hu1 hrest hps1
  have hlb : l.colorOf = .BLACK := (hn.1 rfl).1
  have hrb : r.colorOf = .BLACK := (hn.1 rfl).2
  have hnl : NoRedRed l := hn.2.1
  have hnr : NoRedRed r := hn.2.2
  obtain ⟨hlr, hbl, hbr⟩ := hb
  have hub := Node.colorOf_eq_black_of_ne_red huc
  cases gf with
  | ofLeft gc gx u =>
    simp only [Frame.color] at hgcol; subst hgcol
    simp only [Frame.sibling] at hu1 hu2 hu3 hub
    cases pf with
    | ofLeft pc px ps =>
      simp only [Frame.sibling] at hps1 hps2 hps3 hpsb
      refine ⟨.ofLeft .BLACK px (.mk .RED ps gx u), .mk .RED l x r, 1, rfl, by omega, by omega,
        rfl, ?_, hn, ⟨hlr, hbl, hbr⟩, ?_⟩
      · exact ⟨by simp only [Frame.sibling, blackHeight, blackInc]; omega,
          ⟨by omega, hps2, hu2⟩, ⟨fun _ => ⟨hpsb, hub⟩, hps3, hu3⟩, by simp [Frame.color],
          by simpa [Frame.color, blackHeight, blackInc] using hrest⟩
      · simp [inorder_zip, inorder, ctxBefore, ctxAfter]
    | ofRight pc pl px =>
      simp only [Frame.sibling] at hps1 hps2 hps3 hpsb
      simp only [Frame.color] at hpc; subst hpc
      refine ⟨.ofLeft .BLACK x (.mk .RED r gx u), .mk .RED pl px l, 2, rfl, by omega, by omega,
        rfl, ?_, ⟨fun _ => ⟨hpsb, hlb⟩, hps3, hnl⟩, ⟨by omega, hps2, hbl⟩, ?_⟩
      · exact ⟨by simp only [Frame.sibling, blackHeight, blackInc]; omega,
          ⟨by omega, hbr, hu2⟩, ⟨fun _ => ⟨hrb, hub⟩, hnr, hu3⟩, by simp [Frame.color],
          by simpa [Frame.color, blackHeight, blackInc, hps1] using hrest⟩
      · simp [inorder_zip, inorder, ctxBefore, ctxAfter]
  | ofRight gc u gx =>
    simp only [Frame.color] at hgcol; subst hgcol
    simp only [Frame.sibling] at hu1 hu2 hu3 hub
    cases pf with
    | ofRight pc pl px =>
      simp only [Frame.sibling] at hps1 hps2 hps3 hpsb
      refine ⟨.ofRight .BLACK (.mk .RED u gx pl) px, .mk .RED l x r, 1, rfl, by omega, by omega,
        rfl, ?_, hn, ⟨hlr, hbl, hbr⟩, ?_⟩
      · exact ⟨by simp only [Frame.sibling, blackHeight, blackInc]; omega,
          ⟨by omega, hu2, hps2⟩, ⟨fun _ => ⟨hub, hpsb⟩, hu3, hps3⟩, by simp [Frame.color],
          by simpa [Frame.color, blackHeight, blackInc] using hrest⟩
      · simp [inorder_zip, inorder, ctxBefore, ctxAfter]
    | ofLeft pc px ps =>
      simp only [Frame.sibling] at hps1 hps2 hps3 hpsb
      simp only [Frame.color] at hpc; subst hpc
      refine ⟨.ofRight .BLACK (.mk .RED u gx l) x, .mk .RED r px ps, 2, rfl, by omega, by omega,
        rfl, ?_, ⟨fun _ => ⟨hrb, hpsb⟩, hnr, hps3⟩, ⟨by omega, hbr, hps2⟩, ?_⟩
      · exact ⟨by simp only [Frame.sibling, blackHeight, blackInc]; omega,
          ⟨by omega, hu2, hbl⟩, ⟨fun _ => ⟨hub, hlb⟩, hu3, hnl⟩, by simp [Frame.color],
          by simpa [Frame.color, blackHeight, blackInc, hlr] using hrest⟩
      · simp [inorder_zip, inorder, ctxBefore, ctxAfter]

end RBT

namespace RBT
variable {α σ ω β : Type}

/-- C23: when the walk of `basicInsert` ends under a black parent, or in an
empty tree, `insertToRBTree` returns `SUCCESS` and the tree is the old one
with the absent child at the end of the walk replaced by the new leaf, red
under a parent and black as the root; every ancestor of the position keeps its
colour, data and other child, and the size grows by one. -/
theorem insertToRBTree_black_parent (t : RBTree α σ) (d : α) (ctx : Ctx α)
    (hw : basicInsertWalk d t.compFunc t.root [] = some ctx) (hb : ctxColor ctx = .BLACK) :
    t.root = zip ctx .NULL ∧ (ctx = [] ↔ t.root = .NULL) ∧
      insertToRBTree (some t) (some d) = some (SUCCESS, some { t with
        root := zip ctx (.mk (if ctx.isEmpty then .BLACK else .RED) .NULL d .NULL),
        size := t.size + 1 }) := by
  have hz : zip ctx .NULL = t.root := basicInsertWalk_zip t.root [] ctx hw
  refine ⟨hz.symm, ?_, ?_⟩
  · constructor
    · intro h; rw [← hz, h]; rfl
    · intro h
      cases ctx with
      | nil => rfl
      | cons f up =>
        exfalso
        rw [h] at hw
        simp [basicInsertWalk] at hw
  · cases ctx with
    | nil => simp [insertToRBTree, basicInsert_eq_walk, hw, createNewNode, Node.setColor, zip]
    | cons f up =>
      have hf : ¬ f.color = .RED := by
        simp only [ctxColor] at hb
        rw [hb]; decide
      simp [insertToRBTree, basicInsert_eq_walk, hw, hf, Loc.root, createNewNode]

theorem insertToRBTree_black_parent_witness :
    basicInsertWalk 3 oneTree.compFunc oneTree.root [] = some [.ofLeft .BLACK 5 .NULL] ∧
      ctxColor [Frame.ofLeft .BLACK (5 : Int) .NULL] = .BLACK ∧
      insertToRBTree (some oneTree) (some 3) = some (SUCCESS, some { oneTree with
        root := .mk .BLACK (.mk .RED .NULL 3 .NULL) 5 .NULL, size := 2 }) :=
  ⟨rfl, rfl, (insertToRBTree_black_parent oneTree 3 [.ofLeft .BLACK 5 .NULL] rfl rfl).2.2⟩

/-- C24: in the loop of `fixTreeAfterInsertion`, at a red node with a red
parent and an uncle that is black or absent (the tree around satisfying the
invariants), `blackUncleAfterInsertion` makes one or two rotations and leaves
the current node with a black parent in a tree without red-red pair, with
equal black counts and the same in-order sequence, so the next test of the
loop condition ends the loop.  Hence the fixup of one insert makes at most two
rotations.  `redUncleAfterInsertion` rotates nothing and is what moves the
current node upward, to its grandparent. -/
theorem blackUncle_ends_loop (pf gf : Frame α) (rest : Ctx α) (l r : Node α) (x : α)
    (hpc : pf.color = .RED) (huc : ¬ gf.sibling.colorOf = .RED)
    (hn : NoRedRed (.mk .RED l x r)) (hb : Balanced (.mk .RED l x r))
    (hctx : CtxRB (pf :: gf :: rest) (blackHeight (Node.mk .RED l x r)))
    (hroot : CtxRootBlack (pf :: gf :: rest)) :
    (∃ cur k,
      blackUncleAfterInsertionCounted ⟨pf :: gf :: rest, .mk .RED l x r⟩ (whichUncleOf gf) 0 =
        some (cur, k) ∧
      blackUncleAfterInsertion ⟨pf :: gf :: rest, .mk .RED l x r⟩ (whichUncleOf gf) = some cur ∧
      1 ≤ k ∧ k ≤ 2 ∧ (∃ f, cur.ctx = f :: rest ∧ f.color = .BLACK) ∧
      NoRedRed cur.root ∧ Balanced cur.root ∧
      inorder cur.root = inorder (zip (pf :: gf :: rest) (.mk .RED l x r)) ∧
      ∀ fuel, fixTreeLoop (fuel + 1) cur = some cur ∧
        fixTreeLoop (fuel + 2) ⟨pf :: gf :: rest, .mk .RED l x r⟩ = some cur) ∧
    (∀ (ctx0 : Ctx α) (l0 r0 : Node α) (x0 : α), NoRedRed (.mk .RED l0 x0 r0) →
      Balanced (.mk .RED l0 x0 r0) → CtxRB ctx0 (blackHeight (Node.mk .RED l0 x0 r0)) →
      CtxRootBlack ctx0 →
      ∃ root k, fixTreeAfterInsertionCounted ⟨ctx0, .mk .RED l0 x0 r0⟩ = some (root, k) ∧
        fixTreeAfterInsertion ⟨ctx0, .mk .RED l0 x0 r0⟩ = some root ∧ k ≤ 2) ∧
    (∀ c0 c : Loc α, redUncleAfterInsertion c0 = some c →
      ∃ p g, c0.parent = some p ∧ p.parent = some g ∧ c.ctx = g.ctx) := by
  refine ⟨?_, ?_, ?_⟩
  · obtain ⟨f, node, k, hcnt, hk1, hk2, hf, hctx', hn', hb', hin⟩ :=
      blackUncle_step pf gf rest l r x hpc huc hn hb hctx
    have hplain : blackUncleAfterInsertion ⟨pf :: gf :: rest, .mk .RED l x r⟩
        (whichUncleOf gf) = some ⟨f :: rest, node⟩ := by
      rw [← blackUncleAfterInsertionCounted_fst _ _ 0, hcnt]; rfl
    have hv := zip_valid (f :: rest) node hctx' hb' hn' (by simp [ctxColor, hf])
    have hstop : ∀ fuel, fixTreeLoop (fuel + 1) ⟨f :: rest, node⟩ = some ⟨f :: rest, node⟩ :=
      fun fuel => fixTreeLoop_black fuel f rest node (by rw [hf]; decide)
    refine ⟨⟨f :: rest, node⟩, k, hcnt, hplain, hk1, hk2, ⟨f, rfl, hf⟩, hv.2, hv.1, hin, ?_⟩
    intro fuel
    refine ⟨hstop fuel, ?_⟩
    cases gf with
    | ofLeft gc gx u =>
      simp only [Frame.sibling] at huc
      simp only [whichUncleOf] at hplain
      rw [fixTreeLoop_left (fuel + 1) pf gc gx u rest _ hpc, if_neg huc, hplain]
      exact hstop fuel
    | ofRight gc u gx =>
      simp only [Frame.sibling] at huc
      simp only [whichUncleOf] at hplain
      rw [fixTreeLoop_right (fuel + 1) pf gc gx u rest _ hpc, if_neg huc, hplain]
      exact hstop fuel
  · intro ctx0 l0 r0 x0 hn0 hb0 hctx0 hroot0
    obtain ⟨cur, root, h1, h2, -, -, -⟩ := fixTreeLoop_spec (ctx0.length + 1) ctx0 l0 x0 r0
      (Nat.lt_succ_self _) hn0 hb0 hctx0 hroot0
    have he := fixTreeLoopCounted_fst (ctx0.length + 1) ⟨ctx0, .mk .RED l0 x0 r0⟩ 0
    rw [h1] at he
    cases hc : fixTreeLoopCounted (ctx0.length + 1) ⟨ctx0, .mk .RED l0 x0 r0⟩ 0 with
    | none => rw [hc] at he; cases he
    | some s =>
      rw [hc] at he
      have hs1 : s.1 = cur := Option.some.inj he
      have hle := fixTreeLoopCounted_le_two _ _ _ _ hc
      refine ⟨root, s.2, ?_, ?_, by omega⟩
      · simp only [fixTreeAfterInsertionCounted, hc, hs1, h2, Option.bind_eq_bind,
          Option.some_bind, Option.pure_def]
      · simp only [fixTreeAfterInsertion, h1, h2, Option.bind_eq_bind, Option.some_bind]
  · intro c0 c h
    obtain ⟨ctx, node⟩ := c0
    rcases ctx with _ | ⟨pf, _ | ⟨gf, rest⟩⟩
    · cases h
    · cases h
    · exact ⟨_, _, rfl, rfl, redUncle_ctx pf gf rest node c h⟩

theorem blackUncle_ends_loop_witness :
    (Frame.ofLeft .RED (3 : Int) .NULL).color = .RED ∧
      ¬ (Frame.ofLeft .BLACK (5 : Int) .NULL).sibling.colorOf = .RED ∧
      NoRedRed (Node.mk .RED .NULL (1 : Int) .NULL) ∧
      Balanced (Node.mk .RED .NULL (1 : Int) .NULL) ∧
      CtxRB [.ofLeft .RED (3 : Int) .NULL, .ofLeft .BLACK 5 .NULL]
        (blackHeight (Node.mk .RED .NULL (1 : Int) .NULL)) ∧
      CtxRootBlack [.ofLeft .RED (3 : Int) .NULL, .ofLeft .BLACK 5 .NULL] ∧
      ∃ root k, fixTreeAfterInsertionCounted
          ⟨[.ofLeft .RED (3 : Int) .NULL, .ofLeft .BLACK 5 .NULL], .mk .RED .NULL 1 .NULL⟩ =
            some (root, k) ∧
        fixTreeAfterInsertion
          ⟨[.ofLeft .RED (3 : Int) .NULL, .ofLeft .BLACK 5 .NULL], .mk .RED .NULL 1 .NULL⟩ =
            some root ∧ k ≤ 2 :=
  ⟨by decide, by decide, by decide, by decide, by decide, by decide,
    (blackUncle_ends_loop (.ofLeft .RED (3 : Int) .NULL) (.ofLeft .BLACK 5 .NULL) [] .NULL .NULL 1
      (by decide) (by decide) (by decide) (by decide) (by decide) (by decide)).2.1
      [.ofLeft .RED (3 : Int) .NULL, .ofLeft .BLACK 5 .NULL] .NULL .NULL 1
      (by decide) (by decide) (by decide) (by decide)⟩

end RBT

namespace RBT
variable {α σ ω β : Type}

/-! ### The node that is unlinked -/

/-- `deleteFromRBTree` in terms of the node it goes on to remove. -/
theorem deleteFromRBTree_eq_target (t : RBTree α σ) (d : α) (w : σ) (p : Loc α)
    (hf : findNodeInTree t.root t.compFunc d [] = some p) (hs : ¬ t.size = ONLY_NODE) :
    deleteFromRBTree (some t) d w =
      (deleteTarget p).bind fun q => (delete2 q).bind fun root =>
        match q.node with
        | .NULL => none
        | .mk _ _ x _ =>
          some (SUCCESS, some { t with root := root, size := t.size - 1 }, t.freeFunc x w) := by
  simp only [deleteFromRBTree, hf, hs, if_false, deleteTarget]
  obtain ⟨ctx, node⟩ := p
  rcases node with _ | ⟨c, _ | ⟨lc, ll, lx, lr⟩, x, _ | ⟨rc, rl, rx, rr⟩⟩
  · rfl
  · rfl
  · rfl
  · rfl
  · simp only [Option.bind_eq_bind]
    cases getSuccFromRightChild ⟨ctx, .mk c (.mk lc ll lx lr) x (.mk rc rl rx rr)⟩ <;> rfl

/-- The loop of `getSuccFromRightChild` follows `left` links only and ends at
the node without left child, the first of the subtree in in-order. -/
theorem getSuccLoop_leftmost : ∀ (t : Node α) (ctx0 : Ctx α), t ≠ .NULL →
    ∃ rel sc s sr after, getSuccLoop t ctx0 = some ⟨rel ++ ctx0, .mk sc .NULL s sr⟩ ∧
      zip rel (.mk sc .NULL s sr) = t ∧ inorder t = s :: inorder sr ++ after ∧
      (∀ f ∈ rel, ∃ fc fx fr, f = Frame.ofLeft fc fx fr) := by
  intro t
  induction t with
  | NULL => intro ctx0 h; exact absurd rfl h
  | mk c l x r ihl _ =>
    intro ctx0 _
    cases l with
    | NULL =>
      exact ⟨[], c, x, r, [], rfl, rfl, by simp [inorder], fun f hf => absurd hf (by simp)⟩
    | mk lc ll lx lr =>
      obtain ⟨rel, sc, s, sr, after, h1, h2, h3, h4⟩ :=
        ihl (.ofLeft c x r :: ctx0) (by simp)
      have hstep : getSuccLoop (.mk c (.mk lc ll lx lr) x r) ctx0 =
          getSuccLoop (.mk lc ll lx lr) (.ofLeft c x r :: ctx0) := rfl
      refine ⟨rel ++ [.ofLeft c x r], sc, s, sr, after ++ x :: inorder r, ?_, ?_, ?_, ?_⟩
      · rw [hstep, h1]
        simp
      · rw [zip_append, h2]; rfl
      · rw [inorder, h3]; simp
      · intro f hf
        rcases List.mem_append.1 hf with hf | hf
        · exact h4 f hf
        · rw [List.mem_singleton.1 hf]
          exact ⟨c, x, r, rfl⟩

/-- The swap of `swapData` between a node and a node below its right child. -/
theorem swapData_below (ctx rel : Ctx α) (c sc : Color) (l r sl sr : Node α) (e s : α) :
    swapData ⟨ctx, .mk c l e r⟩ ⟨rel ++ .ofRight c l e :: ctx, .mk sc sl s sr⟩ =
      some ⟨rel ++ .ofRight c l s :: ctx, .mk sc sl e sr⟩ := by
  simp only [swapData]
  have : (rel ++ Frame.ofRight c l e :: ctx).length - ctx.length - 1 = rel.length := by
    simp; omega
  rw [this, setDataAt_append]

/-- In a tree that satisfies the colour invariants, a node with an absent
child has no other child or is black with a red leaf as its other child. -/
theorem single_child_shape (ctx : Ctx α) (c : Color) (l r : Node α) (x : α)
    (hb : Balanced (zip ctx (.mk c l x r))) (hn : NoRedRed (zip ctx (.mk c l x r))) :
    (l = .NULL → r = .NULL ∨ ∃ y, c = .BLACK ∧ r = .mk .RED .NULL y .NULL) ∧
      (r = .NULL → l = .NULL ∨ ∃ y, c = .BLACK ∧ l = .mk .RED .NULL y .NULL) := by
  obtain ⟨-, hbt, hnt, -⟩ := unzip_valid ctx _ hb hn
  have key : ∀ s : Node α, blackHeight s = 0 → Balanced s → NoRedRed s →
      (c = .RED → s.colorOf = .BLACK) →
      s = .NULL ∨ ∃ y, c = .BLACK ∧ s = .mk .RED .NULL y .NULL := by
    intro s h0 hbs hns hcs
    cases s with
    | NULL => exact Or.inl rfl
    | mk sc sl sy sr =>
      right
      cases sc with
      | BLACK => simp [blackHeight, blackInc] at h0
      | RED =>
        simp only [blackHeight, blackInc, Nat.add_zero] at h0
        obtain ⟨hlr, -, -⟩ := hbs
        obtain ⟨hcol, -, -⟩ := hns
        obtain ⟨hl, hr⟩ := hcol rfl
        have e1 : sl = .NULL := eq_null_of_blackHeight_zero h0 hl
        have e2 : sr = .NULL := eq_null_of_blackHeight_zero (by omega) hr
        refine ⟨sy, ?_, by rw [e1, e2]⟩
        cases c with
        | BLACK => rfl
        | RED => exact absurd (hcs rfl) (by simp [Node.colorOf])
  obtain ⟨hlr, hbl, hbr⟩ := hbt
  obtain ⟨hcol, hnl, hnr⟩ := hnt
  constructor
  · intro hl
    rw [hl] at hlr
    exact key r (by simpa [blackHeight] using hlr.symm) hbr hnr (fun h => (hcol h).2)
  · intro hr
    rw [hr] at hlr
    exact key l (by simpa [blackHeight] using hlr) hbl hnl (fun h => (hcol h).1)

/-- The node `deleteFromRBTree` goes on to remove, for a node found with two
children: the successor, holding the data of the node found. -/
theorem deleteTarget_two_children (ctx : Ctx α) (c lc rc : Color) (ll lr rl rr : Node α)
    (lx e rx : α) :
    ∃ rel sc s sr after, getSuccFromRightChild
          ⟨ctx, .mk c (.mk lc ll lx lr) e (.mk rc rl rx rr)⟩ =
        some ⟨rel ++ .ofRight c (.mk lc ll lx lr) e :: ctx, .mk sc .NULL s sr⟩ ∧
      deleteTarget ⟨ctx, .mk c (.mk lc ll lx lr) e (.mk rc rl rx rr)⟩ =
        some ⟨rel ++ .ofRight c (.mk lc ll lx lr) s :: ctx, .mk sc .NULL e sr⟩ ∧
      zip rel (.mk sc .NULL s sr) = .mk rc rl rx rr ∧
      inorder (.mk rc rl rx rr) = s :: inorder sr ++ after ∧
      (∀ f ∈ rel, ∃ fc fx fr, f = Frame.ofLeft fc fx fr) := by
  obtain ⟨rel, sc, s, sr, after, h1, h2, h3, h4⟩ :=
    getSuccLoop_leftmost (.mk rc rl rx rr) (.ofRight c (.mk lc ll lx lr) e :: ctx) (by simp)
  have hsucc : getSuccFromRightChild ⟨ctx, .mk c (.mk lc ll lx lr) e (.mk rc rl rx rr)⟩ =
      some ⟨rel ++ .ofRight c (.mk lc ll lx lr) e :: ctx, .mk sc .NULL s sr⟩ := h1
  refine ⟨rel, sc, s, sr, after, hsucc, ?_, h2, h3, h4⟩
  simp only [deleteTarget, hsucc, Option.bind_eq_bind, Option.some_bind]
  exact swapData_below ctx rel c sc _ _ .NULL sr e s

theorem nodeCount_zip_ge (ctx : Ctx α) (t : Node α) : nodeCount t ≤ nodeCount (zip ctx t) := by
  rw [nodeCount_eq_length, nodeCount_eq_length, inorder_zip]
  simp only [List.length_append]
  omega

/-- C25: in a tree that satisfies the red-black invariants, a node with
exactly one child is black and its child is a red leaf, so a red node has two
children or none; and the node that `deleteFromRBTree` passes to `delete2`
(the node found, or its successor after the swap of the data) has no child, or
is black with one child that is a red leaf. -/
theorem delete2_assumptions_hold (t : RBTree α σ) (d : α) (p : Loc α)
    (hinv : RBInvariants t.root) (hf : findNodeInTree t.root t.compFunc d [] = some p) :
    (∀ (ctx : Ctx α) (c : Color) (l r : Node α) (x : α), zip ctx (.mk c l x r) = t.root →
      (l = .NULL → r ≠ .NULL → c = .BLACK ∧ ∃ y, r = .mk .RED .NULL y .NULL) ∧
      (r = .NULL → l ≠ .NULL → c = .BLACK ∧ ∃ y, l = .mk .RED .NULL y .NULL) ∧
      (c = .RED → (l = .NULL ↔ r = .NULL))) ∧
    ∃ q c l x r, deleteTarget p = some q ∧ q.node = .mk c l x r ∧
      (∀ w, ¬ t.size = ONLY_NODE → deleteFromRBTree (some t) d w =
        (delete2 q).bind fun root =>
          some (SUCCESS, some { t with root := root, size := t.size - 1 }, t.freeFunc x w)) ∧
      ((l = .NULL ∧ r = .NULL) ∨
        (c = .BLACK ∧ l = .NULL ∧ ∃ y, r = .mk .RED .NULL y .NULL) ∨
        (c = .BLACK ∧ r = .NULL ∧ ∃ y, l = .mk .RED .NULL y .NULL)) := by
  obtain ⟨-, hn, he⟩ := hinv
  have hb : Balanced t.root := (equalBlackPaths_iff_balanced _).1 he
  have hshape : ∀ (ctx : Ctx α) (c : Color) (l r : Node α) (x : α),
      zip ctx (.mk c l x r) = t.root →
      (l = .NULL → r = .NULL ∨ ∃ y, c = .BLACK ∧ r = .mk .RED .NULL y .NULL) ∧
      (r = .NULL → l = .NULL ∨ ∃ y, c = .BLACK ∧ l = .mk .RED .NULL y .NULL) := by
    intro ctx c l r x hz
    rw [← hz] at hb hn
    exact single_child_shape ctx c l r x hb hn
  constructor
  · intro ctx c l r x hz
    obtain ⟨h1, h2⟩ := hshape ctx c l r x hz
    refine ⟨?_, ?_, ?_⟩
    · intro hl hr
      rcases h1 hl with h | ⟨y, hc, hy⟩
      · exact absurd h hr
      · exact ⟨hc, y, hy⟩
    · intro hr hl
      rcases h2 hr with h | ⟨y, hc, hy⟩
      · exact absurd h hl
      · exact ⟨hc, y, hy⟩
    · intro hc
      constructor
      · intro hl
        rcases h1 hl with h | ⟨y, hc', -⟩
        · exact h
        · rw [hc] at hc'; cases hc'
      · intro hr
        rcases h2 hr with h | ⟨y, hc', -⟩
        · exact h
        · rw [hc] at hc'; cases hc'
  · obtain ⟨hz, c, l, e, r, hp, -, -⟩ := findNodeInTree_some t.root [] p hf
    obtain ⟨ctx, node⟩ := p
    simp only at hp hz
    subst hp
    have hz : zip ctx (.mk c l e r) = t.root := hz
    have hfinish : ∀ (q : Loc α) (qc : Color) (ql qr : Node α) (qx : α),
        deleteTarget ⟨ctx, .mk c l e r⟩ = some q → q.node = .mk qc ql qx qr →
        ∀ w, ¬ t.size = ONLY_NODE → deleteFromRBTree (some t) d w =
          (delete2 q).bind fun root =>
            some (SUCCESS, some { t with root := root, size := t.size - 1 },
              t.freeFunc qx w) := by
      intro q qc ql qr qx hq hqn w hs
      rw [deleteFromRBTree_eq_target t d w _ hf hs, hq]
      simp only [Option.some_bind, hqn]
    have hone : ∀ (cc : Color) (a b : Node α) (y : α) (ctx' : Ctx α),
        zip ctx' (.mk cc a y b) = t.root → (a = .NULL ∨ b = .NULL) →
        ((a = .NULL ∧ b = .NULL) ∨
          (cc = .BLACK ∧ a = .NULL ∧ ∃ y, b = .mk .RED .NULL y .NULL) ∨
          (cc = .BLACK ∧ b = .NULL ∧ ∃ y, a = .mk .RED .NULL y .NULL)) := by
      intro cc a b y ctx' hz' hab
      obtain ⟨h1, h2⟩ := hshape ctx' cc a b y hz'
      rcases hab with ha | hb'
      · rcases h1 ha with h | ⟨z, hc, hz2⟩
        · exact Or.inl ⟨ha, h⟩
        · exact Or.inr (Or.inl ⟨hc, ha, z, hz2⟩)
      · rcases h2 hb' with h | ⟨z, hc, hz2⟩
        · exact Or.inl ⟨h, hb'⟩
        · exact Or.inr (Or.inr ⟨hc, hb', z, hz2⟩)
    cases l with
    | NULL =>
      exact ⟨⟨ctx, .mk c .NULL e r⟩, c, .NULL, e, r, rfl, rfl,
        hfinish _ c .NULL r e rfl rfl, hone c .NULL r e ctx hz (Or.inl rfl)⟩
    | mk lc ll lx lr =>
      cases r with
      | NULL =>
        exact ⟨⟨ctx, .mk c (.mk lc ll lx lr) e .NULL⟩, c, _, e, .NULL, rfl, rfl,
          hfinish _ c _ .NULL e rfl rfl, hone c _ .NULL e ctx hz (Or.inr rfl)⟩
      | mk rc rl rx rr =>
        obtain ⟨rel, sc, s, sr, after, -, htar, hzr, -, -⟩ :=
          deleteTarget_two_children ctx c lc rc ll lr rl rr lx e rx
        have hzs : zip (rel ++ .ofRight c (.mk lc ll lx lr) e :: ctx) (.mk sc .NULL s sr) =
            t.root := by
          rw [zip_append, hzr]; exact hz
        exact ⟨_, sc, .NULL, e, sr, htar, rfl, hfinish _ sc .NULL sr e htar rfl,
          hone sc .NULL sr s _ hzs (Or.inl rfl)⟩

theorem delete2_assumptions_hold_witness :
    RBInvariants exampleTree.root ∧
      findNodeInTree exampleTree.root exampleTree.compFunc 5 [] = some ⟨[], exampleRoot⟩ ∧
      ∃ q c l x r, deleteTarget ⟨[], exampleRoot⟩ = some q ∧ q.node = .mk c l x r ∧
        (∀ w, ¬ exampleTree.size = ONLY_NODE → deleteFromRBTree (some exampleTree) 5 w =
          (delete2 q).bind fun root =>
            some (SUCCESS, some { exampleTree with root := root, size := exampleTree.size - 1 },
              exampleTree.freeFunc x w)) ∧
        ((l = .NULL ∧ r = .NULL) ∨
          (c = .BLACK ∧ l = .NULL ∧ ∃ y, r = .mk .RED .NULL y .NULL) ∨
          (c = .BLACK ∧ r = .NULL ∧ ∃ y, l = .mk .RED .NULL y .NULL)) :=
  ⟨by decide, rfl, (delete2_assumptions_hold exampleTree 5 ⟨[], exampleRoot⟩ (by decide) rfl).2⟩

end RBT

namespace RBT
variable {α σ ω β : Type}

/-- C27: for a node with a right child, `getSuccFromRightChild` returns the
node reached from the right child by `left` links only that has no left child;
its data is the first of the right subtree in in-order, and in a tree that is
BST-ordered under a comparator meeting the contract it is above the data of
the node and below every other element above it.  When the node also has a
left child, the node `deleteFromRBTree` goes on to remove is this successor,
holding the data of the node found and still without left child. -/
theorem getSuccFromRightChild_leftmost (cmp : α → α → Int) (ctx : Ctx α) (c rc : Color)
    (l rl rr : Node α) (x rx : α) :
    ∃ rel sc y sr after,
      getSuccFromRightChild ⟨ctx, .mk c l x (.mk rc rl rx rr)⟩ =
        some ⟨rel ++ .ofRight c l x :: ctx, .mk sc .NULL y sr⟩ ∧
      (∀ f ∈ rel, ∃ fc fx fr, f = Frame.ofLeft fc fx fr) ∧
      zip rel (.mk sc .NULL y sr) = .mk rc rl rx rr ∧
      Loc.root ⟨rel ++ .ofRight c l x :: ctx, .mk sc .NULL y sr⟩ =
        Loc.root ⟨ctx, .mk c l x (.mk rc rl rx rr)⟩ ∧
      inorder (.mk rc rl rx rr) = y :: inorder sr ++ after ∧
      (StrictTotalOrderCmp cmp → BSTOrdered cmp (zip ctx (.mk c l x (.mk rc rl rx rr))) →
        cmp x y < 0 ∧
          ∀ e ∈ inorder (zip ctx (.mk c l x (.mk rc rl rx rr))), cmp x e < 0 →
            e = y ∨ cmp y e < 0) ∧
      (l ≠ .NULL → deleteTarget ⟨ctx, .mk c l x (.mk rc rl rx rr)⟩ =
        some ⟨rel ++ .ofRight c l y :: ctx, .mk sc .NULL x sr⟩) := by
  obtain ⟨rel, sc, y, sr, after, h1, h2, h3, h4⟩ :=
    getSuccLoop_leftmost (.mk rc rl rx rr) (.ofRight c l x :: ctx) (by simp)
  have hsucc : getSuccFromRightChild ⟨ctx, .mk c l x (.mk rc rl rx rr)⟩ =
      some ⟨rel ++ .ofRight c l x :: ctx, .mk sc .NULL y sr⟩ := h1
  refine ⟨rel, sc, y, sr, after, hsucc, h4, h2, ?_, h3, ?_, ?_⟩
  · simp only [Loc.root]
    rw [zip_append, h2]; rfl
  · intro hc hb
    unfold BSTOrdered at hb
    rw [inorder_zip] at hb
    have hin : inorder (.mk c l x (.mk rc rl rx rr)) =
        inorder l ++ x :: (y :: (inorder sr ++ after)) := by
      rw [inorder, h3]; simp
    rw [hin] at hb
    obtain ⟨hA, -, hAB⟩ := List.pairwise_append.1 hb
    obtain ⟨-, hM, hBM⟩ := List.pairwise_append.1 hA
    obtain ⟨-, hX, hLX⟩ := List.pairwise_append.1 hM
    obtain ⟨hx, hrest⟩ := List.pairwise_cons.1 hX
    obtain ⟨hy, -⟩ := List.pairwise_cons.1 hrest
    have hxy : cmp x y < 0 := hx y (List.mem_cons_self _ _)
    refine ⟨hxy, ?_⟩
    intro e he hxe
    rw [inorder_zip, hin] at he
    have hnot : ∀ a, cmp a x < 0 → ¬ cmp x a < 0 := by
      intro a ha h
      have := (hc.antisymm a x).1 ha
      omega
    rcases List.mem_append.1 he with he | he
    · rcases List.mem_append.1 he with he | he
      · exact absurd hxe (hnot e (hBM e he x (by simp)))
      · rcases List.mem_append.1 he with he | he
        · exact absurd hxe (hnot e (hLX e he x (List.mem_cons_self _ _)))
        · rcases List.mem_cons.1 he with he | he
          · rw [he, hc.refl] at hxe
            exact absurd hxe (by decide)
          · rcases List.mem_cons.1 he with he | he
            · exact Or.inl he
            · exact Or.inr (hy e he)
    · exact Or.inr (hAB y (by simp) e he)
  · intro hl
    cases l with
    | NULL => exact absurd rfl hl
    | mk lc ll lx lr =>
      simp only [deleteTarget, hsucc, Option.bind_eq_bind, Option.some_bind]
      exact swapData_below ctx rel c sc _ _ .NULL sr x y

end RBT

namespace RBT
variable {α σ ω β : Type}

theorem getSuccFromRightChild_leftmost_witness :
    StrictTotalOrderCmp intCmp ∧ BSTOrdered intCmp exampleRoot ∧
      ∃ rel sc sr, getSuccFromRightChild ⟨[], exampleRoot⟩ =
          some ⟨rel ++ [.ofRight .BLACK
            (.mk .BLACK (.mk .RED .NULL 1 .NULL) 3 (.mk .RED .NULL 4 .NULL)) 5],
            .mk sc .NULL 7 sr⟩ ∧
        intCmp 5 7 < 0 ∧ ∀ e ∈ inorder exampleRoot, intCmp 5 e < 0 → e = 7 ∨ intCmp 7 e < 0 :=
  ⟨intCmp_order, by decide, by
    obtain ⟨rel, sc, y, sr, after, h1, -, -, -, h5, h6, -⟩ :=
      getSuccFromRightChild_leftmost intCmp [] .BLACK .BLACK
        (.mk .BLACK (.mk .RED .NULL 1 .NULL) 3 (.mk .RED .NULL 4 .NULL))
        (.mk .RED .NULL 7 .NULL) (.mk .RED .NULL 9 .NULL) 5 8
    have hy : y = 7 := by
      have h5' : (7 : Int) :: [8, 9] = y :: inorder sr ++ after := h5
      exact (List.cons.inj h5').1.symm
    subst hy
    exact ⟨rel, sc, sr, h1, h6 intCmp_order (by decide)⟩⟩

/-- C28: in the deletion fixup at a node whose sibling is red (the tree
around satisfying the invariants), `delete5` paints the sibling black and the
parent red, rotates at the parent toward the side of the node and calls
`delete3` on the node in its new place, where its sibling is present and
black: that call of `delete3` goes to `delete4`, so `delete5` is not applied
twice in a row.  The in-order sequence is as before. -/
theorem delete5_then_black_sibling (rec : Loc α → Option (Loc α)) (f : Frame α) (up : Ctx α)
    (n : Node α) (k : Nat) (hctx : CtxRB (f :: up) (k + 1))
    (hred : f.sibling.colorOf = .RED) :
    ∃ s wc p g sl sx sr, getSibling ⟨f :: up, n⟩ = some (s, wc) ∧
      delete5 rec ⟨f :: up, n⟩ wc = rec ⟨p :: g :: up, n⟩ ∧
      p.color = .RED ∧ p.data = f.data ∧ g.color = .BLACK ∧
      getSibling ⟨p :: g :: up, n⟩ = some (.mk .BLACK sl sx sr, wc) ∧
      (∀ fuel, delete3 (fuel + 1) ⟨p :: g :: up, n⟩ =
        delete4 (delete3 fuel) ⟨p :: g :: up, n⟩ wc) ∧
      (∀ fuel, delete3 (fuel + 2) ⟨f :: up, n⟩ =
        delete4 (delete3 fuel) ⟨p :: g :: up, n⟩ wc) ∧
      inorder (zip (p :: g :: up) n) = inorder (zip (f :: up) n) := by
  obtain ⟨hbh, hbal, hnrr, -, -⟩ := hctx
  cases f with
  | ofLeft pc px s =>
    simp only [Frame.sibling] at hbh hbal hnrr hred
    cases s with
    | NULL => simp [Node.colorOf] at hred
    | mk sc sl0 sx0 sr0 =>
      simp only [Node.colorOf] at hred
      subst hred
      simp only [blackHeight, blackInc, Nat.add_zero] at hbh
      obtain ⟨c, l, x, r, hsl⟩ := blackHeight_pos_ne_null hbh
      have hc : c = .BLACK := by
        have := (hnrr.1 rfl).1
        rw [hsl] at this
        exact this
      subst hc hsl
      refine ⟨_, LEFT_CHILD, .ofLeft .RED px (.mk .BLACK l x r), .ofLeft .BLACK sx0 sr0,
        l, x, r, rfl, rfl, rfl, rfl, rfl, rfl, fun _ => rfl, fun _ => rfl, ?_⟩
      simp [inorder_zip, inorder, ctxBefore, ctxAfter]
  | ofRight pc s px =>
    simp only [Frame.sibling] at hbh hbal hnrr hred
    cases s with
    | NULL => simp [Node.colorOf] at hred
    | mk sc sl0 sx0 sr0 =>
      simp only [Node.colorOf] at hred
      subst hred
      simp only [blackHeight, blackInc, Nat.add_zero] at hbh
      have hbr : blackHeight sr0 = k + 1 := by
        have := hbal.1
        omega
      obtain ⟨c, l, x, r, hsr⟩ := blackHeight_pos_ne_null hbr
      have hc : c = .BLACK := by
        have := (hnrr.1 rfl).2
        rw [hsr] at this
        exact this
      subst hc hsr
      refine ⟨_, RIGHT_CHILD, .ofRight .RED (.mk .BLACK l x r) px, .ofRight .BLACK sl0 sx0,
        l, x, r, rfl, rfl, rfl, rfl, rfl, rfl, fun _ => rfl, fun _ => rfl, ?_⟩
      simp [inorder_zip, inorder, ctxBefore, ctxAfter]

theorem delete5_then_black_sibling_witness :
    CtxRB [Frame.ofLeft .BLACK (5 : Int)
        (.mk .RED (.mk .BLACK .NULL 7 .NULL) 8 (.mk .BLACK .NULL 9 .NULL))] (0 + 1) ∧
      (Frame.ofLeft .BLACK (5 : Int)
        (.mk .RED (.mk .BLACK .NULL 7 .NULL) 8 (.mk .BLACK .NULL 9 .NULL))).sibling.colorOf =
          .RED ∧
      ∃ s wc p g sl sx sr, getSibling ⟨[Frame.ofLeft .BLACK (5 : Int)
          (.mk .RED (.mk .BLACK .NULL 7 .NULL) 8 (.mk .BLACK .NULL 9 .NULL))], .NULL⟩ =
            some (s, wc) ∧
        delete5 (delete3 3) ⟨[Frame.ofLeft .BLACK (5 : Int)
          (.mk .RED (.mk .BLACK .NULL 7 .NULL) 8 (.mk .BLACK .NULL 9 .NULL))], .NULL⟩ wc =
            delete3 3 ⟨p :: g :: [], .NULL⟩ ∧
        p.color = .RED ∧ p.data = 5 ∧ g.color = .BLACK ∧
        getSibling ⟨p :: g :: [], .NULL⟩ = some (.mk .BLACK sl sx sr, wc) :=
  ⟨by decide, by decide, by
    obtain ⟨s, wc, p, g, sl, sx, sr, h1, h2, h3, h4, h5, h6, -⟩ :=
      delete5_then_black_sibling (delete3 3) (Frame.ofLeft .BLACK (5 : Int)
        (.mk .RED (.mk .BLACK .NULL 7 .NULL) 8 (.mk .BLACK .NULL 9 .NULL))) [] .NULL 0
        (by decide) (by decide)
    exact ⟨s, wc, p, g, sl, sx, sr, h1, h2, h3, h4, h5, h6⟩⟩

/-! ### Height -/

theorem pow_blackHeight_le (t : Node α) (hb : Balanced t) :
    2 ^ blackHeight t ≤ nodeCount t + 1 := by
  induction t with
  | NULL => simp [blackHeight, nodeCount]
  | mk c l x r ihl ihr =>
    obtain ⟨hlr, hbl, hbr⟩ := hb
    have h1 := ihl hbl
    have h2 := ihr hbr
    rw [← hlr] at h2
    have h3 : 2 ^ (blackHeight l + blackInc c) ≤ 2 ^ (blackHeight l + 1) :=
      Nat.pow_le_pow_right (by decide) (by cases c <;> simp [blackInc])
    rw [Nat.pow_succ] at h3
    simp only [blackHeight, nodeCount]
    omega

theorem height_le_blackHeight (t : Node α) (hn : NoRedRed t) (hb : Balanced t) :
    height t ≤ 2 * blackHeight t + (if t.colorOf = .RED then 1 else 0) := by
  induction t with
  | NULL => simp [height, blackHeight]
  | mk c l x r ihl ihr =>
    obtain ⟨hlr, hbl, hbr⟩ := hb
    obtain ⟨hcol, hnl, hnr⟩ := hn
    have h1 := ihl hnl hbl
    have h2 := ihr hnr hbr
    rw [← hlr] at h2
    cases c with
    | RED =>
      obtain ⟨hl, hr⟩ := hcol rfl
      rw [hl] at h1
      rw [hr] at h2
      simp only [height, blackHeight, blackInc, Node.colorOf, if_true] at h1 h2 ⊢
      have : ¬ Color.BLACK = Color.RED := by decide
      simp only [this, if_false] at h1 h2
      omega
    | BLACK =>
      simp only [height, blackHeight, blackInc, Node.colorOf]
      have : ¬ Color.BLACK = Color.RED := by decide
      simp only [this, if_false]
      split at h1 <;> split at h2 <;> omega

/-- C29: a tree reachable from `newRBTree` by calls of `insertToRBTree` and
`deleteFromRBTree`, with `n` nodes (its `size`) and height `h`, satisfies
`2 ^ ⌈h / 2⌉ ≤ n + 1`, hence `h ≤ 2 * log2 (n + 1)`. -/
theorem height_logarithmic (compFunc : α → α → Int) (freeFunc : α → σ → σ) (t : RBTree α σ)
    (h : Reachable compFunc freeFunc t) :
    2 ^ ((height t.root + 1) / 2) ≤ nodeCount t.root + 1 ∧
      height t.root ≤ 2 * Nat.log 2 (nodeCount t.root + 1) ∧
      t.size = nodeCount t.root := by
  obtain ⟨h1, h2, h3, h4⟩ := h.invariants
  have hh := height_le_blackHeight t.root h2 h3
  have hrb : t.root.colorOf = .BLACK := h1
  rw [hrb] at hh
  have : ¬ Color.BLACK = Color.RED := by decide
  simp only [this, if_false, Nat.add_zero] at hh
  have hp := pow_blackHeight_le t.root h3
  have hlog : blackHeight t.root ≤ Nat.log 2 (nodeCount t.root + 1) :=
    Nat.le_log_of_pow_le (by decide) hp
  refine ⟨le_trans (Nat.pow_le_pow_right (by decide) (by omega)) hp, by omega, h4⟩

theorem height_logarithmic_witness :
    Reachable intCmp logFree oneTree ∧
      2 ^ ((height oneTree.root + 1) / 2) ≤ nodeCount oneTree.root + 1 ∧
      height oneTree.root ≤ 2 * Nat.log 2 (nodeCount oneTree.root + 1) ∧
      oneTree.size = nodeCount oneTree.root :=
  have hr : Reachable intCmp logFree oneTree :=
    Reachable.insert emptyTree oneTree (some 5) SUCCESS (Reachable.new emptyTree rfl) rfl
  ⟨hr, height_logarithmic intCmp logFree oneTree hr⟩

end RBT

namespace RBT
variable {α σ ω β : Type}
variable {K : Type} [LinearOrderedRing K]

/-! ### Ties of the largest norm -/

end RBT

namespace RBT
variable {α σ ω β : Type}

theorem cellAt_of_not_mem (dat : Nat → α) : ∀ (t : Node Nat) (par : Ptr) (z : Nat),
    z ∉ inorder t → cellAt dat t par z = none := by
  intro t
  induction t with
  | NULL => intro par z _; rfl
  | mk c l a r ihl ihr =>
    intro par z hz
    simp only [inorder, List.mem_append, List.mem_cons, not_or] at hz
    simp only [cellAt, hz.2.1, if_false, ihl _ _ hz.1, ihr _ _ hz.2.2, Option.or]

theorem cellAt_par (dat : Nat → α) (t : Node Nat) (par par' : Ptr) (z : Nat)
    (hz : ptr t ≠ some z) : cellAt dat t par z = cellAt dat t par' z := by
  cases t with
  | NULL => rfl
  | mk c l a r =>
    have : ¬ z = a := by
      intro h; apply hz; rw [h]; rfl
    simp only [cellAt, this, if_false]

theorem ptr_mem (t : Node Nat) (a : Nat) (h : ptr t = some a) : a ∈ inorder t := by
  cases t with
  | NULL => cases h
  | mk c l b r =>
    cases Option.some.inj h
    simp [inorder]

theorem ptr_zip (ctx : Ctx Nat) (t : Node Nat) : ptr (zip ctx t) = ctxRoot ctx (ptr t) := by
  induction ctx generalizing t with
  | nil => rfl
  | cons f up ih =>
    rw [zip, ih]
    cases f <;> rfl

theorem ctxCell_ptr (dat : Nat → α) (ctx : Ctx Nat) (p p' : Ptr) (z : Nat)
    (hz : ctxParent ctx ≠ some z) : ctxCell dat ctx p z = ctxCell dat ctx p' z := by
  cases ctx with
  | nil => rfl
  | cons f up =>
    have : ¬ z = f.data := by
      intro h; apply hz; rw [h]; rfl
    cases f <;> simp only [Frame.data] at this <;> simp only [ctxCell, this, if_false]

/-- The cells of a tree around a location: those of the subtree at the
location and those of the ancestors and the subtrees beside them. -/
theorem cellAt_zip (dat : Nat → α) : ∀ (ctx : Ctx Nat) (t : Node Nat) (z : Nat),
    (inorder (zip ctx t)).Nodup →
    cellAt dat (zip ctx t) none z =
      (cellAt dat t (ctxParent ctx) z).or (ctxCell dat ctx (ptr t) z) := by
  intro ctx
  induction ctx with
  | nil => intro t z _; simp [zip, ctxParent, ctxCell]
  | cons f up ih =>
    intro t z hnd
    rw [zip, ih (f.plug t) z hnd]
    have hsub : (inorder (f.plug t)).Nodup := by
      have hnd' : (inorder (zip up (f.plug t))).Nodup := hnd
      rw [inorder_zip] at hnd'
      exact ((List.nodup_append.1 (List.nodup_append.1 hnd').1).2.1)
    cases f with
    | ofLeft c a r =>
      simp only [Frame.plug, inorder] at hsub
      have hat : a ∉ inorder t := by
        intro h
        exact (List.nodup_append.1 hsub).2.2 h (List.mem_cons_self _ _)
      simp only [Frame.plug, cellAt, ctxCell, ctxParent, Frame.data, ptr]
      by_cases hz : z = a
      · subst hz
        simp [cellAt_of_not_mem dat t _ _ hat]
      · simp only [hz, if_false, Option.or_assoc]
    | ofRight c l a =>
      simp only [Frame.plug, inorder] at hsub
      obtain ⟨hl, hrest, hdis⟩ := List.nodup_append.1 hsub
      have hat : a ∉ inorder t := (List.nodup_cons.1 hrest).1
      simp only [Frame.plug, cellAt, ctxCell, ctxParent, Frame.data, ptr]
      by_cases hz : z = a
      · subst hz
        simp [cellAt_of_not_mem dat t _ _ hat]
      · simp only [hz, if_false]
        by_cases hzl : z ∈ inorder l
        · have hzt : z ∉ inorder t := fun h => hdis hzl (List.mem_cons_of_mem _ h)
          simp [cellAt_of_not_mem dat t _ _ hzt]
        · simp [cellAt_of_not_mem dat l _ _ hzl]

end RBT

namespace RBT
variable {α σ ω β : Type}

theorem nodup_focus (ctx : Ctx Nat) (t : Node Nat) (hnd : (inorder (zip ctx t)).Nodup) :
    (inorder t).Nodup ∧ ∀ z ∈ inorder t, z ∉ ctxBefore ctx ∧ z ∉ ctxAfter ctx := by
  rw [inorder_zip] at hnd
  obtain ⟨h1, -, h3⟩ := List.nodup_append.1 hnd
  obtain ⟨-, h5, h6⟩ := List.nodup_append.1 h1
  refine ⟨h5, fun z hz => ⟨fun h => h6 h hz, fun h => h3 (List.mem_append_right _ hz) h⟩⟩

theorem mem_inorder_mk (c : Color) (l r : Node Nat) (a z : Nat) :
    z ∈ inorder (.mk c l a r) ↔ z ∈ inorder l ∨ z = a ∨ z ∈ inorder r := by
  simp [inorder]

theorem nodup_inorder_mk (c : Color) (l r : Node Nat) (a : Nat) :
    (inorder (.mk c l a r)).Nodup ↔ (inorder l).Nodup ∧ (inorder r).Nodup ∧ a ∉ inorder l ∧
      a ∉ inorder r ∧ ∀ z ∈ inorder l, z ∉ inorder r := by
  simp only [inorder, List.nodup_append, List.nodup_cons, List.Disjoint, List.mem_cons]
  constructor
  · rintro ⟨h1, ⟨h2, h3⟩, h4⟩
    exact ⟨h1, h3, fun h => h4 h (Or.inl rfl), h2, fun z hz hr => h4 hz (Or.inr hr)⟩
  · rintro ⟨h1, h2, h3, h4, h5⟩
    refine ⟨h1, ⟨h4, h2⟩, ?_⟩
    intro z hz hr
    rcases hr with rfl | hr
    · exact h3 hz
    · exact h5 z hz hr

/-- The address of the nearest ancestor is not in the subtree at the
location. -/
theorem ctxParent_not_mem (ctx : Ctx Nat) (t : Node Nat) (z : Nat)
    (hnd : (inorder (zip ctx t)).Nodup) (hz : ctxParent ctx = some z) : z ∉ inorder t := by
  cases ctx with
  | nil => cases hz
  | cons f up =>
    cases Option.some.inj hz
    obtain ⟨-, hout⟩ := nodup_focus (f :: up) t hnd
    intro h
    obtain ⟨h1, h2⟩ := hout _ h
    cases f with
    | ofLeft c a r => exact h2 (by simp [ctxAfter, Frame.data])
    | ofRight c l a => exact h1 (by simp [ctxBefore, Frame.data])

/-- The cell of the node at a location. -/
theorem layout_read (dat : Nat → α) (T : Node Nat) (ctx : Ctx Nat) (c : Color) (l r : Node Nat)
    (a : Nat) (hT : zip ctx (.mk c l a r) = T) (hnd : (inorder T).Nodup) :
    (layout dat T).heap a = some ⟨ctxParent ctx, ptr l, ptr r, c, dat a⟩ := by
  subst hT
  simp only [layout]
  rw [cellAt_zip dat ctx _ a hnd]
  simp [cellAt]

theorem layout_root (dat : Nat → α) (T : Node Nat) (ctx : Ctx Nat) (t : Node Nat)
    (hT : zip ctx t = T) : (layout dat T).root = ctxRoot ctx (ptr t) := by
  subst hT
  simp only [layout, ptr_zip]

/-- No cell at an address that is not in the tree. -/
theorem layout_none (dat : Nat → α) (T : Node Nat) (z : Nat) (hz : z ∉ inorder T) :
    (layout dat T).heap z = none :=
  cellAt_of_not_mem dat T none z hz

/-- Two trees that differ at a location only have the same cells away from
the subtrees at the location and from the nearest ancestor. -/
theorem layout_frame (dat : Nat → α) (ctx : Ctx Nat) (t t' : Node Nat) (z : Nat)
    (hnd : (inorder (zip ctx t)).Nodup) (hnd' : (inorder (zip ctx t')).Nodup)
    (hz : cellAt dat t (ctxParent ctx) z = cellAt dat t' (ctxParent ctx) z)
    (hp : ptr t = ptr t' ∨ ctxParent ctx ≠ some z) :
    (layout dat (zip ctx t)).heap z = (layout dat (zip ctx t')).heap z := by
  simp only [layout]
  rw [cellAt_zip dat ctx t z hnd, cellAt_zip dat ctx t' z hnd', hz]
  rcases hp with hp | hp
  · rw [hp]
  · rw [ctxCell_ptr dat ctx _ (ptr t') z hp]

theorem Mem.ext' {m m' : Mem α} (h1 : m.heap = m'.heap) (h2 : m.root = m'.root) : m = m' := by
  cases m; cases m'
  simp only at h1 h2
  rw [h1, h2]

theorem ctxRoot_eq (ctx : Ctx Nat) (p p' : Ptr) (h : ctx ≠ []) : ctxRoot ctx p = ctxRoot ctx p' := by
  cases ctx with
  | nil => exact absurd rfl h
  | cons f up => rfl

/-- The assignment `node->color = c'` at the node of a location. -/
theorem layout_setColor (dat : Nat → α) (ctx : Ctx Nat) (c c' : Color) (l r : Node Nat)
    (a : Nat) (hnd : (inorder (zip ctx (.mk c l a r))).Nodup) :
    (layout dat (zip ctx (.mk c l a r))).modify (some a) (fun x => { x with color := c' }) =
      some (layout dat (zip ctx (.mk c' l a r))) := by
  have hnd' : (inorder (zip ctx (.mk c' l a r))).Nodup := by
    rw [inorder_zip] at hnd ⊢
    exact hnd
  have hA := layout_read dat _ ctx c l r a rfl hnd
  have hA' := layout_read dat _ ctx c' l r a rfl hnd'
  simp only [Mem.modify, hA, Option.map_some']
  congr 1
  apply Mem.ext'
  · funext z
    simp only [Mem.write]
    by_cases hz : z = a
    · subst hz
      simp only [if_true, hA']
    · simp only [hz, if_false]
      refine layout_frame dat ctx _ _ z hnd hnd' ?_ (Or.inl rfl)
      simp only [cellAt, hz, if_false]
  · show (layout dat (zip ctx (.mk c l a r))).root = (layout dat (zip ctx (.mk c' l a r))).root
    rw [layout_root dat _ ctx _ rfl, layout_root dat _ ctx _ rfl]
    rfl

end RBT

namespace RBT
variable {α σ ω β : Type}

/-! ### Rotations in memory -/

theorem rotL_frame (dat : Nat → α) (ctx : Ctx Nat) (c c2 : Color) (l l2 r2 : Node Nat)
    (a b z : Nat) (hnd : (inorder (zip ctx (.mk c l a (.mk c2 l2 b r2)))).Nodup)
    (hnd' : (inorder (zip ctx (.mk c2 (.mk c l a l2) b r2))).Nodup)
    (hza : ¬ z = a) (hzb : ¬ z = b) (hze : ptr l2 ≠ some z) (hzf : ctxParent ctx ≠ some z) :
    (layout dat (zip ctx (.mk c l a (.mk c2 l2 b r2)))).heap z =
      (layout dat (zip ctx (.mk c2 (.mk c l a l2) b r2))).heap z := by
  refine layout_frame dat ctx _ _ z hnd hnd' ?_ (Or.inr hzf)
  simp only [cellAt, hza, hzb, if_false]
  rw [cellAt_par dat l2 (some b) (some a) z hze, Option.or_assoc]

theorem rotR_frame (dat : Nat → α) (ctx : Ctx Nat) (c c2 : Color) (l2 r2 r : Node Nat)
    (a b z : Nat) (hnd : (inorder (zip ctx (.mk c (.mk c2 l2 b r2) a r))).Nodup)
    (hnd' : (inorder (zip ctx (.mk c2 l2 b (.mk c r2 a r)))).Nodup)
    (hza : ¬ z = a) (hzb : ¬ z = b) (hze : ptr r2 ≠ some z) (hzf : ctxParent ctx ≠ some z) :
    (layout dat (zip ctx (.mk c (.mk c2 l2 b r2) a r))).heap z =
      (layout dat (zip ctx (.mk c2 l2 b (.mk c r2 a r)))).heap z := by
  refine layout_frame dat ctx _ _ z hnd hnd' ?_ (Or.inr hzf)
  simp only [cellAt, hza, hzb, if_false]
  rw [cellAt_par dat r2 (some b) (some a) z hze, Option.or_assoc]

set_option maxHeartbeats 1000000 in
/-- `leftRotation` in memory is the rotation of the tree. -/
theorem leftRotationH_sim (dat : Nat → α) (ctx : Ctx Nat) (c c2 : Color) (l l2 r2 : Node Nat)
    (a b : Nat) (hnd : (inorder (zip ctx (.mk c l a (.mk c2 l2 b r2)))).Nodup) :
    leftRotationH (layout dat (zip ctx (.mk c l a (.mk c2 l2 b r2)))) (some a) =
      some (layout dat (zip ctx (.mk c2 (.mk c l a l2) b r2))) := by
  have hnd' : (inorder (zip ctx (.mk c2 (.mk c l a l2) b r2))).Nodup := by
    rw [inorder_zip] at hnd ⊢
    simpa [inorder] using hnd
  obtain ⟨hN, -⟩ := nodup_focus ctx _ hnd
  obtain ⟨-, hR, hal, haR, hdis⟩ := (nodup_inorder_mk _ _ _ _).1 hN
  have hab : ¬ a = b := fun h => haR (by simp [inorder, h])
  have hba : ¬ b = a := fun h => hab h.symm
  -- the cells read, before and after
  have hA : (layout dat (zip ctx (.mk c l a (.mk c2 l2 b r2)))).heap a =
      some ⟨ctxParent ctx, ptr l, some b, c, dat a⟩ :=
    layout_read dat _ ctx c l (.mk c2 l2 b r2) a rfl hnd
  have hB : (layout dat (zip ctx (.mk c l a (.mk c2 l2 b r2)))).heap b =
      some ⟨some a, ptr l2, ptr r2, c2, dat b⟩ :=
    layout_read dat _ (.ofRight c l a :: ctx) c2 l2 r2 b rfl hnd
  have hA' : (layout dat (zip ctx (.mk c2 (.mk c l a l2) b r2))).heap a =
      some ⟨some b, ptr l, ptr l2, c, dat a⟩ :=
    layout_read dat _ (.ofLeft c2 b r2 :: ctx) c l l2 a rfl hnd'
  have hB' : (layout dat (zip ctx (.mk c2 (.mk c l a l2) b r2))).heap b =
      some ⟨ctxParent ctx, some a, ptr r2, c2, dat b⟩ :=
    layout_read dat _ ctx c2 (.mk c l a l2) r2 b rfl hnd'
  have hroot : (layout dat (zip ctx (.mk c l a (.mk c2 l2 b r2)))).root =
      ctxRoot ctx (some a) := layout_root dat _ ctx (.mk c l a (.mk c2 l2 b r2)) rfl
  have hroot' : (layout dat (zip ctx (.mk c2 (.mk c l a l2) b r2))).root =
      ctxRoot ctx (some b) := layout_root dat _ ctx (.mk c2 (.mk c l a l2) b r2) rfl
  have hfr := fun z => rotL_frame dat ctx c c2 l l2 r2 a b z hnd hnd'
  -- the inner subtree
  have hE : ∀ e, ptr l2 = some e → ¬ e = a ∧ ¬ e = b ∧ ¬ a = e ∧ ¬ b = e ∧
      ∃ E : Cell α, (layout dat (zip ctx (.mk c l a (.mk c2 l2 b r2)))).heap e = some E ∧
        (layout dat (zip ctx (.mk c2 (.mk c l a l2) b r2))).heap e =
          some { E with parent := some a } := by
    intro e he
    cases l2 with
    | NULL => cases he
    | mk c3 l3 e' r3 =>
      cases Option.some.inj he
      have hae : ¬ a = e := fun h => haR (by simp [inorder, h])
      have hbe : ¬ b = e := fun h =>
        ((nodup_inorder_mk _ _ _ _).1 hR).2.2.1 (by simp [inorder, h])
      refine ⟨fun h => hae h.symm, fun h => hbe h.symm, hae, hbe, _,
        layout_read dat _ (.ofLeft c2 b r2 :: .ofRight c l a :: ctx) c3 l3 r3 e rfl hnd, ?_⟩
      exact layout_read dat _ (.ofRight c l a :: .ofLeft c2 b r2 :: ctx) c3 l3 r3 e rfl hnd'
  -- the parent
  have hF : ∀ fd, ctxParent ctx = some fd → ¬ fd = a ∧ ¬ fd = b ∧ ptr l2 ≠ some fd ∧
      ∃ F : Cell α, (layout dat (zip ctx (.mk c l a (.mk c2 l2 b r2)))).heap fd = some F ∧
        (F.right = some a ∨ (F.left = some a ∧ F.right ≠ some a)) ∧
        (layout dat (zip ctx (.mk c2 (.mk c l a l2) b r2))).heap fd =
          some (if F.right = some a then { F with right := some b }
            else { F with left := some b }) := by
    intro fd hfd
    have hfN := ctxParent_not_mem ctx _ fd hnd hfd
    have h1 : ¬ fd = a := fun h => hfN (by simp [inorder, h])
    have h2 : ¬ fd = b := fun h => hfN (by simp [inorder, h])
    have h3 : ptr l2 ≠ some fd := fun h =>
      hfN (by simp only [inorder, List.mem_append, List.mem_cons]; exact
        Or.inr (Or.inr (Or.inl (ptr_mem l2 fd h))))
    refine ⟨h1, h2, h3, ?_⟩
    cases ctx with
    | nil => cases hfd
    | cons f up =>
      cases Option.some.inj hfd
      cases f with
      | ofLeft fc fd fr =>
        have hfr : ptr fr ≠ some a := by
          intro h
          have := ptr_mem fr a h
          obtain ⟨-, hout⟩ := nodup_focus (.ofLeft fc fd fr :: up) _ hnd
          exact (hout a (by simp [inorder])).2 (by simp [ctxAfter, this])
        refine ⟨⟨ctxParent up, some a, ptr fr, fc, dat fd⟩,
          layout_read dat _ up fc _ fr fd rfl hnd, Or.inr ⟨rfl, hfr⟩, ?_⟩
        rw [if_neg (show ¬ (Cell.mk (ctxParent up) (some a) (ptr fr) fc (dat fd)).right = some a
          from hfr)]
        exact layout_read dat _ up fc _ fr fd rfl hnd'
      | ofRight fc fl fd =>
        refine ⟨⟨ctxParent up, ptr fl, some a, fc, dat fd⟩,
          layout_read dat _ up fc fl _ fd rfl hnd, Or.inl rfl, ?_⟩
        rw [if_pos (show (Cell.mk (ctxParent up) (ptr fl) (some a) fc (dat fd)).right = some a
          from rfl)]
        exact layout_read dat _ up fc fl _ fd rfl hnd'
  have hroot2 : ctxParent ctx = none → ctxRoot ctx (some b) = some b := by
    intro h
    cases ctx with
    | nil => rfl
    | cons f up => cases h
  have hroot3 : ∀ fd, ctxParent ctx = some fd → ctxRoot ctx (some b) = ctxRoot ctx (some a) := by
    intro fd h
    cases ctx with
    | nil => cases h
    | cons f up => rfl
  generalize layout dat (zip ctx (.mk c l a (.mk c2 l2 b r2))) = m0 at hA hB hroot hfr hE hF ⊢
  generalize layout dat (zip ctx (.mk c2 (.mk c l a l2) b r2)) = m1 at hA' hB' hroot' hfr hE hF ⊢
  generalize ctxRoot ctx (some b) = rb at hroot' hroot2 hroot3
  generalize ctxRoot ctx (some a) = ra at hroot hroot3
  generalize ctxParent ctx = pf at hA hB' hF hfr hroot2 hroot3
  generalize ptr l2 = pe at hB hA' hE hF hfr
  generalize ptr l = pl at hA hA'
  generalize ptr r2 = pr at hB hB'
  clear hnd hnd' hN hR hal haR hdis
  have hk1 : ¬ RIGHT_CHILD = NO_PARENT := by decide
  have hk2 : ¬ LEFT_CHILD = NO_PARENT := by decide
  have hk3 : ¬ LEFT_CHILD = RIGHT_CHILD := by decide
  rcases pe with _ | e <;> rcases pf with _ | fd
  · simp only [leftRotationH, whichChildNodeIsH, Mem.read, Mem.modify, Mem.write, Option.bind,
      Option.map, hA, hB,  hab, hba, hk1, hk2, hk3, if_true, if_false, ne_eq,
      not_true, not_false_eq_true, and_self, and_true, true_and, false_and, and_false,
      Option.some.injEq, reduceCtorEq, Option.pure_def, Option.bind_eq_bind, Option.some_bind]
    refine Mem.ext' (funext fun z => ?_) ?_
    · by_cases hza : z = a
      · subst hza
        simp only [if_true, if_false, hA']
      · by_cases hzb : z = b
        · subst hzb
          simp only [hza, if_true, if_false, hB']
        · simp only [hza, hzb, if_false]
          exact hfr z hza hzb (by simp) (by simp)
    · simp only [hroot', hroot2 rfl]
  · obtain ⟨hfa, hfb, hfe, F, hF0, hFside, hF1⟩ := hF fd rfl
    have haf : ¬ a = fd := fun h => hfa h.symm
    have hbf : ¬ b = fd := fun h => hfb h.symm
    rcases hFside with hs | ⟨hs1, hs2⟩
    · rw [if_pos hs] at hF1
      simp only [leftRotationH, whichChildNodeIsH, Mem.read, Mem.modify, Mem.write, Option.bind,
        Option.map, hA, hB, hF0, hfa, hfb, haf, hbf, hs, hab, hba, hk1, hk2, hk3, if_true,
            if_false, ne_eq,
        not_true, not_false_eq_true, and_self, and_true, true_and, false_and, and_false,
        Option.some.injEq, reduceCtorEq, Option.pure_def, Option.bind_eq_bind, Option.some_bind]
      refine Mem.ext' (funext fun z => ?_) ?_
      · by_cases hza : z = a
        · subst hza
          simp only [if_true, if_false, hA']
        · by_cases hzb : z = b
          · subst hzb
            simp only [hza, if_true, if_false, hB']
          · by_cases hzf : z = fd
            · subst hzf
              simp only [hza, hzb, if_true, if_false, hF1]
            · simp only [hza, hzb, hzf, if_false]
              exact hfr z hza hzb (by simp) (fun h => hzf (Option.some.inj h).symm)
      · simp only [hroot, hroot', hroot3 fd rfl]
    · rw [if_neg hs2] at hF1
      simp only [leftRotationH, whichChildNodeIsH, Mem.read, Mem.modify, Mem.write, Option.bind,
        Option.map, hA, hB, hF0, hfa, hfb, haf, hbf, hs1, hs2, hab, hba, hk1, hk2, hk3, if_true,
            if_false, ne_eq,
        not_true, not_false_eq_true, and_self, and_true, true_and, false_and, and_false,
        Option.some.injEq, reduceCtorEq, Option.pure_def, Option.bind_eq_bind, Option.some_bind]
      refine Mem.ext' (funext fun z => ?_) ?_
      · by_cases hza : z = a
        · subst hza
          simp only [if_true, if_false, hA']
        · by_cases hzb : z = b
          · subst hzb
            simp only [hza, if_true, if_false, hB']
          · by_cases hzf : z = fd
            · subst hzf
              simp only [hza, hzb, if_true, if_false, hF1]
            · simp only [hza, hzb, hzf, if_false]
              exact hfr z hza hzb (by simp) (fun h => hzf (Option.some.inj h).symm)
      · simp only [hroot, hroot', hroot3 fd rfl]
  · obtain ⟨hea, heb, hae, hbe, E, hE0, hE1⟩ := hE e rfl
    simp only [leftRotationH, whichChildNodeIsH, Mem.read, Mem.modify, Mem.write, Option.bind,
      Option.map, hA, hB, hE0, hea, heb, hae, hbe,  hab, hba, hk1, hk2, hk3, if_true, if_false,
          ne_eq,
      not_true, not_false_eq_true, and_self, and_true, true_and, false_and, and_false,
      Option.some.injEq, reduceCtorEq, Option.pure_def, Option.bind_eq_bind, Option.some_bind]
    refine Mem.ext' (funext fun z => ?_) ?_
    · by_cases hza : z = a
      · subst hza
        simp only [if_true, if_false, hA']
      · by_cases hzb : z = b
        · subst hzb
          simp only [hza, if_true, if_false, hB']
        · by_cases hze : z = e
          · subst hze
            simp only [hza, hzb, if_true, if_false, hE1]
          · simp only [hza, hzb, hze, if_false]
            exact hfr z hza hzb (fun h => hze (Option.some.inj h).symm) (by simp)
    · simp only [hroot', hroot2 rfl]
  · obtain ⟨hea, heb, hae, hbe, E, hE0, hE1⟩ := hE e rfl
    obtain ⟨hfa, hfb, hfe, F, hF0, hFside, hF1⟩ := hF fd rfl
    have haf : ¬ a = fd := fun h => hfa h.symm
    have hbf : ¬ b = fd := fun h => hfb h.symm
    have hfe2 : ¬ fd = e := fun h => hfe (congrArg some h.symm)
    have hef : ¬ e = fd := fun h => hfe2 h.symm
    rcases hFside with hs | ⟨hs1, hs2⟩
    · rw [if_pos hs] at hF1
      simp only [leftRotationH, whichChildNodeIsH, Mem.read, Mem.modify, Mem.write, Option.bind,
        Option.map, hA, hB, hE0, hea, heb, hae, hbe, hF0, hfa, hfb, haf, hbf, hfe2, hef, hs, hab,
            hba, hk1, hk2, hk3, if_true, if_false, ne_eq,
        not_true, not_false_eq_true, and_self, and_true, true_and, false_and, and_false,
        Option.some.injEq, reduceCtorEq, Option.pure_def, Option.bind_eq_bind, Option.some_bind]
      refine Mem.ext' (funext fun z => ?_) ?_
      · by_cases hza : z = a
        · subst hza
          simp only [if_true, if_false, hA']
        · by_cases hzb : z = b
          · subst hzb
            simp only [hza, if_true, if_false, hB']
          · by_cases hzf : z = fd
            · subst hzf
              simp only [hza, hzb, if_true, if_false, hF1]
            · by_cases hze : z = e
              · subst hze
                simp only [hza, hzb, hzf, if_true, if_false, hE1]
              · simp only [hza, hzb, hzf, hze, if_false]
                exact hfr z hza hzb (fun h => hze (Option.some.inj h).symm) (fun h => hzf
                    (Option.some.inj h).symm)
      · simp only [hroot, hroot', hroot3 fd rfl]
    · rw [if_neg hs2] at hF1
      simp only [leftRotationH, whichChildNodeIsH, Mem.read, Mem.modify, Mem.write, Option.bind,
        Option.map, hA, hB, hE0, hea, heb, hae, hbe, hF0, hfa, hfb, haf, hbf, hfe2, hef, hs1, hs2,
            hab, hba, hk1, hk2, hk3, if_true, if_false, ne_eq,
        not_true, not_false_eq_true, and_self, and_true, true_and, false_and, and_false,
        Option.some.injEq, reduceCtorEq, Option.pure_def, Option.bind_eq_bind, Option.some_bind]
      refine Mem.ext' (funext fun z => ?_) ?_
      · by_cases hza : z = a
        · subst hza
          simp only [if_true, if_false, hA']
        · by_cases hzb : z = b
          · subst hzb
            simp only [hza, if_true, if_false, hB']
          · by_cases hzf : z = fd
            · subst hzf
              simp only [hza, hzb, if_true, if_false, hF1]
            · by_cases hze : z = e
              · subst hze
                simp only [hza, hzb, hzf, if_true, if_false, hE1]
              · simp only [hza, hzb, hzf, hze, if_false]
                exact hfr z hza hzb (fun h => hze (Option.some.inj h).symm) (fun h => hzf
                    (Option.some.inj h).symm)
      · simp only [hroot, hroot', hroot3 fd rfl]

set_option maxHeartbeats 1000000 in
/-- `rightRotation` in memory is the rotation of the tree. -/
theorem rightRotationH_sim (dat : Nat → α) (ctx : Ctx Nat) (c c2 : Color) (l2 r2 r : Node Nat)
    (a b : Nat) (hnd : (inorder (zip ctx (.mk c (.mk c2 l2 b r2) a r))).Nodup) :
    rightRotationH (layout dat (zip ctx (.mk c (.mk c2 l2 b r2) a r))) (some a) =
      some (layout dat (zip ctx (.mk c2 l2 b (.mk c r2 a r)))) := by
  have hnd' : (inorder (zip ctx (.mk c2 l2 b (.mk c r2 a r)))).Nodup := by
    rw [inorder_zip] at hnd ⊢
    simpa [inorder] using hnd
  obtain ⟨hN, -⟩ := nodup_focus ctx _ hnd
  obtain ⟨hR, -, haR, hal, hdis⟩ := (nodup_inorder_mk _ _ _ _).1 hN
  have hab : ¬ a = b := fun h => haR (by simp [inorder, h])
  have hba : ¬ b = a := fun h => hab h.symm
  -- the cells read, before and after
  have hA : (layout dat (zip ctx (.mk c (.mk c2 l2 b r2) a r))).heap a =
      some ⟨ctxParent ctx, some b, ptr r, c, dat a⟩ :=
    layout_read dat _ ctx c (.mk c2 l2 b r2) r a rfl hnd
  have hB : (layout dat (zip ctx (.mk c (.mk c2 l2 b r2) a r))).heap b =
      some ⟨some a, ptr l2, ptr r2, c2, dat b⟩ :=
    layout_read dat _ (.ofLeft c a r :: ctx) c2 l2 r2 b rfl hnd
  have hA' : (layout dat (zip ctx (.mk c2 l2 b (.mk c r2 a r)))).heap a =
      some ⟨some b, ptr r2, ptr r, c, dat a⟩ :=
    layout_read dat _ (.ofRight c2 l2 b :: ctx) c r2 r a rfl hnd'
  have hB' : (layout dat (zip ctx (.mk c2 l2 b (.mk c r2 a r)))).heap b =
      some ⟨ctxParent ctx, ptr l2, some a, c2, dat b⟩ :=
    layout_read dat _ ctx c2 l2 (.mk c r2 a r) b rfl hnd'
  have hroot : (layout dat (zip ctx (.mk c (.mk c2 l2 b r2) a r))).root =
      ctxRoot ctx (some a) := layout_root dat _ ctx (.mk c (.mk c2 l2 b r2) a r) rfl
  have hroot' : (layout dat (zip ctx (.mk c2 l2 b (.mk c r2 a r)))).root =
      ctxRoot ctx (some b) := layout_root dat _ ctx (.mk c2 l2 b (.mk c r2 a r)) rfl
  have hfr := fun z => rotR_frame dat ctx c c2 l2 r2 r a b z hnd hnd'
  -- the inner subtree
  have hE : ∀ e, ptr r2 = some e → ¬ e = a ∧ ¬ e = b ∧ ¬ a = e ∧ ¬ b = e ∧
      ∃ E : Cell α, (layout dat (zip ctx (.mk c (.mk c2 l2 b r2) a r))).heap e = some E ∧
        (layout dat (zip ctx (.mk c2 l2 b (.mk c r2 a r)))).heap e =
          some { E with parent := some a } := by
    intro e he
    cases r2 with
    | NULL => cases he
    | mk c3 l3 e' r3 =>
      cases Option.some.inj he
      have hae : ¬ a = e := fun h => haR (by simp [inorder, h])
      have hbe : ¬ b = e := fun h =>
        ((nodup_inorder_mk _ _ _ _).1 hR).2.2.2.1 (by simp [inorder, h])
      refine ⟨fun h => hae h.symm, fun h => hbe h.symm, hae, hbe, _,
        layout_read dat _ (.ofRight c2 l2 b :: .ofLeft c a r :: ctx) c3 l3 r3 e rfl hnd, ?_⟩
      exact layout_read dat _ (.ofLeft c a r :: .ofRight c2 l2 b :: ctx) c3 l3 r3 e rfl hnd'
  -- the parent
  have hF : ∀ fd, ctxParent ctx = some fd → ¬ fd = a ∧ ¬ fd = b ∧ ptr r2 ≠ some fd ∧
      ∃ F : Cell α, (layout dat (zip ctx (.mk c (.mk c2 l2 b r2) a r))).heap fd = some F ∧
        (F.right = some a ∨ (F.left = some a ∧ F.right ≠ some a)) ∧
        (layout dat (zip ctx (.mk c2 l2 b (.mk c r2 a r)))).heap fd =
          some (if F.right = some a then { F with right := some b }
            else { F with left := some b }) := by
    intro fd hfd
    have hfN := ctxParent_not_mem ctx _ fd hnd hfd
    have h1 : ¬ fd = a := fun h => hfN (by simp [inorder, h])
    have h2 : ¬ fd = b := fun h => hfN (by simp [inorder, h])
    have h3 : ptr r2 ≠ some fd := fun h =>
      hfN (by simp only [inorder, List.mem_append, List.mem_cons]; exact
        Or.inl (Or.inr (Or.inr (ptr_mem r2 fd h))))
    refine ⟨h1, h2, h3, ?_⟩
    cases ctx with
    | nil => cases hfd
    | cons f up =>
      cases Option.some.inj hfd
      cases f with
      | ofLeft fc fd fr =>
        have hfr : ptr fr ≠ some a := by
          intro h
          have := ptr_mem fr a h
          obtain ⟨-, hout⟩ := nodup_focus (.ofLeft fc fd fr :: up) _ hnd
          exact (hout a (by simp [inorder])).2 (by simp [ctxAfter, this])
        refine ⟨⟨ctxParent up, some a, ptr fr, fc, dat fd⟩,
          layout_read dat _ up fc _ fr fd rfl hnd, Or.inr ⟨rfl, hfr⟩, ?_⟩
        rw [if_neg (show ¬ (Cell.mk (ctxParent up) (some a) (ptr fr) fc (dat fd)).right = some a
          from hfr)]
        exact layout_read dat _ up fc _ fr fd rfl hnd'
      | ofRight fc fl fd =>
        refine ⟨⟨ctxParent up, ptr fl, some a, fc, dat fd⟩,
          layout_read dat _ up fc fl _ fd rfl hnd, Or.inl rfl, ?_⟩
        rw [if_pos (show (Cell.mk (ctxParent up) (ptr fl) (some a) fc (dat fd)).right = some a
          from rfl)]
        exact layout_read dat _ up fc fl _ fd rfl hnd'
  have hroot2 : ctxParent ctx = none → ctxRoot ctx (some b) = some b := by
    intro h
    cases ctx with
    | nil => rfl
    | cons f up => cases h
  have hroot3 : ∀ fd, ctxParent ctx = some fd → ctxRoot ctx (some b) = ctxRoot ctx (some a) := by
    intro fd h
    cases ctx with
    | nil => cases h
    | cons f up => rfl
  generalize layout dat (zip ctx (.mk c (.mk c2 l2 b r2) a r)) = m0 at hA hB hroot hfr hE hF ⊢
  generalize layout dat (zip ctx (.mk c2 l2 b (.mk c r2 a r))) = m1 at hA' hB' hroot' hfr hE hF ⊢
  generalize ctxRoot ctx (some b) = rb at hroot' hroot2 hroot3
  generalize ctxRoot ctx (some a) = ra at hroot hroot3
  generalize ctxParent ctx = pf at hA hB' hF hfr hroot2 hroot3
  generalize ptr r2 = pe at hB hA' hE hF hfr
  generalize ptr r = pl at hA hA'
  generalize ptr l2 = pr at hB hB'
  clear hnd hnd' hN hR hal haR hdis
  have hk1 : ¬ RIGHT_CHILD = NO_PARENT := by decide
  have hk2 : ¬ LEFT_CHILD = NO_PARENT := by decide
  have hk3 : ¬ LEFT_CHILD = RIGHT_CHILD := by decide
  rcases pe with _ | e <;> rcases pf with _ | fd
  · simp only [rightRotationH, whichChildNodeIsH, Mem.read, Mem.modify, Mem.write, Option.bind,
      Option.map, hA, hB,  hab, hba, hk1, hk2, hk3, if_true, if_false, ne_eq,
      not_true, not_false_eq_true, and_self, and_true, true_and, false_and, and_false,
      Option.some.injEq, reduceCtorEq, Option.pure_def, Option.bind_eq_bind, Option.some_bind]
    refine Mem.ext' (funext fun z => ?_) ?_
    · by_cases hza : z = a
      · subst hza
        simp only [if_true, if_false, hA']
      · by_cases hzb : z = b
        · subst hzb
          simp only [hza, if_true, if_false, hB']
        · simp only [hza, hzb, if_false]
          exact hfr z hza hzb (by simp) (by simp)
    · simp only [hroot', hroot2 rfl]
  · obtain ⟨hfa, hfb, hfe, F, hF0, hFside, hF1⟩ := hF fd rfl
    have haf : ¬ a = fd := fun h => hfa h.symm
    have hbf : ¬ b = fd := fun h => hfb h.symm
    rcases hFside with hs | ⟨hs1, hs2⟩
    · rw [if_pos hs] at hF1
      simp only [rightRotationH, whichChildNodeIsH, Mem.read, Mem.modify, Mem.write, Option.bind,
        Option.map, hA, hB, hF0, hfa, hfb, haf, hbf, hs, hab, hba, hk1, hk2, hk3, if_true,
            if_false, ne_eq,
        not_true, not_false_eq_true, and_self, and_true, true_and, false_and, and_false,
        Option.some.injEq, reduceCtorEq, Option.pure_def, Option.bind_eq_bind, Option.some_bind]
      refine Mem.ext' (funext fun z => ?_) ?_
      · by_cases hza : z = a
        · subst hza
          simp only [if_true, if_false, hA']
        · by_cases hzb : z = b
          · subst hzb
            simp only [hza, if_true, if_false, hB']
          · by_cases hzf : z = fd
            · subst hzf
              simp only [hza, hzb, if_true, if_false, hF1]
            · simp only [hza, hzb, hzf, if_false]
              exact hfr z hza hzb (by simp) (fun h => hzf (Option.some.inj h).symm)
      · simp only [hroot, hroot', hroot3 fd rfl]
    · rw [if_neg hs2] at hF1
      simp only [rightRotationH, whichChildNodeIsH, Mem.read, Mem.modify, Mem.write, Option.bind,
        Option.map, hA, hB, hF0, hfa, hfb, haf, hbf, hs1, hs2, hab, hba, hk1, hk2, hk3, if_true,
            if_false, ne_eq,
        not_true, not_false_eq_true, and_self, and_true, true_and, false_and, and_false,
        Option.some.injEq, reduceCtorEq, Option.pure_def, Option.bind_eq_bind, Option.some_bind]
      refine Mem.ext' (funext fun z => ?_) ?_
      · by_cases hza : z = a
        · subst hza
          simp only [if_true, if_false, hA']
        · by_cases hzb : z = b
          · subst hzb
            simp only [hza, if_true, if_false, hB']
          · by_cases hzf : z = fd
            · subst hzf
              simp only [hza, hzb, if_true, if_false, hF1]
            · simp only [hza, hzb, hzf, if_false]
              exact hfr z hza hzb (by simp) (fun h => hzf (Option.some.inj h).symm)
      · simp only [hroot, hroot', hroot3 fd rfl]
  · obtain ⟨hea, heb, hae, hbe, E, hE0, hE1⟩ := hE e rfl
    simp only [rightRotationH, whichChildNodeIsH, Mem.read, Mem.modify, Mem.write, Option.bind,
      Option.map, hA, hB, hE0, hea, heb, hae, hbe,  hab, hba, hk1, hk2, hk3, if_true, if_false,
          ne_eq,
      not_true, not_false_eq_true, and_self, and_true, true_and, false_and, and_false,
      Option.some.injEq, reduceCtorEq, Option.pure_def, Option.bind_eq_bind, Option.some_bind]
    refine Mem.ext' (funext fun z => ?_) ?_
    · by_cases hza : z = a
      · subst hza
        simp only [if_true, if_false, hA']
      · by_cases hzb : z = b
        · subst hzb
          simp only [hza, if_true, if_false, hB']
        · by_cases hze : z = e
          · subst hze
            simp only [hza, hzb, if_true, if_false, hE1]
          · simp only [hza, hzb, hze, if_false]
            exact hfr z hza hzb (fun h => hze (Option.some.inj h).symm) (by simp)
    · simp only [hroot', hroot2 rfl]
  · obtain ⟨hea, heb, hae, hbe, E, hE0, hE1⟩ := hE e rfl
    obtain ⟨hfa, hfb, hfe, F, hF0, hFside, hF1⟩ := hF fd rfl
    have haf : ¬ a = fd := fun h => hfa h.symm
    have hbf : ¬ b = fd := fun h => hfb h.symm
    have hfe2 : ¬ fd = e := fun h => hfe (congrArg some h.symm)
    have hef : ¬ e = fd := fun h => hfe2 h.symm
    rcases hFside with hs | ⟨hs1, hs2⟩
    · rw [if_pos hs] at hF1
      simp only [rightRotationH, whichChildNodeIsH, Mem.read, Mem.modify, Mem.write, Option.bind,
        Option.map, hA, hB, hE0, hea, heb, hae, hbe, hF0, hfa, hfb, haf, hbf, hfe2, hef, hs, hab,
            hba, hk1, hk2, hk3, if_true, if_false, ne_eq,
        not_true, not_false_eq_true, and_self, and_true, true_and, false_and, and_false,
        Option.some.injEq, reduceCtorEq, Option.pure_def, Option.bind_eq_bind, Option.some_bind]
      refine Mem.ext' (funext fun z => ?_) ?_
      · by_cases hza : z = a
        · subst hza
          simp only [if_true, if_false, hA']
        · by_cases hzb : z = b
          · subst hzb
            simp only [hza, if_true, if_false, hB']
          · by_cases hzf : z = fd
            · subst hzf
              simp only [hza, hzb, if_true, if_false, hF1]
            · by_cases hze : z = e
              · subst hze
                simp only [hza, hzb, hzf, if_true, if_false, hE1]
              · simp only [hza, hzb, hzf, hze, if_false]
                exact hfr z hza hzb (fun h => hze (Option.some.inj h).symm) (fun h => hzf
                    (Option.some.inj h).symm)
      · simp only [hroot, hroot', hroot3 fd rfl]
    · rw [if_neg hs2] at hF1
      simp only [rightRotationH, whichChildNodeIsH, Mem.read, Mem.modify, Mem.write, Option.bind,
        Option.map, hA, hB, hE0, hea, heb, hae, hbe, hF0, hfa, hfb, haf, hbf, hfe2, hef, hs1, hs2,
            hab, hba, hk1, hk2, hk3, if_true, if_false, ne_eq,
        not_true, not_false_eq_true, and_self, and_true, true_and, false_and, and_false,
        Option.some.injEq, reduceCtorEq, Option.pure_def, Option.bind_eq_bind, Option.some_bind]
      refine Mem.ext' (funext fun z => ?_) ?_
      · by_cases hza : z = a
        · subst hza
          simp only [if_true, if_false, hA']
        · by_cases hzb : z = b
          · subst hzb
            simp only [hza, if_true, if_false, hB']
          · by_cases hzf : z = fd
            · subst hzf
              simp only [hza, hzb, if_true, if_false, hF1]
            · by_cases hze : z = e
              · subst hze
                simp only [hza, hzb, hzf, if_true, if_false, hE1]
              · simp only [hza, hzb, hzf, hze, if_false]
                exact hfr z hza hzb (fun h => hze (Option.some.inj h).symm) (fun h => hzf
                    (Option.some.inj h).symm)
      · simp only [hroot, hroot', hroot3 fd rfl]

end RBT

namespace RBT
variable {α σ ω β : Type}

/-! ### Reading a laid-out tree -/

theorem ptr_mk (c : Color) (l r : Node Nat) (a : Nat) : ptr (.mk c l a r) = some a := rfl

theorem ptr_null : ptr .NULL = none := rfl

theorem ctxParent_cons (f : Frame Nat) (up : Ctx Nat) : ctxParent (f :: up) = some f.data := rfl

theorem ctxParent_nil : ctxParent [] = none := rfl

theorem Frame.data_ofLeft (c : Color) (a : Nat) (r : Node Nat) :
    (Frame.ofLeft c a r).data = a := rfl

theorem Frame.data_ofRight (c : Color) (l : Node Nat) (a : Nat) :
    (Frame.ofRight c l a).data = a := rfl

theorem zip_cons (f : Frame Nat) (up : Ctx Nat) (t : Node Nat) :
    zip (f :: up) t = zip up (f.plug t) := rfl

theorem Frame.plug_ofLeft (c : Color) (a : Nat) (r t : Node Nat) :
    (Frame.ofLeft c a r).plug t = .mk c t a r := rfl

theorem Frame.plug_ofRight (c : Color) (l : Node Nat) (a : Nat) (t : Node Nat) :
    (Frame.ofRight c l a).plug t = .mk c l a t := rfl

theorem nodup_congr (ctx : Ctx Nat) (t t' : Node Nat) (h : inorder t' = inorder t)
    (hnd : (inorder (zip ctx t)).Nodup) : (inorder (zip ctx t')).Nodup := by
  rw [inorder_zip] at hnd ⊢
  rw [h]
  exact hnd

/-- `p->color = c'` at the node of a location. -/
theorem setColor_sim (dat : Nat → α) (ctx : Ctx Nat) (c c' : Color) (l r : Node Nat)
    (a : Nat) (hnd : (inorder (zip ctx (.mk c l a r))).Nodup) :
    (layout dat (zip ctx (.mk c l a r))).setColor (some a) c' =
        some (layout dat (zip ctx (.mk c' l a r))) ∧
      (inorder (zip ctx (.mk c' l a r))).Nodup :=
  ⟨layout_setColor dat ctx c c' l r a hnd, nodup_congr ctx (.mk c l a r) (.mk c' l a r) rfl hnd⟩

theorem leftRotationH_sim2 (dat : Nat → α) (ctx : Ctx Nat) (c c2 : Color) (l l2 r2 : Node Nat)
    (a b : Nat) (hnd : (inorder (zip ctx (.mk c l a (.mk c2 l2 b r2)))).Nodup) :
    leftRotationH (layout dat (zip ctx (.mk c l a (.mk c2 l2 b r2)))) (some a) =
        some (layout dat (zip ctx (.mk c2 (.mk c l a l2) b r2))) ∧
      (inorder (zip ctx (.mk c2 (.mk c l a l2) b r2))).Nodup :=
  ⟨leftRotationH_sim dat ctx c c2 l l2 r2 a b hnd,
    nodup_congr ctx (.mk c l a (.mk c2 l2 b r2)) _ (by simp [inorder]) hnd⟩

theorem rightRotationH_sim2 (dat : Nat → α) (ctx : Ctx Nat) (c c2 : Color) (l2 r2 r : Node Nat)
    (a b : Nat) (hnd : (inorder (zip ctx (.mk c (.mk c2 l2 b r2) a r))).Nodup) :
    rightRotationH (layout dat (zip ctx (.mk c (.mk c2 l2 b r2) a r))) (some a) =
        some (layout dat (zip ctx (.mk c2 l2 b (.mk c r2 a r)))) ∧
      (inorder (zip ctx (.mk c2 l2 b (.mk c r2 a r)))).Nodup :=
  ⟨rightRotationH_sim dat ctx c c2 l2 r2 r a b hnd,
    nodup_congr ctx (.mk c (.mk c2 l2 b r2) a r) _ (by simp [inorder]) hnd⟩

/-- `whichChildNodeIs` reads the side recorded in the nearest frame. -/
theorem whichChildNodeIsH_layout (dat : Nat → α) (ctx : Ctx Nat) (c : Color) (l r : Node Nat)
    (a : Nat) (hnd : (inorder (zip ctx (.mk c l a r))).Nodup) :
    whichChildNodeIsH (layout dat (zip ctx (.mk c l a r))) (some a) =
      some (whichChildNodeIs ⟨ctx, .mk c l a r⟩) := by
  have hA := layout_read dat _ ctx c l r a rfl hnd
  cases ctx with
  | nil =>
    simp only [whichChildNodeIsH, Mem.read, Option.bind, hA, ctxParent, if_true, whichChildNodeIs,
      Option.pure_def, Option.bind_eq_bind, Option.some_bind]
  | cons f up =>
    cases f with
    | ofLeft fc fd fr =>
      have hF : (layout dat (zip (.ofLeft fc fd fr :: up) (.mk c l a r))).heap fd =
          some ⟨ctxParent up, some a, ptr fr, fc, dat fd⟩ :=
        layout_read dat _ up fc (.mk c l a r) fr fd rfl hnd
      have hfr : ¬ ptr fr = some a := by
        intro h
        have := ptr_mem fr a h
        obtain ⟨-, hout⟩ := nodup_focus (.ofLeft fc fd fr :: up) _ hnd
        exact (hout a (by simp [inorder])).2 (by simp [ctxAfter, this])
      simp only [whichChildNodeIsH, Mem.read, Option.bind, hA, hF, ctxParent, Frame.data,
        reduceCtorEq, if_false, hfr, whichChildNodeIs,
        Option.pure_def, Option.bind_eq_bind, Option.some_bind]
    | ofRight fc fl fd =>
      have hF : (layout dat (zip (.ofRight fc fl fd :: up) (.mk c l a r))).heap fd =
          some ⟨ctxParent up, ptr fl, some a, fc, dat fd⟩ :=
        layout_read dat _ up fc fl (.mk c l a r) fd rfl hnd
      simp only [whichChildNodeIsH, Mem.read, Option.bind, hA, hF, ctxParent, Frame.data,
        reduceCtorEq, if_false, if_true, whichChildNodeIs,
        Option.pure_def, Option.bind_eq_bind, Option.some_bind]

/-- The test `p != NULL && p->color == RED` on a subtree. -/
theorem isRedH_layout (dat : Nat → α) (ctx : Ctx Nat) (t : Node Nat)
    (hnd : (inorder (zip ctx t)).Nodup) :
    isRedH (layout dat (zip ctx t)) (ptr t) = some (decide (t.colorOf = .RED)) := by
  cases t with
  | NULL => simp [isRedH, ptr, Node.colorOf]
  | mk c l a r =>
    have hA := layout_read dat _ ctx c l r a rfl hnd
    simp only [isRedH, ptr, hA, Option.map_some', Node.colorOf]

/-- The test `p == NULL || p->color == BLACK` on a subtree. -/
theorem isBlackH_layout (dat : Nat → α) (ctx : Ctx Nat) (t : Node Nat)
    (hnd : (inorder (zip ctx t)).Nodup) :
    isBlackH (layout dat (zip ctx t)) (ptr t) = some (decide (t.colorOf = .BLACK)) := by
  cases t with
  | NULL => simp [isBlackH, ptr, Node.colorOf]
  | mk c l a r =>
    have hA := layout_read dat _ ctx c l r a rfl hnd
    simp only [isBlackH, ptr, hA, Option.map_some', Node.colorOf]

theorem ctxRoot_mem (ctx : Ctx Nat) (p : Ptr) (h : ctx ≠ []) :
    ∃ b, ctxRoot ctx p = some b ∧ (b ∈ ctxBefore ctx ∨ b ∈ ctxAfter ctx) := by
  induction ctx generalizing p with
  | nil => exact absurd rfl h
  | cons f up ih =>
    by_cases hup : up = []
    · subst hup
      cases f <;> exact ⟨_, rfl, by simp [ctxBefore, ctxAfter, Frame.data]⟩
    · obtain ⟨b, h1, h2⟩ := ih (some f.data) hup
      refine ⟨b, h1, ?_⟩
      cases f <;> simp only [ctxBefore, ctxAfter, List.mem_append, List.mem_cons] <;> tauto

/-- A node with an ancestor is not the root. -/
theorem layout_root_ne (dat : Nat → α) (f : Frame Nat) (up : Ctx Nat) (c : Color)
    (l r : Node Nat) (a : Nat) (hnd : (inorder (zip (f :: up) (.mk c l a r))).Nodup) :
    ¬ some a = (layout dat (zip (f :: up) (.mk c l a r))).root := by
  rw [layout_root dat _ (f :: up) _ rfl]
  obtain ⟨b, h1, h2⟩ := ctxRoot_mem (f :: up) (ptr (.mk c l a r)) (by simp)
  rw [h1]
  intro h
  cases h
  obtain ⟨-, hout⟩ := nodup_focus (f :: up) _ hnd
  have := hout a (by simp [inorder])
  tauto

end RBT

namespace RBT
variable {α σ ω β : Type}

/-! ### Insertion fixup in memory -/

theorem int_ne1 : ¬ RIGHT_CHILD = LEFT_CHILD := by decide

theorem int_ne2 : ¬ LEFT_CHILD = RIGHT_CHILD := by decide

theorem int_ne3 : ¬ RIGHT_CHILD = NO_PARENT := by decide

theorem int_ne4 : ¬ LEFT_CHILD = NO_PARENT := by decide

theorem int_ne5 : ¬ NO_PARENT = RIGHT_CHILD := by decide

theorem int_ne6 : ¬ NO_PARENT = LEFT_CHILD := by decide

theorem blackUncleH_left_left (dat : Nat → α) (pc gc c : Color) (px gx x : Nat) (ps u l r : Node
    Nat) (rest : Ctx Nat)
    (hnd : (inorder (zip rest (.mk gc (.mk pc (.mk c l x r) px ps) gx u))).Nodup) :
    blackUncleAfterInsertionH (layout dat (zip rest (.mk gc (.mk pc (.mk c l x r) px ps) gx u)))
        (some x) RIGHT_UNCLE =
      some (layout dat (zip rest (.mk .BLACK (.mk c l x r) px (.mk .RED ps gx u))), some x) := by
  have w0 := whichChildNodeIsH_layout dat (.ofLeft pc px ps :: .ofLeft gc gx u :: rest) _ _ _ _ hnd
  have r0 := layout_read dat _ (.ofLeft pc px ps :: .ofLeft gc gx u :: rest) _ _ _ x rfl hnd
  obtain ⟨t1, hnd1⟩ := setColor_sim dat (.ofLeft gc gx u :: rest) _ .BLACK _ _ _ hnd
  have r1 := layout_read dat _ (.ofLeft .BLACK px ps :: .ofLeft gc gx u :: rest) _ _ _ x rfl hnd1
  have r1p := layout_read dat _ (.ofLeft gc gx u :: rest) _ _ _ px rfl hnd1
  obtain ⟨t2, hnd2⟩ := setColor_sim dat rest _ .RED _ _ _ hnd1
  have r2 := layout_read dat _ (.ofLeft .BLACK px ps :: .ofLeft .RED gx u :: rest) _ _ _ x rfl hnd2
  have r2p := layout_read dat _ (.ofLeft .RED gx u :: rest) _ _ _ px rfl hnd2
  obtain ⟨t3, hnd3⟩ := rightRotationH_sim2 dat rest _ _ _ _ _ _ _ hnd2
  simp only [zip_cons, Frame.plug_ofLeft, Frame.plug_ofRight, ctxParent_cons, Frame.data_ofLeft,
    Frame.data_ofRight, ptr_mk, whichChildNodeIs, Frame.withColor] at *
  simp only [blackUncleAfterInsertionH, blackUncleRightH, Mem.read, Option.bind, if_true, if_false,
    Option.pure_def, Option.bind_eq_bind, Option.some_bind, int_ne1, int_ne2, int_ne3, int_ne4,
    int_ne5, int_ne6, *]

theorem blackUncleH_right_left (dat : Nat → α) (pc gc c : Color) (px gx x : Nat) (pl u l r : Node
    Nat) (rest : Ctx Nat)
    (hnd : (inorder (zip rest (.mk gc (.mk pc pl px (.mk c l x r)) gx u))).Nodup) :
    blackUncleAfterInsertionH (layout dat (zip rest (.mk gc (.mk pc pl px (.mk c l x r)) gx u)))
        (some x) RIGHT_UNCLE =
      some (layout dat (zip rest (.mk .BLACK (.mk pc pl px l) x (.mk .RED r gx u))), some px) := by
  have w0 := whichChildNodeIsH_layout dat (.ofRight pc pl px :: .ofLeft gc gx u :: rest) _ _ _ _ hnd
  have r0 := layout_read dat _ (.ofRight pc pl px :: .ofLeft gc gx u :: rest) _ _ _ x rfl hnd
  obtain ⟨t1, hnd1⟩ := leftRotationH_sim2 dat (.ofLeft gc gx u :: rest) _ _ _ _ _ _ _ hnd
  have r1 := layout_read dat _ (.ofLeft gc gx u :: rest) _ _ _ x rfl hnd1
  have r1p := layout_read dat _ (.ofLeft c x r :: .ofLeft gc gx u :: rest) _ _ _ px rfl hnd1
  obtain ⟨t2, hnd2⟩ := setColor_sim dat (.ofLeft gc gx u :: rest) _ .BLACK _ _ _ hnd1
  have r2 := layout_read dat _ (.ofLeft gc gx u :: rest) _ _ _ x rfl hnd2
  have r2p := layout_read dat _ (.ofLeft .BLACK x r :: .ofLeft gc gx u :: rest) _ _ _ px rfl hnd2
  obtain ⟨t3, hnd3⟩ := setColor_sim dat rest _ .RED _ _ _ hnd2
  have r3 := layout_read dat _ (.ofLeft .RED gx u :: rest) _ _ _ x rfl hnd3
  have r3p := layout_read dat _ (.ofLeft .BLACK x r :: .ofLeft .RED gx u :: rest) _ _ _ px rfl hnd3
  obtain ⟨t4, hnd4⟩ := rightRotationH_sim2 dat rest _ _ _ _ _ _ _ hnd3
  simp only [zip_cons, Frame.plug_ofLeft, Frame.plug_ofRight, ctxParent_cons, Frame.data_ofLeft,
    Frame.data_ofRight, ptr_mk, whichChildNodeIs, Frame.withColor] at *
  simp only [blackUncleAfterInsertionH, blackUncleRightH, Mem.read, Option.bind, if_true, if_false,
    Option.pure_def, Option.bind_eq_bind, Option.some_bind, int_ne1, int_ne2, int_ne3, int_ne4,
    int_ne5, int_ne6, *]

theorem blackUncleH_right_right (dat : Nat → α) (pc gc c : Color) (px gx x : Nat) (pl u l r : Node
    Nat) (rest : Ctx Nat)
    (hnd : (inorder (zip rest (.mk gc u gx (.mk pc pl px (.mk c l x r))))).Nodup) :
    blackUncleAfterInsertionH (layout dat (zip rest (.mk gc u gx (.mk pc pl px (.mk c l x r)))))
        (some x) LEFT_UNCLE =
      some (layout dat (zip rest (.mk .BLACK (.mk .RED u gx pl) px (.mk c l x r))), some x) := by
  have w0 := whichChildNodeIsH_layout dat (.ofRight pc pl px :: .ofRight gc u gx :: rest) _ _ _ _
      hnd
  have r0 := layout_read dat _ (.ofRight pc pl px :: .ofRight gc u gx :: rest) _ _ _ x rfl hnd
  obtain ⟨t1, hnd1⟩ := setColor_sim dat (.ofRight gc u gx :: rest) _ .BLACK _ _ _ hnd
  have r1 := layout_read dat _ (.ofRight .BLACK pl px :: .ofRight gc u gx :: rest) _ _ _ x rfl hnd1
  have r1p := layout_read dat _ (.ofRight gc u gx :: rest) _ _ _ px rfl hnd1
  obtain ⟨t2, hnd2⟩ := setColor_sim dat rest _ .RED _ _ _ hnd1
  have r2 := layout_read dat _ (.ofRight .BLACK pl px :: .ofRight .RED u gx :: rest) _ _ _ x rfl
      hnd2
  have r2p := layout_read dat _ (.ofRight .RED u gx :: rest) _ _ _ px rfl hnd2
  obtain ⟨t3, hnd3⟩ := leftRotationH_sim2 dat rest _ _ _ _ _ _ _ hnd2
  simp only [zip_cons, Frame.plug_ofLeft, Frame.plug_ofRight, ctxParent_cons, Frame.data_ofLeft,
    Frame.data_ofRight, ptr_mk, whichChildNodeIs, Frame.withColor] at *
  simp only [blackUncleAfterInsertionH, blackUncleLeftH, Mem.read, Option.bind, if_true, if_false,
    Option.pure_def, Option.bind_eq_bind, Option.some_bind, int_ne1, int_ne2, int_ne3, int_ne4,
    int_ne5, int_ne6, *]

theorem blackUncleH_left_right (dat : Nat → α) (pc gc c : Color) (px gx x : Nat) (ps u l r : Node
    Nat) (rest : Ctx Nat)
    (hnd : (inorder (zip rest (.mk gc u gx (.mk pc (.mk c l x r) px ps)))).Nodup) :
    blackUncleAfterInsertionH (layout dat (zip rest (.mk gc u gx (.mk pc (.mk c l x r) px ps))))
        (some x) LEFT_UNCLE =
      some (layout dat (zip rest (.mk .BLACK (.mk .RED u gx l) x (.mk pc r px ps))), some px) := by
  have w0 := whichChildNodeIsH_layout dat (.ofLeft pc px ps :: .ofRight gc u gx :: rest) _ _ _ _ hnd
  have r0 := layout_read dat _ (.ofLeft pc px ps :: .ofRight gc u gx :: rest) _ _ _ x rfl hnd
  obtain ⟨t1, hnd1⟩ := rightRotationH_sim2 dat (.ofRight gc u gx :: rest) _ _ _ _ _ _ _ hnd
  have r1 := layout_read dat _ (.ofRight gc u gx :: rest) _ _ _ x rfl hnd1
  have r1p := layout_read dat _ (.ofRight c l x :: .ofRight gc u gx :: rest) _ _ _ px rfl hnd1
  obtain ⟨t2, hnd2⟩ := setColor_sim dat (.ofRight gc u gx :: rest) _ .BLACK _ _ _ hnd1
  have r2 := layout_read dat _ (.ofRight gc u gx :: rest) _ _ _ x rfl hnd2
  have r2p := layout_read dat _ (.ofRight .BLACK l x :: .ofRight gc u gx :: rest) _ _ _ px rfl hnd2
  obtain ⟨t3, hnd3⟩ := setColor_sim dat rest _ .RED _ _ _ hnd2
  have r3 := layout_read dat _ (.ofRight .RED u gx :: rest) _ _ _ x rfl hnd3
  have r3p := layout_read dat _ (.ofRight .BLACK l x :: .ofRight .RED u gx :: rest) _ _ _ px rfl
      hnd3
  obtain ⟨t4, hnd4⟩ := leftRotationH_sim2 dat rest _ _ _ _ _ _ _ hnd3
  simp only [zip_cons, Frame.plug_ofLeft, Frame.plug_ofRight, ctxParent_cons, Frame.data_ofLeft,
    Frame.data_ofRight, ptr_mk, whichChildNodeIs, Frame.withColor] at *
  simp only [blackUncleAfterInsertionH, blackUncleLeftH, Mem.read, Option.bind, if_true, if_false,
    Option.pure_def, Option.bind_eq_bind, Option.some_bind, int_ne1, int_ne2, int_ne3, int_ne4,
    int_ne5, int_ne6, *]

theorem redUncleH_left_left (dat : Nat → α) (pc gc c : Color) (px gx x ux : Nat) (ps ul ur l r :
    Node Nat) (rest : Ctx Nat)
    (hnd : (inorder (zip rest (.mk gc (.mk pc (.mk c l x r) px ps) gx (.mk .RED ul ux ur)))).Nodup)
        :
    redUncleAfterInsertionH (layout dat (zip rest (.mk gc (.mk pc (.mk c l x r) px ps) gx (.mk .RED
        ul ux ur)))) (some x) (some ux) =
      some (layout dat (zip rest (.mk .RED (.mk .BLACK (.mk c l x r) px ps) gx (.mk .BLACK ul ux
          ur))), some gx) := by
  obtain ⟨t1, hnd1⟩ := setColor_sim dat (.ofRight gc (.mk pc (.mk c l x r) px ps) gx :: rest) _
      .BLACK _ _ _ hnd
  have r1 := layout_read dat _ (.ofLeft pc px ps :: .ofLeft gc gx (.mk .BLACK ul ux ur) :: rest) _
      _ _ x rfl hnd1
  obtain ⟨t2, hnd2⟩ := setColor_sim dat (.ofLeft gc gx (.mk .BLACK ul ux ur) :: rest) _ .BLACK _ _
      _ hnd1
  have r2 := layout_read dat _ (.ofLeft .BLACK px ps :: .ofLeft gc gx (.mk .BLACK ul ux ur) ::
      rest) _ _ _ x rfl hnd2
  have r2p := layout_read dat _ (.ofLeft gc gx (.mk .BLACK ul ux ur) :: rest) _ _ _ px rfl hnd2
  obtain ⟨t3, hnd3⟩ := setColor_sim dat rest _ .RED _ _ _ hnd2
  have r3 := layout_read dat _ (.ofLeft .BLACK px ps :: .ofLeft .RED gx (.mk .BLACK ul ux ur) ::
      rest) _ _ _ x rfl hnd3
  have r3p := layout_read dat _ (.ofLeft .RED gx (.mk .BLACK ul ux ur) :: rest) _ _ _ px rfl hnd3
  simp only [zip_cons, Frame.plug_ofLeft, Frame.plug_ofRight, ctxParent_cons, Frame.data_ofLeft,
    Frame.data_ofRight, ptr_mk, whichChildNodeIs, Frame.withColor] at *
  simp only [redUncleAfterInsertionH, Mem.read, Option.bind, if_true, if_false,
    Option.pure_def, Option.bind_eq_bind, Option.some_bind, int_ne1, int_ne2, int_ne3, int_ne4,
    int_ne5, int_ne6, *]

theorem redUncleH_right_left (dat : Nat → α) (pc gc c : Color) (px gx x ux : Nat) (ps ul ur l r :
    Node Nat) (rest : Ctx Nat)
    (hnd : (inorder (zip rest (.mk gc (.mk pc ps px (.mk c l x r)) gx (.mk .RED ul ux ur)))).Nodup)
        :
    redUncleAfterInsertionH (layout dat (zip rest (.mk gc (.mk pc ps px (.mk c l x r)) gx (.mk .RED
        ul ux ur)))) (some x) (some ux) =
      some (layout dat (zip rest (.mk .RED (.mk .BLACK ps px (.mk c l x r)) gx (.mk .BLACK ul ux
          ur))), some gx) := by
  obtain ⟨t1, hnd1⟩ := setColor_sim dat (.ofRight gc (.mk pc ps px (.mk c l x r)) gx :: rest) _
      .BLACK _ _ _ hnd
  have r1 := layout_read dat _ (.ofRight pc ps px :: .ofLeft gc gx (.mk .BLACK ul ux ur) :: rest) _
      _ _ x rfl hnd1
  obtain ⟨t2, hnd2⟩ := setColor_sim dat (.ofLeft gc gx (.mk .BLACK ul ux ur) :: rest) _ .BLACK _ _
      _ hnd1
  have r2 := layout_read dat _ (.ofRight .BLACK ps px :: .ofLeft gc gx (.mk .BLACK ul ux ur) ::
      rest) _ _ _ x rfl hnd2
  have r2p := layout_read dat _ (.ofLeft gc gx (.mk .BLACK ul ux ur) :: rest) _ _ _ px rfl hnd2
  obtain ⟨t3, hnd3⟩ := setColor_sim dat rest _ .RED _ _ _ hnd2
  have r3 := layout_read dat _ (.ofRight .BLACK ps px :: .ofLeft .RED gx (.mk .BLACK ul ux ur) ::
      rest) _ _ _ x rfl hnd3
  have r3p := layout_read dat _ (.ofLeft .RED gx (.mk .BLACK ul ux ur) :: rest) _ _ _ px rfl hnd3
  simp only [zip_cons, Frame.plug_ofLeft, Frame.plug_ofRight, ctxParent_cons, Frame.data_ofLeft,
    Frame.data_ofRight, ptr_mk, whichChildNodeIs, Frame.withColor] at *
  simp only [redUncleAfterInsertionH, Mem.read, Option.bind, if_true, if_false,
    Option.pure_def, Option.bind_eq_bind, Option.some_bind, int_ne1, int_ne2, int_ne3, int_ne4,
    int_ne5, int_ne6, *]

theorem redUncleH_left_right (dat : Nat → α) (pc gc c : Color) (px gx x ux : Nat) (ps ul ur l r :
    Node Nat) (rest : Ctx Nat)
    (hnd : (inorder (zip rest (.mk gc (.mk .RED ul ux ur) gx (.mk pc (.mk c l x r) px ps)))).Nodup)
        :
    redUncleAfterInsertionH (layout dat (zip rest (.mk gc (.mk .RED ul ux ur) gx (.mk pc (.mk c l x
        r) px ps)))) (some x) (some ux) =
      some (layout dat (zip rest (.mk .RED (.mk .BLACK ul ux ur) gx (.mk .BLACK (.mk c l x r) px
          ps))), some gx) := by
  obtain ⟨t1, hnd1⟩ := setColor_sim dat (.ofLeft gc gx (.mk pc (.mk c l x r) px ps) :: rest) _
      .BLACK _ _ _ hnd
  have r1 := layout_read dat _ (.ofLeft pc px ps :: .ofRight gc (.mk .BLACK ul ux ur) gx :: rest) _
      _ _ x rfl hnd1
  obtain ⟨t2, hnd2⟩ := setColor_sim dat (.ofRight gc (.mk .BLACK ul ux ur) gx :: rest) _ .BLACK _ _
      _ hnd1
  have r2 := layout_read dat _ (.ofLeft .BLACK px ps :: .ofRight gc (.mk .BLACK ul ux ur) gx ::
      rest) _ _ _ x rfl hnd2
  have r2p := layout_read dat _ (.ofRight gc (.mk .BLACK ul ux ur) gx :: rest) _ _ _ px rfl hnd2
  obtain ⟨t3, hnd3⟩ := setColor_sim dat rest _ .RED _ _ _ hnd2
  have r3 := layout_read dat _ (.ofLeft .BLACK px ps :: .ofRight .RED (.mk .BLACK ul ux ur) gx ::
      rest) _ _ _ x rfl hnd3
  have r3p := layout_read dat _ (.ofRight .RED (.mk .BLACK ul ux ur) gx :: rest) _ _ _ px rfl hnd3
  simp only [zip_cons, Frame.plug_ofLeft, Frame.plug_ofRight, ctxParent_cons, Frame.data_ofLeft,
    Frame.data_ofRight, ptr_mk, whichChildNodeIs, Frame.withColor] at *
  simp only [redUncleAfterInsertionH, Mem.read, Option.bind, if_true, if_false,
    Option.pure_def, Option.bind_eq_bind, Option.some_bind, int_ne1, int_ne2, int_ne3, int_ne4,
    int_ne5, int_ne6, *]

theorem redUncleH_right_right (dat : Nat → α) (pc gc c : Color) (px gx x ux : Nat) (ps ul ur l r :
    Node Nat) (rest : Ctx Nat)
    (hnd : (inorder (zip rest (.mk gc (.mk .RED ul ux ur) gx (.mk pc ps px (.mk c l x r))))).Nodup)
        :
    redUncleAfterInsertionH (layout dat (zip rest (.mk gc (.mk .RED ul ux ur) gx (.mk pc ps px (.mk
        c l x r))))) (some x) (some ux) =
      some (layout dat (zip rest (.mk .RED (.mk .BLACK ul ux ur) gx (.mk .BLACK ps px (.mk c l x
          r)))), some gx) := by
  obtain ⟨t1, hnd1⟩ := setColor_sim dat (.ofLeft gc gx (.mk pc ps px (.mk c l x r)) :: rest) _
      .BLACK _ _ _ hnd
  have r1 := layout_read dat _ (.ofRight pc ps px :: .ofRight gc (.mk .BLACK ul ux ur) gx :: rest)
      _ _ _ x rfl hnd1
  obtain ⟨t2, hnd2⟩ := setColor_sim dat (.ofRight gc (.mk .BLACK ul ux ur) gx :: rest) _ .BLACK _ _
      _ hnd1
  have r2 := layout_read dat _ (.ofRight .BLACK ps px :: .ofRight gc (.mk .BLACK ul ux ur) gx ::
      rest) _ _ _ x rfl hnd2
  have r2p := layout_read dat _ (.ofRight gc (.mk .BLACK ul ux ur) gx :: rest) _ _ _ px rfl hnd2
  obtain ⟨t3, hnd3⟩ := setColor_sim dat rest _ .RED _ _ _ hnd2
  have r3 := layout_read dat _ (.ofRight .BLACK ps px :: .ofRight .RED (.mk .BLACK ul ux ur) gx ::
      rest) _ _ _ x rfl hnd3
  have r3p := layout_read dat _ (.ofRight .RED (.mk .BLACK ul ux ur) gx :: rest) _ _ _ px rfl hnd3
  simp only [zip_cons, Frame.plug_ofLeft, Frame.plug_ofRight, ctxParent_cons, Frame.data_ofLeft,
    Frame.data_ofRight, ptr_mk, whichChildNodeIs, Frame.withColor] at *
  simp only [redUncleAfterInsertionH, Mem.read, Option.bind, if_true, if_false,
    Option.pure_def, Option.bind_eq_bind, Option.some_bind, int_ne1, int_ne2, int_ne3, int_ne4,
    int_ne5, int_ne6, *]

end RBT

namespace RBT
variable {α σ ω β : Type}

theorem fixTreeLoopH_root (dat : Nat → α) (fuel : Nat) (c : Color) (l r : Node Nat) (a : Nat) :
    fixTreeLoopH (fuel + 1) (layout dat (zip [] (.mk c l a r))) (some a) =
      some (layout dat (zip [] (.mk c l a r)), some a) := by
  have h : (layout dat (zip [] (.mk c l a r))).root = some a := rfl
  simp only [fixTreeLoopH, h, if_true]

theorem fixTreeLoopH_black (dat : Nat → α) (fuel : Nat) (pf : Frame Nat) (up : Ctx Nat)
    (c : Color) (l r : Node Nat) (a : Nat) (hp : ¬ pf.color = .RED)
    (hnd : (inorder (zip (pf :: up) (.mk c l a r))).Nodup) :
    fixTreeLoopH (fuel + 1) (layout dat (zip (pf :: up) (.mk c l a r))) (some a) =
      some (layout dat (zip (pf :: up) (.mk c l a r)), some a) := by
  have hr := layout_root_ne dat pf up c l r a hnd
  have r0 := layout_read dat _ (pf :: up) _ _ _ a rfl hnd
  cases pf with
  | ofLeft pc px ps =>
    have r0p := layout_read dat _ up _ _ _ px rfl hnd
    simp only [Frame.color] at hp
    simp only [zip_cons, Frame.plug_ofLeft, Frame.plug_ofRight, ctxParent_cons, Frame.data_ofLeft,
      Frame.data_ofRight, ptr_mk, whichChildNodeIs] at *
    simp only [fixTreeLoopH, hr, if_false, Mem.read, Option.bind, r0, r0p, Option.map_some', hp]
  | ofRight pc ps px =>
    have r0p := layout_read dat _ up _ _ _ px rfl hnd
    simp only [Frame.color] at hp
    simp only [zip_cons, Frame.plug_ofLeft, Frame.plug_ofRight, ctxParent_cons, Frame.data_ofLeft,
      Frame.data_ofRight, ptr_mk, whichChildNodeIs] at *
    simp only [fixTreeLoopH, hr, if_false, Mem.read, Option.bind, r0, r0p, Option.map_some', hp]

theorem fixTreeLoopH_left (dat : Nat → α) (fuel : Nat) (pf : Frame Nat) (gc : Color) (gx : Nat)
    (u : Node Nat) (rest : Ctx Nat) (c : Color) (l r : Node Nat) (a : Nat) (hp : pf.color = .RED)
    (hnd : (inorder (zip (pf :: .ofLeft gc gx u :: rest) (.mk c l a r))).Nodup) :
    fixTreeLoopH (fuel + 1) (layout dat (zip (pf :: .ofLeft gc gx u :: rest) (.mk c l a r)))
        (some a) =
      if u.colorOf = .RED then
        (redUncleAfterInsertionH (layout dat (zip (pf :: .ofLeft gc gx u :: rest) (.mk c l a r)))
          (some a) (ptr u)).bind fun mc => fixTreeLoopH fuel mc.1 mc.2
      else
        (blackUncleAfterInsertionH (layout dat (zip (pf :: .ofLeft gc gx u :: rest) (.mk c l a r)))
          (some a) RIGHT_UNCLE).bind fun mc => fixTreeLoopH fuel mc.1 mc.2 := by
  have hr := layout_root_ne dat pf _ c l r a hnd
  have r0 := layout_read dat _ (pf :: .ofLeft gc gx u :: rest) _ _ _ a rfl hnd
  have hu := isRedH_layout dat (.ofRight gc (pf.plug (.mk c l a r)) gx :: rest) u hnd
  cases pf with
  | ofLeft pc px ps =>
    have r0p := layout_read dat _ (.ofLeft gc gx u :: rest) _ _ _ px rfl hnd
    have w0 := whichChildNodeIsH_layout dat (.ofLeft gc gx u :: rest) _ _ _ _ hnd
    have r0g := layout_read dat _ rest _ _ _ gx rfl hnd
    simp only [Frame.color] at hp
    subst hp
    simp only [zip_cons, Frame.plug_ofLeft, Frame.plug_ofRight, ctxParent_cons, Frame.data_ofLeft,
      Frame.data_ofRight, ptr_mk, whichChildNodeIs] at *
    simp only [fixTreeLoopH, hr, if_false, if_true, Mem.read, Option.bind, r0, r0p, r0g, w0, hu,
      Option.map_some']
    by_cases hc : u.colorOf = .RED <;> simp only [hc, decide_True, decide_False, if_true, if_false]
  | ofRight pc ps px =>
    have r0p := layout_read dat _ (.ofLeft gc gx u :: rest) _ _ _ px rfl hnd
    have w0 := whichChildNodeIsH_layout dat (.ofLeft gc gx u :: rest) _ _ _ _ hnd
    have r0g := layout_read dat _ rest _ _ _ gx rfl hnd
    simp only [Frame.color] at hp
    subst hp
    simp only [zip_cons, Frame.plug_ofLeft, Frame.plug_ofRight, ctxParent_cons, Frame.data_ofLeft,
      Frame.data_ofRight, ptr_mk, whichChildNodeIs] at *
    simp only [fixTreeLoopH, hr, if_false, if_true, Mem.read, Option.bind, r0, r0p, r0g, w0, hu,
      Option.map_some']
    by_cases hc : u.colorOf = .RED <;> simp only [hc, decide_True, decide_False, if_true, if_false]

theorem fixTreeLoopH_right (dat : Nat → α) (fuel : Nat) (pf : Frame Nat) (gc : Color) (gx : Nat)
    (u : Node Nat) (rest : Ctx Nat) (c : Color) (l r : Node Nat) (a : Nat) (hp : pf.color = .RED)
    (hnd : (inorder (zip (pf :: .ofRight gc u gx :: rest) (.mk c l a r))).Nodup) :
    fixTreeLoopH (fuel + 1) (layout dat (zip (pf :: .ofRight gc u gx :: rest) (.mk c l a r)))
        (some a) =
      if u.colorOf = .RED then
        (redUncleAfterInsertionH (layout dat (zip (pf :: .ofRight gc u gx :: rest) (.mk c l a r)))
          (some a) (ptr u)).bind fun mc => fixTreeLoopH fuel mc.1 mc.2
      else
        (blackUncleAfterInsertionH (layout dat (zip (pf :: .ofRight gc u gx :: rest) (.mk c l a r)))
          (some a) LEFT_UNCLE).bind fun mc => fixTreeLoopH fuel mc.1 mc.2 := by
  have hr := layout_root_ne dat pf _ c l r a hnd
  have r0 := layout_read dat _ (pf :: .ofRight gc u gx :: rest) _ _ _ a rfl hnd
  have hu := isRedH_layout dat (.ofLeft gc gx (pf.plug (.mk c l a r)) :: rest) u hnd
  cases pf with
  | ofLeft pc px ps =>
    have r0p := layout_read dat _ (.ofRight gc u gx :: rest) _ _ _ px rfl hnd
    have w0 := whichChildNodeIsH_layout dat (.ofRight gc u gx :: rest) _ _ _ _ hnd
    have r0g := layout_read dat _ rest _ _ _ gx rfl hnd
    simp only [Frame.color] at hp
    subst hp
    simp only [zip_cons, Frame.plug_ofLeft, Frame.plug_ofRight, ctxParent_cons, Frame.data_ofLeft,
      Frame.data_ofRight, ptr_mk, whichChildNodeIs] at *
    simp only [fixTreeLoopH, hr, if_false, if_true, Mem.read, Option.bind, r0, r0p, r0g, w0, hu,
      Option.map_some', int_ne1, int_ne2]
    by_cases hc : u.colorOf = .RED <;> simp only [hc, decide_True, decide_False, if_true, if_false]
  | ofRight pc ps px =>
    have r0p := layout_read dat _ (.ofRight gc u gx :: rest) _ _ _ px rfl hnd
    have w0 := whichChildNodeIsH_layout dat (.ofRight gc u gx :: rest) _ _ _ _ hnd
    have r0g := layout_read dat _ rest _ _ _ gx rfl hnd
    simp only [Frame.color] at hp
    subst hp
    simp only [zip_cons, Frame.plug_ofLeft, Frame.plug_ofRight, ctxParent_cons, Frame.data_ofLeft,
      Frame.data_ofRight, ptr_mk, whichChildNodeIs] at *
    simp only [fixTreeLoopH, hr, if_false, if_true, Mem.read, Option.bind, r0, r0p, r0g, w0, hu,
      Option.map_some', int_ne1, int_ne2]
    by_cases hc : u.colorOf = .RED <;> simp only [hc, decide_True, decide_False, if_true, if_false]

theorem inorder_zip_congr (ctx : Ctx Nat) (t t' : Node Nat) (h : inorder t' = inorder t) :
    inorder (zip ctx t') = inorder (zip ctx t) := by
  rw [inorder_zip, inorder_zip, h]

/-- The loop of `fixTreeAfterInsertion` in memory follows the loop on the
tree, pass for pass. -/
theorem fixTreeLoopH_sim (dat : Nat → α) : ∀ (fuel : Nat) (ctx : Ctx Nat) (c : Color)
    (l : Node Nat) (a : Nat) (r : Node Nat) (res : Loc Nat),
    (inorder (zip ctx (.mk c l a r))).Nodup → fixTreeLoop fuel ⟨ctx, .mk c l a r⟩ = some res →
    fixTreeLoopH fuel (layout dat (zip ctx (.mk c l a r))) (some a) =
        some (layout dat res.root, ptr res.node) ∧
      inorder res.root = inorder (zip ctx (.mk c l a r)) := by
  intro fuel
  induction fuel with
  | zero =>
    intro ctx c l a r res _ h
    simp [fixTreeLoop] at h
  | succ fuel ih =>
    intro ctx c l a r res hnd h
    rcases ctx with _ | ⟨pf, up⟩
    · simp only [fixTreeLoop, Option.some.injEq] at h
      subst h
      exact ⟨fixTreeLoopH_root dat fuel c l r a, rfl⟩
    · by_cases hp : pf.color = .RED
      · rcases up with _ | ⟨gf, rest⟩
        · simp [fixTreeLoop, hp] at h
        · cases gf with
          | ofLeft gc gx u =>
            rw [fixTreeLoop_left fuel pf gc gx u rest _ hp] at h
            rw [fixTreeLoopH_left dat fuel pf gc gx u rest c l r a hp hnd]
            by_cases hu : u.colorOf = .RED
            · obtain ⟨ul, ux, ur, rfl⟩ := colorOf_red hu
              simp only [hu, if_true] at h ⊢
              rw [redUncle_left] at h
              simp only [Option.some_bind] at h
              cases pf with
              | ofLeft pc px ps =>
                have e := redUncleH_left_left dat pc gc c px gx a ux ps ul ur l r rest hnd
                have hnd2 := nodup_congr rest (.mk gc (.mk pc (.mk c l a r) px ps) gx (.mk .RED ul
                    ux ur))
                  (.mk .RED (.mk .BLACK (.mk c l a r) px ps) gx (.mk .BLACK ul ux ur)) rfl hnd
                obtain ⟨h1, h2⟩ := ih rest _ _ _ _ res hnd2 h
                simp only [zip_cons, Frame.plug_ofLeft, Frame.plug_ofRight, ptr_mk]
                rw [e]
                exact ⟨h1, h2.trans (inorder_zip_congr rest _ _ rfl)⟩
              | ofRight pc ps px =>
                have e := redUncleH_right_left dat pc gc c px gx a ux ps ul ur l r rest hnd
                have hnd2 := nodup_congr rest (.mk gc (.mk pc ps px (.mk c l a r)) gx (.mk .RED ul
                    ux ur))
                  (.mk .RED (.mk .BLACK ps px (.mk c l a r)) gx (.mk .BLACK ul ux ur)) rfl hnd
                obtain ⟨h1, h2⟩ := ih rest _ _ _ _ res hnd2 h
                simp only [zip_cons, Frame.plug_ofLeft, Frame.plug_ofRight, ptr_mk]
                rw [e]
                exact ⟨h1, h2.trans (inorder_zip_congr rest _ _ rfl)⟩
            · simp only [hu, if_false] at h ⊢
              cases pf with
              | ofLeft pc px ps =>
                rw [blackUncle_left_left] at h
                simp only [Option.some_bind] at h
                have e := blackUncleH_left_left dat pc gc c px gx a ps u l r rest hnd
                have hnd2 := nodup_congr rest (.mk gc (.mk pc (.mk c l a r) px ps) gx u)
                  (.mk .BLACK (.mk c l a r) px (.mk .RED ps gx u)) (by simp [inorder]) hnd
                obtain ⟨h1, h2⟩ := ih (.ofLeft .BLACK px (.mk .RED ps gx u) :: rest) _ _ _ _ res
                    hnd2 h
                simp only [zip_cons, Frame.plug_ofLeft, Frame.plug_ofRight, ptr_mk]
                rw [e]
                exact ⟨h1, h2.trans (inorder_zip_congr rest _ _ (by simp [inorder]))⟩
              | ofRight pc ps px =>
                rw [blackUncle_right_left] at h
                simp only [Option.some_bind] at h
                have e := blackUncleH_right_left dat pc gc c px gx a ps u l r rest hnd
                have hnd2 := nodup_congr rest (.mk gc (.mk pc ps px (.mk c l a r)) gx u)
                  (.mk .BLACK (.mk pc ps px l) a (.mk .RED r gx u)) (by simp [inorder]) hnd
                obtain ⟨h1, h2⟩ := ih (.ofLeft .BLACK a (.mk .RED r gx u) :: rest) _ _ _ _ res hnd2
                    h
                simp only [zip_cons, Frame.plug_ofLeft, Frame.plug_ofRight, ptr_mk]
                rw [e]
                exact ⟨h1, h2.trans (inorder_zip_congr rest _ _ (by simp [inorder]))⟩
          | ofRight gc u gx =>
            rw [fixTreeLoop_right fuel pf gc gx u rest _ hp] at h
            rw [fixTreeLoopH_right dat fuel pf gc gx u rest c l r a hp hnd]
            by_cases hu : u.colorOf = .RED
            · obtain ⟨ul, ux, ur, rfl⟩ := colorOf_red hu
              simp only [hu, if_true] at h ⊢
              rw [redUncle_right] at h
              simp only [Option.some_bind] at h
              cases pf with
              | ofLeft pc px ps =>
                have e := redUncleH_left_right dat pc gc c px gx a ux ps ul ur l r rest hnd
                have hnd2 := nodup_congr rest (.mk gc (.mk .RED ul ux ur) gx (.mk pc (.mk c l a r)
                    px ps))
                  (.mk .RED (.mk .BLACK ul ux ur) gx (.mk .BLACK (.mk c l a r) px ps)) rfl hnd
                obtain ⟨h1, h2⟩ := ih rest _ _ _ _ res hnd2 h
                simp only [zip_cons, Frame.plug_ofLeft, Frame.plug_ofRight, ptr_mk]
                rw [e]
                exact ⟨h1, h2.trans (inorder_zip_congr rest _ _ rfl)⟩
              | ofRight pc ps px =>
                have e := redUncleH_right_right dat pc gc c px gx a ux ps ul ur l r rest hnd
                have hnd2 := nodup_congr rest (.mk gc (.mk .RED ul ux ur) gx (.mk pc ps px (.mk c l
                    a r)))
                  (.mk .RED (.mk .BLACK ul ux ur) gx (.mk .BLACK ps px (.mk c l a r))) rfl hnd
                obtain ⟨h1, h2⟩ := ih rest _ _ _ _ res hnd2 h
                simp only [zip_cons, Frame.plug_ofLeft, Frame.plug_ofRight, ptr_mk]
                rw [e]
                exact ⟨h1, h2.trans (inorder_zip_congr rest _ _ rfl)⟩
            · simp only [hu, if_false] at h ⊢
              cases pf with
              | ofLeft pc px ps =>
                rw [blackUncle_left_right] at h
                simp only [Option.some_bind] at h
                have e := blackUncleH_left_right dat pc gc c px gx a ps u l r rest hnd
                have hnd2 := nodup_congr rest (.mk gc u gx (.mk pc (.mk c l a r) px ps))
                  (.mk .BLACK (.mk .RED u gx l) a (.mk pc r px ps)) (by simp [inorder]) hnd
                obtain ⟨h1, h2⟩ := ih (.ofRight .BLACK (.mk .RED u gx l) a :: rest) _ _ _ _ res
                    hnd2 h
                simp only [zip_cons, Frame.plug_ofLeft, Frame.plug_ofRight, ptr_mk]
                rw [e]
                exact ⟨h1, h2.trans (inorder_zip_congr rest _ _ (by simp [inorder]))⟩
              | ofRight pc ps px =>
                rw [blackUncle_right_right] at h
                simp only [Option.some_bind] at h
                have e := blackUncleH_right_right dat pc gc c px gx a ps u l r rest hnd
                have hnd2 := nodup_congr rest (.mk gc u gx (.mk pc ps px (.mk c l a r)))
                  (.mk .BLACK (.mk .RED u gx ps) px (.mk c l a r)) (by simp [inorder]) hnd
                obtain ⟨h1, h2⟩ := ih (.ofRight .BLACK (.mk .RED u gx ps) px :: rest) _ _ _ _ res
                    hnd2 h
                simp only [zip_cons, Frame.plug_ofLeft, Frame.plug_ofRight, ptr_mk]
                rw [e]
                exact ⟨h1, h2.trans (inorder_zip_congr rest _ _ (by simp [inorder]))⟩
      · rw [fixTreeLoop_black fuel pf up _ hp] at h
        simp only [Option.some.injEq] at h
        subst h
        exact ⟨fixTreeLoopH_black dat fuel pf up c l r a hp hnd, rfl⟩

end RBT

namespace RBT
variable {α σ ω β : Type}

/-! ### Insertion in memory -/

theorem cellAt_dat (dat dat' : Nat → α) (z : Nat) (h : dat z = dat' z) :
    ∀ (t : Node Nat) (par : Ptr), cellAt dat t par z = cellAt dat' t par z := by
  intro t
  induction t with
  | NULL => intro par; rfl
  | mk c l a r ihl ihr =>
    intro par
    simp only [cellAt]
    by_cases hz : z = a
    · subst hz
      simp only [if_true, h]
    · simp only [hz, if_false, ihl, ihr]

/-- The layout reads the data map at the addresses of the tree only. -/
theorem layout_dat (dat dat' : Nat → α) (t : Node Nat) (h : ∀ z ∈ inorder t, dat z = dat' z) :
    layout dat t = layout dat' t := by
  refine Mem.ext' (funext fun z => ?_) rfl
  by_cases hz : z ∈ inorder t
  · exact cellAt_dat dat dat' z (h z hz) t none
  · show cellAt dat t none z = cellAt dat' t none z
    rw [cellAt_of_not_mem dat t none z hz, cellAt_of_not_mem dat' t none z hz]

/-- The walk of `basicInsert` in memory follows the walk on the tree. -/
theorem basicInsertWalkH_sim (dat : Nat → α) (cmp : α → α → Int) (d : α) (addr : Nat)
    (cmpL : Nat → Nat → Int) (T : Node Nat) (hT : (inorder T).Nodup)
    (hc : ∀ x ∈ inorder T, cmpL addr x = cmp d (dat x)) :
    ∀ (t : Node Nat) (ctx : Ctx Nat) (fuel : Nat), zip ctx t = T → nodeCount t < fuel →
      basicInsertWalkH (layout dat T) d cmp fuel (ptr t) (ctxParent ctx) =
        some ((basicInsertWalk addr cmpL t ctx).map ctxParent) := by
  intro t
  induction t with
  | NULL =>
    intro ctx fuel _ hf
    obtain ⟨k, rfl⟩ : ∃ k, fuel = k + 1 := ⟨fuel - 1, by omega⟩
    rfl
  | mk c l x r ihl ihr =>
    intro ctx fuel hz hf
    obtain ⟨k, rfl⟩ : ∃ k, fuel = k + 1 := ⟨fuel - 1, by omega⟩
    simp only [nodeCount] at hf
    have hx : x ∈ inorder T := by
      rw [← hz, inorder_zip]
      simp [inorder]
    have hA := layout_read dat T ctx c l r x hz hT
    simp only [basicInsertWalkH, ptr_mk, hA, basicInsertWalk, hc x hx]
    by_cases h1 : cmp d (dat x) > 0
    · simp only [h1, if_true]
      exact ihr (.ofRight c l x :: ctx) k hz (by omega)
    · simp only [h1, if_false]
      by_cases h2 : cmp d (dat x) < 0
      · simp only [h2, if_true]
        exact ihl (.ofLeft c x r :: ctx) k hz (by omega)
      · simp only [h2, if_false, Option.map_none']

/-- The addresses stay distinct when a node with a fresh address is put at
an empty position. -/
theorem nodup_attach (ctx : Ctx Nat) (addr : Nat) (hnd : (inorder (zip ctx .NULL)).Nodup)
    (haddr : addr ∉ inorder (zip ctx .NULL)) :
    (inorder (zip ctx (.mk .RED .NULL addr .NULL))).Nodup := by
  rw [inorder_zip] at hnd haddr ⊢
  simp only [inorder, List.append_nil, List.nil_append, List.mem_append, not_or] at hnd haddr ⊢
  rw [List.nodup_append] at hnd ⊢
  refine ⟨List.nodup_append.2 ⟨hnd.1, List.nodup_singleton _, ?_⟩, hnd.2.1, ?_⟩
  · intro z h1 h2
    simp only [List.mem_singleton] at h2
    subst h2
    exact haddr.1 h1
  · intro z h1 h2
    simp only [List.mem_append, List.mem_singleton] at h1
    rcases h1 with h1 | rfl
    · exact hnd.2.2 h1 h2
    · exact haddr.2 h2

/-- The new node linked as a left child. -/
theorem attach_left (dat : Nat → α) (d : α) (addr : Nat) (fc : Color) (fd : Nat) (fr : Node Nat)
    (up : Ctx Nat) (hnd : (inorder (zip (.ofLeft fc fd fr :: up) .NULL)).Nodup)
    (haddr : addr ∉ inorder (zip (.ofLeft fc fd fr :: up) .NULL)) :
    (((layout dat (zip (.ofLeft fc fd fr :: up) .NULL)).write addr
        ⟨none, none, none, .RED, d⟩).setLeft (some fd) (some addr)).bind
        (fun m => m.setParent (some addr) (some fd)) =
      some (layout (Function.update dat addr d)
        (zip (.ofLeft fc fd fr :: up) (.mk .RED .NULL addr .NULL))) := by
  have hnd1 := nodup_attach (.ofLeft fc fd fr :: up) addr hnd haddr
  have hfa : ¬ fd = addr := by
    intro h
    apply haddr
    rw [inorder_zip]
    simp [ctxAfter, h]
  have haf : ¬ addr = fd := fun h => hfa h.symm
  have hF := layout_read dat _ up fc .NULL fr fd rfl hnd
  have hA1 := layout_read (Function.update dat addr d) _ (.ofLeft fc fd fr :: up) .RED .NULL .NULL
    addr rfl hnd1
  have hF1 := layout_read (Function.update dat addr d) _ up fc (.mk .RED .NULL addr .NULL) fr fd
    rfl hnd1
  have hfr : ∀ z, ¬ z = addr → ¬ z = fd →
      (layout dat (zip (.ofLeft fc fd fr :: up) .NULL)).heap z =
        (layout (Function.update dat addr d)
          (zip (.ofLeft fc fd fr :: up) (.mk .RED .NULL addr .NULL))).heap z := by
    intro z h1 h2
    rw [layout_dat dat (Function.update dat addr d) _ (fun y hy => by
      rw [Function.update_noteq]
      rintro rfl
      exact haddr hy)]
    refine layout_frame _ (.ofLeft fc fd fr :: up) _ _ z ?_ hnd1 ?_ (Or.inr ?_)
    · exact hnd
    · simp [cellAt, h1]
    · simp only [ctxParent_cons, Frame.data_ofLeft, ne_eq, Option.some.injEq]
      exact fun h => h2 h.symm
  have hroot : (layout dat (zip (.ofLeft fc fd fr :: up) .NULL)).root =
      (layout (Function.update dat addr d)
        (zip (.ofLeft fc fd fr :: up) (.mk .RED .NULL addr .NULL))).root := by
    rw [layout_root dat _ (.ofLeft fc fd fr :: up) _ rfl, layout_root _ _ (.ofLeft fc fd fr :: up)
        _ rfl]
    rfl
  simp only [zip_cons, Frame.plug_ofLeft, ctxParent_cons, Frame.data_ofLeft, ptr_mk, ptr_null,
    Function.update_same, Function.update_noteq hfa] at hF hA1 hF1 hfr hroot ⊢
  generalize layout dat (zip up (.mk fc .NULL fd fr)) = m0 at hF hfr hroot ⊢
  generalize layout (Function.update dat addr d) (zip up (.mk fc (.mk .RED .NULL addr .NULL) fd fr))
    = m1 at hA1 hF1 hfr hroot ⊢
  simp only [Mem.setLeft, Mem.setParent, Mem.modify, Mem.write, hF, hfa, haf, if_true, if_false,
    Option.map_some', Option.some_bind, Option.some.injEq]
  refine Mem.ext' (funext fun z => ?_) hroot
  by_cases hza : z = addr
  · subst hza
    simp only [if_true, hA1]
  · by_cases hzf : z = fd
    · subst hzf
      simp only [hza, if_true, if_false, hF1]
    · simp only [hza, hzf, if_false]
      exact hfr z hza hzf

/-- The new node linked as a right child. -/
theorem attach_right (dat : Nat → α) (d : α) (addr : Nat) (fc : Color) (fl : Node Nat) (fd : Nat)
    (up : Ctx Nat) (hnd : (inorder (zip (.ofRight fc fl fd :: up) .NULL)).Nodup)
    (haddr : addr ∉ inorder (zip (.ofRight fc fl fd :: up) .NULL)) :
    (((layout dat (zip (.ofRight fc fl fd :: up) .NULL)).write addr
        ⟨none, none, none, .RED, d⟩).setRight (some fd) (some addr)).bind
        (fun m => m.setParent (some addr) (some fd)) =
      some (layout (Function.update dat addr d)
        (zip (.ofRight fc fl fd :: up) (.mk .RED .NULL addr .NULL))) := by
  have hnd1 := nodup_attach (.ofRight fc fl fd :: up) addr hnd haddr
  have hfa : ¬ fd = addr := by
    intro h
    apply haddr
    rw [inorder_zip]
    simp [ctxBefore, h]
  have haf : ¬ addr = fd := fun h => hfa h.symm
  have hF := layout_read dat _ up fc fl .NULL fd rfl hnd
  have hA1 := layout_read (Function.update dat addr d) _ (.ofRight fc fl fd :: up) .RED .NULL .NULL
    addr rfl hnd1
  have hF1 := layout_read (Function.update dat addr d) _ up fc fl (.mk .RED .NULL addr .NULL) fd
    rfl hnd1
  have hfr : ∀ z, ¬ z = addr → ¬ z = fd →
      (layout dat (zip (.ofRight fc fl fd :: up) .NULL)).heap z =
        (layout (Function.update dat addr d)
          (zip (.ofRight fc fl fd :: up) (.mk .RED .NULL addr .NULL))).heap z := by
    intro z h1 h2
    rw [layout_dat dat (Function.update dat addr d) _ (fun y hy => by
      rw [Function.update_noteq]
      rintro rfl
      exact haddr hy)]
    refine layout_frame _ (.ofRight fc fl fd :: up) _ _ z ?_ hnd1 ?_ (Or.inr ?_)
    · exact hnd
    · simp [cellAt, h1]
    · simp only [ctxParent_cons, Frame.data_ofRight, ne_eq, Option.some.injEq]
      exact fun h => h2 h.symm
  have hroot : (layout dat (zip (.ofRight fc fl fd :: up) .NULL)).root =
      (layout (Function.update dat addr d)
        (zip (.ofRight fc fl fd :: up) (.mk .RED .NULL addr .NULL))).root := by
    rw [layout_root dat _ (.ofRight fc fl fd :: up) _ rfl, layout_root _ _ (.ofRight fc fl fd ::
        up) _ rfl]
    rfl
  simp only [zip_cons, Frame.plug_ofRight, ctxParent_cons, Frame.data_ofRight, ptr_mk, ptr_null,
    Function.update_same, Function.update_noteq hfa] at hF hA1 hF1 hfr hroot ⊢
  generalize layout dat (zip up (.mk fc fl fd .NULL)) = m0 at hF hfr hroot ⊢
  generalize layout (Function.update dat addr d) (zip up (.mk fc fl fd (.mk .RED .NULL addr .NULL)))
    = m1 at hA1 hF1 hfr hroot ⊢
  simp only [Mem.setRight, Mem.setParent, Mem.modify, Mem.write, hF, hfa, haf, if_true, if_false,
    Option.map_some', Option.some_bind, Option.some.injEq]
  refine Mem.ext' (funext fun z => ?_) hroot
  by_cases hza : z = addr
  · subst hza
    simp only [if_true, hA1]
  · by_cases hzf : z = fd
    · subst hzf
      simp only [hza, if_true, if_false, hF1]
    · simp only [hza, hzf, if_false]
      exact hfr z hza hzf

end RBT

namespace RBT
variable {α σ ω β : Type}

theorem length_add_nodeCount_le (ctx : Ctx Nat) (t : Node Nat) :
    ctx.length + nodeCount t ≤ nodeCount (zip ctx t) := by
  induction ctx generalizing t with
  | nil => simp [zip]
  | cons f up ih =>
    have := ih (f.plug t)
    cases f <;> simp only [zip_cons, Frame.plug, nodeCount, List.length_cons] at this ⊢ <;> omega

/-- `basicInsert` in memory, when the walk ends below a node. -/
theorem basicInsertH_sim (dat : Nat → α) (cmp : α → α → Int) (d : α) (addr : Nat)
    (cmpL : Nat → Nat → Int) (T : Node Nat) (hT : (inorder T).Nodup)
    (hc : ∀ x ∈ inorder T, cmpL addr x = cmp d (dat x)) (haddr : addr ∉ inorder T)
    (fuel : Nat) (hfuel : nodeCount T < fuel) (f : Frame Nat) (up : Ctx Nat)
    (hw : basicInsertWalk addr cmpL T [] = some (f :: up)) :
    basicInsertH fuel (layout dat T) (ptr T) d cmp addr =
      some (some addr, layout (Function.update dat addr d)
        (zip (f :: up) (.mk .RED .NULL addr .NULL))) := by
  have hz : zip (f :: up) .NULL = T := basicInsertWalk_zip T [] (f :: up) hw
  have hh : HeadAgrees cmpL addr (f :: up) :=
    basicInsertWalk_head T [] (f :: up) (by simp [HeadAgrees]) hw
  have hwalk := basicInsertWalkH_sim dat cmp d addr cmpL T hT hc T [] fuel rfl hfuel
  rw [hw] at hwalk
  simp only [ctxParent_nil, Option.map_some', ctxParent_cons] at hwalk
  subst hz
  have hfd : f.data ∈ inorder (zip (f :: up) .NULL) := by
    rw [inorder_zip]
    cases f <;> simp [ctxBefore, ctxAfter, Frame.data]
  have hcf := hc f.data hfd
  have hfa : ¬ f.data = addr := fun h => haddr (h ▸ hfd)
  cases f with
  | ofLeft fc fd fr =>
    have hF := layout_read dat _ up fc .NULL fr fd rfl hT
    have hat := attach_left dat d addr fc fd fr up hT haddr
    simp only [Frame.data_ofLeft] at hwalk hfa hcf
    simp only [HeadAgrees, hcf] at hh
    simp only [basicInsertH, hwalk, Option.bind_eq_bind, Option.some_bind, Option.pure_def]
    have hread : ((layout dat (zip (.ofLeft fc fd fr :: up) .NULL)).write addr
        ⟨none, none, none, .RED, d⟩).heap fd = some ⟨ctxParent up, ptr .NULL, ptr fr, fc, dat fd⟩
            := by
      simp only [Mem.write, hfa, if_false]
      exact hF
    rw [hread]
    simp only [Option.some_bind, hh, if_false]
    rw [← Option.bind_assoc, hat]
    rfl
  | ofRight fc fl fd =>
    have hF := layout_read dat _ up fc fl .NULL fd rfl hT
    have hat := attach_right dat d addr fc fl fd up hT haddr
    simp only [Frame.data_ofRight] at hwalk hfa hcf
    simp only [HeadAgrees, hcf] at hh
    simp only [basicInsertH, hwalk, Option.bind_eq_bind, Option.some_bind, Option.pure_def]
    have hread : ((layout dat (zip (.ofRight fc fl fd :: up) .NULL)).write addr
        ⟨none, none, none, .RED, d⟩).heap fd = some ⟨ctxParent up, ptr fl, ptr .NULL, fc, dat fd⟩
            := by
      simp only [Mem.write, hfa, if_false]
      exact hF
    rw [hread]
    simp only [Option.some_bind, hh, if_true]
    rw [← Option.bind_assoc, hat]
    rfl

end RBT

namespace RBT
variable {α σ ω β : Type}

theorem layout_root_eq (dat : Nat → α) (t : Node Nat) : (layout dat t).root = ptr t := rfl

/-- The cell of the nearest ancestor. -/
theorem layout_read_parent (dat : Nat → α) (f : Frame Nat) (up : Ctx Nat) (t : Node Nat)
    (hnd : (inorder (zip (f :: up) t)).Nodup) :
    ∃ pc, (layout dat (zip (f :: up) t)).heap f.data = some pc ∧ pc.color = f.color ∧
      pc.parent = ctxParent up := by
  cases f with
  | ofLeft fc fd fr => exact ⟨_, layout_read dat _ up fc t fr fd rfl hnd, rfl, rfl⟩
  | ofRight fc fl fd => exact ⟨_, layout_read dat _ up fc fl t fd rfl hnd, rfl, rfl⟩

/-- The last step of `fixTreeAfterInsertion`: `tree->root->color = BLACK`. -/
theorem setColor_root_sim (dat : Nat → α) (t root : Node Nat) (hnd : (inorder t).Nodup)
    (h : t.setColor .BLACK = some root) :
    (layout dat t).setColor (ptr t) .BLACK = some (layout dat root) := by
  cases t with
  | NULL => cases h
  | mk c l a r =>
    simp only [Node.setColor, Option.some.injEq] at h
    subst h
    exact (setColor_sim dat [] c .BLACK l r a hnd).1

/-- `insertToRBTree` in memory, on the layout of a tree that satisfies the
colour invariants: with enough fuel it returns, and the memory afterwards is
the layout of such a tree again. -/
theorem insertToRBTreeH_spec (cmp : α → α → Int) (dat : Nat → α) (T : Node Nat) (d : α)
    (addr : Nat) (hnd : (inorder T).Nodup) (hrb : RootBlack T) (hn : NoRedRed T)
    (hb : Balanced T) (haddr : addr ∉ inorder T) (sz : Int) :
    ∃ (r : Int) (dat' : Nat → α) (T' : Node Nat) (sz' : Int), (inorder T').Nodup ∧
      RootBlack T' ∧ NoRedRed T' ∧ Balanced T' ∧ (sz = nodeCount T → sz' = nodeCount T') ∧
      ∀ fuel, nodeCount T + 2 ≤ fuel →
        insertToRBTreeH fuel cmp ⟨layout dat T, sz⟩ (some d) addr =
          some (r, ⟨layout dat' T', sz'⟩) := by
  have hc : ∀ x ∈ inorder T, (fun y x => cmp (Function.update dat addr d y)
      (Function.update dat addr d x)) addr x = cmp d (dat x) := by
    intro x hx
    have : x ≠ addr := fun h => haddr (h ▸ hx)
    simp only [Function.update_same, Function.update_noteq this]
  generalize (fun y x => cmp (Function.update dat addr d y) (Function.update dat addr d x)) = cmpL
    at hc
  cases hw : basicInsertWalk addr cmpL T [] with
  | none =>
    refine ⟨FAILURE, dat, T, sz, hnd, hrb, hn, hb, id, ?_⟩
    intro fuel hfuel
    have hwalk := basicInsertWalkH_sim dat cmp d addr cmpL T hnd hc T [] fuel rfl (by omega)
    rw [hw] at hwalk
    simp only [ctxParent_nil, Option.map_none'] at hwalk
    simp only [insertToRBTreeH, basicInsertH, layout_root_eq, hwalk, Option.bind_eq_bind,
      Option.some_bind, Option.pure_def]
  | some ctx =>
    have hz : zip ctx .NULL = T := basicInsertWalk_zip T [] ctx hw
    have hsize : ∀ T', inorder T' = ctxBefore ctx ++ addr :: ctxAfter ctx →
        sz = nodeCount T → sz + 1 = nodeCount T' := by
      intro T' h1 h2
      rw [h2, nodeCount_eq_length, nodeCount_eq_length, h1, ← hz, inorder_zip]
      simp [inorder]
      omega
    have hnd1 : (inorder (zip ctx (.mk .RED .NULL addr .NULL))).Nodup :=
      nodup_attach ctx addr (hz ▸ hnd) (hz ▸ haddr)
    have hin1 : inorder (zip ctx (.mk .RED .NULL addr .NULL)) =
        ctxBefore ctx ++ addr :: ctxAfter ctx := by
      rw [inorder_zip]
      simp [inorder]
    cases ctx with
    | nil =>
      simp only [zip] at hz
      subst hz
      refine ⟨SUCCESS, Function.update dat addr d, .mk .BLACK .NULL addr .NULL, sz + 1,
        by simp [inorder], rfl, ⟨by simp, trivial, trivial⟩, ⟨rfl, trivial, trivial⟩,
        hsize _ (by simp [inorder, ctxBefore, ctxAfter]), ?_⟩
      intro fuel hfuel
      have hwalk := basicInsertWalkH_sim dat cmp d addr cmpL .NULL hnd hc .NULL [] fuel rfl
        (by omega)
      rw [hw] at hwalk
      simp only [ctxParent_nil, Option.map_some'] at hwalk
      simp only [insertToRBTreeH, basicInsertH, layout_root_eq, hwalk, Option.bind_eq_bind,
        Option.some_bind, Option.pure_def, Mem.write, Mem.setColor, Mem.modify, if_true,
        Option.map_some', Option.some.injEq, Prod.mk.injEq, true_and]
      congr 1
      refine Mem.ext' (funext fun z => ?_) rfl
      by_cases hza : z = addr
      · subst hza
        simp [layout, cellAt, ptr]
      · simp [layout, cellAt, ptr, hza]
    | cons f up =>
      rw [← hz] at hrb hn hb
      obtain ⟨hctx, -, -, -⟩ := unzip_valid (f :: up) .NULL hb hn
      have hnew : NoRedRed (Node.mk .RED .NULL addr .NULL) := ⟨fun _ => ⟨rfl, rfl⟩, trivial,
          trivial⟩
      have hbnew : Balanced (Node.mk .RED .NULL addr .NULL) := ⟨rfl, trivial, trivial⟩
      have hroot : CtxRootBlack (f :: up) := (zip_colorOf_cons f up .NULL).1 hrb
      have hbi := fun fuel (hf : nodeCount T < fuel) =>
        basicInsertH_sim dat cmp d addr cmpL T hnd hc haddr fuel hf f up hw
      have hlen : (f :: up).length ≤ nodeCount T := by
        have := length_add_nodeCount_le (f :: up) .NULL
        rw [hz] at this
        omega
      have rA := layout_read (Function.update dat addr d) _ (f :: up) _ _ _ addr rfl hnd1
      by_cases hf : f.color = .RED
      · obtain ⟨cur, root, h1, h2, h3, h4, h5⟩ := fixTreeLoop_spec ((f :: up).length + 1) (f :: up)
          .NULL addr .NULL (by omega) hnew hbnew hctx hroot
        obtain ⟨hs1, hs2⟩ := fixTreeLoopH_sim (Function.update dat addr d) _ (f :: up) _ _ _ _ cur
          hnd1 h1
        refine ⟨SUCCESS, Function.update dat addr d, root, sz + 1, ?_, setColor_colorOf h2, h4, h3,
          hsize _ (by rw [h5, hin1]), ?_⟩
        · rw [h5]
          exact hnd1
        · intro fuel hfuel
          have h1f : fixTreeLoop fuel ⟨f :: up, .mk .RED .NULL addr .NULL⟩ = some cur := by
            rw [fixTreeLoop_fuel fuel ((f :: up).length + 1) _ (by simp only []; omega)
              (by simp only []; omega)]
            exact h1
          obtain ⟨hs1, hs2⟩ := fixTreeLoopH_sim (Function.update dat addr d) fuel (f :: up) _ _ _ _
            cur hnd1 h1f
          obtain ⟨pc, hp1, hp2, -⟩ := layout_read_parent (Function.update dat addr d) f up _ hnd1
          have hfin := setColor_root_sim (Function.update dat addr d) cur.root root
            (by rw [hs2]; exact hnd1) h2
          simp only [insertToRBTreeH, layout_root_eq, hbi fuel (by omega), rA, ctxParent_cons,
            reduceCtorEq, if_false, Mem.read, Option.bind, hp1, hp2, hf, if_true,
            fixTreeAfterInsertionH, hs1, Option.bind_eq_bind, Option.some_bind, hfin,
            Option.map_some']
      · have hv := zip_valid (f :: up) (.mk .RED .NULL addr .NULL) hctx hbnew hnew
          (by simp [ctxColor, Frame.color_eq_black_of_ne_red hf])
        refine ⟨SUCCESS, Function.update dat addr d, zip (f :: up) (.mk .RED .NULL addr .NULL),
          sz + 1, hnd1, (zip_colorOf_cons f up _).2 hroot, hv.2, hv.1, hsize _ hin1, ?_⟩
        intro fuel hfuel
        obtain ⟨pc, hp1, hp2, -⟩ := layout_read_parent (Function.update dat addr d) f up _ hnd1
        simp only [insertToRBTreeH, layout_root_eq, hbi fuel (by omega), rA, ctxParent_cons,
          reduceCtorEq, if_false, Mem.read, Option.bind, hp1, hp2, hf]

end RBT

namespace RBT
variable {α σ ω β : Type}

/-! ### Deletion fixup in memory -/

theorem colorOf_mk (c : Color) (l r : Node Nat) (a : Nat) : (Node.mk c l a r).colorOf = c := rfl

theorem colorOf_null : (Node.NULL : Node Nat).colorOf = .BLACK := rfl

theorem delete5H_left (dat : Nat → α) (recH : Mem α → Ptr → Option (Mem α)) (pc sc c : Color) (px
    sx a : Nat) (sl sr l r : Node Nat) (rest : Ctx Nat)
    (hnd : (inorder (zip rest (.mk pc (.mk c l a r) px (.mk sc sl sx sr)))).Nodup) :
    delete5H recH (layout dat (zip rest (.mk pc (.mk c l a r) px (.mk sc sl sx sr)))) (some sx)
        (some a) LEFT_CHILD =
      recH (layout dat (zip rest (.mk .BLACK (.mk .RED (.mk c l a r) px sl) sx sr))) (some a) := by
  obtain ⟨t19, hnd1⟩ := setColor_sim dat (.ofRight pc (.mk c l a r) px :: rest) _ .BLACK _ _ _ hnd
  have r22 := layout_read dat _ (.ofLeft pc px (.mk .BLACK sl sx sr) :: rest) _ _ _ a rfl hnd1
  obtain ⟨t38, hnd2⟩ := setColor_sim dat rest _ .RED _ _ _ hnd1
  have r41 := layout_read dat _ (.ofLeft .RED px (.mk .BLACK sl sx sr) :: rest) _ _ _ a rfl hnd2
  obtain ⟨t57, hnd3⟩ := leftRotationH_sim2 dat rest _ _ _ _ _ _ _ hnd2
  simp only [zip_cons, Frame.plug_ofLeft, Frame.plug_ofRight, ctxParent_cons, Frame.data_ofLeft,
    Frame.data_ofRight, ptr_mk, ptr_null, whichChildNodeIs, Frame.withColor, colorOf_mk,
    colorOf_null] at r22 r41 t19 t38 t57
  simp only [delete5H, Mem.read, Option.bind, if_true, if_false, Option.pure_def,
    Option.bind_eq_bind, Option.some_bind, Option.map_some', int_ne1, int_ne2, int_ne3, int_ne4,
    int_ne5, int_ne6, reduceCtorEq, decide_True, decide_False, decide_eq_true_eq, and_self,
    and_true, true_and, and_false, false_and, not_true_eq_false, not_false_eq_true, ne_eq,
    Bool.false_eq_true, r22, r41, t19, t38, t57]

theorem delete6H_left_red (dat : Nat → α) (recH : Mem α → Ptr → Option (Mem α)) (sc c : Color) (px
    sx a : Nat) (sl sr l r : Node Nat) (rest : Ctx Nat)
    (hnd : (inorder (zip rest (.mk .RED (.mk c l a r) px (.mk sc sl sx sr)))).Nodup) :
    delete6H recH (layout dat (zip rest (.mk .RED (.mk c l a r) px (.mk sc sl sx sr)))) (some sx)
        (some a) =
      some (layout dat (zip rest (.mk .BLACK (.mk c l a r) px (.mk .RED sl sx sr)))) := by
  have r1 := layout_read dat _ rest _ _ _ px rfl hnd
  have r3 := layout_read dat _ (.ofLeft .RED px (.mk sc sl sx sr) :: rest) _ _ _ a rfl hnd
  obtain ⟨t19, hnd1⟩ := setColor_sim dat rest _ .BLACK _ _ _ hnd
  obtain ⟨t38, hnd2⟩ := setColor_sim dat (.ofRight .BLACK (.mk c l a r) px :: rest) _ .RED _ _ _
      hnd1
  simp only [zip_cons, Frame.plug_ofLeft, Frame.plug_ofRight, ctxParent_cons, Frame.data_ofLeft,
    Frame.data_ofRight, ptr_mk, ptr_null, whichChildNodeIs, Frame.withColor, colorOf_mk,
    colorOf_null] at r1 r3 t19 t38
  simp only [delete6H, Mem.read, Option.bind, if_true, if_false, Option.pure_def,
    Option.bind_eq_bind, Option.some_bind, Option.map_some', int_ne1, int_ne2, int_ne3, int_ne4,
    int_ne5, int_ne6, reduceCtorEq, decide_True, decide_False, decide_eq_true_eq, and_self,
    and_true, true_and, and_false, false_and, not_true_eq_false, not_false_eq_true, ne_eq,
    Bool.false_eq_true, r1, r3, t19, t38]

theorem delete6H_left_black (dat : Nat → α) (recH : Mem α → Ptr → Option (Mem α)) (sc c : Color)
    (px sx a : Nat) (sl sr l r : Node Nat) (rest : Ctx Nat)
    (hnd : (inorder (zip rest (.mk .BLACK (.mk c l a r) px (.mk sc sl sx sr)))).Nodup) :
    delete6H recH (layout dat (zip rest (.mk .BLACK (.mk c l a r) px (.mk sc sl sx sr)))) (some sx)
        (some a) =
      recH (layout dat (zip rest (.mk .BLACK (.mk c l a r) px (.mk .RED sl sx sr)))) (some px) := by
  have r1 := layout_read dat _ rest _ _ _ px rfl hnd
  have r3 := layout_read dat _ (.ofLeft .BLACK px (.mk sc sl sx sr) :: rest) _ _ _ a rfl hnd
  obtain ⟨t19, hnd1⟩ := setColor_sim dat (.ofRight .BLACK (.mk c l a r) px :: rest) _ .RED _ _ _ hnd
  have r22 := layout_read dat _ (.ofLeft .BLACK px (.mk .RED sl sx sr) :: rest) _ _ _ a rfl hnd1
  simp only [zip_cons, Frame.plug_ofLeft, Frame.plug_ofRight, ctxParent_cons, Frame.data_ofLeft,
    Frame.data_ofRight, ptr_mk, ptr_null, whichChildNodeIs, Frame.withColor, colorOf_mk,
    colorOf_null] at r1 r3 r22 t19
  simp only [delete6H, Mem.read, Option.bind, if_true, if_false, Option.pure_def,
    Option.bind_eq_bind, Option.some_bind, Option.map_some', int_ne1, int_ne2, int_ne3, int_ne4,
    int_ne5, int_ne6, reduceCtorEq, decide_True, decide_False, decide_eq_true_eq, and_self,
    and_true, true_and, and_false, false_and, not_true_eq_false, not_false_eq_true, ne_eq,
    Bool.false_eq_true, r1, r3, r22, t19]

theorem delete4FirstH_left_caseB (dat : Nat → α) (recH : Mem α → Ptr → Option (Mem α)) (pc sc c :
    Color) (px sx a : Nat) (sl sr l r : Node Nat) (rest : Ctx Nat)
    (hnd : (inorder (zip rest (.mk pc (.mk c l a r) px (.mk sc sl sx sr)))).Nodup)
    (hl : sl.colorOf = .BLACK) (hr : sr.colorOf = .BLACK) :
    delete4FirstH recH (layout dat (zip rest (.mk pc (.mk c l a r) px (.mk sc sl sx sr)))) (some
        sx) (some a) LEFT_CHILD =
      (delete6H recH (layout dat (zip rest (.mk pc (.mk c l a r) px (.mk sc sl sx sr)))) (some sx)
          (some a)).bind fun m => some (m, some sx) := by
  have r5 := layout_read dat _ (.ofRight pc (.mk c l a r) px :: rest) _ _ _ sx rfl hnd
  have ir15 := isRedH_layout dat (.ofLeft sc sx sr :: .ofRight pc (.mk c l a r) px :: rest) sl hnd
  have ib16 := isBlackH_layout dat (.ofLeft sc sx sr :: .ofRight pc (.mk c l a r) px :: rest) sl hnd
  have ir17 := isRedH_layout dat (.ofRight sc sl sx :: .ofRight pc (.mk c l a r) px :: rest) sr hnd
  have ib18 := isBlackH_layout dat (.ofRight sc sl sx :: .ofRight pc (.mk c l a r) px :: rest) sr
      hnd
  simp only [zip_cons, Frame.plug_ofLeft, Frame.plug_ofRight, ctxParent_cons, Frame.data_ofLeft,
    Frame.data_ofRight, ptr_mk, ptr_null, whichChildNodeIs, Frame.withColor, colorOf_mk,
    colorOf_null] at r5 ir15 ib16 ir17 ib18
  simp only [delete4FirstH, Mem.read, Option.bind, if_true, if_false, Option.pure_def,
    Option.bind_eq_bind, Option.some_bind, Option.map_some', int_ne1, int_ne2, int_ne3, int_ne4,
    int_ne5, int_ne6, reduceCtorEq, decide_True, decide_False, decide_eq_true_eq, and_self,
    and_true, true_and, and_false, false_and, not_true_eq_false, not_false_eq_true, ne_eq,
    Bool.false_eq_true, r5, ir15, ib16, ir17, ib18, hl, hr]

theorem delete4SecondH_left_skip (dat : Nat → α) (pc sc c : Color) (px sx a : Nat) (sl sr l r :
    Node Nat) (rest : Ctx Nat)
    (hnd : (inorder (zip rest (.mk pc (.mk c l a r) px (.mk sc sl sx sr)))).Nodup)
    (hl : sl.colorOf = .BLACK) (hr : sr.colorOf = .BLACK) :
    delete4SecondH (layout dat (zip rest (.mk pc (.mk c l a r) px (.mk sc sl sx sr)))) (some sx)
        (some a) LEFT_CHILD =
      some (layout dat (zip rest (.mk pc (.mk c l a r) px (.mk sc sl sx sr)))) := by
  have r1 := layout_read dat _ rest _ _ _ px rfl hnd
  have r3 := layout_read dat _ (.ofLeft pc px (.mk sc sl sx sr) :: rest) _ _ _ a rfl hnd
  have r5 := layout_read dat _ (.ofRight pc (.mk c l a r) px :: rest) _ _ _ sx rfl hnd
  have ir15 := isRedH_layout dat (.ofLeft sc sx sr :: .ofRight pc (.mk c l a r) px :: rest) sl hnd
  have ir17 := isRedH_layout dat (.ofRight sc sl sx :: .ofRight pc (.mk c l a r) px :: rest) sr hnd
  simp only [zip_cons, Frame.plug_ofLeft, Frame.plug_ofRight, ctxParent_cons, Frame.data_ofLeft,
    Frame.data_ofRight, ptr_mk, ptr_null, whichChildNodeIs, Frame.withColor, colorOf_mk,
    colorOf_null] at r1 r3 r5 ir15 ir17
  simp only [delete4SecondH, Mem.read, Option.bind, if_true, if_false, Option.pure_def,
    Option.bind_eq_bind, Option.some_bind, Option.map_some', int_ne1, int_ne2, int_ne3, int_ne4,
    int_ne5, int_ne6, reduceCtorEq, decide_True, decide_False, decide_eq_true_eq, and_self,
    and_true, true_and, and_false, false_and, not_true_eq_false, not_false_eq_true, ne_eq,
    Bool.false_eq_true, r1, r3, r5, ir15, ir17, hr, hl]

theorem delete4FirstH_left_caseE (dat : Nat → α) (recH : Mem α → Ptr → Option (Mem α)) (pc sc c :
    Color) (px sx a fx : Nat) (sl fl fr l r : Node Nat) (rest : Ctx Nat)
    (hnd : (inorder (zip rest (.mk pc (.mk c l a r) px (.mk sc sl sx (.mk .RED fl fx fr))))).Nodup)
        :
    delete4FirstH recH (layout dat (zip rest (.mk pc (.mk c l a r) px (.mk sc sl sx (.mk .RED fl fx
        fr))))) (some sx) (some a) LEFT_CHILD =
      some ((layout dat (zip rest (.mk pc (.mk c l a r) px (.mk sc sl sx (.mk .RED fl fx fr))))),
          some sx) := by
  have r5 := layout_read dat _ (.ofRight pc (.mk c l a r) px :: rest) _ _ _ sx rfl hnd
  have ir17 := isRedH_layout dat (.ofLeft sc sx (.mk .RED fl fx fr) :: .ofRight pc (.mk c l a r) px
      :: rest) sl hnd
  have ib18 := isBlackH_layout dat (.ofLeft sc sx (.mk .RED fl fx fr) :: .ofRight pc (.mk c l a r)
      px :: rest) sl hnd
  have ir19 := isRedH_layout dat (.ofRight sc sl sx :: .ofRight pc (.mk c l a r) px :: rest) (.mk
      .RED fl fx fr) hnd
  have ib20 := isBlackH_layout dat (.ofRight sc sl sx :: .ofRight pc (.mk c l a r) px :: rest) (.mk
      .RED fl fx fr) hnd
  simp only [zip_cons, Frame.plug_ofLeft, Frame.plug_ofRight, ctxParent_cons, Frame.data_ofLeft,
    Frame.data_ofRight, ptr_mk, ptr_null, whichChildNodeIs, Frame.withColor, colorOf_mk,
    colorOf_null] at r5 ir17 ib18 ir19 ib20
  simp only [delete4FirstH, Mem.read, Option.bind, if_true, if_false, Option.pure_def,
    Option.bind_eq_bind, Option.some_bind, Option.map_some', int_ne1, int_ne2, int_ne3, int_ne4,
    int_ne5, int_ne6, reduceCtorEq, decide_True, decide_False, decide_eq_true_eq, and_self,
    and_true, true_and, and_false, false_and, not_true_eq_false, not_false_eq_true, ne_eq,
    Bool.false_eq_true, r5, ir17, ib18, ir19, ib20]

theorem delete4SecondH_left_caseE (dat : Nat → α) (pc sc c : Color) (px sx a fx : Nat) (sl fl fr l
    r : Node Nat) (rest : Ctx Nat)
    (hnd : (inorder (zip rest (.mk pc (.mk c l a r) px (.mk sc sl sx (.mk .RED fl fx fr))))).Nodup)
        :
    delete4SecondH (layout dat (zip rest (.mk pc (.mk c l a r) px (.mk sc sl sx (.mk .RED fl fx
        fr))))) (some sx) (some a) LEFT_CHILD =
      some (layout dat (zip rest (.mk pc (.mk .BLACK (.mk c l a r) px sl) sx (.mk .BLACK fl fx
          fr)))) := by
  have r1 := layout_read dat _ rest _ _ _ px rfl hnd
  have r3 := layout_read dat _ (.ofLeft pc px (.mk sc sl sx (.mk .RED fl fx fr)) :: rest) _ _ _ a
      rfl hnd
  have r5 := layout_read dat _ (.ofRight pc (.mk c l a r) px :: rest) _ _ _ sx rfl hnd
  have ir17 := isRedH_layout dat (.ofLeft sc sx (.mk .RED fl fx fr) :: .ofRight pc (.mk c l a r) px
      :: rest) sl hnd
  have ir19 := isRedH_layout dat (.ofRight sc sl sx :: .ofRight pc (.mk c l a r) px :: rest) (.mk
      .RED fl fx fr) hnd
  obtain ⟨t25, hnd1⟩ := setColor_sim dat (.ofRight pc (.mk c l a r) px :: rest) _ pc _ _ _ hnd
  have r28 := layout_read dat _ (.ofLeft pc px (.mk pc sl sx (.mk .RED fl fx fr)) :: rest) _ _ _ a
      rfl hnd1
  obtain ⟨t50, hnd2⟩ := setColor_sim dat rest _ .BLACK _ _ _ hnd1
  have r55 := layout_read dat _ (.ofRight .BLACK (.mk c l a r) px :: rest) _ _ _ sx rfl hnd2
  obtain ⟨t75, hnd3⟩ := setColor_sim dat (.ofRight pc sl sx :: .ofRight .BLACK (.mk c l a r) px ::
      rest) _ .BLACK _ _ _ hnd2
  have r78 := layout_read dat _ (.ofLeft .BLACK px (.mk pc sl sx (.mk .BLACK fl fx fr)) :: rest) _
      _ _ a rfl hnd3
  obtain ⟨t100, hnd4⟩ := leftRotationH_sim2 dat rest _ _ _ _ _ _ _ hnd3
  simp only [zip_cons, Frame.plug_ofLeft, Frame.plug_ofRight, ctxParent_cons, Frame.data_ofLeft,
    Frame.data_ofRight, ptr_mk, ptr_null, whichChildNodeIs, Frame.withColor, colorOf_mk,
    colorOf_null] at r1 r3 r5 ir17 ir19 r28 r55 r78 t25 t50 t75 t100
  simp only [delete4SecondH, Mem.read, Option.bind, if_true, if_false, Option.pure_def,
    Option.bind_eq_bind, Option.some_bind, Option.map_some', int_ne1, int_ne2, int_ne3, int_ne4,
    int_ne5, int_ne6, reduceCtorEq, decide_True, decide_False, decide_eq_true_eq, and_self,
    and_true, true_and, and_false, false_and, not_true_eq_false, not_false_eq_true, ne_eq,
    Bool.false_eq_true, r1, r3, r5, ir17, ir19, r28, r55, r78, t25, t50, t75, t100]

theorem delete4FirstH_left_caseD (dat : Nat → α) (recH : Mem α → Ptr → Option (Mem α)) (pc sc c :
    Color) (px sx a nx : Nat) (sr nl nr l r : Node Nat) (rest : Ctx Nat)
    (hnd : (inorder (zip rest (.mk pc (.mk c l a r) px (.mk sc (.mk .RED nl nx nr) sx sr)))).Nodup)
    (hf : sr.colorOf = .BLACK) :
    delete4FirstH recH (layout dat (zip rest (.mk pc (.mk c l a r) px (.mk sc (.mk .RED nl nx nr)
        sx sr)))) (some sx) (some a) LEFT_CHILD =
      some ((layout dat (zip rest (.mk pc (.mk c l a r) px (.mk .BLACK nl nx (.mk .RED nr sx
          sr))))), some nx) := by
  have r5 := layout_read dat _ (.ofRight pc (.mk c l a r) px :: rest) _ _ _ sx rfl hnd
  have ir17 := isRedH_layout dat (.ofLeft sc sx sr :: .ofRight pc (.mk c l a r) px :: rest) (.mk
      .RED nl nx nr) hnd
  have ib18 := isBlackH_layout dat (.ofLeft sc sx sr :: .ofRight pc (.mk c l a r) px :: rest) (.mk
      .RED nl nx nr) hnd
  have ir19 := isRedH_layout dat (.ofRight sc (.mk .RED nl nx nr) sx :: .ofRight pc (.mk c l a r)
      px :: rest) sr hnd
  have ib20 := isBlackH_layout dat (.ofRight sc (.mk .RED nl nx nr) sx :: .ofRight pc (.mk c l a r)
      px :: rest) sr hnd
  obtain ⟨t25, hnd1⟩ := setColor_sim dat (.ofLeft sc sx sr :: .ofRight pc (.mk c l a r) px :: rest)
      _ .BLACK _ _ _ hnd
  obtain ⟨t50, hnd2⟩ := setColor_sim dat (.ofRight pc (.mk c l a r) px :: rest) _ .RED _ _ _ hnd1
  obtain ⟨t75, hnd3⟩ := rightRotationH_sim2 dat (.ofRight pc (.mk c l a r) px :: rest) _ _ _ _ _ _
      _ hnd2
  have r82 := layout_read dat _ (.ofRight .BLACK nl nx :: .ofRight pc (.mk c l a r) px :: rest) _ _
      _ sx rfl hnd3
  simp only [zip_cons, Frame.plug_ofLeft, Frame.plug_ofRight, ctxParent_cons, Frame.data_ofLeft,
    Frame.data_ofRight, ptr_mk, ptr_null, whichChildNodeIs, Frame.withColor, colorOf_mk,
    colorOf_null] at r5 ir17 ib18 ir19 ib20 r82 t25 t50 t75
  simp only [delete4FirstH, Mem.read, Option.bind, if_true, if_false, Option.pure_def,
    Option.bind_eq_bind, Option.some_bind, Option.map_some', int_ne1, int_ne2, int_ne3, int_ne4,
    int_ne5, int_ne6, reduceCtorEq, decide_True, decide_False, decide_eq_true_eq, and_self,
    and_true, true_and, and_false, false_and, not_true_eq_false, not_false_eq_true, ne_eq,
    Bool.false_eq_true, r5, ir17, ib18, ir19, ib20, r82, t25, t50, t75, hf]

theorem delete5H_right (dat : Nat → α) (recH : Mem α → Ptr → Option (Mem α)) (pc sc c : Color) (px
    sx a : Nat) (sl sr l r : Node Nat) (rest : Ctx Nat)
    (hnd : (inorder (zip rest (.mk pc (.mk sc sl sx sr) px (.mk c l a r)))).Nodup) :
    delete5H recH (layout dat (zip rest (.mk pc (.mk sc sl sx sr) px (.mk c l a r)))) (some sx)
        (some a) RIGHT_CHILD =
      recH (layout dat (zip rest (.mk .BLACK sl sx (.mk .RED sr px (.mk c l a r))))) (some a) := by
  obtain ⟨t19, hnd1⟩ := setColor_sim dat (.ofLeft pc px (.mk c l a r) :: rest) _ .BLACK _ _ _ hnd
  have r24 := layout_read dat _ (.ofRight pc (.mk .BLACK sl sx sr) px :: rest) _ _ _ a rfl hnd1
  obtain ⟨t38, hnd2⟩ := setColor_sim dat rest _ .RED _ _ _ hnd1
  have r43 := layout_read dat _ (.ofRight .RED (.mk .BLACK sl sx sr) px :: rest) _ _ _ a rfl hnd2
  obtain ⟨t57, hnd3⟩ := rightRotationH_sim2 dat rest _ _ _ _ _ _ _ hnd2
  simp only [zip_cons, Frame.plug_ofLeft, Frame.plug_ofRight, ctxParent_cons, Frame.data_ofLeft,
    Frame.data_ofRight, ptr_mk, ptr_null, whichChildNodeIs, Frame.withColor, colorOf_mk,
    colorOf_null] at r24 r43 t19 t38 t57
  simp only [delete5H, Mem.read, Option.bind, if_true, if_false, Option.pure_def,
    Option.bind_eq_bind, Option.some_bind, Option.map_some', int_ne1, int_ne2, int_ne3, int_ne4,
    int_ne5, int_ne6, reduceCtorEq, decide_True, decide_False, decide_eq_true_eq, and_self,
    and_true, true_and, and_false, false_and, not_true_eq_false, not_false_eq_true, ne_eq,
    Bool.false_eq_true, r24, r43, t19, t38, t57]

theorem delete6H_right_red (dat : Nat → α) (recH : Mem α → Ptr → Option (Mem α)) (sc c : Color) (px
    sx a : Nat) (sl sr l r : Node Nat) (rest : Ctx Nat)
    (hnd : (inorder (zip rest (.mk .RED (.mk sc sl sx sr) px (.mk c l a r)))).Nodup) :
    delete6H recH (layout dat (zip rest (.mk .RED (.mk sc sl sx sr) px (.mk c l a r)))) (some sx)
        (some a) =
      some (layout dat (zip rest (.mk .BLACK (.mk .RED sl sx sr) px (.mk c l a r)))) := by
  have r1 := layout_read dat _ rest _ _ _ px rfl hnd
  have r5 := layout_read dat _ (.ofRight .RED (.mk sc sl sx sr) px :: rest) _ _ _ a rfl hnd
  obtain ⟨t19, hnd1⟩ := setColor_sim dat rest _ .BLACK _ _ _ hnd
  obtain ⟨t38, hnd2⟩ := setColor_sim dat (.ofLeft .BLACK px (.mk c l a r) :: rest) _ .RED _ _ _ hnd1
  simp only [zip_cons, Frame.plug_ofLeft, Frame.plug_ofRight, ctxParent_cons, Frame.data_ofLeft,
    Frame.data_ofRight, ptr_mk, ptr_null, whichChildNodeIs, Frame.withColor, colorOf_mk,
    colorOf_null] at r1 r5 t19 t38
  simp only [delete6H, Mem.read, Option.bind, if_true, if_false, Option.pure_def,
    Option.bind_eq_bind, Option.some_bind, Option.map_some', int_ne1, int_ne2, int_ne3, int_ne4,
    int_ne5, int_ne6, reduceCtorEq, decide_True, decide_False, decide_eq_true_eq, and_self,
    and_true, true_and, and_false, false_and, not_true_eq_false, not_false_eq_true, ne_eq,
    Bool.false_eq_true, r1, r5, t19, t38]

theorem delete6H_right_black (dat : Nat → α) (recH : Mem α → Ptr → Option (Mem α)) (sc c : Color)
    (px sx a : Nat) (sl sr l r : Node Nat) (rest : Ctx Nat)
    (hnd : (inorder (zip rest (.mk .BLACK (.mk sc sl sx sr) px (.mk c l a r)))).Nodup) :
    delete6H recH (layout dat (zip rest (.mk .BLACK (.mk sc sl sx sr) px (.mk c l a r)))) (some sx)
        (some a) =
      recH (layout dat (zip rest (.mk .BLACK (.mk .RED sl sx sr) px (.mk c l a r)))) (some px) := by
  have r1 := layout_read dat _ rest _ _ _ px rfl hnd
  have r5 := layout_read dat _ (.ofRight .BLACK (.mk sc sl sx sr) px :: rest) _ _ _ a rfl hnd
  obtain ⟨t19, hnd1⟩ := setColor_sim dat (.ofLeft .BLACK px (.mk c l a r) :: rest) _ .RED _ _ _ hnd
  have r24 := layout_read dat _ (.ofRight .BLACK (.mk .RED sl sx sr) px :: rest) _ _ _ a rfl hnd1
  simp only [zip_cons, Frame.plug_ofLeft, Frame.plug_ofRight, ctxParent_cons, Frame.data_ofLeft,
    Frame.data_ofRight, ptr_mk, ptr_null, whichChildNodeIs, Frame.withColor, colorOf_mk,
    colorOf_null] at r1 r5 r24 t19
  simp only [delete6H, Mem.read, Option.bind, if_true, if_false, Option.pure_def,
    Option.bind_eq_bind, Option.some_bind, Option.map_some', int_ne1, int_ne2, int_ne3, int_ne4,
    int_ne5, int_ne6, reduceCtorEq, decide_True, decide_False, decide_eq_true_eq, and_self,
    and_true, true_and, and_false, false_and, not_true_eq_false, not_false_eq_true, ne_eq,
    Bool.false_eq_true, r1, r5, r24, t19]

theorem delete4FirstH_right_caseB (dat : Nat → α) (recH : Mem α → Ptr → Option (Mem α)) (pc sc c :
    Color) (px sx a : Nat) (sl sr l r : Node Nat) (rest : Ctx Nat)
    (hnd : (inorder (zip rest (.mk pc (.mk sc sl sx sr) px (.mk c l a r)))).Nodup)
    (hl : sl.colorOf = .BLACK) (hr : sr.colorOf = .BLACK) :
    delete4FirstH recH (layout dat (zip rest (.mk pc (.mk sc sl sx sr) px (.mk c l a r)))) (some
        sx) (some a) RIGHT_CHILD =
      (delete6H recH (layout dat (zip rest (.mk pc (.mk sc sl sx sr) px (.mk c l a r)))) (some sx)
          (some a)).bind fun m => some (m, some sx) := by
  have r3 := layout_read dat _ (.ofLeft pc px (.mk c l a r) :: rest) _ _ _ sx rfl hnd
  have ir11 := isRedH_layout dat (.ofLeft sc sx sr :: .ofLeft pc px (.mk c l a r) :: rest) sl hnd
  have ib12 := isBlackH_layout dat (.ofLeft sc sx sr :: .ofLeft pc px (.mk c l a r) :: rest) sl hnd
  have ir13 := isRedH_layout dat (.ofRight sc sl sx :: .ofLeft pc px (.mk c l a r) :: rest) sr hnd
  have ib14 := isBlackH_layout dat (.ofRight sc sl sx :: .ofLeft pc px (.mk c l a r) :: rest) sr hnd
  simp only [zip_cons, Frame.plug_ofLeft, Frame.plug_ofRight, ctxParent_cons, Frame.data_ofLeft,
    Frame.data_ofRight, ptr_mk, ptr_null, whichChildNodeIs, Frame.withColor, colorOf_mk,
    colorOf_null] at r3 ir11 ib12 ir13 ib14
  simp only [delete4FirstH, Mem.read, Option.bind, if_true, if_false, Option.pure_def,
    Option.bind_eq_bind, Option.some_bind, Option.map_some', int_ne1, int_ne2, int_ne3, int_ne4,
    int_ne5, int_ne6, reduceCtorEq, decide_True, decide_False, decide_eq_true_eq, and_self,
    and_true, true_and, and_false, false_and, not_true_eq_false, not_false_eq_true, ne_eq,
    Bool.false_eq_true, r3, ir11, ib12, ir13, ib14, hl, hr]

theorem delete4SecondH_right_skip (dat : Nat → α) (pc sc c : Color) (px sx a : Nat) (sl sr l r :
    Node Nat) (rest : Ctx Nat)
    (hnd : (inorder (zip rest (.mk pc (.mk sc sl sx sr) px (.mk c l a r)))).Nodup)
    (hl : sl.colorOf = .BLACK) (hr : sr.colorOf = .BLACK) :
    delete4SecondH (layout dat (zip rest (.mk pc (.mk sc sl sx sr) px (.mk c l a r)))) (some sx)
        (some a) RIGHT_CHILD =
      some (layout dat (zip rest (.mk pc (.mk sc sl sx sr) px (.mk c l a r)))) := by
  have r1 := layout_read dat _ rest _ _ _ px rfl hnd
  have r3 := layout_read dat _ (.ofLeft pc px (.mk c l a r) :: rest) _ _ _ sx rfl hnd
  have r5 := layout_read dat _ (.ofRight pc (.mk sc sl sx sr) px :: rest) _ _ _ a rfl hnd
  have ir11 := isRedH_layout dat (.ofLeft sc sx sr :: .ofLeft pc px (.mk c l a r) :: rest) sl hnd
  have ir13 := isRedH_layout dat (.ofRight sc sl sx :: .ofLeft pc px (.mk c l a r) :: rest) sr hnd
  simp only [zip_cons, Frame.plug_ofLeft, Frame.plug_ofRight, ctxParent_cons, Frame.data_ofLeft,
    Frame.data_ofRight, ptr_mk, ptr_null, whichChildNodeIs, Frame.withColor, colorOf_mk,
    colorOf_null] at r1 r3 r5 ir11 ir13
  simp only [delete4SecondH, Mem.read, Option.bind, if_true, if_false, Option.pure_def,
    Option.bind_eq_bind, Option.some_bind, Option.map_some', int_ne1, int_ne2, int_ne3, int_ne4,
    int_ne5, int_ne6, reduceCtorEq, decide_True, decide_False, decide_eq_true_eq, and_self,
    and_true, true_and, and_false, false_and, not_true_eq_false, not_false_eq_true, ne_eq,
    Bool.false_eq_true, r1, r3, r5, ir11, ir13, hr, hl]

theorem delete4FirstH_right_caseE (dat : Nat → α) (recH : Mem α → Ptr → Option (Mem α)) (pc sc c :
    Color) (px sx a fx : Nat) (sr fl fr l r : Node Nat) (rest : Ctx Nat)
    (hnd : (inorder (zip rest (.mk pc (.mk sc (.mk .RED fl fx fr) sx sr) px (.mk c l a r)))).Nodup)
        :
    delete4FirstH recH (layout dat (zip rest (.mk pc (.mk sc (.mk .RED fl fx fr) sx sr) px (.mk c l
        a r)))) (some sx) (some a) RIGHT_CHILD =
      some ((layout dat (zip rest (.mk pc (.mk sc (.mk .RED fl fx fr) sx sr) px (.mk c l a r)))),
          some sx) := by
  have r3 := layout_read dat _ (.ofLeft pc px (.mk c l a r) :: rest) _ _ _ sx rfl hnd
  have ir13 := isRedH_layout dat (.ofLeft sc sx sr :: .ofLeft pc px (.mk c l a r) :: rest) (.mk
      .RED fl fx fr) hnd
  have ib14 := isBlackH_layout dat (.ofLeft sc sx sr :: .ofLeft pc px (.mk c l a r) :: rest) (.mk
      .RED fl fx fr) hnd
  have ir15 := isRedH_layout dat (.ofRight sc (.mk .RED fl fx fr) sx :: .ofLeft pc px (.mk c l a r)
      :: rest) sr hnd
  have ib16 := isBlackH_layout dat (.ofRight sc (.mk .RED fl fx fr) sx :: .ofLeft pc px (.mk c l a
      r) :: rest) sr hnd
  simp only [zip_cons, Frame.plug_ofLeft, Frame.plug_ofRight, ctxParent_cons, Frame.data_ofLeft,
    Frame.data_ofRight, ptr_mk, ptr_null, whichChildNodeIs, Frame.withColor, colorOf_mk,
    colorOf_null] at r3 ir13 ib14 ir15 ib16
  simp only [delete4FirstH, Mem.read, Option.bind, if_true, if_false, Option.pure_def,
    Option.bind_eq_bind, Option.some_bind, Option.map_some', int_ne1, int_ne2, int_ne3, int_ne4,
    int_ne5, int_ne6, reduceCtorEq, decide_True, decide_False, decide_eq_true_eq, and_self,
    and_true, true_and, and_false, false_and, not_true_eq_false, not_false_eq_true, ne_eq,
    Bool.false_eq_true, r3, ir13, ib14, ir15, ib16]

theorem delete4SecondH_right_caseE (dat : Nat → α) (pc sc c : Color) (px sx a fx : Nat) (sr fl fr l
    r : Node Nat) (rest : Ctx Nat)
    (hnd : (inorder (zip rest (.mk pc (.mk sc (.mk .RED fl fx fr) sx sr) px (.mk c l a r)))).Nodup)
        :
    delete4SecondH (layout dat (zip rest (.mk pc (.mk sc (.mk .RED fl fx fr) sx sr) px (.mk c l a
        r)))) (some sx) (some a) RIGHT_CHILD =
      some (layout dat (zip rest (.mk pc (.mk .BLACK fl fx fr) sx (.mk .BLACK sr px (.mk c l a
          r))))) := by
  have r1 := layout_read dat _ rest _ _ _ px rfl hnd
  have r3 := layout_read dat _ (.ofLeft pc px (.mk c l a r) :: rest) _ _ _ sx rfl hnd
  have r7 := layout_read dat _ (.ofRight pc (.mk sc (.mk .RED fl fx fr) sx sr) px :: rest) _ _ _ a
      rfl hnd
  have ir13 := isRedH_layout dat (.ofLeft sc sx sr :: .ofLeft pc px (.mk c l a r) :: rest) (.mk
      .RED fl fx fr) hnd
  have ir15 := isRedH_layout dat (.ofRight sc (.mk .RED fl fx fr) sx :: .ofLeft pc px (.mk c l a r)
      :: rest) sr hnd
  obtain ⟨t25, hnd1⟩ := setColor_sim dat (.ofLeft pc px (.mk c l a r) :: rest) _ pc _ _ _ hnd
  have r32 := layout_read dat _ (.ofRight pc (.mk pc (.mk .RED fl fx fr) sx sr) px :: rest) _ _ _ a
      rfl hnd1
  obtain ⟨t50, hnd2⟩ := setColor_sim dat rest _ .BLACK _ _ _ hnd1
  have r53 := layout_read dat _ (.ofLeft .BLACK px (.mk c l a r) :: rest) _ _ _ sx rfl hnd2
  obtain ⟨t75, hnd3⟩ := setColor_sim dat (.ofLeft pc sx sr :: .ofLeft .BLACK px (.mk c l a r) ::
      rest) _ .BLACK _ _ _ hnd2
  have r82 := layout_read dat _ (.ofRight .BLACK (.mk pc (.mk .BLACK fl fx fr) sx sr) px :: rest) _
      _ _ a rfl hnd3
  obtain ⟨t100, hnd4⟩ := rightRotationH_sim2 dat rest _ _ _ _ _ _ _ hnd3
  simp only [zip_cons, Frame.plug_ofLeft, Frame.plug_ofRight, ctxParent_cons, Frame.data_ofLeft,
    Frame.data_ofRight, ptr_mk, ptr_null, whichChildNodeIs, Frame.withColor, colorOf_mk,
    colorOf_null] at r1 r3 r7 ir13 ir15 r32 r53 r82 t25 t50 t75 t100
  simp only [delete4SecondH, Mem.read, Option.bind, if_true, if_false, Option.pure_def,
    Option.bind_eq_bind, Option.some_bind, Option.map_some', int_ne1, int_ne2, int_ne3, int_ne4,
    int_ne5, int_ne6, reduceCtorEq, decide_True, decide_False, decide_eq_true_eq, and_self,
    and_true, true_and, and_false, false_and, not_true_eq_false, not_false_eq_true, ne_eq,
    Bool.false_eq_true, r1, r3, r7, ir13, ir15, r32, r53, r82, t25, t50, t75, t100]

theorem delete4FirstH_right_caseD (dat : Nat → α) (recH : Mem α → Ptr → Option (Mem α)) (pc sc c :
    Color) (px sx a nx : Nat) (sl nl nr l r : Node Nat) (rest : Ctx Nat)
    (hnd : (inorder (zip rest (.mk pc (.mk sc sl sx (.mk .RED nl nx nr)) px (.mk c l a r)))).Nodup)
    (hf : sl.colorOf = .BLACK) :
    delete4FirstH recH (layout dat (zip rest (.mk pc (.mk sc sl sx (.mk .RED nl nx nr)) px (.mk c l
        a r)))) (some sx) (some a) RIGHT_CHILD =
      some ((layout dat (zip rest (.mk pc (.mk .BLACK (.mk .RED sl sx nl) nx nr) px (.mk c l a
          r)))), some nx) := by
  have r3 := layout_read dat _ (.ofLeft pc px (.mk c l a r) :: rest) _ _ _ sx rfl hnd
  have ir13 := isRedH_layout dat (.ofLeft sc sx (.mk .RED nl nx nr) :: .ofLeft pc px (.mk c l a r)
      :: rest) sl hnd
  have ib14 := isBlackH_layout dat (.ofLeft sc sx (.mk .RED nl nx nr) :: .ofLeft pc px (.mk c l a
      r) :: rest) sl hnd
  have ir15 := isRedH_layout dat (.ofRight sc sl sx :: .ofLeft pc px (.mk c l a r) :: rest) (.mk
      .RED nl nx nr) hnd
  have ib16 := isBlackH_layout dat (.ofRight sc sl sx :: .ofLeft pc px (.mk c l a r) :: rest) (.mk
      .RED nl nx nr) hnd
  obtain ⟨t25, hnd1⟩ := setColor_sim dat (.ofRight sc sl sx :: .ofLeft pc px (.mk c l a r) :: rest)
      _ .BLACK _ _ _ hnd
  obtain ⟨t50, hnd2⟩ := setColor_sim dat (.ofLeft pc px (.mk c l a r) :: rest) _ .RED _ _ _ hnd1
  obtain ⟨t75, hnd3⟩ := leftRotationH_sim2 dat (.ofLeft pc px (.mk c l a r) :: rest) _ _ _ _ _ _ _
      hnd2
  have r80 := layout_read dat _ (.ofLeft .BLACK nx nr :: .ofLeft pc px (.mk c l a r) :: rest) _ _ _
      sx rfl hnd3
  simp only [zip_cons, Frame.plug_ofLeft, Frame.plug_ofRight, ctxParent_cons, Frame.data_ofLeft,
    Frame.data_ofRight, ptr_mk, ptr_null, whichChildNodeIs, Frame.withColor, colorOf_mk,
    colorOf_null] at r3 ir13 ib14 ir15 ib16 r80 t25 t50 t75
  simp only [delete4FirstH, Mem.read, Option.bind, if_true, if_false, Option.pure_def,
    Option.bind_eq_bind, Option.some_bind, Option.map_some', int_ne1, int_ne2, int_ne3, int_ne4,
    int_ne5, int_ne6, reduceCtorEq, decide_True, decide_False, decide_eq_true_eq, and_self,
    and_true, true_and, and_false, false_and, not_true_eq_false, not_false_eq_true, ne_eq,
    Bool.false_eq_true, r3, ir13, ib14, ir15, ib16, r80, t25, t50, t75, hf]

theorem delete4H_left_caseE (dat : Nat → α) (recH : Mem α → Ptr → Option (Mem α)) (pc sc c : Color)
    (px sx a fx : Nat) (sl fl fr l r : Node Nat) (rest : Ctx Nat)
    (hnd : (inorder (zip rest (.mk pc (.mk c l a r) px (.mk sc sl sx (.mk .RED fl fx fr))))).Nodup)
        :
    delete4H recH (layout dat (zip rest (.mk pc (.mk c l a r) px (.mk sc sl sx (.mk .RED fl fx
        fr))))) (some sx) (some a) LEFT_CHILD =
      some (layout dat (zip rest (.mk pc (.mk .BLACK (.mk c l a r) px sl) sx (.mk .BLACK fl fx
          fr)))) := by
  rw [delete4H, delete4FirstH_left_caseE dat recH _ _ _ _ _ _ _ _ _ _ _ _ rest hnd]
  exact delete4SecondH_left_caseE dat _ _ _ _ _ _ _ _ _ _ _ _ rest hnd

theorem delete4H_left_caseD (dat : Nat → α) (recH : Mem α → Ptr → Option (Mem α)) (pc sc c : Color)
    (px sx a nx : Nat) (sr nl nr l r : Node Nat) (rest : Ctx Nat)
    (hnd : (inorder (zip rest (.mk pc (.mk c l a r) px (.mk sc (.mk .RED nl nx nr) sx sr)))).Nodup)
    (hf : sr.colorOf = .BLACK) :
    delete4H recH (layout dat (zip rest (.mk pc (.mk c l a r) px (.mk sc (.mk .RED nl nx nr) sx
        sr)))) (some sx) (some a) LEFT_CHILD =
      some (layout dat (zip rest (.mk pc (.mk .BLACK (.mk c l a r) px nl) nx (.mk .BLACK nr sx
          sr)))) := by
  have hnd2 := nodup_congr rest (.mk pc (.mk c l a r) px (.mk sc (.mk .RED nl nx nr) sx sr))
    (.mk pc (.mk c l a r) px (.mk .BLACK nl nx (.mk .RED nr sx sr))) (by simp [inorder]) hnd
  rw [delete4H, delete4FirstH_left_caseD dat recH _ _ _ _ _ _ _ _ _ _ _ _ rest hnd hf]
  exact delete4SecondH_left_caseE dat _ _ _ _ _ _ _ _ _ _ _ _ rest hnd2

theorem delete4H_left_caseB (dat : Nat → α) (recH : Mem α → Ptr → Option (Mem α)) (pc sc c : Color)
    (px sx a : Nat) (sl sr l r : Node Nat) (rest : Ctx Nat)
    (hnd : (inorder (zip rest (.mk pc (.mk c l a r) px (.mk sc sl sx sr)))).Nodup)
    (hl : sl.colorOf = .BLACK) (hr : sr.colorOf = .BLACK) :
    delete4H recH (layout dat (zip rest (.mk pc (.mk c l a r) px (.mk sc sl sx sr)))) (some sx)
        (some a) LEFT_CHILD =
      (delete6H recH (layout dat (zip rest (.mk pc (.mk c l a r) px (.mk sc sl sx sr)))) (some sx)
          (some a)).bind
        fun m => delete4SecondH m (some sx) (some a) LEFT_CHILD := by
  rw [delete4H, delete4FirstH_left_caseB dat recH _ _ _ _ _ _ _ _ _ _ rest hnd hl hr,
    Option.bind_assoc]
  rfl

theorem delete3H_left (dat : Nat → α) (fuel : Nat) (pc sc c : Color) (px sx a : Nat) (sl sr l r :
    Node Nat) (rest : Ctx Nat)
    (hnd : (inorder (zip rest (.mk pc (.mk c l a r) px (.mk sc sl sx sr)))).Nodup) :
    delete3H (fuel + 1) (layout dat (zip rest (.mk pc (.mk c l a r) px (.mk sc sl sx sr)))) (some
        a) =
      if sc = .BLACK then delete4H (delete3H fuel) (layout dat (zip rest (.mk pc (.mk c l a r) px
          (.mk sc sl sx sr)))) (some sx) (some a) LEFT_CHILD
      else delete5H (delete3H fuel) (layout dat (zip rest (.mk pc (.mk c l a r) px (.mk sc sl sx
          sr)))) (some sx) (some a) LEFT_CHILD := by
  have r1 := layout_read dat _ rest _ _ _ px rfl hnd
  have r3 := layout_read dat _ (.ofLeft pc px (.mk sc sl sx sr) :: rest) _ _ _ a rfl hnd
  have w4 := whichChildNodeIsH_layout dat (.ofLeft pc px (.mk sc sl sx sr) :: rest) _ _ _ a hnd
  have r5 := layout_read dat _ (.ofRight pc (.mk c l a r) px :: rest) _ _ _ sx rfl hnd
  simp only [zip_cons, Frame.plug_ofLeft, Frame.plug_ofRight, ctxParent_cons, Frame.data_ofLeft,
    Frame.data_ofRight, ptr_mk, ptr_null, whichChildNodeIs, Frame.withColor, colorOf_mk,
    colorOf_null] at r1 r3 w4 r5
  simp only [delete3H, getSiblingH, Mem.read, Option.bind, if_true, if_false, Option.pure_def,
    Option.bind_eq_bind, Option.some_bind, Option.map_some', int_ne1, int_ne2, int_ne3, int_ne4,
    int_ne5, int_ne6, reduceCtorEq, decide_True, decide_False, decide_eq_true_eq, and_self,
    and_true, true_and, and_false, false_and, not_true_eq_false, not_false_eq_true, ne_eq,
    Bool.false_eq_true, r1, r3, w4, r5]

theorem delete4H_right_caseE (dat : Nat → α) (recH : Mem α → Ptr → Option (Mem α)) (pc sc c :
    Color) (px sx a fx : Nat) (sr fl fr l r : Node Nat) (rest : Ctx Nat)
    (hnd : (inorder (zip rest (.mk pc (.mk sc (.mk .RED fl fx fr) sx sr) px (.mk c l a r)))).Nodup)
        :
    delete4H recH (layout dat (zip rest (.mk pc (.mk sc (.mk .RED fl fx fr) sx sr) px (.mk c l a
        r)))) (some sx) (some a) RIGHT_CHILD =
      some (layout dat (zip rest (.mk pc (.mk .BLACK fl fx fr) sx (.mk .BLACK sr px (.mk c l a
          r))))) := by
  rw [delete4H, delete4FirstH_right_caseE dat recH _ _ _ _ _ _ _ _ _ _ _ _ rest hnd]
  exact delete4SecondH_right_caseE dat _ _ _ _ _ _ _ _ _ _ _ _ rest hnd

theorem delete4H_right_caseD (dat : Nat → α) (recH : Mem α → Ptr → Option (Mem α)) (pc sc c :
    Color) (px sx a nx : Nat) (sl nl nr l r : Node Nat) (rest : Ctx Nat)
    (hnd : (inorder (zip rest (.mk pc (.mk sc sl sx (.mk .RED nl nx nr)) px (.mk c l a r)))).Nodup)
    (hf : sl.colorOf = .BLACK) :
    delete4H recH (layout dat (zip rest (.mk pc (.mk sc sl sx (.mk .RED nl nx nr)) px (.mk c l a
        r)))) (some sx) (some a) RIGHT_CHILD =
      some (layout dat (zip rest (.mk pc (.mk .BLACK sl sx nl) nx (.mk .BLACK nr px (.mk c l a
          r))))) := by
  have hnd2 := nodup_congr rest (.mk pc (.mk sc sl sx (.mk .RED nl nx nr)) px (.mk c l a r))
    (.mk pc (.mk .BLACK (.mk .RED sl sx nl) nx nr) px (.mk c l a r)) (by simp [inorder]) hnd
  rw [delete4H, delete4FirstH_right_caseD dat recH _ _ _ _ _ _ _ _ _ _ _ _ rest hnd hf]
  exact delete4SecondH_right_caseE dat _ _ _ _ _ _ _ _ _ _ _ _ rest hnd2

theorem delete4H_right_caseB (dat : Nat → α) (recH : Mem α → Ptr → Option (Mem α)) (pc sc c :
    Color) (px sx a : Nat) (sl sr l r : Node Nat) (rest : Ctx Nat)
    (hnd : (inorder (zip rest (.mk pc (.mk sc sl sx sr) px (.mk c l a r)))).Nodup)
    (hl : sl.colorOf = .BLACK) (hr : sr.colorOf = .BLACK) :
    delete4H recH (layout dat (zip rest (.mk pc (.mk sc sl sx sr) px (.mk c l a r)))) (some sx)
        (some a) RIGHT_CHILD =
      (delete6H recH (layout dat (zip rest (.mk pc (.mk sc sl sx sr) px (.mk c l a r)))) (some sx)
          (some a)).bind
        fun m => delete4SecondH m (some sx) (some a) RIGHT_CHILD := by
  rw [delete4H, delete4FirstH_right_caseB dat recH _ _ _ _ _ _ _ _ _ _ rest hnd hl hr,
    Option.bind_assoc]
  rfl

theorem delete3H_right (dat : Nat → α) (fuel : Nat) (pc sc c : Color) (px sx a : Nat) (sl sr l r :
    Node Nat) (rest : Ctx Nat)
    (hnd : (inorder (zip rest (.mk pc (.mk sc sl sx sr) px (.mk c l a r)))).Nodup) :
    delete3H (fuel + 1) (layout dat (zip rest (.mk pc (.mk sc sl sx sr) px (.mk c l a r)))) (some
        a) =
      if sc = .BLACK then delete4H (delete3H fuel) (layout dat (zip rest (.mk pc (.mk sc sl sx sr)
          px (.mk c l a r)))) (some sx) (some a) RIGHT_CHILD
      else delete5H (delete3H fuel) (layout dat (zip rest (.mk pc (.mk sc sl sx sr) px (.mk c l a
          r)))) (some sx) (some a) RIGHT_CHILD := by
  have r1 := layout_read dat _ rest _ _ _ px rfl hnd
  have r3 := layout_read dat _ (.ofLeft pc px (.mk c l a r) :: rest) _ _ _ sx rfl hnd
  have r5 := layout_read dat _ (.ofRight pc (.mk sc sl sx sr) px :: rest) _ _ _ a rfl hnd
  have w6 := whichChildNodeIsH_layout dat (.ofRight pc (.mk sc sl sx sr) px :: rest) _ _ _ a hnd
  simp only [zip_cons, Frame.plug_ofLeft, Frame.plug_ofRight, ctxParent_cons, Frame.data_ofLeft,
    Frame.data_ofRight, ptr_mk, ptr_null, whichChildNodeIs, Frame.withColor, colorOf_mk,
    colorOf_null] at r1 r3 r5 w6
  simp only [delete3H, getSiblingH, Mem.read, Option.bind, if_true, if_false, Option.pure_def,
    Option.bind_eq_bind, Option.some_bind, Option.map_some', int_ne1, int_ne2, int_ne3, int_ne4,
    int_ne5, int_ne6, reduceCtorEq, decide_True, decide_False, decide_eq_true_eq, and_self,
    and_true, true_and, and_false, false_and, not_true_eq_false, not_false_eq_true, ne_eq,
    Bool.false_eq_true, r1, r3, r5, w6]

end RBT

namespace RBT
variable {α σ ω β : Type}

/-- `delete3` in memory follows `delete3` on the tree, call for call; the
node it is called on keeps its place in the in-order sequence. -/
theorem delete3H_sim (dat : Nat → α) : ∀ (fuel : Nat) (ctx : Ctx Nat) (c : Color) (l : Node Nat)
    (a : Nat) (r : Node Nat) (res : Loc Nat), (inorder (zip ctx (.mk c l a r))).Nodup →
    delete3 fuel ⟨ctx, .mk c l a r⟩ = some res →
    res.node = .mk c l a r ∧ inorder res.root = inorder (zip ctx (.mk c l a r)) ∧
      delete3H fuel (layout dat (zip ctx (.mk c l a r))) (some a) = some (layout dat res.root) := by
  intro fuel
  induction fuel with
  | zero =>
    intro ctx c l a r res _ h
    simp [delete3] at h
  | succ fuel ih =>
    intro ctx c l a r res hnd h
    rcases ctx with _ | ⟨f, up⟩
    · rw [delete3_root] at h
      simp only [Option.some.injEq] at h
      subst h
      have r0 := layout_read dat _ [] c l r a rfl hnd
      refine ⟨rfl, rfl, ?_⟩
      simp only [delete3H, Mem.read, Option.bind, r0, ctxParent_nil, if_true]
      rfl
    · cases f with
      | ofLeft pc px s =>
        rcases s with _ | ⟨sc, sl, sx, sr⟩
        · simp [delete3, getSibling] at h
        · rw [delete3_left] at h
          rw [show zip (.ofLeft pc px (.mk sc sl sx sr) :: up) (.mk c l a r) = zip up (.mk pc (.mk
              c l a r) px (.mk sc sl sx sr)) from rfl] at hnd ⊢
          rw [delete3H_left dat fuel pc sc c px sx a sl sr l r up hnd]
          by_cases hsc : sc = .BLACK
          · subst hsc
            simp only [if_true] at h ⊢
            by_cases hfar : sr.colorOf = .RED
            · obtain ⟨fl, fx, fr, rfl⟩ := colorOf_red hfar
              rw [delete4_left_caseE] at h
              simp only [Option.some.injEq] at h
              subst h
              exact ⟨rfl, inorder_zip_congr up _ _ (by simp [inorder]),
                delete4H_left_caseE dat _ _ _ _ _ _ _ _ _ _ _ _ _ up hnd⟩
            · have hfb := Node.colorOf_eq_black_of_ne_red hfar
              by_cases hnear : sl.colorOf = .RED
              · obtain ⟨nl, nx, nr, rfl⟩ := colorOf_red hnear
                rw [delete4_left_caseD _ _ _ _ _ _ _ _ _ _ _ hfb] at h
                simp only [Option.some.injEq] at h
                subst h
                exact ⟨rfl, inorder_zip_congr up _ _ (by simp [inorder]),
                  delete4H_left_caseD dat _ _ _ _ _ _ _ _ _ _ _ _ _ up hnd hfb⟩
              · have hnb := Node.colorOf_eq_black_of_ne_red hnear
                rw [delete4_caseB _ (.ofLeft pc px (.mk .BLACK sl sx sr)) up _ _ .BLACK sl sr sx
                    rfl hnb hfb] at h
                rw [delete4H_left_caseB dat _ _ _ _ _ _ _ _ _ _ _ up hnd hnb hfb]
                cases pc with
                | RED =>
                  rw [delete6_left_red] at h
                  simp only [Option.some.injEq] at h
                  subst h
                  have hnd2 := nodup_congr up (.mk .RED (.mk c l a r) px (.mk .BLACK sl sx sr))
                      (.mk .BLACK (.mk c l a r) px (.mk .RED sl sx sr)) rfl hnd
                  refine ⟨rfl, inorder_zip_congr up _ _ rfl, ?_⟩
                  rw [delete6H_left_red dat _ _ _ _ _ _ _ _ _ _ up hnd]
                  exact delete4SecondH_left_skip dat _ _ _ _ _ _ _ _ _ _ up hnd2 hnb hfb
                | BLACK =>
                  rw [delete6_left_black] at h
                  obtain ⟨res0, h0, h1⟩ := Option.bind_eq_some.1 h
                  have hnd2 := nodup_congr up (.mk .BLACK (.mk c l a r) px (.mk .BLACK sl sx sr))
                      (.mk .BLACK (.mk c l a r) px (.mk .RED sl sx sr)) rfl hnd
                  obtain ⟨e1, e2, e3⟩ := ih up _ _ _ _ res0 hnd2 h0
                  obtain ⟨ctx0, n0⟩ := res0
                  simp only at e1
                  subst e1
                  simp only [Loc.left, Option.some.injEq] at h1
                  subst h1
                  have hnd3 : (inorder (zip ctx0 (.mk .BLACK (.mk c l a r) px (.mk .RED sl sx
                      sr)))).Nodup := by
                    have : inorder (zip ctx0 (.mk .BLACK (.mk c l a r) px (.mk .RED sl sx sr))) =
                        inorder (zip up (.mk .BLACK (.mk c l a r) px (.mk .RED sl sx sr))) := e2
                    rw [this]
                    exact hnd2
                  refine ⟨rfl, e2.trans (inorder_zip_congr up _ _ rfl), ?_⟩
                  rw [delete6H_left_black dat _ _ _ _ _ _ _ _ _ _ up hnd, e3]
                  exact delete4SecondH_left_skip dat _ _ _ _ _ _ _ _ _ _ ctx0 hnd3 hnb hfb
          · simp only [hsc, if_false] at h ⊢
            rw [delete5_left] at h
            have hnd2 := nodup_congr up (.mk pc (.mk c l a r) px (.mk sc sl sx sr)) (.mk .BLACK
                (.mk .RED (.mk c l a r) px sl) sx sr) (by simp [inorder]) hnd
            obtain ⟨e1, e2, e3⟩ := ih (.ofLeft .RED px sl :: .ofLeft .BLACK sx sr :: up) _ _ _ _
                res hnd2 h
            rw [delete5H_left dat _ _ _ _ _ _ _ _ _ _ _ up hnd]
            exact ⟨e1, e2.trans (inorder_zip_congr up _ _ (by simp [inorder])), e3⟩
      | ofRight pc s px =>
        rcases s with _ | ⟨sc, sl, sx, sr⟩
        · simp [delete3, getSibling] at h
        · rw [delete3_right] at h
          rw [show zip (.ofRight pc (.mk sc sl sx sr) px :: up) (.mk c l a r) = zip up (.mk pc (.mk
              sc sl sx sr) px (.mk c l a r)) from rfl] at hnd ⊢
          rw [delete3H_right dat fuel pc sc c px sx a sl sr l r up hnd]
          by_cases hsc : sc = .BLACK
          · subst hsc
            simp only [if_true] at h ⊢
            by_cases hfar : sl.colorOf = .RED
            · obtain ⟨fl, fx, fr, rfl⟩ := colorOf_red hfar
              rw [delete4_right_caseE] at h
              simp only [Option.some.injEq] at h
              subst h
              exact ⟨rfl, inorder_zip_congr up _ _ (by simp [inorder]),
                delete4H_right_caseE dat _ _ _ _ _ _ _ _ _ _ _ _ _ up hnd⟩
            · have hfb := Node.colorOf_eq_black_of_ne_red hfar
              by_cases hnear : sr.colorOf = .RED
              · obtain ⟨nl, nx, nr, rfl⟩ := colorOf_red hnear
                rw [delete4_right_caseD _ _ _ _ _ _ _ _ _ _ _ hfb] at h
                simp only [Option.some.injEq] at h
                subst h
                exact ⟨rfl, inorder_zip_congr up _ _ (by simp [inorder]),
                  delete4H_right_caseD dat _ _ _ _ _ _ _ _ _ _ _ _ _ up hnd hfb⟩
              · have hnb := Node.colorOf_eq_black_of_ne_red hnear
                rw [delete4_caseB _ (.ofRight pc (.mk .BLACK sl sx sr) px) up _ _ .BLACK sl sr sx
                    rfl hfb hnb] at h
                rw [delete4H_right_caseB dat _ _ _ _ _ _ _ _ _ _ _ up hnd hfb hnb]
                cases pc with
                | RED =>
                  rw [delete6_right_red] at h
                  simp only [Option.some.injEq] at h
                  subst h
                  have hnd2 := nodup_congr up (.mk .RED (.mk .BLACK sl sx sr) px (.mk c l a r))
                      (.mk .BLACK (.mk .RED sl sx sr) px (.mk c l a r)) rfl hnd
                  refine ⟨rfl, inorder_zip_congr up _ _ rfl, ?_⟩
                  rw [delete6H_right_red dat _ _ _ _ _ _ _ _ _ _ up hnd]
                  exact delete4SecondH_right_skip dat _ _ _ _ _ _ _ _ _ _ up hnd2 hfb hnb
                | BLACK =>
                  rw [delete6_right_black] at h
                  obtain ⟨res0, h0, h1⟩ := Option.bind_eq_some.1 h
                  have hnd2 := nodup_congr up (.mk .BLACK (.mk .BLACK sl sx sr) px (.mk c l a r))
                      (.mk .BLACK (.mk .RED sl sx sr) px (.mk c l a r)) rfl hnd
                  obtain ⟨e1, e2, e3⟩ := ih up _ _ _ _ res0 hnd2 h0
                  obtain ⟨ctx0, n0⟩ := res0
                  simp only at e1
                  subst e1
                  simp only [Loc.right, Option.some.injEq] at h1
                  subst h1
                  have hnd3 : (inorder (zip ctx0 (.mk .BLACK (.mk .RED sl sx sr) px (.mk c l a
                      r)))).Nodup := by
                    have : inorder (zip ctx0 (.mk .BLACK (.mk .RED sl sx sr) px (.mk c l a r))) =
                        inorder (zip up (.mk .BLACK (.mk .RED sl sx sr) px (.mk c l a r))) := e2
                    rw [this]
                    exact hnd2
                  refine ⟨rfl, e2.trans (inorder_zip_congr up _ _ rfl), ?_⟩
                  rw [delete6H_right_black dat _ _ _ _ _ _ _ _ _ _ up hnd, e3]
                  exact delete4SecondH_right_skip dat _ _ _ _ _ _ _ _ _ _ ctx0 hnd3 hfb hnb
          · simp only [hsc, if_false] at h ⊢
            rw [delete5_right] at h
            have hnd2 := nodup_congr up (.mk pc (.mk sc sl sx sr) px (.mk c l a r)) (.mk .BLACK sl
                sx (.mk .RED sr px (.mk c l a r))) (by simp [inorder]) hnd
            obtain ⟨e1, e2, e3⟩ := ih (.ofRight .RED sr px :: .ofRight .BLACK sl sx :: up) _ _ _ _
                res hnd2 h
            rw [delete5H_right dat _ _ _ _ _ _ _ _ _ _ _ up hnd]
            exact ⟨e1, e2.trans (inorder_zip_congr up _ _ (by simp [inorder])), e3⟩

end RBT

namespace RBT
variable {α σ ω β : Type}

/-! ### Unlinking and freeing a node -/

/-- A leaf that is a left child is unlinked and freed. -/
theorem unlinkFree_left (dat : Nat → α) (fc c : Color) (fd a : Nat) (fs : Node Nat) (up : Ctx Nat)
    (hnd : (inorder (zip (.ofLeft fc fd fs :: up) (.mk c .NULL a .NULL))).Nodup) :
    ∃ m2, unlinkH (layout dat (zip (.ofLeft fc fd fs :: up) (.mk c .NULL a .NULL))) (some a) = some
        m2 ∧
      m2.heap a = some ⟨some fd, none, none, c, dat a⟩ ∧
      m2.free (some a) = some (layout dat (zip (.ofLeft fc fd fs :: up) .NULL)) := by
  have hnode := nodup_focus (.ofLeft fc fd fs :: up) _ hnd
  have hnd1 : (inorder (zip (.ofLeft fc fd fs :: up) .NULL)).Nodup := by
    rw [inorder_zip] at hnd ⊢
    simp only [inorder, List.nil_append, List.append_nil] at hnd ⊢
    rw [List.append_assoc] at hnd
    exact (List.nodup_append.1 hnd).1.append (List.nodup_append.1 (List.nodup_append.1 hnd).2.1).2.1
      (fun z h1 h2 => (List.nodup_append.1 hnd).2.2 h1 (List.mem_cons_of_mem _ h2))
  have ha1 : a ∉ inorder (zip (.ofLeft fc fd fs :: up) .NULL) := by
    rw [inorder_zip]
    simp only [inorder, List.append_nil, List.mem_append, not_or]
    exact hnode.2 a (by simp [inorder])
  have hfa : ¬ fd = a := by
    intro h
    have := (hnode.2 a (by simp [inorder]))
    apply this.2
    rw [← h]
    simp [ctxAfter]
  have haf : ¬ a = fd := fun h => hfa h.symm
  have hA : (layout dat (zip (.ofLeft fc fd fs :: up) (.mk c .NULL a .NULL))).heap a =
      some ⟨some fd, none, none, c, dat a⟩ := layout_read dat _ (.ofLeft fc fd fs :: up) c .NULL
          .NULL a rfl hnd
  have hW := whichChildNodeIsH_layout dat (.ofLeft fc fd fs :: up) c .NULL .NULL a hnd
  have hF : (layout dat (zip (.ofLeft fc fd fs :: up) (.mk c .NULL a .NULL))).heap fd = some
      ⟨ctxParent up, some a, ptr fs, fc, dat fd⟩ :=
    layout_read dat _ up fc (.mk c .NULL a .NULL) fs fd rfl hnd
  have hF1 : (layout dat (zip (.ofLeft fc fd fs :: up) .NULL)).heap fd = some ⟨ctxParent up, none,
      ptr fs, fc, dat fd⟩ :=
    layout_read dat _ up fc .NULL fs fd rfl hnd1
  have hA1 := layout_none dat _ a ha1
  have hfr : ∀ z, ¬ z = a → ¬ z = fd →
      (layout dat (zip (.ofLeft fc fd fs :: up) (.mk c .NULL a .NULL))).heap z =
        (layout dat (zip (.ofLeft fc fd fs :: up) .NULL)).heap z := by
    intro z h1 h2
    refine layout_frame dat (.ofLeft fc fd fs :: up) _ _ z hnd hnd1 ?_ (Or.inr ?_)
    · simp [cellAt, h1]
    · simp only [ctxParent_cons, Frame.data_ofLeft, Frame.data_ofRight, ne_eq, Option.some.injEq]
      exact fun h => h2 h.symm
  have hroot : (layout dat (zip (.ofLeft fc fd fs :: up) (.mk c .NULL a .NULL))).root =
      (layout dat (zip (.ofLeft fc fd fs :: up) .NULL)).root := by
    rw [layout_root dat _ (.ofLeft fc fd fs :: up) _ rfl, layout_root dat _ (.ofLeft fc fd fs ::
        up) _ rfl]
    rfl
  simp only [whichChildNodeIs] at hW
  generalize layout dat (zip (.ofLeft fc fd fs :: up) (.mk c .NULL a .NULL)) = m0
      at hA hW hF hfr hroot ⊢
  generalize layout dat (zip (.ofLeft fc fd fs :: up) .NULL) = m1 at hF1 hA1 hfr hroot ⊢
  refine ⟨m0.write fd ⟨ctxParent up, none, ptr fs, fc, dat fd⟩, ?_, ?_, ?_⟩
  · simp only [unlinkH, hW, Mem.read, Option.bind, hA, int_ne1, int_ne2, if_true, if_false,
      Mem.setLeft, Mem.setRight, Mem.modify, hF, Option.map_some', Option.pure_def,
      Option.bind_eq_bind, Option.some_bind]
  · simp only [Mem.write, haf, if_false, hA]
  · simp only [Mem.free, Mem.write, haf, if_false, hA, Option.map_some', Option.some.injEq]
    refine Mem.ext' (funext fun z => ?_) hroot
    by_cases hza : z = a
    · subst hza
      simp only [if_true, hA1]
    · by_cases hzf : z = fd
      · subst hzf
        simp only [hza, if_true, if_false, hF1]
      · simp only [hza, hzf, if_false]
        exact hfr z hza hzf

/-- A leaf that is a right child is unlinked and freed. -/
theorem unlinkFree_right (dat : Nat → α) (fc c : Color) (fd a : Nat) (fs : Node Nat) (up : Ctx Nat)
    (hnd : (inorder (zip (.ofRight fc fs fd :: up) (.mk c .NULL a .NULL))).Nodup) :
    ∃ m2, unlinkH (layout dat (zip (.ofRight fc fs fd :: up) (.mk c .NULL a .NULL))) (some a) =
        some m2 ∧
      m2.heap a = some ⟨some fd, none, none, c, dat a⟩ ∧
      m2.free (some a) = some (layout dat (zip (.ofRight fc fs fd :: up) .NULL)) := by
  have hnode := nodup_focus (.ofRight fc fs fd :: up) _ hnd
  have hnd1 : (inorder (zip (.ofRight fc fs fd :: up) .NULL)).Nodup := by
    rw [inorder_zip] at hnd ⊢
    simp only [inorder, List.nil_append, List.append_nil] at hnd ⊢
    rw [List.append_assoc] at hnd
    exact (List.nodup_append.1 hnd).1.append (List.nodup_append.1 (List.nodup_append.1 hnd).2.1).2.1
      (fun z h1 h2 => (List.nodup_append.1 hnd).2.2 h1 (List.mem_cons_of_mem _ h2))
  have ha1 : a ∉ inorder (zip (.ofRight fc fs fd :: up) .NULL) := by
    rw [inorder_zip]
    simp only [inorder, List.append_nil, List.mem_append, not_or]
    exact hnode.2 a (by simp [inorder])
  have hfa : ¬ fd = a := by
    intro h
    have := (hnode.2 a (by simp [inorder]))
    apply this.1
    rw [← h]
    simp [ctxBefore]
  have haf : ¬ a = fd := fun h => hfa h.symm
  have hA : (layout dat (zip (.ofRight fc fs fd :: up) (.mk c .NULL a .NULL))).heap a =
      some ⟨some fd, none, none, c, dat a⟩ := layout_read dat _ (.ofRight fc fs fd :: up) c .NULL
          .NULL a rfl hnd
  have hW := whichChildNodeIsH_layout dat (.ofRight fc fs fd :: up) c .NULL .NULL a hnd
  have hF : (layout dat (zip (.ofRight fc fs fd :: up) (.mk c .NULL a .NULL))).heap fd = some
      ⟨ctxParent up, ptr fs, some a, fc, dat fd⟩ :=
    layout_read dat _ up fc fs (.mk c .NULL a .NULL) fd rfl hnd
  have hF1 : (layout dat (zip (.ofRight fc fs fd :: up) .NULL)).heap fd = some ⟨ctxParent up, ptr
      fs, none, fc, dat fd⟩ :=
    layout_read dat _ up fc fs .NULL fd rfl hnd1
  have hA1 := layout_none dat _ a ha1
  have hfr : ∀ z, ¬ z = a → ¬ z = fd →
      (layout dat (zip (.ofRight fc fs fd :: up) (.mk c .NULL a .NULL))).heap z =
        (layout dat (zip (.ofRight fc fs fd :: up) .NULL)).heap z := by
    intro z h1 h2
    refine layout_frame dat (.ofRight fc fs fd :: up) _ _ z hnd hnd1 ?_ (Or.inr ?_)
    · simp [cellAt, h1]
    · simp only [ctxParent_cons, Frame.data_ofLeft, Frame.data_ofRight, ne_eq, Option.some.injEq]
      exact fun h => h2 h.symm
  have hroot : (layout dat (zip (.ofRight fc fs fd :: up) (.mk c .NULL a .NULL))).root =
      (layout dat (zip (.ofRight fc fs fd :: up) .NULL)).root := by
    rw [layout_root dat _ (.ofRight fc fs fd :: up) _ rfl, layout_root dat _ (.ofRight fc fs fd ::
        up) _ rfl]
    rfl
  simp only [whichChildNodeIs] at hW
  generalize layout dat (zip (.ofRight fc fs fd :: up) (.mk c .NULL a .NULL)) = m0
      at hA hW hF hfr hroot ⊢
  generalize layout dat (zip (.ofRight fc fs fd :: up) .NULL) = m1 at hF1 hA1 hfr hroot ⊢
  refine ⟨m0.write fd ⟨ctxParent up, ptr fs, none, fc, dat fd⟩, ?_, ?_, ?_⟩
  · simp only [unlinkH, hW, Mem.read, Option.bind, hA, int_ne1, int_ne2, if_true, if_false,
      Mem.setLeft, Mem.setRight, Mem.modify, hF, Option.map_some', Option.pure_def,
      Option.bind_eq_bind, Option.some_bind]
  · simp only [Mem.write, haf, if_false, hA]
  · simp only [Mem.free, Mem.write, haf, if_false, hA, Option.map_some', Option.some.injEq]
    refine Mem.ext' (funext fun z => ?_) hroot
    by_cases hza : z = a
    · subst hza
      simp only [if_true, hA1]
    · by_cases hzf : z = fd
      · subst hzf
        simp only [hza, if_true, if_false, hF1]
      · simp only [hza, hzf, if_false]
        exact hfr z hza hzf

end RBT

namespace RBT
variable {α σ ω β : Type}

theorem nodup_zip_sublist (ctx : Ctx Nat) (t t' : Node Nat)
    (h : (inorder t').Sublist (inorder t)) (hnd : (inorder (zip ctx t)).Nodup) :
    (inorder (zip ctx t')).Nodup := by
  rw [inorder_zip] at hnd ⊢
  exact hnd.sublist (((List.Sublist.refl _).append h).append (List.Sublist.refl _))

theorem changeFrame_right (dat : Nat → α) (ctx : Ctx Nat) (c cc : Color) (a cx : Nat)
    (cl cr : Node Nat) (z : Nat) (hnd : (inorder (zip ctx (.mk c .NULL a (.mk cc cl cx cr)))).Nodup)
    (hnd' : (inorder (zip ctx (.mk .BLACK cl cx cr))).Nodup)
    (hza : ¬ z = a) (hzc : ¬ z = cx) (hzf : ctxParent ctx ≠ some z) :
    (layout dat (zip ctx (.mk c .NULL a (.mk cc cl cx cr)))).heap z = (layout dat (zip ctx (.mk
        .BLACK cl cx cr))).heap z := by
  refine layout_frame dat ctx _ _ z hnd hnd' ?_ (Or.inr hzf)
  simp only [cellAt, hza, hzc, if_false, Option.or_none, Option.none_or]

set_option maxHeartbeats 1000000 in
/-- A node whose only child is its right child is replaced by that child,
the child is coloured black, and the node is freed. -/
theorem changeFree_right (dat : Nat → α) (ctx : Ctx Nat) (c cc : Color) (a cx : Nat)
    (cl cr : Node Nat) (hnd : (inorder (zip ctx (.mk c .NULL a (.mk cc cl cx cr)))).Nodup) :
    ((changeNodeH (layout dat (zip ctx (.mk c .NULL a (.mk cc cl cx cr)))) (some a) (some cx)).bind
        fun m => m.setColor (some cx) .BLACK).bind (fun m => freeNodeH m (some a)) =
      some (dat a, layout dat (zip ctx (.mk .BLACK cl cx cr))) := by
  have hnd' : (inorder (zip ctx (.mk .BLACK cl cx cr))).Nodup :=
    nodup_zip_sublist ctx _ _ (by simp [inorder]) hnd
  obtain ⟨hN, hout⟩ := nodup_focus ctx _ hnd
  have hac : ¬ a = cx := by
    intro h
    have := (nodup_inorder_mk _ _ _ _).1 hN
    exact this.2.2.2.1 (by simp [inorder, h])
  have hca : ¬ cx = a := fun h => hac h.symm
  have ha1 : a ∉ inorder (zip ctx (.mk .BLACK cl cx cr)) := by
    rw [inorder_zip]
    simp only [List.mem_append, not_or]
    have h1 := hout a (by simp [inorder])
    have h2 := (nodup_inorder_mk _ _ _ _).1 hN
    exact ⟨⟨h1.1, h2.2.2.2.1⟩, h1.2⟩
  have hA : (layout dat (zip ctx (.mk c .NULL a (.mk cc cl cx cr)))).heap a = some ⟨ctxParent ctx,
      none, some cx, c, dat a⟩ :=
    layout_read dat _ ctx c _ _ a rfl hnd
  have hC : (layout dat (zip ctx (.mk c .NULL a (.mk cc cl cx cr)))).heap cx = some ⟨some a, ptr
      cl, ptr cr, cc, dat cx⟩ :=
    layout_read dat _ (.ofRight c .NULL a :: ctx) cc cl cr cx rfl hnd
  have hC1 : (layout dat (zip ctx (.mk .BLACK cl cx cr))).heap cx =
      some ⟨ctxParent ctx, ptr cl, ptr cr, .BLACK, dat cx⟩ :=
    layout_read dat _ ctx .BLACK cl cr cx rfl hnd'
  have hA1 := layout_none dat _ a ha1
  have hroot : (layout dat (zip ctx (.mk c .NULL a (.mk cc cl cx cr)))).root = ctxRoot ctx (some a)
      :=
    layout_root dat _ ctx (.mk c .NULL a (.mk cc cl cx cr)) rfl
  have hroot' : (layout dat (zip ctx (.mk .BLACK cl cx cr))).root = ctxRoot ctx (some cx) :=
    layout_root dat _ ctx (.mk .BLACK cl cx cr) rfl
  have hfr := fun z => changeFrame_right dat ctx c cc a cx cl cr z hnd hnd'
  have hF : ∀ fd, ctxParent ctx = some fd → ¬ fd = a ∧ ¬ fd = cx ∧
      ∃ F : Cell α, (layout dat (zip ctx (.mk c .NULL a (.mk cc cl cx cr)))).heap fd = some F ∧
        (F.right = some a ∨ (F.left = some a ∧ F.right ≠ some a)) ∧
        (layout dat (zip ctx (.mk .BLACK cl cx cr))).heap fd =
          some (if F.right = some a then { F with right := some cx }
            else { F with left := some cx }) := by
    intro fd hfd
    have hfN := ctxParent_not_mem ctx _ fd hnd hfd
    have h1 : ¬ fd = a := fun h => hfN (by simp [inorder, h])
    have h2 : ¬ fd = cx := fun h => hfN (by simp [inorder, h])
    refine ⟨h1, h2, ?_⟩
    cases ctx with
    | nil => cases hfd
    | cons f up =>
      cases Option.some.inj hfd
      cases f with
      | ofLeft fc fd fr =>
        have hfr : ptr fr ≠ some a := by
          intro h
          have := ptr_mem fr a h
          obtain ⟨-, hout⟩ := nodup_focus (.ofLeft fc fd fr :: up) _ hnd
          exact (hout a (by simp [inorder])).2 (by simp [ctxAfter, this])
        refine ⟨⟨ctxParent up, some a, ptr fr, fc, dat fd⟩,
          layout_read dat _ up fc _ fr fd rfl hnd, Or.inr ⟨rfl, hfr⟩, ?_⟩
        rw [if_neg (show ¬ (Cell.mk (ctxParent up) (some a) (ptr fr) fc (dat fd)).right = some a
          from hfr)]
        exact layout_read dat _ up fc _ fr fd rfl hnd'
      | ofRight fc fl fd =>
        refine ⟨⟨ctxParent up, ptr fl, some a, fc, dat fd⟩,
          layout_read dat _ up fc fl _ fd rfl hnd, Or.inl rfl, ?_⟩
        rw [if_pos (show (Cell.mk (ctxParent up) (ptr fl) (some a) fc (dat fd)).right = some a
          from rfl)]
        exact layout_read dat _ up fc fl _ fd rfl hnd'
  have hroot2 : ctxParent ctx = none → ctxRoot ctx (some cx) = some cx := by
    intro h
    cases ctx with
    | nil => rfl
    | cons f up => cases h
  have hroot3 : ∀ fd, ctxParent ctx = some fd → ctxRoot ctx (some cx) = ctxRoot ctx (some a) := by
    intro fd h
    cases ctx with
    | nil => cases h
    | cons f up => rfl
  generalize layout dat (zip ctx (.mk c .NULL a (.mk cc cl cx cr))) = m0 at hA hC hroot hfr hF ⊢
  generalize layout dat (zip ctx (.mk .BLACK cl cx cr)) = m1 at hA1 hC1 hroot' hfr hF ⊢
  generalize ctxRoot ctx (some cx) = rb at hroot' hroot2 hroot3
  generalize ctxRoot ctx (some a) = ra at hroot hroot3
  generalize ctxParent ctx = pf at hA hC1 hF hfr hroot2 hroot3
  generalize ptr cl = pl at hC hC1
  generalize ptr cr = pr at hC hC1
  clear hnd hnd' hN hout ha1
  rcases pf with _ | fd
  · simp only [changeNodeH, whichChildNodeIsH, freeNodeH, Mem.free, Mem.setParent, Mem.setLeft,
        Mem.setRight,
      Mem.setColor, Mem.read, Mem.modify, Mem.write, Option.bind, Option.map, hA, hC,  hac, hca,
          int_ne1, int_ne2, int_ne3, int_ne4, int_ne5,
      int_ne6, if_true, if_false, ne_eq, not_true, not_false_eq_true, and_self, and_true, true_and,
      false_and, and_false, Option.some.injEq, reduceCtorEq, Option.pure_def, Option.bind_eq_bind,
      Option.some_bind, Prod.mk.injEq]
    refine Mem.ext' (funext fun z => ?_) ?_
    · by_cases hza : z = a
      · subst hza
        simp only [if_true, if_false, hA1]
      · by_cases hzc : z = cx
        · subst hzc
          simp only [hza, if_true, if_false, hC1]
        · simp only [hza, hzc, if_false]
          exact hfr z hza hzc (by simp)
    · simp only [hroot', hroot2 rfl]
  · obtain ⟨hfa, hfc, F, hF0, hFside, hF1⟩ := hF fd rfl
    have haf : ¬ a = fd := fun h => hfa h.symm
    have hcf : ¬ cx = fd := fun h => hfc h.symm
    rcases hFside with hs | ⟨hs1, hs2⟩
    · rw [if_pos hs] at hF1
      simp only [changeNodeH, whichChildNodeIsH, freeNodeH, Mem.free, Mem.setParent, Mem.setLeft,
          Mem.setRight,
        Mem.setColor, Mem.read, Mem.modify, Mem.write, Option.bind, Option.map, hA, hC, hF0, hfa,
            hfc, haf, hcf, hs, hac, hca, int_ne1, int_ne2, int_ne3, int_ne4, int_ne5,
        int_ne6, if_true, if_false, ne_eq, not_true, not_false_eq_true, and_self, and_true,
            true_and,
        false_and, and_false, Option.some.injEq, reduceCtorEq, Option.pure_def, Option.bind_eq_bind,
        Option.some_bind, Prod.mk.injEq]
      refine Mem.ext' (funext fun z => ?_) ?_
      · by_cases hza : z = a
        · subst hza
          simp only [if_true, if_false, hA1]
        · by_cases hzc : z = cx
          · subst hzc
            simp only [hza, if_true, if_false, hC1]
          · by_cases hzf : z = fd
            · subst hzf
              simp only [hza, hzc, if_true, if_false, hF1]
            · simp only [hza, hzc, hzf, if_false]
              exact hfr z hza hzc (fun h => hzf (Option.some.inj h).symm)
      · simp only [hroot, hroot', hroot3 fd rfl]
    · rw [if_neg hs2] at hF1
      simp only [changeNodeH, whichChildNodeIsH, freeNodeH, Mem.free, Mem.setParent, Mem.setLeft,
          Mem.setRight,
        Mem.setColor, Mem.read, Mem.modify, Mem.write, Option.bind, Option.map, hA, hC, hF0, hfa,
            hfc, haf, hcf, hs1, hs2, hac, hca, int_ne1, int_ne2, int_ne3, int_ne4, int_ne5,
        int_ne6, if_true, if_false, ne_eq, not_true, not_false_eq_true, and_self, and_true,
            true_and,
        false_and, and_false, Option.some.injEq, reduceCtorEq, Option.pure_def, Option.bind_eq_bind,
        Option.some_bind, Prod.mk.injEq]
      refine Mem.ext' (funext fun z => ?_) ?_
      · by_cases hza : z = a
        · subst hza
          simp only [if_true, if_false, hA1]
        · by_cases hzc : z = cx
          · subst hzc
            simp only [hza, if_true, if_false, hC1]
          · by_cases hzf : z = fd
            · subst hzf
              simp only [hza, hzc, if_true, if_false, hF1]
            · simp only [hza, hzc, hzf, if_false]
              exact hfr z hza hzc (fun h => hzf (Option.some.inj h).symm)
      · simp only [hroot, hroot', hroot3 fd rfl]

theorem changeFrame_left (dat : Nat → α) (ctx : Ctx Nat) (c cc : Color) (a cx : Nat)
    (cl cr : Node Nat) (z : Nat) (hnd : (inorder (zip ctx (.mk c (.mk cc cl cx cr) a .NULL))).Nodup)
    (hnd' : (inorder (zip ctx (.mk .BLACK cl cx cr))).Nodup)
    (hza : ¬ z = a) (hzc : ¬ z = cx) (hzf : ctxParent ctx ≠ some z) :
    (layout dat (zip ctx (.mk c (.mk cc cl cx cr) a .NULL))).heap z = (layout dat (zip ctx (.mk
        .BLACK cl cx cr))).heap z := by
  refine layout_frame dat ctx _ _ z hnd hnd' ?_ (Or.inr hzf)
  simp only [cellAt, hza, hzc, if_false, Option.or_none, Option.none_or]

set_option maxHeartbeats 1000000 in
/-- A node whose only child is its left child is replaced by that child,
the child is coloured black, and the node is freed. -/
theorem changeFree_left (dat : Nat → α) (ctx : Ctx Nat) (c cc : Color) (a cx : Nat)
    (cl cr : Node Nat) (hnd : (inorder (zip ctx (.mk c (.mk cc cl cx cr) a .NULL))).Nodup) :
    ((changeNodeH (layout dat (zip ctx (.mk c (.mk cc cl cx cr) a .NULL))) (some a) (some cx)).bind
        fun m => m.setColor (some cx) .BLACK).bind (fun m => freeNodeH m (some a)) =
      some (dat a, layout dat (zip ctx (.mk .BLACK cl cx cr))) := by
  have hnd' : (inorder (zip ctx (.mk .BLACK cl cx cr))).Nodup :=
    nodup_zip_sublist ctx _ _ (by simp [inorder]) hnd
  obtain ⟨hN, hout⟩ := nodup_focus ctx _ hnd
  have hac : ¬ a = cx := by
    intro h
    have := (nodup_inorder_mk _ _ _ _).1 hN
    exact this.2.2.1 (by simp [inorder, h])
  have hca : ¬ cx = a := fun h => hac h.symm
  have ha1 : a ∉ inorder (zip ctx (.mk .BLACK cl cx cr)) := by
    rw [inorder_zip]
    simp only [List.mem_append, not_or]
    have h1 := hout a (by simp [inorder])
    have h2 := (nodup_inorder_mk _ _ _ _).1 hN
    exact ⟨⟨h1.1, h2.2.2.1⟩, h1.2⟩
  have hA : (layout dat (zip ctx (.mk c (.mk cc cl cx cr) a .NULL))).heap a = some ⟨ctxParent ctx,
      some cx, none, c, dat a⟩ :=
    layout_read dat _ ctx c _ _ a rfl hnd
  have hC : (layout dat (zip ctx (.mk c (.mk cc cl cx cr) a .NULL))).heap cx = some ⟨some a, ptr
      cl, ptr cr, cc, dat cx⟩ :=
    layout_read dat _ (.ofLeft c a .NULL :: ctx) cc cl cr cx rfl hnd
  have hC1 : (layout dat (zip ctx (.mk .BLACK cl cx cr))).heap cx =
      some ⟨ctxParent ctx, ptr cl, ptr cr, .BLACK, dat cx⟩ :=
    layout_read dat _ ctx .BLACK cl cr cx rfl hnd'
  have hA1 := layout_none dat _ a ha1
  have hroot : (layout dat (zip ctx (.mk c (.mk cc cl cx cr) a .NULL))).root = ctxRoot ctx (some a)
      :=
    layout_root dat _ ctx (.mk c (.mk cc cl cx cr) a .NULL) rfl
  have hroot' : (layout dat (zip ctx (.mk .BLACK cl cx cr))).root = ctxRoot ctx (some cx) :=
    layout_root dat _ ctx (.mk .BLACK cl cx cr) rfl
  have hfr := fun z => changeFrame_left dat ctx c cc a cx cl cr z hnd hnd'
  have hF : ∀ fd, ctxParent ctx = some fd → ¬ fd = a ∧ ¬ fd = cx ∧
      ∃ F : Cell α, (layout dat (zip ctx (.mk c (.mk cc cl cx cr) a .NULL))).heap fd = some F ∧
        (F.right = some a ∨ (F.left = some a ∧ F.right ≠ some a)) ∧
        (layout dat (zip ctx (.mk .BLACK cl cx cr))).heap fd =
          some (if F.right = some a then { F with right := some cx }
            else { F with left := some cx }) := by
    intro fd hfd
    have hfN := ctxParent_not_mem ctx _ fd hnd hfd
    have h1 : ¬ fd = a := fun h => hfN (by simp [inorder, h])
    have h2 : ¬ fd = cx := fun h => hfN (by simp [inorder, h])
    refine ⟨h1, h2, ?_⟩
    cases ctx with
    | nil => cases hfd
    | cons f up =>
      cases Option.some.inj hfd
      cases f with
      | ofLeft fc fd fr =>
        have hfr : ptr fr ≠ some a := by
          intro h
          have := ptr_mem fr a h
          obtain ⟨-, hout⟩ := nodup_focus (.ofLeft fc fd fr :: up) _ hnd
          exact (hout a (by simp [inorder])).2 (by simp [ctxAfter, this])
        refine ⟨⟨ctxParent up, some a, ptr fr, fc, dat fd⟩,
          layout_read dat _ up fc _ fr fd rfl hnd, Or.inr ⟨rfl, hfr⟩, ?_⟩
        rw [if_neg (show ¬ (Cell.mk (ctxParent up) (some a) (ptr fr) fc (dat fd)).right = some a
          from hfr)]
        exact layout_read dat _ up fc _ fr fd rfl hnd'
      | ofRight fc fl fd =>
        refine ⟨⟨ctxParent up, ptr fl, some a, fc, dat fd⟩,
          layout_read dat _ up fc fl _ fd rfl hnd, Or.inl rfl, ?_⟩
        rw [if_pos (show (Cell.mk (ctxParent up) (ptr fl) (some a) fc (dat fd)).right = some a
          from rfl)]
        exact layout_read dat _ up fc fl _ fd rfl hnd'
  have hroot2 : ctxParent ctx = none → ctxRoot ctx (some cx) = some cx := by
    intro h
    cases ctx with
    | nil => rfl
    | cons f up => cases h
  have hroot3 : ∀ fd, ctxParent ctx = some fd → ctxRoot ctx (some cx) = ctxRoot ctx (some a) := by
    intro fd h
    cases ctx with
    | nil => cases h
    | cons f up => rfl
  generalize layout dat (zip ctx (.mk c (.mk cc cl cx cr) a .NULL)) = m0 at hA hC hroot hfr hF ⊢
  generalize layout dat (zip ctx (.mk .BLACK cl cx cr)) = m1 at hA1 hC1 hroot' hfr hF ⊢
  generalize ctxRoot ctx (some cx) = rb at hroot' hroot2 hroot3
  generalize ctxRoot ctx (some a) = ra at hroot hroot3
  generalize ctxParent ctx = pf at hA hC1 hF hfr hroot2 hroot3
  generalize ptr cl = pl at hC hC1
  generalize ptr cr = pr at hC hC1
  clear hnd hnd' hN hout ha1
  rcases pf with _ | fd
  · simp only [changeNodeH, whichChildNodeIsH, freeNodeH, Mem.free, Mem.setParent, Mem.setLeft,
        Mem.setRight,
      Mem.setColor, Mem.read, Mem.modify, Mem.write, Option.bind, Option.map, hA, hC,  hac, hca,
          int_ne1, int_ne2, int_ne3, int_ne4, int_ne5,
      int_ne6, if_true, if_false, ne_eq, not_true, not_false_eq_true, and_self, and_true, true_and,
      false_and, and_false, Option.some.injEq, reduceCtorEq, Option.pure_def, Option.bind_eq_bind,
      Option.some_bind, Prod.mk.injEq]
    refine Mem.ext' (funext fun z => ?_) ?_
    · by_cases hza : z = a
      · subst hza
        simp only [if_true, if_false, hA1]
      · by_cases hzc : z = cx
        · subst hzc
          simp only [hza, if_true, if_false, hC1]
        · simp only [hza, hzc, if_false]
          exact hfr z hza hzc (by simp)
    · simp only [hroot', hroot2 rfl]
  · obtain ⟨hfa, hfc, F, hF0, hFside, hF1⟩ := hF fd rfl
    have haf : ¬ a = fd := fun h => hfa h.symm
    have hcf : ¬ cx = fd := fun h => hfc h.symm
    rcases hFside with hs | ⟨hs1, hs2⟩
    · rw [if_pos hs] at hF1
      simp only [changeNodeH, whichChildNodeIsH, freeNodeH, Mem.free, Mem.setParent, Mem.setLeft,
          Mem.setRight,
        Mem.setColor, Mem.read, Mem.modify, Mem.write, Option.bind, Option.map, hA, hC, hF0, hfa,
            hfc, haf, hcf, hs, hac, hca, int_ne1, int_ne2, int_ne3, int_ne4, int_ne5,
        int_ne6, if_true, if_false, ne_eq, not_true, not_false_eq_true, and_self, and_true,
            true_and,
        false_and, and_false, Option.some.injEq, reduceCtorEq, Option.pure_def, Option.bind_eq_bind,
        Option.some_bind, Prod.mk.injEq]
      refine Mem.ext' (funext fun z => ?_) ?_
      · by_cases hza : z = a
        · subst hza
          simp only [if_true, if_false, hA1]
        · by_cases hzc : z = cx
          · subst hzc
            simp only [hza, if_true, if_false, hC1]
          · by_cases hzf : z = fd
            · subst hzf
              simp only [hza, hzc, if_true, if_false, hF1]
            · simp only [hza, hzc, hzf, if_false]
              exact hfr z hza hzc (fun h => hzf (Option.some.inj h).symm)
      · simp only [hroot, hroot', hroot3 fd rfl]
    · rw [if_neg hs2] at hF1
      simp only [changeNodeH, whichChildNodeIsH, freeNodeH, Mem.free, Mem.setParent, Mem.setLeft,
          Mem.setRight,
        Mem.setColor, Mem.read, Mem.modify, Mem.write, Option.bind, Option.map, hA, hC, hF0, hfa,
            hfc, haf, hcf, hs1, hs2, hac, hca, int_ne1, int_ne2, int_ne3, int_ne4, int_ne5,
        int_ne6, if_true, if_false, ne_eq, not_true, not_false_eq_true, and_self, and_true,
            true_and,
        false_and, and_false, Option.some.injEq, reduceCtorEq, Option.pure_def, Option.bind_eq_bind,
        Option.some_bind, Prod.mk.injEq]
      refine Mem.ext' (funext fun z => ?_) ?_
      · by_cases hza : z = a
        · subst hza
          simp only [if_true, if_false, hA1]
        · by_cases hzc : z = cx
          · subst hzc
            simp only [hza, if_true, if_false, hC1]
          · by_cases hzf : z = fd
            · subst hzf
              simp only [hza, hzc, if_true, if_false, hF1]
            · simp only [hza, hzc, hzf, if_false]
              exact hfr z hza hzc (fun h => hzf (Option.some.inj h).symm)
      · simp only [hroot, hroot', hroot3 fd rfl]

end RBT

namespace RBT
variable {α σ ω β : Type}

/-! ### Deletion in memory -/

/-- `delete2` and the `free` that follows it, in memory: under the
hypotheses of `delete2_spec` the memory afterwards is the layout of the tree
that `delete2` returns. -/
theorem delete2H_spec (dat : Nat → α) (ctx : Ctx Nat) (c : Color) (l : Node Nat) (a : Nat)
    (r : Node Nat) (hnd : (inorder (zip ctx (.mk c l a r))).Nodup)
    (hctx : CtxRB ctx (blackHeight (Node.mk c l a r))) (hbn : Balanced (.mk c l a r))
    (hnn : NoRedRed (.mk c l a r))
    (hroot : CtxRootBlack ctx) (hrootc : ctx = [] → c = .BLACK)
    (hone : l = .NULL ∨ r = .NULL) (hnot : ¬ (ctx = [] ∧ l = .NULL ∧ r = .NULL)) :
    ∃ root, delete2 ⟨ctx, .mk c l a r⟩ = some root ∧
      ∀ fuel, delete3Fuel ctx ≤ fuel →
        (delete2H fuel (layout dat (zip ctx (.mk c l a r))) (some a)).bind
            (fun m => freeNodeH m (some a)) = some (dat a, layout dat root) := by
  obtain ⟨hlr, hbl, hbr⟩ := hbn
  obtain ⟨hred, hnl, hnr⟩ := hnn
  have hA := layout_read dat _ ctx c l r a rfl hnd
  cases c with
  | RED =>
    obtain ⟨hlb, hrb⟩ := hred rfl
    have hl0 : blackHeight l = 0 := by
      rcases hone with h | h
      · subst h; rfl
      · subst h; simpa [blackHeight] using hlr
    have hr0 : blackHeight r = 0 := by omega
    have hl := eq_null_of_blackHeight_zero hl0 hlb
    have hr := eq_null_of_blackHeight_zero hr0 hrb
    subst hl hr
    cases ctx with
    | nil => have := hrootc rfl; cases this
    | cons f up =>
      refine ⟨_, delete2_red f up _ _ _, ?_⟩
      intro fuel _
      cases f with
      | ofLeft fc fd fs =>
        obtain ⟨m2, h1, h2, h3⟩ := unlinkFree_left dat fc .RED fd a fs up hnd
        simp only [delete2H, Mem.read, Option.bind, hA, reduceCtorEq, if_false, h1, freeNodeH, h2,
          h3, Option.pure_def, Option.bind_eq_bind, Option.some_bind]
      | ofRight fc fs fd =>
        obtain ⟨m2, h1, h2, h3⟩ := unlinkFree_right dat fc .RED fd a fs up hnd
        simp only [delete2H, Mem.read, Option.bind, hA, reduceCtorEq, if_false, h1, freeNodeH, h2,
          h3, Option.pure_def, Option.bind_eq_bind, Option.some_bind]
  | BLACK =>
    cases r with
    | mk cc cl cx cr =>
      have hl : l = .NULL := by
        rcases hone with h | h
        · exact h
        · cases h
      subst hl
      refine ⟨_, delete2_black_right ctx a cx cc .NULL cl cr, ?_⟩
      intro fuel _
      have hch := changeFree_right dat ctx .BLACK cc a cx cl cr hnd
      simp only [ptr_mk, ptr_null] at hA
      simp only [delete2H, Mem.read, Option.bind, hA, if_true, reduceCtorEq, if_false,
        Option.pure_def, Option.bind_eq_bind, Option.some_bind]
      exact hch
    | NULL =>
      cases l with
      | mk cc cl cx cr =>
        refine ⟨_, delete2_black_left ctx a cx cc cl cr, ?_⟩
        intro fuel _
        have hch := changeFree_left dat ctx .BLACK cc a cx cl cr hnd
        simp only [ptr_mk, ptr_null] at hA
        simp only [delete2H, Mem.read, Option.bind, hA, if_true, reduceCtorEq, if_false,
          Option.pure_def, Option.bind_eq_bind, Option.some_bind]
        exact hch
      | NULL =>
        have hne : ctx ≠ [] := fun h => hnot ⟨h, rfl, rfl⟩
        obtain ⟨ctx', h1, h2, h3, h4, h5, h6⟩ := delete3_spec (delete3Fuel ctx) ctx
          (.mk .BLACK .NULL a .NULL) 0 (le_refl _)
          (by simpa [blackHeight, blackInc] using hctx) hroot
        cases ctx' with
        | nil => exact absurd (h6.1 rfl) hne
        | cons f' up' =>
          refine ⟨zip (f' :: up') .NULL, ?_, ?_⟩
          · rw [delete2_black_leaf, h1]
            rfl
          · intro fuel hfuel
            have h1f : delete3 fuel ⟨ctx, .mk .BLACK .NULL a .NULL⟩ =
                some ⟨f' :: up', .mk .BLACK .NULL a .NULL⟩ := by
              rw [delete3_fuel fuel (delete3Fuel ctx) ctx _ hfuel (le_refl _)]
              exact h1
            obtain ⟨-, e2, e3⟩ := delete3H_sim dat fuel ctx .BLACK .NULL a .NULL _ hnd h1f
            have hnd2 : (inorder (zip (f' :: up') (.mk .BLACK .NULL a .NULL))).Nodup := by
              have : inorder (zip (f' :: up') (.mk .BLACK .NULL a .NULL)) =
                  inorder (zip ctx (.mk .BLACK .NULL a .NULL)) := e2
              rw [this]
              exact hnd
            have e3' : delete3H fuel (layout dat (zip ctx (.mk .BLACK .NULL a .NULL))) (some a) =
                some (layout dat (zip (f' :: up') (.mk .BLACK .NULL a .NULL))) := e3
            simp only [ptr_null] at hA
            cases f' with
            | ofLeft fc fd fs =>
              obtain ⟨m2, u1, u2, u3⟩ := unlinkFree_left dat fc .BLACK fd a fs up' hnd2
              simp only [delete2H, Mem.read, Option.bind, hA, if_true, e3', u1, freeNodeH, u2, u3,
                Option.pure_def, Option.bind_eq_bind, Option.some_bind]
            | ofRight fc fs fd =>
              obtain ⟨m2, u1, u2, u3⟩ := unlinkFree_right dat fc .BLACK fd a fs up' hnd2
              simp only [delete2H, Mem.read, Option.bind, hA, if_true, e3', u1, freeNodeH, u2, u3,
                Option.pure_def, Option.bind_eq_bind, Option.some_bind]

end RBT

namespace RBT
variable {α σ ω β : Type}

/-- `findNodeInTree` in memory follows the search on the tree. -/
theorem findNodeInTreeH_sim (dat : Nat → α) (cmp : α → α → Int) (d : α) (T : Node Nat)
    (hT : (inorder T).Nodup) :
    ∀ (t : Node Nat) (ctx : Ctx Nat) (fuel : Nat), zip ctx t = T → nodeCount t < fuel →
      findNodeInTreeH (layout dat T) cmp d fuel (ptr t) =
        some ((findNodeInTree t (fun _ x => cmp d (dat x)) 0 ctx).bind fun p => ptr p.node) := by
  intro t
  induction t with
  | NULL =>
    intro ctx fuel _ hf
    obtain ⟨k, rfl⟩ : ∃ k, fuel = k + 1 := ⟨fuel - 1, by omega⟩
    rfl
  | mk c l x r ihl ihr =>
    intro ctx fuel hz hf
    obtain ⟨k, rfl⟩ : ∃ k, fuel = k + 1 := ⟨fuel - 1, by omega⟩
    simp only [nodeCount] at hf
    have hA := layout_read dat T ctx c l r x hz hT
    simp only [findNodeInTreeH, ptr_mk, hA, findNodeInTree]
    by_cases h1 : cmp d (dat x) = EQUAL
    · simp only [h1, if_true, Option.some_bind, ptr_mk]
    · simp only [h1, if_false]
      by_cases h2 : cmp d (dat x) > 0
      · simp only [h2, if_true]
        exact ihr (.ofRight c l x :: ctx) k hz (by omega)
      · simp only [h2, if_false]
        exact ihl (.ofLeft c x r :: ctx) k hz (by omega)

/-- The loop of `getSuccFromRightChild` in memory follows the loop on the
tree. -/
theorem getSuccLoopH_sim (dat : Nat → α) (T : Node Nat) (hT : (inorder T).Nodup) :
    ∀ (t : Node Nat) (ctx : Ctx Nat) (fuel : Nat), zip ctx t = T → nodeCount t < fuel →
      getSuccLoopH (layout dat T) fuel (ptr t) = (getSuccLoop t ctx).map fun p => ptr p.node := by
  intro t
  induction t with
  | NULL =>
    intro ctx fuel _ hf
    obtain ⟨k, rfl⟩ : ∃ k, fuel = k + 1 := ⟨fuel - 1, by omega⟩
    rfl
  | mk c l x r ihl _ =>
    intro ctx fuel hz hf
    obtain ⟨k, rfl⟩ : ∃ k, fuel = k + 1 := ⟨fuel - 1, by omega⟩
    simp only [nodeCount] at hf
    have hA := layout_read dat T ctx c l r x hz hT
    cases l with
    | NULL =>
      simp only [getSuccLoopH, Mem.read, ptr_mk, Option.some_bind, hA, ptr_null, ne_eq,
        not_true_eq_false, if_false, getSuccLoop, Option.map_some']
    | mk lc ll lx lr =>
      simp only [getSuccLoopH, Mem.read, ptr_mk, Option.some_bind, hA, ne_eq, reduceCtorEq,
        not_false_eq_true, if_true, getSuccLoop]
      have := ihl (.ofLeft c x r :: ctx) k hz (by simp only [nodeCount] at hf ⊢; omega)
      simp only [ptr_mk] at this
      exact this

theorem option_or_map {γ δ : Type} (f : γ → δ) (x y : Option γ) :
    (x.or y).map f = (x.map f).or (y.map f) := by
  cases x <;> rfl

/-- The layout for another data map has the same cells with other data. -/
theorem cellAt_map (dat dat' : Nat → α) (z : Nat) :
    ∀ (t : Node Nat) (par : Ptr),
      cellAt dat' t par z = (cellAt dat t par z).map fun c => { c with data := dat' z } := by
  intro t
  induction t with
  | NULL => intro par; rfl
  | mk c l a r ihl ihr =>
    intro par
    simp only [cellAt]
    by_cases hz : z = a
    · subst hz
      simp only [if_true, Option.map_some']
    · simp only [hz, if_false, option_or_map, ihl, ihr]

/-- The data in a cell of the layout. -/
theorem layout_data (dat : Nat → α) (T : Node Nat) (z : Nat) (c : Cell α)
    (h : (layout dat T).heap z = some c) : c.data = dat z := by
  have := cellAt_map dat dat z T none
  have h' : cellAt dat T none z = some c := h
  rw [h'] at this
  simp only [Option.map_some', Option.some.injEq] at this
  rw [this]

/-- `swapData` in memory exchanges the data of two addresses; the tree of
addresses stays as it is. -/
theorem swapDataH_sim (dat : Nat → α) (T : Node Nat) (a s : Nat) (A S : Cell α) (has : ¬ a = s)
    (hA : (layout dat T).heap a = some A) (hS : (layout dat T).heap s = some S) :
    swapDataH (layout dat T) (some a) (some s) =
      some (layout (Function.update (Function.update dat a (dat s)) s (dat a)) T) := by
  have hsa : ¬ s = a := fun h => has h.symm
  have dA := layout_data dat T a A hA
  have dS := layout_data dat T s S hS
  simp only [swapDataH, Mem.read, Option.bind, hA, hS, Mem.modify, Mem.write, hsa, if_false,
    Option.map_some', Option.pure_def, Option.bind_eq_bind, Option.some_bind, Option.some.injEq]
  refine Mem.ext' (funext fun z => ?_) rfl
  have hz := cellAt_map dat (Function.update (Function.update dat a (dat s)) s (dat a)) z T none
  show _ = cellAt (Function.update (Function.update dat a (dat s)) s (dat a)) T none z
  rw [hz]
  have hA' : cellAt dat T none a = some A := hA
  have hS' : cellAt dat T none s = some S := hS
  by_cases h1 : z = s
  · subst h1
    simp only [if_true, hS', Option.map_some', Function.update_same, dA]
  · by_cases h2 : z = a
    · subst h2
      simp only [h1, if_true, if_false, hA', Option.map_some', Function.update_noteq h1,
        Function.update_same, dS]
    · simp only [h1, h2, if_false, Function.update_noteq h1, Function.update_noteq h2]
      show cellAt dat T none z = _
      cases hc : cellAt dat T none z with
      | none => rfl
      | some c =>
        have := layout_data dat T z c hc
        simp only [Option.map_some', ← this]

theorem delete3Fuel_le (ctx : Ctx Nat) (t : Node Nat) :
    delete3Fuel ctx + 2 * nodeCount t ≤ 2 * nodeCount (zip ctx t) + 1 := by
  induction ctx generalizing t with
  | nil =>
    simp only [zip, delete3Fuel]
    omega
  | cons f up ih =>
    have := ih (f.plug t)
    cases f <;>
      simp only [zip_cons, Frame.plug, nodeCount, delete3Fuel, Frame.sibling] at this ⊢ <;> omega

end RBT

namespace RBT
variable {α σ ω β : Type}

/-- Removing the node at a location that has at most one child, in memory:
`delete2` and the `free` after it leave the layout of a tree that satisfies
the colour invariants and has one node less. -/
theorem deleteAt_spec (T : Node Nat) (ctx : Ctx Nat) (c : Color) (l : Node Nat) (a : Nat)
    (r : Node Nat) (hz : zip ctx (.mk c l a r) = T) (hnd : (inorder T).Nodup)
    (hrb : RootBlack T) (hn : NoRedRed T) (hb : Balanced T)
    (hone : l = .NULL ∨ r = .NULL) (hnot : ¬ (ctx = [] ∧ l = .NULL ∧ r = .NULL)) :
    ∃ root, (inorder root).Nodup ∧ RootBlack root ∧ NoRedRed root ∧ Balanced root ∧
      nodeCount root + 1 = nodeCount T ∧
      ∀ (dat : Nat → α) (fuel : Nat), 2 * nodeCount T + 2 ≤ fuel →
        (delete2H fuel (layout dat T) (some a)).bind (fun m => freeNodeH m (some a)) =
          some (dat a, layout dat root) := by
  subst hz
  obtain ⟨hctx, hbn, hnn, hcol⟩ := unzip_valid ctx _ hb hn
  obtain ⟨hroot, hrootc⟩ := rootBlack_ctx ctx _ hrb
  obtain ⟨root, h1, h2, h3, h4, h5⟩ := delete2_spec ctx c l a r hctx hbn hnn hcol hroot hrootc
    hone hnot
  have hsub : (inorder root).Sublist (inorder (zip ctx (.mk c l a r))) := by
    rw [h5, inorder_zip]
    simp only [inorder]
    exact ((List.Sublist.refl _).append ((List.Sublist.refl _).append
      (List.sublist_cons_self _ _))).append (List.Sublist.refl _)
  refine ⟨root, hnd.sublist hsub, h2, h3, h4, ?_, ?_⟩
  · rw [nodeCount_eq_length, nodeCount_eq_length, h5, inorder_zip]
    simp only [inorder, List.length_append, List.length_cons]
    omega
  · intro dat fuel hfuel
    obtain ⟨root', g1, g2⟩ := delete2H_spec dat ctx c l a r hnd hctx hbn hnn hroot hrootc hone hnot
    rw [h1] at g1
    cases Option.some.inj g1
    refine g2 fuel ?_
    have := delete3Fuel_le ctx (.mk c l a r)
    omega

theorem nodeCount_one {T : Node Nat} (h : nodeCount T = 1) :
    ∃ c a, T = .mk c .NULL a .NULL := by
  cases T with
  | NULL => cases h
  | mk c l a r =>
    simp only [nodeCount] at h
    have hl := eq_null_of_nodeCount_zero (t := l) (by omega)
    have hr := eq_null_of_nodeCount_zero (t := r) (by omega)
    subst hl hr
    exact ⟨c, a, rfl⟩

/-- `deleteFromRBTree` in memory, on the layout of a tree that satisfies the
colour invariants: with enough fuel it returns, and the memory afterwards is
the layout of such a tree again. -/
theorem deleteFromRBTreeH_spec (cmp : α → α → Int) (freeFunc : α → σ → σ) (dat : Nat → α)
    (T : Node Nat) (d : α) (w : σ) (hnd : (inorder T).Nodup) (hrb : RootBlack T)
    (hn : NoRedRed T) (hb : Balanced T) (sz : Int) (hsz : sz = nodeCount T) :
    ∃ (r : Int) (dat' : Nat → α) (T' : Node Nat) (sz' : Int) (w' : σ), (inorder T').Nodup ∧
      RootBlack T' ∧ NoRedRed T' ∧ Balanced T' ∧ sz' = nodeCount T' ∧
      ∀ fuel, 2 * nodeCount T + 2 ≤ fuel →
        deleteFromRBTreeH fuel cmp freeFunc ⟨layout dat T, sz⟩ d w =
          some (r, ⟨layout dat' T', sz'⟩, w') := by
  have hfind := fun fuel (hf : nodeCount T < fuel) =>
    findNodeInTreeH_sim dat cmp d T hnd T [] fuel rfl hf
  cases hp : findNodeInTree T (fun _ x => cmp d (dat x)) 0 [] with
  | none =>
    refine ⟨FAILURE, dat, T, sz, w, hnd, hrb, hn, hb, hsz, ?_⟩
    intro fuel hfuel
    have := hfind fuel (by omega)
    rw [hp] at this
    simp only [deleteFromRBTreeH, layout_root_eq, this]
    rfl
  | some p =>
    obtain ⟨hz, c, l, a, r, hnode, -, -⟩ := findNodeInTree_some T [] p hp
    obtain ⟨ctx, node⟩ := p
    simp only at hz hnode
    subst hnode
    simp only [zip] at hz
    have hfind2 : ∀ fuel, nodeCount T < fuel →
        findNodeInTreeH (layout dat T) cmp d fuel (ptr T) = some (some a) := by
      intro fuel hf
      rw [hfind fuel hf, hp]
      rfl
    by_cases hone : sz = ONLY_NODE
    · obtain ⟨c0, a0, h0⟩ := nodeCount_one (T := T) (by
        have : (nodeCount T : Int) = 1 := by rw [← hsz]; exact hone
        exact_mod_cast this)
      subst h0
      refine ⟨SUCCESS, dat, .NULL, sz - 1, freeFunc (dat a0) w, by simp [inorder], rfl, trivial,
        trivial, by rw [hone]; rfl, ?_⟩
      intro fuel hfuel
      have hA : (layout dat (.mk c0 .NULL a0 .NULL)).heap a0 =
          some ⟨none, none, none, c0, dat a0⟩ :=
        layout_read dat _ [] c0 .NULL .NULL a0 rfl hnd
      have hf2 := hfind2 fuel (by omega)
      simp only [ptr_mk] at hf2
      simp only [deleteFromRBTreeH, layout_root_eq, ptr_mk, hf2, hone, if_true,
        freeNodeH, Mem.read, Option.bind, hA, Mem.free, Option.map_some', Option.pure_def,
        Option.bind_eq_bind, Option.some_bind, Option.some.injEq, Prod.mk.injEq, true_and,
        and_true]
      congr 1
      refine Mem.ext' (funext fun z => ?_) rfl
      by_cases hza : z = a0
      · simp [hza, layout, cellAt]
      · simp [hza, layout, cellAt]
    · have hcount : nodeCount T ≠ 1 := by
        intro h
        apply hone
        rw [hsz, h]
        rfl
      have hA := layout_read dat T ctx c l r a hz hnd
      have hsize : ∀ root : Node Nat, nodeCount root + 1 = nodeCount T →
          sz - 1 = (nodeCount root : Int) := by
        intro root h
        rw [hsz, ← h]
        push_cast
        omega
      have hone2 : ∀ (dat2 : Nat → α), (l = .NULL ∨ r = .NULL) →
          ∃ root, (inorder root).Nodup ∧ RootBlack root ∧ NoRedRed root ∧ Balanced root ∧
            nodeCount root + 1 = nodeCount T ∧
            ∀ fuel, 2 * nodeCount T + 2 ≤ fuel →
              (delete2H fuel (layout dat2 T) (some a)).bind (fun m => freeNodeH m (some a)) =
                some (dat2 a, layout dat2 root) := by
        intro dat2 h1
        have hnot : ¬ (ctx = [] ∧ l = .NULL ∧ r = .NULL) := by
          rintro ⟨rfl, rfl, rfl⟩
          apply hcount
          rw [← hz]
          rfl
        obtain ⟨root, g1, g2, g3, g4, g5, g6⟩ :=
          @deleteAt_spec α T ctx c l a r hz hnd hrb hn hb h1 hnot
        exact ⟨root, g1, g2, g3, g4, g5, fun fuel hf => g6 dat2 fuel hf⟩
      have hfinish : ∀ (fuel : Nat) (root : Node Nat), nodeCount T < fuel → (ptr l = none ∨ ptr r =
          none) →
          (delete2H fuel (layout dat T) (some a)).bind (fun m => freeNodeH m (some a)) =
            some (dat a, layout dat root) →
          deleteFromRBTreeH fuel cmp freeFunc ⟨layout dat T, sz⟩ d w =
            some (SUCCESS, ⟨layout dat root, sz - 1⟩, freeFunc (dat a) w) := by
        intro fuel root hf hlr hdel
        have hcond : ¬ (¬ ptr l = none ∧ ¬ ptr r = none) := by
          rintro ⟨h1, h2⟩
          rcases hlr with h | h
          · exact h1 h
          · exact h2 h
        simp only [deleteFromRBTreeH, layout_root_eq, hfind2 fuel hf, hone, if_false, hA,
          ne_eq, hcond, Option.pure_def, Option.bind_eq_bind, Option.some_bind]
        rw [← Option.bind_assoc, hdel]
        rfl
      cases l with
      | NULL =>
        obtain ⟨root, g1, g2, g3, g4, g5, g6⟩ := hone2 dat (Or.inl rfl)
        exact ⟨SUCCESS, dat, root, sz - 1, freeFunc (dat a) w, g1, g2, g3, g4, hsize root g5,
          fun fuel hf => hfinish fuel root (by omega) (Or.inl rfl) (g6 fuel hf)⟩
      | mk lc ll lx lr =>
        cases r with
        | NULL =>
          obtain ⟨root, g1, g2, g3, g4, g5, g6⟩ := hone2 dat (Or.inr rfl)
          exact ⟨SUCCESS, dat, root, sz - 1, freeFunc (dat a) w, g1, g2, g3, g4, hsize root g5,
            fun fuel hf => hfinish fuel root (by omega) (Or.inr rfl) (g6 fuel hf)⟩
        | mk rc rl rx rr =>
          obtain ⟨rel, sc, s, sr, after, k1, k2, k3, -, -⟩ := getSuccLoop_spec (.mk rc rl rx rr)
            (.ofRight c (.mk lc ll lx lr) a :: ctx) (by simp)
          have zs : zip (rel ++ .ofRight c (.mk lc ll lx lr) a :: ctx) (.mk sc .NULL s sr) = T := by
            rw [zip_append, k2]
            exact hz
          obtain ⟨root, g1, g2, g3, g4, g5, g6⟩ := @deleteAt_spec α T _ sc .NULL s sr zs hnd hrb hn
              hb
            (Or.inl rfl) (by simp)
          have hS := layout_read dat T _ sc .NULL sr s zs hnd
          have has : ¬ a = s := by
            intro h
            have hN := (nodup_focus ctx _ (hz ▸ hnd)).1
            have h4 := ((nodup_inorder_mk _ _ _ _).1 hN).2.2.2.1
            apply h4
            rw [k3, h]
            simp
          have hle : nodeCount (Node.mk rc rl rx rr) ≤ nodeCount T := by
            have := nodeCount_zip_ge (.ofRight c (.mk lc ll lx lr) a :: ctx) (.mk rc rl rx rr)
            rw [show zip (.ofRight c (.mk lc ll lx lr) a :: ctx) (.mk rc rl rx rr) = T from hz]
                at this
            exact this
          refine ⟨SUCCESS, Function.update (Function.update dat a (dat s)) s (dat a), root, sz - 1,
            freeFunc (dat a) w, g1, g2, g3, g4, hsize root g5, ?_⟩
          intro fuel hfuel
          have hsucc := getSuccLoopH_sim dat T hnd (.mk rc rl rx rr)
            (.ofRight c (.mk lc ll lx lr) a :: ctx) fuel hz (by omega)
          rw [k1] at hsucc
          have hswap := swapDataH_sim dat T a s _ _ has hA hS
          have hdel := g6 (Function.update (Function.update dat a (dat s)) s (dat a)) fuel hfuel
          simp only [Function.update_same] at hdel
          simp only [ptr_mk, Option.map_some'] at hsucc hA
          simp only [deleteFromRBTreeH, layout_root_eq, hfind2 fuel (by omega), hone, if_false, hA,
            ne_eq, reduceCtorEq, not_false_eq_true, and_self, if_true, getSuccFromRightChildH,
            Mem.read, hsucc, hswap, Option.pure_def, Option.bind_eq_bind,
            Option.some_bind]
          rw [← Option.bind_assoc, hdel]
          rfl

end RBT

namespace RBT
variable {α σ ω β : Type}

/-! ### The links of a laid-out tree -/

/-- Every address in a tree is the address of the node at some location. -/
theorem exists_loc (z : Nat) : ∀ (t : Node Nat) (ctx : Ctx Nat), z ∈ inorder t →
    ∃ ctx' c l r, zip ctx' (.mk c l z r) = zip ctx t := by
  intro t
  induction t with
  | NULL => intro ctx h; simp [inorder] at h
  | mk c l x r ihl ihr =>
    intro ctx h
    simp only [inorder, List.mem_append, List.mem_cons] at h
    rcases h with h | rfl | h
    · exact ihl (.ofLeft c x r :: ctx) h
    · exact ⟨ctx, c, l, r, rfl⟩
    · exact ihr (.ofRight c l x :: ctx) h

/-- An address with a cell in the layout of a tree is an address of the tree. -/
theorem mem_of_layout_some (dat : Nat → α) (T : Node Nat) (z : Nat) (c : Cell α)
    (h : (layout dat T).heap z = some c) : z ∈ inorder T := by
  by_contra hz
  rw [layout_none dat T z hz] at h
  cases h

theorem follow_layout (dat : Nat → α) (T : Node Nat) (hT : (inorder T).Nodup) :
    ∀ (path : List Bool) (t : Node Nat) (ctx : Ctx Nat), zip ctx t = T →
      follow (layout dat T) (ptr t) path = followT t path := by
  intro path
  induction path with
  | nil => intro t ctx _; cases t <;> rfl
  | cons b path ih =>
    intro t ctx hz
    cases t with
    | NULL => rfl
    | mk c l x r =>
      have hA := layout_read dat T ctx c l r x hz hT
      simp only [follow, Mem.read, ptr_mk, Option.some_bind, hA, followT]
      cases b with
      | false => exact ih l (.ofLeft c x r :: ctx) hz
      | true => exact ih r (.ofRight c l x :: ctx) hz

theorem followT_mem (a : Nat) : ∀ (path : List Bool) (t : Node Nat),
    followT t path = some a → a ∈ inorder t := by
  intro path
  induction path with
  | nil =>
    intro t h
    cases t with
    | NULL => cases h
    | mk c l x r =>
      simp only [followT, ptr_mk, Option.some.injEq] at h
      subst h
      simp [inorder]
  | cons b path ih =>
    intro t h
    cases t with
    | NULL => cases h
    | mk c l x r =>
      simp only [followT] at h
      have := ih _ h
      cases b <;> simp only [inorder, List.mem_append, List.mem_cons] <;> simp_all

/-- In a tree with distinct addresses each address is reached along exactly
one path. -/
theorem followT_unique (a : Nat) : ∀ (t : Node Nat), (inorder t).Nodup → a ∈ inorder t →
    ∃! path, followT t path = some a := by
  intro t
  induction t with
  | NULL => intro _ h; simp [inorder] at h
  | mk c l x r ihl ihr =>
    intro hnd ha
    obtain ⟨hl, hr, hxl, hxr, hdis⟩ := (nodup_inorder_mk c l r x).1 hnd
    simp only [inorder, List.mem_append, List.mem_cons] at ha
    rcases ha with ha | rfl | ha
    · obtain ⟨q, hq, huniq⟩ := ihl hl ha
      refine ⟨false :: q, hq, ?_⟩
      intro p hp
      cases p with
      | nil =>
        simp only [followT, ptr_mk, Option.some.injEq] at hp
        subst hp
        exact absurd ha hxl
      | cons b p =>
        cases b with
        | false => rw [huniq p hp]
        | true => exact absurd (followT_mem a p r hp) (hdis a ha)
    · refine ⟨[], rfl, ?_⟩
      intro p hp
      cases p with
      | nil => rfl
      | cons b p =>
        cases b with
        | false => exact absurd (followT_mem a p l hp) hxl
        | true => exact absurd (followT_mem a p r hp) hxr
    · obtain ⟨q, hq, huniq⟩ := ihr hr ha
      refine ⟨true :: q, hq, ?_⟩
      intro p hp
      cases p with
      | nil =>
        simp only [followT, ptr_mk, Option.some.injEq] at hp
        subst hp
        exact absurd ha hxr
      | cons b p =>
        cases b with
        | false => exact absurd ha (fun h => hdis a (followT_mem a p l hp) h)
        | true => rw [huniq p hp]

/-- The layout of a tree with distinct addresses has consistent links. -/
theorem linksConsistent_layout (dat : Nat → α) (T : Node Nat) (hT : (inorder T).Nodup) :
    LinksConsistent (layout dat T) := by
  refine ⟨?_, ?_, ?_⟩
  · intro c h
    cases T with
    | NULL => cases h
    | mk tc l a r =>
      have hA := layout_read dat _ [] tc l r a rfl hT
      simp only [layout_root_eq, ptr_mk, Mem.read, Option.some_bind] at h
      have hA' : (layout dat (.mk tc l a r)).heap a = some ⟨none, ptr l, ptr r, tc, dat a⟩ := hA
      rw [hA'] at h
      cases h
      rfl
  · intro a n ch hn hch
    obtain ⟨ctx, c, l, r, hz⟩ := exists_loc a T [] (mem_of_layout_some dat T a n hn)
    simp only [zip] at hz
    have hA := layout_read dat T ctx c l r a hz hT
    rw [hA] at hn
    cases hn
    rcases hch with h | h
    · cases l with
      | NULL => cases h
      | mk lc ll lx lr =>
        simp only [ptr_mk, Option.some.injEq] at h
        subst h
        exact ⟨_, layout_read dat T (.ofLeft c a r :: ctx) lc ll lr lx hz hT, rfl⟩
    · cases r with
      | NULL => cases h
      | mk rc rl rx rr =>
        simp only [ptr_mk, Option.some.injEq] at h
        subst h
        exact ⟨_, layout_read dat T (.ofRight c l a :: ctx) rc rl rr rx hz hT, rfl⟩
  · intro a n hn
    have ha := mem_of_layout_some dat T a n hn
    obtain ⟨q, hq, huniq⟩ := followT_unique a T hT ha
    refine ⟨q, ?_, ?_⟩
    · show follow (layout dat T) (ptr T) q = some a
      rw [follow_layout dat T hT q T [] rfl]
      exact hq
    · intro p hp
      apply huniq
      rw [← follow_layout dat T hT p T [] rfl]
      exact hp

end RBT

namespace RBT
variable {α σ ω β : Type}

/-! ### Reachable trees in memory -/

theorem not_mem_of_layout_none (dat : Nat → α) (T : Node Nat) (hT : (inorder T).Nodup) (z : Nat)
    (h : (layout dat T).heap z = none) : z ∉ inorder T := by
  intro hz
  obtain ⟨ctx, c, l, r, hloc⟩ := exists_loc z T [] hz
  simp only [zip] at hloc
  rw [layout_read dat T ctx c l r z hloc hT] at h
  cases h

/-- The memory of a reachable tree is the layout of a tree with distinct
addresses that satisfies the colour invariants, and `size` is its number of
nodes. -/
theorem hreachable_layout {compFunc : α → α → Int} {freeFunc : α → σ → σ} {t : TreeH α}
    (d0 : α) (h : HReachable compFunc freeFunc t) :
    ∃ (dat : Nat → α) (T : Node Nat), t.mem = layout dat T ∧ (inorder T).Nodup ∧ RootBlack T ∧
      NoRedRed T ∧ Balanced T ∧ t.size = nodeCount T := by
  induction h with
  | new =>
    exact ⟨fun _ => d0, .NULL, rfl, List.nodup_nil, rfl, trivial, trivial, rfl⟩
  | insert t t' data addr r bound _ hfresh hstep ih =>
    obtain ⟨dat, T, hmem, hnd, hrb, hn, hb, hsz⟩ := ih
    obtain ⟨m, sz⟩ := t
    simp only at hmem hsz hfresh
    subst hmem
    cases data with
    | none =>
      have := hstep bound (le_refl _)
      simp only [insertToRBTreeH, Option.some.injEq, Prod.mk.injEq] at this
      rw [← this.2]
      exact ⟨dat, T, rfl, hnd, hrb, hn, hb, hsz⟩
    | some d =>
      have haddr := not_mem_of_layout_none dat T hnd addr hfresh
      obtain ⟨r', dat', T', sz', g1, g2, g3, g4, g5, g6⟩ :=
        insertToRBTreeH_spec compFunc dat T d addr hnd hrb hn hb haddr sz
      have e1 := hstep (max bound (nodeCount T + 2)) (le_max_left _ _)
      have e2 := g6 (max bound (nodeCount T + 2)) (le_max_right _ _)
      rw [e1] at e2
      simp only [Option.some.injEq, Prod.mk.injEq] at e2
      rw [e2.2]
      exact ⟨dat', T', rfl, g1, g2, g3, g4, g5 hsz⟩
  | delete t t' data w w' r bound _ hstep ih =>
    obtain ⟨dat, T, hmem, hnd, hrb, hn, hb, hsz⟩ := ih
    obtain ⟨m, sz⟩ := t
    simp only at hmem hsz
    subst hmem
    obtain ⟨r', dat', T', sz', w2, g1, g2, g3, g4, g5, g6⟩ :=
      deleteFromRBTreeH_spec compFunc freeFunc dat T data w hnd hrb hn hb sz hsz
    have e1 := hstep (max bound (2 * nodeCount T + 2)) (le_max_left _ _)
    have e2 := g6 (max bound (2 * nodeCount T + 2)) (le_max_right _ _)
    rw [e1] at e2
    simp only [Option.some.injEq, Prod.mk.injEq] at e2
    rw [e2.2.1]
    exact ⟨dat', T', rfl, g1, g2, g3, g4, g5⟩

/-- Without elements there are no cells, and the links of any memory are
consistent. -/
theorem linksConsistent_of_isEmpty [IsEmpty α] (m : Mem α) : LinksConsistent m :=
  ⟨fun c _ => isEmptyElim c.data, fun _ n _ _ _ => isEmptyElim n.data,
    fun _ n _ => isEmptyElim n.data⟩

/-- A rotation to the left at a node of a laid-out tree that has a right
child. -/
theorem leftRotationH_layout (dat : Nat → α) (T : Node Nat) (hT : (inorder T).Nodup) (a : Nat)
    (n : Cell α) (hn : (layout dat T).heap a = some n) (hr : n.right ≠ none) :
    ∃ m', leftRotationH (layout dat T) (some a) = some m' ∧ LinksConsistent m' := by
  obtain ⟨ctx, c, l, r, hz⟩ := exists_loc a T [] (mem_of_layout_some dat T a n hn)
  simp only [zip] at hz
  subst hz
  rw [layout_read dat _ ctx c l r a rfl hT] at hn
  cases hn
  cases r with
  | NULL => exact absurd rfl hr
  | mk c2 l2 b r2 =>
    obtain ⟨h1, h2⟩ := leftRotationH_sim2 dat ctx c c2 l l2 r2 a b hT
    exact ⟨_, h1, linksConsistent_layout dat _ h2⟩

/-- A rotation to the right at a node of a laid-out tree that has a left
child. -/
theorem rightRotationH_layout (dat : Nat → α) (T : Node Nat) (hT : (inorder T).Nodup) (a : Nat)
    (n : Cell α) (hn : (layout dat T).heap a = some n) (hl : n.left ≠ none) :
    ∃ m', rightRotationH (layout dat T) (some a) = some m' ∧ LinksConsistent m' := by
  obtain ⟨ctx, c, l, r, hz⟩ := exists_loc a T [] (mem_of_layout_some dat T a n hn)
  simp only [zip] at hz
  subst hz
  rw [layout_read dat _ ctx c l r a rfl hT] at hn
  cases hn
  cases l with
  | NULL => exact absurd rfl hl
  | mk c2 l2 b r2 =>
    obtain ⟨h1, h2⟩ := rightRotationH_sim2 dat ctx c c2 l2 r2 r a b hT
    exact ⟨_, h1, linksConsistent_layout dat _ h2⟩

/-- The first insertion into a new tree, in memory. -/
theorem insertToRBTreeH_first (fuel : Nat) (hf : 1 ≤ fuel) :
    insertToRBTreeH fuel intCmp newRBTreeH (some 5) 0 = some (SUCCESS, oneTreeH) := by
  obtain ⟨k, rfl⟩ : ∃ k, fuel = k + 1 := ⟨fuel - 1, by omega⟩
  simp only [insertToRBTreeH, basicInsertH, basicInsertWalkH, newRBTreeH, Mem.write, Mem.setColor,
    Mem.modify, Option.bind_eq_bind, Option.some_bind, Option.pure_def, if_true,
    Option.map_some', Option.some.injEq, Prod.mk.injEq, true_and, oneTreeH, EMPTY_TREE]
  congr 1
  refine Mem.ext' (funext fun z => ?_) rfl
  by_cases hz : z = 0
  · simp [hz]
  · simp [hz]

/-- C22: parent and child links stay consistent.  In the memory of every tree
reachable from `newRBTree` by insertions and deletions the root has no parent,
a node that is the left or right child of a node has that node as its parent,
and every node is reached from the root along exactly one path.  Each
insertion and each deletion returns (with enough fuel) and leaves such a
memory, and so does a rotation to the left at a node with a right child and a
rotation to the right at a node with a left child. -/
theorem links_stay_consistent (compFunc : α → α → Int) (freeFunc : α → σ → σ) (t : TreeH α)
    (h : HReachable compFunc freeFunc t) :
    LinksConsistent t.mem ∧
      (∀ (data : Option α) (addr : Nat), t.mem.heap addr = none →
        ∃ bound r t', (∀ fuel, bound ≤ fuel →
          insertToRBTreeH fuel compFunc t data addr = some (r, t')) ∧ LinksConsistent t'.mem) ∧
      (∀ (data : α) (w : σ),
        ∃ bound r t' w', (∀ fuel, bound ≤ fuel →
          deleteFromRBTreeH fuel compFunc freeFunc t data w = some (r, t', w')) ∧
          LinksConsistent t'.mem) ∧
      (∀ a n, t.mem.heap a = some n → n.right ≠ none →
        ∃ m', leftRotationH t.mem (some a) = some m' ∧ LinksConsistent m') ∧
      (∀ a n, t.mem.heap a = some n → n.left ≠ none →
        ∃ m', rightRotationH t.mem (some a) = some m' ∧ LinksConsistent m') := by
  rcases isEmpty_or_nonempty α with hα | ⟨⟨d0⟩⟩
  · refine ⟨linksConsistent_of_isEmpty _, ?_, fun data _ => isEmptyElim data,
      fun _ n _ _ => isEmptyElim n.data, fun _ n _ _ => isEmptyElim n.data⟩
    intro data addr _
    cases data with
    | none => exact ⟨0, FAILURE, t, fun _ _ => rfl, linksConsistent_of_isEmpty _⟩
    | some d => exact isEmptyElim d
  · obtain ⟨dat, T, hmem, hnd, hrb, hn, hb, hsz⟩ := hreachable_layout d0 h
    obtain ⟨m, sz⟩ := t
    simp only at hmem hsz
    subst hmem
    refine ⟨linksConsistent_layout dat T hnd, ?_, ?_, ?_, ?_⟩
    · intro data addr hfresh
      cases data with
      | none => exact ⟨0, FAILURE, _, fun _ _ => rfl, linksConsistent_layout dat T hnd⟩
      | some d =>
        have haddr := not_mem_of_layout_none dat T hnd addr hfresh
        obtain ⟨r', dat', T', sz', g1, -, -, -, -, g6⟩ :=
          insertToRBTreeH_spec compFunc dat T d addr hnd hrb hn hb haddr sz
        exact ⟨nodeCount T + 2, r', ⟨layout dat' T', sz'⟩, g6, linksConsistent_layout dat' T' g1⟩
    · intro data w
      obtain ⟨r', dat', T', sz', w2, g1, -, -, -, -, g6⟩ :=
        deleteFromRBTreeH_spec compFunc freeFunc dat T data w hnd hrb hn hb sz hsz
      exact ⟨2 * nodeCount T + 2, r', ⟨layout dat' T', sz'⟩, w2, g6,
        linksConsistent_layout dat' T' g1⟩
    · intro a n hn hr
      exact leftRotationH_layout dat T hnd a n hn hr
    · intro a n hn hl
      exact rightRotationH_layout dat T hnd a n hn hl

theorem links_stay_consistent_witness : LinksConsistent oneTreeH.mem :=
  (links_stay_consistent intCmp logFree oneTreeH
    (HReachable.insert newRBTreeH oneTreeH (some 5) 0 SUCCESS 1 HReachable.new rfl
      insertToRBTreeH_first)).1

end RBT

namespace RBT
variable {α σ ω β : Type}

/-! ### The fixups read no absent node and end -/

/-- One pass through the loop body at a red node with a red parent and a red
uncle: the new current node is the grandparent, red, and the invariants of the
loop hold there. -/
theorem redUncle_step (pf gf : Frame α) (rest : Ctx α) (l r : Node α) (x : α)
    (hpc : pf.color = .RED) (huc : gf.sibling.colorOf = .RED)
    (hn : NoRedRed (.mk .RED l x r)) (hb : Balanced (.mk .RED l x r))
    (hctx : CtxRB (pf :: gf :: rest) (blackHeight (Node.mk .RED l x r))) :
    ∃ l1 x1 r1, redUncleAfterInsertion ⟨pf :: gf :: rest, .mk .RED l x r⟩ =
        some ⟨rest, .mk .RED l1 x1 r1⟩ ∧
      NoRedRed (.mk .RED l1 x1 r1) ∧ Balanced (.mk .RED l1 x1 r1) ∧
      CtxRB rest (blackHeight (Node.mk .RED l1 x1 r1)) := by
  obtain ⟨hps1, hps2, hps3, hpred, hg⟩ := hctx
  obtain ⟨hpsb, hgcol⟩ := hpred hpc
  obtain ⟨hu1, hu2, hu3, -, hrest⟩ := hg
  simp only [ctxColor] at hgcol
  simp only [hpc, hgcol, blackInc, Nat.add_zero] at hu1 hrest
  simp only [blackHeight, blackInc, Nat.add_zero] at hu1 hrest hps1
  have hlb : l.colorOf = .BLACK := (hn.1 rfl).1
  have hrb : r.colorOf = .BLACK := (hn.1 rfl).2
  have hnl : NoRedRed l := hn.2.1
  have hnr : NoRedRed r := hn.2.2
  obtain ⟨hlr, hbl, hbr⟩ := hb
  cases gf with
  | ofLeft gc gx u =>
    simp only [Frame.color] at hgcol; subst hgcol
    simp only [Frame.sibling] at hu1 hu2 hu3 huc
    cases u with
    | NULL => simp [Node.colorOf] at huc
    | mk uc ul ux ur =>
      simp only [Node.colorOf] at huc; subst huc
      obtain ⟨hul, hbul, hbur⟩ := hu2
      simp only [blackHeight, blackInc, Nat.add_zero] at hu1
      refine ⟨(pf.withColor .BLACK).plug (.mk .RED l x r), gx, .mk .BLACK ul ux ur,
        redUncle_left pf _ gx ux ul ur rest _, ?_, ?_, ?_⟩
      · cases pf with
        | ofLeft pc px ps =>
          exact ⟨fun _ => ⟨rfl, rfl⟩, ⟨by simp, ⟨fun _ => ⟨hlb, hrb⟩, hnl, hnr⟩, hps3⟩,
            ⟨by simp, hu3.2.1, hu3.2.2⟩⟩
        | ofRight pc pl px =>
          exact ⟨fun _ => ⟨rfl, rfl⟩, ⟨by simp, hps3, ⟨fun _ => ⟨hlb, hrb⟩, hnl, hnr⟩⟩,
            ⟨by simp, hu3.2.1, hu3.2.2⟩⟩
      · cases pf with
        | ofLeft pc px ps =>
          simp only [Frame.sibling] at hps1 hps2
          refine ⟨?_, ⟨?_, ⟨hlr, hbl, hbr⟩, hps2⟩, ⟨hul, hbul, hbur⟩⟩
          · simp only [Frame.plug, Frame.withColor, blackHeight, blackInc]; omega
          · simp only [blackHeight, blackInc]; omega
        | ofRight pc pl px =>
          simp only [Frame.sibling] at hps1 hps2
          refine ⟨?_, ⟨?_, hps2, ⟨hlr, hbl, hbr⟩⟩, ⟨hul, hbul, hbur⟩⟩
          · simp only [Frame.plug, Frame.withColor, blackHeight, blackInc]; omega
          · simp only [blackHeight, blackInc]; omega
      · have : blackHeight (Node.mk .RED ((pf.withColor .BLACK).plug (.mk .RED l x r))
            gx (.mk .BLACK ul ux ur)) = blackHeight l + 1 := by
          cases pf with
          | ofLeft pc px ps =>
            simp only [Frame.plug, Frame.withColor, blackHeight, blackInc]
          | ofRight pc pl px =>
            simp only [Frame.sibling] at hps1
            simp only [Frame.plug, Frame.withColor, blackHeight, blackInc]; omega
        rw [this]; exact hrest
  | ofRight gc u gx =>
    simp only [Frame.color] at hgcol; subst hgcol
    simp only [Frame.sibling] at hu1 hu2 hu3 huc
    cases u with
    | NULL => simp [Node.colorOf] at huc
    | mk uc ul ux ur =>
      simp only [Node.colorOf] at huc; subst huc
      obtain ⟨hul, hbul, hbur⟩ := hu2
      simp only [blackHeight, blackInc, Nat.add_zero] at hu1
      refine ⟨.mk .BLACK ul ux ur, gx, (pf.withColor .BLACK).plug (.mk .RED l x r),
        redUncle_right pf _ gx ux ul ur rest _, ?_, ?_, ?_⟩
      · cases pf with
        | ofLeft pc px ps =>
          exact ⟨fun _ => ⟨rfl, rfl⟩, ⟨by simp, hu3.2.1, hu3.2.2⟩,
            ⟨by simp, ⟨fun _ => ⟨hlb, hrb⟩, hnl, hnr⟩, hps3⟩⟩
        | ofRight pc pl px =>
          exact ⟨fun _ => ⟨rfl, rfl⟩, ⟨by simp, hu3.2.1, hu3.2.2⟩,
            ⟨by simp, hps3, ⟨fun _ => ⟨hlb, hrb⟩, hnl, hnr⟩⟩⟩
      · cases pf with
        | ofLeft pc px ps =>
          simp only [Frame.sibling] at hps1 hps2
          refine ⟨?_, ⟨hul, hbul, hbur⟩, ⟨?_, ⟨hlr, hbl, hbr⟩, hps2⟩⟩
          · simp only [Frame.plug, Frame.withColor, blackHeight, blackInc]; omega
          · simp only [blackHeight, blackInc]; omega
        | ofRight pc pl px =>
          simp only [Frame.sibling] at hps1 hps2
          refine ⟨?_, ⟨hul, hbul, hbur⟩, ⟨?_, hps2, ⟨hlr, hbl, hbr⟩⟩⟩
          · simp only [Frame.plug, Frame.withColor, blackHeight, blackInc]; omega
          · simp only [blackHeight, blackInc]; omega
      · have : blackHeight (Node.mk .RED (.mk .BLACK ul ux ur) gx
            ((pf.withColor .BLACK).plug (.mk .RED l x r))) = blackHeight l + 1 := by
          simp only [blackHeight, blackInc]; omega
        rw [this]; exact hrest

/-- The loop condition tested at a node that has a red parent: the body runs,
with the uncle read from the frame of the grandparent. -/
theorem fixTreeLoop_red (fuel : Nat) (pf gf : Frame α) (rest : Ctx α) (n : Node α)
    (hp : pf.color = .RED) :
    fixTreeLoop (fuel + 1) ⟨pf :: gf :: rest, n⟩ =
      if gf.sibling.colorOf = .RED then
        (redUncleAfterInsertion ⟨pf :: gf :: rest, n⟩).bind (fixTreeLoop fuel)
      else (blackUncleAfterInsertion ⟨pf :: gf :: rest, n⟩ (whichUncleOf gf)).bind
        (fixTreeLoop fuel) := by
  cases gf with
  | ofLeft gc gx u => exact fixTreeLoop_left fuel pf gc gx u rest n hp
  | ofRight gc u gx => exact fixTreeLoop_right fuel pf gc gx u rest n hp

/-- The black-uncle case leaves the current node below a black parent. -/
theorem blackUncle_next (pf gf : Frame α) (rest : Ctx α) (l r : Node α) (x : α)
    (hpc : pf.color = .RED) (huc : ¬ gf.sibling.colorOf = .RED)
    (hn : NoRedRed (.mk .RED l x r)) (hb : Balanced (.mk .RED l x r))
    (hctx : CtxRB (pf :: gf :: rest) (blackHeight (Node.mk .RED l x r))) :
    ∃ f node, blackUncleAfterInsertion ⟨pf :: gf :: rest, .mk .RED l x r⟩ (whichUncleOf gf) =
      some ⟨f :: rest, node⟩ ∧ f.color = .BLACK := by
  obtain ⟨f, node, k, h1, -, -, h4, -⟩ := blackUncle_step pf gf rest l r x hpc huc hn hb hctx
  refine ⟨f, node, ?_, h4⟩
  rw [← blackUncleAfterInsertionCounted_fst _ _ 0, h1]
  rfl

/-- What one test of the loop condition of `fixTreeAfterInsertion` leads to. -/
theorem fixTreeLoop_shape (ctx : Ctx α) (l : Node α) (x : α) (r : Node α)
    (hn : NoRedRed (.mk .RED l x r)) (hb : Balanced (.mk .RED l x r))
    (hctx : CtxRB ctx (blackHeight (Node.mk .RED l x r))) (hroot : CtxRootBlack ctx) :
    (∀ m, fixTreeLoop (m + 1) ⟨ctx, .mk .RED l x r⟩ = some ⟨ctx, .mk .RED l x r⟩) ∨
    (∃ pf gf rest l1 x1 r1, ctx = pf :: gf :: rest ∧
      redUncleAfterInsertion ⟨ctx, .mk .RED l x r⟩ = some ⟨rest, .mk .RED l1 x1 r1⟩ ∧
      (∀ m, fixTreeLoop (m + 1) ⟨ctx, .mk .RED l x r⟩ =
        fixTreeLoop m ⟨rest, .mk .RED l1 x1 r1⟩) ∧
      NoRedRed (.mk .RED l1 x1 r1) ∧ Balanced (.mk .RED l1 x1 r1) ∧
      CtxRB rest (blackHeight (Node.mk .RED l1 x1 r1)) ∧ CtxRootBlack rest) ∨
    (∃ pf gf rest next, ctx = pf :: gf :: rest ∧
      blackUncleAfterInsertion ⟨ctx, .mk .RED l x r⟩ (whichUncleOf gf) = some next ∧
      (∀ m, fixTreeLoop (m + 1) ⟨ctx, .mk .RED l x r⟩ = fixTreeLoop m next) ∧
      ∀ m, fixTreeLoop (m + 1) next = some next) := by
  cases ctx with
  | nil => exact Or.inl fun m => rfl
  | cons pf up =>
    by_cases hpc : pf.color = .RED
    · cases up with
      | nil => simp [CtxRootBlack, hpc] at hroot
      | cons gf rest =>
        by_cases huc : gf.sibling.colorOf = .RED
        · obtain ⟨l1, x1, r1, h1, h2, h3, h4⟩ := redUncle_step pf gf rest l r x hpc huc hn hb hctx
          refine Or.inr (Or.inl ⟨pf, gf, rest, l1, x1, r1, rfl, h1, fun m => ?_, h2, h3, h4,
            hroot.tail.tail⟩)
          rw [fixTreeLoop_red m pf gf rest _ hpc, if_pos huc, h1]
          rfl
        · obtain ⟨f, node, h1, h2⟩ := blackUncle_next pf gf rest l r x hpc huc hn hb hctx
          refine Or.inr (Or.inr ⟨pf, gf, rest, ⟨f :: rest, node⟩, rfl, h1, fun m => ?_,
            fun m => fixTreeLoop_black m f rest node (by simp [h2])⟩)
          rw [fixTreeLoop_red m pf gf rest _ hpc, if_neg huc, h1]
          rfl
    · exact Or.inl fun m => fixTreeLoop_black m pf up _ hpc

/-- The loop of the insertion fixup ends within one test for every two
ancestors of the node it starts at, and two more. -/
theorem fixTreeLoop_bound : ∀ (k : Nat) (ctx : Ctx α) (l : Node α) (x : α) (r : Node α),
    ctx.length / 2 < k → NoRedRed (.mk .RED l x r) → Balanced (.mk .RED l x r) →
    CtxRB ctx (blackHeight (Node.mk .RED l x r)) → CtxRootBlack ctx →
    ∃ cur, ∀ fuel, k + 1 ≤ fuel → fixTreeLoop fuel ⟨ctx, .mk .RED l x r⟩ = some cur := by
  intro k
  induction k with
  | zero => intro ctx l x r h; simp at h
  | succ k ih =>
    intro ctx l x r hk hn hb hctx hroot
    rcases fixTreeLoop_shape ctx l x r hn hb hctx hroot with h | h | h
    · refine ⟨⟨ctx, .mk .RED l x r⟩, fun fuel hf => ?_⟩
      obtain ⟨m, rfl⟩ : ∃ m, fuel = m + 1 := ⟨fuel - 1, by omega⟩
      exact h m
    · obtain ⟨pf, gf, rest, l1, x1, r1, rfl, -, h2, h3, h4, h5, h6⟩ := h
      obtain ⟨cur, hcur⟩ := ih rest l1 x1 r1 (by simp at hk; omega) h3 h4 h5 h6
      refine ⟨cur, fun fuel hf => ?_⟩
      obtain ⟨m, rfl⟩ : ∃ m, fuel = m + 1 := ⟨fuel - 1, by omega⟩
      rw [h2 m]
      exact hcur m (by omega)
    · obtain ⟨pf, gf, rest, next, rfl, -, h2, h3⟩ := h
      refine ⟨next, fun fuel hf => ?_⟩
      obtain ⟨m, rfl⟩ : ∃ m, fuel = m + 2 := ⟨fuel - 2, by omega⟩
      rw [h2 (m + 1)]
      exact h3 m

/-- What one call of `delete3` at a left child leads to: a result without any
nested call, a call on the parent, or the call made by `delete5` on the node
below its new, red parent. -/
theorem delete3_shape_left (pc : Color) (px : α) (s : Node α) (up : Ctx α) (n : Node α) (k : Nat)
    (hctx : CtxRB (.ofLeft pc px s :: up) (k + 1)) :
    (∃ ctx', ∀ m, delete3 (m + 1) ⟨.ofLeft pc px s :: up, n⟩ = some ⟨ctx', n⟩) ∨
    (pc = .BLACK ∧ ∃ s1, (∀ m, delete3 (m + 1) ⟨.ofLeft pc px s :: up, n⟩ =
        (delete3 m ⟨up, .mk .BLACK n px s1⟩).bind (fun p => p.left)) ∧ CtxRB up (k + 1 + 1)) ∨
    (pc = .BLACK ∧ ∃ sl sx sr, (∀ m, delete3 (m + 1) ⟨.ofLeft pc px s :: up, n⟩ =
        delete3 m ⟨.ofLeft .RED px sl :: .ofLeft .BLACK sx sr :: up, n⟩) ∧
      CtxRB (.ofLeft .RED px sl :: .ofLeft .BLACK sx sr :: up) (k + 1)) := by
  obtain ⟨hs1, hs2, hs3, hpred, hup⟩ := hctx
  simp only [Frame.sibling] at hs1 hs2 hs3 hpred
  simp only [Frame.color] at hpred hup
  obtain ⟨sc, sl, sx, sr, rfl⟩ := blackHeight_pos_ne_null hs1
  obtain ⟨hslr, hbsl, hbsr⟩ := hs2
  obtain ⟨hsred, hnsl, hnsr⟩ := hs3
  cases sc with
  | BLACK =>
    by_cases hr : sr.colorOf = .RED
    · obtain ⟨srl, srx, srr, rfl⟩ := colorOf_red hr
      refine Or.inl ⟨.ofLeft .BLACK px sl :: .ofLeft pc sx (.mk .BLACK srl srx srr) :: up,
        fun m => ?_⟩
      rw [delete3_left, if_pos rfl, delete4_left_caseE]
    · have hrb := Node.colorOf_eq_black_of_ne_red hr
      by_cases hl : sl.colorOf = .RED
      · obtain ⟨sll, slx, slr, rfl⟩ := colorOf_red hl
        refine Or.inl ⟨.ofLeft .BLACK px sll :: .ofLeft pc slx (.mk .BLACK slr sx sr) :: up,
          fun m => ?_⟩
        rw [delete3_left, if_pos rfl, delete4_left_caseD _ _ _ _ _ _ _ _ _ _ _ hrb]
      · have hlb := Node.colorOf_eq_black_of_ne_red hl
        cases pc with
        | RED =>
          refine Or.inl ⟨.ofLeft .BLACK px (.mk .RED sl sx sr) :: up, fun m => ?_⟩
          rw [delete3_left, if_pos rfl,
            delete4_caseB _ (.ofLeft .RED px (.mk .BLACK sl sx sr)) up n _ .BLACK sl sr sx rfl
              hlb hrb, delete6_left_red]
        | BLACK =>
          refine Or.inr (Or.inl ⟨rfl, .mk .RED sl sx sr, fun m => ?_, ?_⟩)
          · rw [delete3_left, if_pos rfl,
              delete4_caseB _ (.ofLeft .BLACK px (.mk .BLACK sl sx sr)) up n _ .BLACK sl sr sx
                rfl hlb hrb, delete6_left_black]
          · simpa [blackInc] using hup
  | RED =>
    have hpc : pc = .BLACK := by
      cases pc with
      | BLACK => rfl
      | RED => have := (hpred rfl).1; simp [Node.colorOf] at this
    subst hpc
    simp only [blackHeight, blackInc, Nat.add_zero] at hs1
    have hsrk : blackHeight sr = k + 1 := by omega
    refine Or.inr (Or.inr ⟨rfl, sl, sx, sr, fun m => ?_, ?_⟩)
    · rw [delete3_left, if_neg (by simp), delete5_left]
    · exact ⟨hs1, hbsl, hnsl, fun _ => ⟨(hsred rfl).1, rfl⟩, hsrk, hbsr, hnsr,
        by simp [Frame.color], by simpa [Frame.color, blackInc] using hup⟩

/-- What one call of `delete3` at a right child leads to. -/
theorem delete3_shape_right (pc : Color) (px : α) (s : Node α) (up : Ctx α) (n : Node α) (k : Nat)
    (hctx : CtxRB (.ofRight pc s px :: up) (k + 1)) :
    (∃ ctx', ∀ m, delete3 (m + 1) ⟨.ofRight pc s px :: up, n⟩ = some ⟨ctx', n⟩) ∨
    (pc = .BLACK ∧ ∃ s1, (∀ m, delete3 (m + 1) ⟨.ofRight pc s px :: up, n⟩ =
        (delete3 m ⟨up, .mk .BLACK s1 px n⟩).bind (fun p => p.right)) ∧ CtxRB up (k + 1 + 1)) ∨
    (pc = .BLACK ∧ ∃ sl sx sr, (∀ m, delete3 (m + 1) ⟨.ofRight pc s px :: up, n⟩ =
        delete3 m ⟨.ofRight .RED sr px :: .ofRight .BLACK sl sx :: up, n⟩) ∧
      CtxRB (.ofRight .RED sr px :: .ofRight .BLACK sl sx :: up) (k + 1)) := by
  obtain ⟨hs1, hs2, hs3, hpred, hup⟩ := hctx
  simp only [Frame.sibling] at hs1 hs2 hs3 hpred
  simp only [Frame.color] at hpred hup
  obtain ⟨sc, sl, sx, sr, rfl⟩ := blackHeight_pos_ne_null hs1
  obtain ⟨hslr, hbsl, hbsr⟩ := hs2
  obtain ⟨hsred, hnsl, hnsr⟩ := hs3
  cases sc with
  | BLACK =>
    by_cases hl : sl.colorOf = .RED
    · obtain ⟨sll, slx, slr, rfl⟩ := colorOf_red hl
      refine Or.inl ⟨.ofRight .BLACK sr px :: .ofRight pc (.mk .BLACK sll slx slr) sx :: up,
        fun m => ?_⟩
      rw [delete3_right, if_pos rfl, delete4_right_caseE]
    · have hlb := Node.colorOf_eq_black_of_ne_red hl
      by_cases hr : sr.colorOf = .RED
      · obtain ⟨srl, srx, srr, rfl⟩ := colorOf_red hr
        refine Or.inl ⟨.ofRight .BLACK srr px :: .ofRight pc (.mk .BLACK sl sx srl) srx :: up,
          fun m => ?_⟩
        rw [delete3_right, if_pos rfl, delete4_right_caseD _ _ _ _ _ _ _ _ _ _ _ hlb]
      · have hrb := Node.colorOf_eq_black_of_ne_red hr
        cases pc with
        | RED =>
          refine Or.inl ⟨.ofRight .BLACK (.mk .RED sl sx sr) px :: up, fun m => ?_⟩
          rw [delete3_right, if_pos rfl,
            delete4_caseB _ (.ofRight .RED (.mk .BLACK sl sx sr) px) up n _ .BLACK sl sr sx rfl
              hlb hrb, delete6_right_red]
        | BLACK =>
          refine Or.inr (Or.inl ⟨rfl, .mk .RED sl sx sr, fun m => ?_, ?_⟩)
          · rw [delete3_right, if_pos rfl,
              delete4_caseB _ (.ofRight .BLACK (.mk .BLACK sl sx sr) px) up n _ .BLACK sl sr sx
                rfl hlb hrb, delete6_right_black]
          · simpa [blackInc] using hup
  | RED =>
    have hpc : pc = .BLACK := by
      cases pc with
      | BLACK => rfl
      | RED => have := (hpred rfl).1; simp [Node.colorOf] at this
    subst hpc
    simp only [blackHeight, blackInc, Nat.add_zero] at hs1
    have hsrk : blackHeight sr = k + 1 := by omega
    refine Or.inr (Or.inr ⟨rfl, sl, sx, sr, fun m => ?_, ?_⟩)
    · rw [delete3_right, if_neg (by simp), delete5_right]
    · exact ⟨hsrk, hbsr, hnsr, fun _ => ⟨(hsred rfl).2, rfl⟩, hs1, hbsl, hnsl,
        by simp [Frame.color], by simpa [Frame.color, blackInc] using hup⟩

/-- A call of `delete3` at a node whose parent is red makes no nested call:
it returns whatever the fuel. -/
theorem delete3_red_parent (f : Frame α) (up : Ctx α) (n : Node α) (k : Nat)
    (hctx : CtxRB (f :: up) (k + 1)) (hf : f.color = .RED) :
    ∃ ctx', ∀ m, delete3 (m + 1) ⟨f :: up, n⟩ = some ⟨ctx', n⟩ := by
  cases f with
  | ofLeft pc px s =>
    simp only [Frame.color] at hf
    rcases delete3_shape_left pc px s up n k hctx with h | ⟨h, -⟩ | ⟨h, -⟩
    · exact h
    · rw [hf] at h; cases h
    · rw [hf] at h; cases h
  | ofRight pc s px =>
    simp only [Frame.color] at hf
    rcases delete3_shape_right pc px s up n k hctx with h | ⟨h, -⟩ | ⟨h, -⟩
    · exact h
    · rw [hf] at h; cases h
    · rw [hf] at h; cases h

/-- The deletion fixup returns within one nested call for each ancestor of
the node it starts at, and two more. -/
theorem delete3_bound : ∀ (ctx : Ctx α) (n : Node α) (k : Nat), CtxRB ctx (k + 1) →
    ∃ ctx', ∀ fuel, ctx.length + 2 ≤ fuel → delete3 fuel ⟨ctx, n⟩ = some ⟨ctx', n⟩ := by
  intro ctx
  induction ctx with
  | nil =>
    intro n k _
    refine ⟨[], fun fuel hf => ?_⟩
    obtain ⟨m, rfl⟩ : ∃ m, fuel = m + 1 := ⟨fuel - 1, by simp at hf; omega⟩
    rfl
  | cons f up ih =>
    intro n k hctx
    cases f with
    | ofLeft pc px s =>
      rcases delete3_shape_left pc px s up n k hctx with ⟨ctx', h⟩ | ⟨-, s1, h, hup⟩ |
        ⟨-, sl, sx, sr, h, hre⟩
      · refine ⟨ctx', fun fuel hf => ?_⟩
        obtain ⟨m, rfl⟩ : ∃ m, fuel = m + 1 := ⟨fuel - 1, by omega⟩
        exact h m
      · obtain ⟨up', hup'⟩ := ih (.mk .BLACK n px s1) (k + 1) hup
        refine ⟨.ofLeft .BLACK px s1 :: up', fun fuel hf => ?_⟩
        obtain ⟨m, rfl⟩ : ∃ m, fuel = m + 1 := ⟨fuel - 1, by omega⟩
        rw [h m, hup' m (by simp at hf; omega)]
        rfl
      · obtain ⟨ctx', h2⟩ := delete3_red_parent (.ofLeft .RED px sl) (.ofLeft .BLACK sx sr :: up)
          n k hre rfl
        refine ⟨ctx', fun fuel hf => ?_⟩
        obtain ⟨m, rfl⟩ : ∃ m, fuel = m + 2 := ⟨fuel - 2, by omega⟩
        rw [h (m + 1)]
        exact h2 m
    | ofRight pc s px =>
      rcases delete3_shape_right pc px s up n k hctx with ⟨ctx', h⟩ | ⟨-, s1, h, hup⟩ |
        ⟨-, sl, sx, sr, h, hre⟩
      · refine ⟨ctx', fun fuel hf => ?_⟩
        obtain ⟨m, rfl⟩ : ∃ m, fuel = m + 1 := ⟨fuel - 1, by omega⟩
        exact h m
      · obtain ⟨up', hup'⟩ := ih (.mk .BLACK s1 px n) (k + 1) hup
        refine ⟨.ofRight .BLACK s1 px :: up', fun fuel hf => ?_⟩
        obtain ⟨m, rfl⟩ : ∃ m, fuel = m + 1 := ⟨fuel - 1, by omega⟩
        rw [h m, hup' m (by simp at hf; omega)]
        rfl
      · obtain ⟨ctx', h2⟩ := delete3_red_parent (.ofRight .RED sr px)
          (.ofRight .BLACK sl sx :: up) n k hre rfl
        refine ⟨ctx', fun fuel hf => ?_⟩
        obtain ⟨m, rfl⟩ : ∃ m, fuel = m + 2 := ⟨fuel - 2, by omega⟩
        rw [h (m + 1)]
        exact h2 m

end RBT

namespace RBT
variable {α σ ω β : Type}

/-- C31: the deletion fixup reads no absent node.  In a tree that satisfies
the colour invariants, take the place `ctx` of a black node; `delete3` is
called there, on that node (the black leaf being removed) or on the node that
is there once a black node has gone from below it (an ancestor reached by
propagation).  Then the sibling at that place is present, and both the
function on trees and the function on the heap, in which every read through a
pointer that is `NULL` gives `none`, return a result with as many nested calls
as the node has ancestors, and two more: no read of the sibling, of its
children or of the child a rotation promotes meets an absent node. -/
theorem delete3_sibling_present (dat : Nat → α) (ctx : Ctx Nat) (bl : Node Nat) (bx : Nat)
    (br : Node Nat) (c : Color) (l : Node Nat) (a : Nat) (r : Node Nat)
    (hn : NoRedRed (zip ctx (.mk .BLACK bl bx br)))
    (hb : Balanced (zip ctx (.mk .BLACK bl bx br)))
    (hnd : (inorder (zip ctx (.mk c l a r))).Nodup) :
    (∀ f up, ctx = f :: up → ∃ sc sl sx sr, f.sibling = .mk sc sl sx sr) ∧
    ∃ ctx', ∀ fuel, ctx.length + 2 ≤ fuel →
      delete3 fuel ⟨ctx, .mk c l a r⟩ = some ⟨ctx', .mk c l a r⟩ ∧
      delete3H fuel (layout dat (zip ctx (.mk c l a r))) (some a) =
        some (layout dat (zip ctx' (.mk c l a r))) := by
  have hctx : CtxRB ctx (blackHeight bl + 1) := by
    simpa [blackHeight, blackInc] using (unzip_valid ctx _ hb hn).1
  refine ⟨?_, ?_⟩
  · rintro f up rfl
    exact blackHeight_pos_ne_null hctx.1
  · obtain ⟨ctx', h⟩ := delete3_bound ctx (.mk c l a r) (blackHeight bl) hctx
    refine ⟨ctx', fun fuel hf => ⟨h fuel hf, ?_⟩⟩
    exact (delete3H_sim dat fuel ctx c l a r _ hnd (h fuel hf)).2.2

theorem delete3_sibling_present_witness :
    NoRedRed (zip [Frame.ofLeft .BLACK 5 (.mk .BLACK .NULL 8 .NULL)]
        (.mk .BLACK .NULL 3 .NULL)) ∧
      Balanced (zip [Frame.ofLeft .BLACK 5 (.mk .BLACK .NULL 8 .NULL)]
        (.mk .BLACK .NULL 3 .NULL)) ∧
      (inorder (zip [Frame.ofLeft .BLACK 5 (.mk .BLACK .NULL 8 .NULL)]
        (.mk .BLACK .NULL 3 .NULL))).Nodup ∧
      ∃ ctx', ∀ fuel, 1 + 2 ≤ fuel →
        delete3 fuel ⟨[Frame.ofLeft .BLACK 5 (.mk .BLACK .NULL 8 .NULL)],
          .mk .BLACK .NULL 3 .NULL⟩ = some ⟨ctx', .mk .BLACK .NULL 3 .NULL⟩ ∧
        delete3H fuel (layout (fun i => (i : Int))
          (zip [Frame.ofLeft .BLACK 5 (.mk .BLACK .NULL 8 .NULL)] (.mk .BLACK .NULL 3 .NULL)))
            (some 3) = some (layout (fun i => (i : Int)) (zip ctx' (.mk .BLACK .NULL 3 .NULL))) :=
  ⟨by decide, by decide, by decide,
    (delete3_sibling_present (fun i => (i : Int))
      [Frame.ofLeft .BLACK 5 (.mk .BLACK .NULL 8 .NULL)] .NULL 3 .NULL .BLACK .NULL 3 .NULL
      (by decide) (by decide) (by decide)).2⟩

/-- C32: the insertion fixup reads no absent node.  A new red node placed at
an absent child of a tree that satisfies the colour invariants: when its
parent is red the parent has a parent, and the loop of
`fixTreeAfterInsertion`, both on trees and on the heap, in which every read
through a pointer that is `NULL` gives `none`, runs to its end, within one
test of the loop condition for every two ancestors and two more: in no pass
is the grandparent absent, and no rotation of `blackUncleAfterInsertion` is at
a node without the child it promotes. -/
theorem fixTree_grandparent_present (dat : Nat → α) (ctx : Ctx Nat) (a : Nat)
    (hrb : RootBlack (zip ctx .NULL)) (hn : NoRedRed (zip ctx .NULL))
    (hb : Balanced (zip ctx .NULL))
    (hnd : (inorder (zip ctx (createNewNode a))).Nodup) :
    (∀ pf up, ctx = pf :: up → pf.color = .RED → ∃ gf rest, up = gf :: rest) ∧
    ∃ cur root, fixTreeAfterInsertion ⟨ctx, createNewNode a⟩ = some root ∧
      ∀ fuel, ctx.length / 2 + 2 ≤ fuel →
        fixTreeLoop fuel ⟨ctx, createNewNode a⟩ = some cur ∧
        fixTreeLoopH fuel (layout dat (zip ctx (createNewNode a))) (some a) =
          some (layout dat cur.root, ptr cur.node) := by
  have hctx : CtxRB ctx (blackHeight (createNewNode a)) := (unzip_valid ctx _ hb hn).1
  have hroot : CtxRootBlack ctx := (rootBlack_ctx ctx _ hrb).1
  have hnn : NoRedRed (createNewNode a) := ⟨fun _ => ⟨rfl, rfl⟩, trivial, trivial⟩
  have hbn : Balanced (createNewNode a) := ⟨rfl, trivial, trivial⟩
  refine ⟨?_, ?_⟩
  · rintro pf up rfl hpf
    cases up with
    | nil => simp [CtxRootBlack, hpf] at hroot
    | cons gf rest => exact ⟨gf, rest, rfl⟩
  · obtain ⟨cur, hcur⟩ := fixTreeLoop_bound (ctx.length / 2 + 1) ctx .NULL a .NULL
      (Nat.lt_succ_self _) hnn hbn hctx hroot
    obtain ⟨cur', root, h1, h2, -⟩ := fixTreeLoop_spec (ctx.length + 1) ctx .NULL a .NULL
      (Nat.lt_succ_self _) hnn hbn hctx hroot
    refine ⟨cur, root, ?_, fun fuel hf => ⟨hcur fuel hf, ?_⟩⟩
    · have : cur' = cur := by
        have h3 := hcur (ctx.length + 2) (by omega)
        rw [fixTreeLoop_fuel (ctx.length + 2) (ctx.length + 1) ⟨ctx, _⟩ (by simp) (by simp)] at h3
        rw [h1] at h3
        exact Option.some.inj h3
      subst this
      simp only [fixTreeAfterInsertion, createNewNode, h1, Option.bind_eq_bind, Option.some_bind,
        h2]
    · exact (fixTreeLoopH_sim dat fuel ctx .RED .NULL a .NULL cur hnd (hcur fuel hf)).1

theorem fixTree_grandparent_present_witness :
    RootBlack (zip [Frame.ofLeft .RED 3 .NULL, Frame.ofLeft .BLACK 5 (.mk .RED .NULL 8 .NULL)]
        .NULL) ∧
      NoRedRed (zip [Frame.ofLeft .RED 3 .NULL, Frame.ofLeft .BLACK 5 (.mk .RED .NULL 8 .NULL)]
        .NULL) ∧
      Balanced (zip [Frame.ofLeft .RED 3 .NULL, Frame.ofLeft .BLACK 5 (.mk .RED .NULL 8 .NULL)]
        .NULL) ∧
      (inorder (zip [Frame.ofLeft .RED 3 .NULL,
        Frame.ofLeft .BLACK 5 (.mk .RED .NULL 8 .NULL)] (createNewNode 1))).Nodup ∧
      ∃ cur root, fixTreeAfterInsertion ⟨[Frame.ofLeft .RED 3 .NULL,
          Frame.ofLeft .BLACK 5 (.mk .RED .NULL 8 .NULL)], createNewNode 1⟩ = some root ∧
        ∀ fuel, 2 / 2 + 2 ≤ fuel →
          fixTreeLoop fuel ⟨[Frame.ofLeft .RED 3 .NULL,
            Frame.ofLeft .BLACK 5 (.mk .RED .NULL 8 .NULL)], createNewNode 1⟩ = some cur ∧
          fixTreeLoopH fuel (layout (fun i => (i : Int)) (zip [Frame.ofLeft .RED 3 .NULL,
            Frame.ofLeft .BLACK 5 (.mk .RED .NULL 8 .NULL)] (createNewNode 1))) (some 1) =
              some (layout (fun i => (i : Int)) cur.root, ptr cur.node) :=
  ⟨by decide, by decide, by decide, by decide,
    (fixTree_grandparent_present (fun i => (i : Int))
      [Frame.ofLeft .RED 3 .NULL, Frame.ofLeft .BLACK 5 (.mk .RED .NULL 8 .NULL)] 1
      (by decide) (by decide) (by decide) (by decide)).2⟩

/-- C33: both fixups end.  At a red node in a context that satisfies the
colour invariants (every state of the loop of `fixTreeAfterInsertion`), the
loop ends within one test of its condition for every two ancestors of the
node, and two more; one test either ends the loop, or runs
`redUncleAfterInsertion` and goes on at the grandparent, two ancestors less,
or runs `blackUncleAfterInsertion`, after which the next test ends the loop.
At a place whose context satisfies the invariants for one black node more
than is below it (every call of `delete3`), `delete3` returns within one
nested call for every ancestor, and two more; one call either returns without
a nested call, or calls `delete3` on the parent, or (red sibling) calls
`delete3` on the node below its new red parent, and that call returns without
a nested call. -/
theorem fixups_terminate (ictx : Ctx α) (l : Node α) (x : α) (r : Node α) (dctx : Ctx α)
    (n : Node α) (k : Nat)
    (hn : NoRedRed (.mk .RED l x r)) (hb : Balanced (.mk .RED l x r))
    (hictx : CtxRB ictx (blackHeight (Node.mk .RED l x r))) (hiroot : CtxRootBlack ictx)
    (hdctx : CtxRB dctx (k + 1)) :
    (∃ cur, ∀ fuel, ictx.length / 2 + 2 ≤ fuel →
      fixTreeLoop fuel ⟨ictx, .mk .RED l x r⟩ = some cur) ∧
    ((∀ m, fixTreeLoop (m + 1) ⟨ictx, .mk .RED l x r⟩ = some ⟨ictx, .mk .RED l x r⟩) ∨
      (∃ next, redUncleAfterInsertion ⟨ictx, .mk .RED l x r⟩ = some next ∧
        next.ctx.length + 2 = ictx.length ∧
        ∀ m, fixTreeLoop (m + 1) ⟨ictx, .mk .RED l x r⟩ = fixTreeLoop m next) ∨
      (∃ w next, blackUncleAfterInsertion ⟨ictx, .mk .RED l x r⟩ w = some next ∧
        (∀ m, fixTreeLoop (m + 1) ⟨ictx, .mk .RED l x r⟩ = fixTreeLoop m next) ∧
        ∀ m, fixTreeLoop (m + 1) next = some next)) ∧
    (∃ ctx', ∀ fuel, dctx.length + 2 ≤ fuel → delete3 fuel ⟨dctx, n⟩ = some ⟨ctx', n⟩) ∧
    ((∃ ctx', ∀ m, delete3 (m + 1) ⟨dctx, n⟩ = some ⟨ctx', n⟩) ∨
      (∃ f up par, dctx = f :: up ∧
        ∀ m, delete3 (m + 1) ⟨dctx, n⟩ = (delete3 m ⟨up, par⟩).bind (Loc.childLike f)) ∨
      (∃ p g up res, p.color = .RED ∧ dctx.length + 1 = (p :: g :: up).length ∧
        (∀ m, delete3 (m + 1) ⟨dctx, n⟩ = delete3 m ⟨p :: g :: up, n⟩) ∧
        ∀ m, delete3 (m + 1) ⟨p :: g :: up, n⟩ = some res)) := by
  refine ⟨?_, ?_, delete3_bound dctx n k hdctx, ?_⟩
  · exact fixTreeLoop_bound (ictx.length / 2 + 1) ictx l x r (Nat.lt_succ_self _) hn hb hictx
      hiroot
  · rcases fixTreeLoop_shape ictx l x r hn hb hictx hiroot with h | h | h
    · exact Or.inl h
    · obtain ⟨pf, gf, rest, l1, x1, r1, rfl, h1, h2, -⟩ := h
      exact Or.inr (Or.inl ⟨_, h1, rfl, h2⟩)
    · obtain ⟨pf, gf, rest, next, rfl, h1, h2, h3⟩ := h
      exact Or.inr (Or.inr ⟨_, next, h1, h2, h3⟩)
  · cases dctx with
    | nil => exact Or.inl ⟨[], fun m => rfl⟩
    | cons f up =>
      cases f with
      | ofLeft pc px s =>
        rcases delete3_shape_left pc px s up n k hdctx with h | ⟨-, s1, h, -⟩ |
          ⟨-, sl, sx, sr, h, hre⟩
        · exact Or.inl h
        · exact Or.inr (Or.inl ⟨_, up, .mk .BLACK n px s1, rfl, h⟩)
        · obtain ⟨res, h2⟩ := delete3_red_parent (.ofLeft .RED px sl)
            (.ofLeft .BLACK sx sr :: up) n k hre rfl
          exact Or.inr (Or.inr ⟨.ofLeft .RED px sl, .ofLeft .BLACK sx sr, up, ⟨res, n⟩, rfl,
            rfl, h, h2⟩)
      | ofRight pc s px =>
        rcases delete3_shape_right pc px s up n k hdctx with h | ⟨-, s1, h, -⟩ |
          ⟨-, sl, sx, sr, h, hre⟩
        · exact Or.inl h
        · exact Or.inr (Or.inl ⟨_, up, .mk .BLACK s1 px n, rfl, h⟩)
        · obtain ⟨res, h2⟩ := delete3_red_parent (.ofRight .RED sr px)
            (.ofRight .BLACK sl sx :: up) n k hre rfl
          exact Or.inr (Or.inr ⟨.ofRight .RED sr px, .ofRight .BLACK sl sx, up, ⟨res, n⟩, rfl,
            rfl, h, h2⟩)

theorem fixups_terminate_witness :
    NoRedRed (Node.mk .RED .NULL (1 : Int) .NULL) ∧
      Balanced (Node.mk .RED .NULL (1 : Int) .NULL) ∧
      CtxRB [Frame.ofLeft .RED (3 : Int) .NULL, Frame.ofLeft .BLACK 5 (.mk .RED .NULL 8 .NULL)]
        (blackHeight (Node.mk .RED .NULL (1 : Int) .NULL)) ∧
      CtxRootBlack [Frame.ofLeft .RED (3 : Int) .NULL,
        Frame.ofLeft .BLACK 5 (.mk .RED .NULL 8 .NULL)] ∧
      CtxRB [Frame.ofLeft .BLACK (5 : Int)
        (.mk .RED (.mk .BLACK .NULL 7 .NULL) 8 (.mk .BLACK .NULL 9 .NULL))] (0 + 1) ∧
      (∃ cur, ∀ fuel, 2 / 2 + 2 ≤ fuel →
        fixTreeLoop fuel ⟨[Frame.ofLeft .RED (3 : Int) .NULL,
          Frame.ofLeft .BLACK 5 (.mk .RED .NULL 8 .NULL)], .mk .RED .NULL 1 .NULL⟩ = some cur) ∧
      ∃ ctx', ∀ fuel, 1 + 2 ≤ fuel →
        delete3 fuel ⟨[Frame.ofLeft .BLACK (5 : Int)
          (.mk .RED (.mk .BLACK .NULL 7 .NULL) 8 (.mk .BLACK .NULL 9 .NULL))], .NULL⟩ =
            some ⟨ctx', .NULL⟩ :=
  ⟨by decide, by decide, by decide, by decide, by decide,
    (fixups_terminate [Frame.ofLeft .RED (3 : Int) .NULL,
      Frame.ofLeft .BLACK 5 (.mk .RED .NULL 8 .NULL)] .NULL 1 .NULL
      [Frame.ofLeft .BLACK (5 : Int)
        (.mk .RED (.mk .BLACK .NULL 7 .NULL) 8 (.mk .BLACK .NULL 9 .NULL))] .NULL 0
      (by decide) (by decide) (by decide) (by decide) (by decide)).1,
    (fixups_terminate [Frame.ofLeft .RED (3 : Int) .NULL,
      Frame.ofLeft .BLACK 5 (.mk .RED .NULL 8 .NULL)] .NULL 1 .NULL
      [Frame.ofLeft .BLACK (5 : Int)
        (.mk .RED (.mk .BLACK .NULL 7 .NULL) 8 (.mk .BLACK .NULL 9 .NULL))] .NULL 0
      (by decide) (by decide) (by decide) (by decide) (by decide)).2.2.1⟩

/-- C34: the calls with a null argument.  `insertToRBTree` with `NULL` data
returns `FAILURE` and the tree is as before, whatever its comparator; with a
`NULL` tree it returns `FAILURE`.  `deleteFromRBTree` with a `NULL` tree
returns `FAILURE` and the world the destructor acts on is as before;
`RBTreeContains` with a `NULL` tree returns `FAILURE`; `forEachRBTree` with a
`NULL` tree returns `FAILURE`, the flag and the world are as before and the
log of the calls of the visitor is empty. -/
theorem null_arguments_fail (t : RBTree α σ) (data : Option α) (d : α) (w : σ)
    (func : α → β → ω → Int × ω) (args : β) (flag : Int) (v : ω) :
    insertToRBTree (some t) none = some (FAILURE, some t) ∧
    insertToRBTree (none : Option (RBTree α σ)) data = some (FAILURE, none) ∧
    deleteFromRBTree (none : Option (RBTree α σ)) d w = some (FAILURE, none, w) ∧
    RBTreeContains (none : Option (RBTree α σ)) d = FAILURE ∧
    forEachRBTree (none : Option (RBTree α σ)) (recordCalls func) args (flag, (v, [])) =
      (FAILURE, (flag, (v, []))) :=
  ⟨rfl, by cases data <;> rfl, rfl, rfl, rfl⟩

end RBT

namespace RBT
variable {α σ ω β : Type}

/-! ### The rotations relink the nodes -/

theorem height_le_nodeCount (t : Node α) : height t ≤ nodeCount t := by
  induction t with
  | NULL => exact le_refl _
  | mk c l x r ihl ihr =>
    simp only [height, nodeCount]
    omega

/-- The in-order sequence read from the memory of a laid-out tree, below any of
its nodes, is the in-order sequence of the subtree. -/
theorem inorderH_layout (dat : Nat → α) : ∀ (t : Node Nat) (ctx : Ctx Nat) (fuel : Nat),
    (inorder (zip ctx t)).Nodup → height t ≤ fuel →
    inorderH fuel (layout dat (zip ctx t)) (ptr t) =
      some ((colouredInorder t).map fun p => (p.2, p.1, dat p.2)) := by
  intro t
  induction t with
  | NULL =>
    intro ctx fuel _ _
    cases fuel <;> rfl
  | mk c l a r ihl ihr =>
    intro ctx fuel hnd hf
    obtain ⟨f, rfl⟩ : ∃ f, fuel = f + 1 := ⟨fuel - 1, by simp only [height] at hf; omega⟩
    simp only [height] at hf
    have hA := layout_read dat _ ctx c l r a rfl hnd
    have hl := ihl (.ofLeft c a r :: ctx) f hnd (by omega)
    have hr := ihr (.ofRight c l a :: ctx) f hnd (by omega)
    simp only [zip_cons, Frame.plug_ofLeft, Frame.plug_ofRight] at hl hr
    simp only [ptr_mk, inorderH, hA, hl, hr, Option.some_bind, colouredInorder, List.map_append,
      List.map_cons]

/-- The in-order sequence read from the root of a laid-out tree. -/
theorem inorderH_root (dat : Nat → α) (T : Node Nat) (hT : (inorder T).Nodup) (fuel : Nat)
    (hf : nodeCount T ≤ fuel) :
    inorderH fuel (layout dat T) (layout dat T).root =
      some ((colouredInorder T).map fun p => (p.2, p.1, dat p.2)) :=
  inorderH_layout dat T [] fuel hT (le_trans (height_le_nodeCount T) hf)

theorem nodeCount_zip_congr (ctx : Ctx Nat) (t t' : Node Nat) (h : inorder t' = inorder t) :
    nodeCount (zip ctx t') = nodeCount (zip ctx t) := by
  rw [nodeCount_eq_length, nodeCount_eq_length, inorder_zip, inorder_zip, h]

/-- The memory after `leftRotation` at the node `x` of a laid-out tree, whose
right child is `y`: the cells of `x`, of `y`, of the left child of `y` and of
the parent of `x`, the field `tree->root`, and every other cell. -/
theorem leftRotationH_relinks (dat : Nat → α) (ctx : Ctx Nat) (c c2 : Color) (l l2 r2 : Node Nat)
    (x y : Nat) (hnd : (inorder (zip ctx (.mk c l x (.mk c2 l2 y r2)))).Nodup) :
    ∃ m', leftRotationH (layout dat (zip ctx (.mk c l x (.mk c2 l2 y r2)))) (some x) = some m' ∧
      m' = layout dat (zip ctx (.mk c2 (.mk c l x l2) y r2)) ∧
      (inorder (zip ctx (.mk c2 (.mk c l x l2) y r2))).Nodup ∧
      m'.heap y = some ⟨ctxParent ctx, some x, ptr r2, c2, dat y⟩ ∧
      m'.heap x = some ⟨some y, ptr l, ptr l2, c, dat x⟩ ∧
      (∀ z, ptr l2 = some z → ∃ cz,
        (layout dat (zip ctx (.mk c l x (.mk c2 l2 y r2)))).heap z = some cz ∧
        m'.heap z = some { cz with parent := some x }) ∧
      (ctxParent ctx = none →
        (layout dat (zip ctx (.mk c l x (.mk c2 l2 y r2)))).root = some x ∧ m'.root = some y) ∧
      (∀ p, ctxParent ctx = some p →
        m'.root = (layout dat (zip ctx (.mk c l x (.mk c2 l2 y r2)))).root ∧
        ∃ cp, (layout dat (zip ctx (.mk c l x (.mk c2 l2 y r2)))).heap p = some cp ∧
          ((cp.left = some x ∧ m'.heap p = some { cp with left := some y }) ∨
            (cp.right = some x ∧ m'.heap p = some { cp with right := some y }))) ∧
      ∀ z, z ≠ x → z ≠ y → ptr l2 ≠ some z → ctxParent ctx ≠ some z →
        m'.heap z = (layout dat (zip ctx (.mk c l x (.mk c2 l2 y r2)))).heap z := by
  obtain ⟨h1, hnd'⟩ := leftRotationH_sim2 dat ctx c c2 l l2 r2 x y hnd
  refine ⟨_, h1, rfl, hnd', ?_, ?_, ?_, ?_, ?_, ?_⟩
  · exact layout_read dat _ ctx c2 (.mk c l x l2) r2 y rfl hnd'
  · exact layout_read dat _ (.ofLeft c2 y r2 :: ctx) c l l2 x rfl hnd'
  · intro z hz
    cases l2 with
    | NULL => cases hz
    | mk c3 l3 z3 r3 =>
      simp only [ptr_mk, Option.some.injEq] at hz
      subst hz
      exact ⟨_, layout_read dat _ (.ofLeft c2 y r2 :: .ofRight c l x :: ctx) c3 l3 r3 z3 rfl hnd,
        layout_read dat _ (.ofRight c l x :: .ofLeft c2 y r2 :: ctx) c3 l3 r3 z3 rfl hnd'⟩
  · intro hp
    cases ctx with
    | nil => exact ⟨rfl, rfl⟩
    | cons f up => cases hp
  · intro p hp
    cases ctx with
    | nil => cases hp
    | cons f up =>
      simp only [ctxParent_cons, Option.some.injEq] at hp
      subst hp
      refine ⟨?_, ?_⟩
      · rw [layout_root dat _ (f :: up) _ rfl, layout_root dat _ (f :: up) _ rfl]
        rfl
      · cases f with
        | ofLeft fc fd fr =>
          exact ⟨_, layout_read dat _ up fc _ fr fd rfl hnd, Or.inl ⟨rfl,
            layout_read dat _ up fc _ fr fd rfl hnd'⟩⟩
        | ofRight fc fl fd =>
          exact ⟨_, layout_read dat _ up fc fl _ fd rfl hnd, Or.inr ⟨rfl,
            layout_read dat _ up fc fl _ fd rfl hnd'⟩⟩
  · intro z hzx hzy hzl hzp
    exact (rotL_frame dat ctx c c2 l l2 r2 x y z hnd hnd' hzx hzy hzl hzp).symm

/-- The memory after `rightRotation` at the node `x` of a laid-out tree, whose
left child is `y`: the cells of `x`, of `y`, of the right child of `y` and of
the parent of `x`, the field `tree->root`, and every other cell. -/
theorem rightRotationH_relinks (dat : Nat → α) (ctx : Ctx Nat) (c c2 : Color)
    (l2 r2 r : Node Nat) (x y : Nat)
    (hnd : (inorder (zip ctx (.mk c (.mk c2 l2 y r2) x r))).Nodup) :
    ∃ m', rightRotationH (layout dat (zip ctx (.mk c (.mk c2 l2 y r2) x r))) (some x) = some m' ∧
      m' = layout dat (zip ctx (.mk c2 l2 y (.mk c r2 x r))) ∧
      (inorder (zip ctx (.mk c2 l2 y (.mk c r2 x r)))).Nodup ∧
      m'.heap y = some ⟨ctxParent ctx, ptr l2, some x, c2, dat y⟩ ∧
      m'.heap x = some ⟨some y, ptr r2, ptr r, c, dat x⟩ ∧
      (∀ z, ptr r2 = some z → ∃ cz,
        (layout dat (zip ctx (.mk c (.mk c2 l2 y r2) x r))).heap z = some cz ∧
        m'.heap z = some { cz with parent := some x }) ∧
      (ctxParent ctx = none →
        (layout dat (zip ctx (.mk c (.mk c2 l2 y r2) x r))).root = some x ∧ m'.root = some y) ∧
      (∀ p, ctxParent ctx = some p →
        m'.root = (layout dat (zip ctx (.mk c (.mk c2 l2 y r2) x r))).root ∧
        ∃ cp, (layout dat (zip ctx (.mk c (.mk c2 l2 y r2) x r))).heap p = some cp ∧
          ((cp.left = some x ∧ m'.heap p = some { cp with left := some y }) ∨
            (cp.right = some x ∧ m'.heap p = some { cp with right := some y }))) ∧
      ∀ z, z ≠ x → z ≠ y → ptr r2 ≠ some z → ctxParent ctx ≠ some z →
        m'.heap z = (layout dat (zip ctx (.mk c (.mk c2 l2 y r2) x r))).heap z := by
  obtain ⟨h1, hnd'⟩ := rightRotationH_sim2 dat ctx c c2 l2 r2 r x y hnd
  refine ⟨_, h1, rfl, hnd', ?_, ?_, ?_, ?_, ?_, ?_⟩
  · exact layout_read dat _ ctx c2 l2 (.mk c r2 x r) y rfl hnd'
  · exact layout_read dat _ (.ofRight c2 l2 y :: ctx) c r2 r x rfl hnd'
  · intro z hz
    cases r2 with
    | NULL => cases hz
    | mk c3 l3 z3 r3 =>
      simp only [ptr_mk, Option.some.injEq] at hz
      subst hz
      exact ⟨_, layout_read dat _ (.ofRight c2 l2 y :: .ofLeft c x r :: ctx) c3 l3 r3 z3 rfl hnd,
        layout_read dat _ (.ofLeft c x r :: .ofRight c2 l2 y :: ctx) c3 l3 r3 z3 rfl hnd'⟩
  · intro hp
    cases ctx with
    | nil => exact ⟨rfl, rfl⟩
    | cons f up => cases hp
  · intro p hp
    cases ctx with
    | nil => cases hp
    | cons f up =>
      simp only [ctxParent_cons, Option.some.injEq] at hp
      subst hp
      refine ⟨?_, ?_⟩
      · rw [layout_root dat _ (f :: up) _ rfl, layout_root dat _ (f :: up) _ rfl]
        rfl
      · cases f with
        | ofLeft fc fd fr =>
          exact ⟨_, layout_read dat _ up fc _ fr fd rfl hnd, Or.inl ⟨rfl,
            layout_read dat _ up fc _ fr fd rfl hnd'⟩⟩
        | ofRight fc fl fd =>
          exact ⟨_, layout_read dat _ up fc fl _ fd rfl hnd, Or.inr ⟨rfl,
            layout_read dat _ up fc fl _ fd rfl hnd'⟩⟩
  · intro z hzx hzy hzl hzp
    exact (rotR_frame dat ctx c c2 l2 r2 r x y z hnd hnd' hzx hzy hzl hzp).symm

/-- C21: the rotations in memory.  The memory is that of a tree whose nodes
have distinct addresses, linked as the tree says (every tree with consistent
links that the interface builds is such), and `x` is the address of a node
`n` of it.  When `n` has a right child `y`, `leftRotation` at `x` returns,
and afterwards: `y` has the former parent of `x` as its parent and `x` as its
left child, and keeps its right child, colour and data; `x` has `y` as its
parent and the former left child of `y`, absent or not, as its right child,
and keeps its left child, colour and data; that former left child of `y`, when
there is one, has `x` as its parent and is otherwise unchanged; when `x` had
no parent it was the root and `y` is the root now; when `x` had a parent, the
root is unchanged and the parent has `y` in the place of `x`, on the same
side, and is otherwise unchanged; every other node is unchanged; the links are
consistent; and the in-order sequence of the addresses, colours and data read
from the root is the same as before.  When `n` has a left child `y`,
`rightRotation` at `x` does the same with left and right exchanged. -/
theorem rotations_preserve_order (dat : Nat → α) (T : Node Nat) (hT : (inorder T).Nodup)
    (x : Nat) (n : Cell α) (hn : (layout dat T).heap x = some n) :
    (∀ y, n.right = some y → ∃ ny m', (layout dat T).heap y = some ny ∧
      leftRotationH (layout dat T) (some x) = some m' ∧
      m'.heap y = some ⟨n.parent, some x, ny.right, ny.color, ny.data⟩ ∧
      m'.heap x = some ⟨some y, n.left, ny.left, n.color, n.data⟩ ∧
      (∀ z, ny.left = some z → ∃ cz, (layout dat T).heap z = some cz ∧
        m'.heap z = some { cz with parent := some x }) ∧
      (n.parent = none → (layout dat T).root = some x ∧ m'.root = some y) ∧
      (∀ p, n.parent = some p → m'.root = (layout dat T).root ∧
        ∃ cp, (layout dat T).heap p = some cp ∧
          ((cp.left = some x ∧ m'.heap p = some { cp with left := some y }) ∨
            (cp.right = some x ∧ m'.heap p = some { cp with right := some y }))) ∧
      (∀ z, z ≠ x → z ≠ y → ny.left ≠ some z → n.parent ≠ some z →
        m'.heap z = (layout dat T).heap z) ∧
      LinksConsistent m' ∧
      ∀ fuel, nodeCount T ≤ fuel →
        inorderH fuel (layout dat T) (layout dat T).root =
          some ((colouredInorder T).map fun p => (p.2, p.1, dat p.2)) ∧
        inorderH fuel m' m'.root = some ((colouredInorder T).map fun p => (p.2, p.1, dat p.2))) ∧
    (∀ y, n.left = some y → ∃ ny m', (layout dat T).heap y = some ny ∧
      rightRotationH (layout dat T) (some x) = some m' ∧
      m'.heap y = some ⟨n.parent, ny.left, some x, ny.color, ny.data⟩ ∧
      m'.heap x = some ⟨some y, ny.right, n.right, n.color, n.data⟩ ∧
      (∀ z, ny.right = some z → ∃ cz, (layout dat T).heap z = some cz ∧
        m'.heap z = some { cz with parent := some x }) ∧
      (n.parent = none → (layout dat T).root = some x ∧ m'.root = some y) ∧
      (∀ p, n.parent = some p → m'.root = (layout dat T).root ∧
        ∃ cp, (layout dat T).heap p = some cp ∧
          ((cp.left = some x ∧ m'.heap p = some { cp with left := some y }) ∨
            (cp.right = some x ∧ m'.heap p = some { cp with right := some y }))) ∧
      (∀ z, z ≠ x → z ≠ y → ny.right ≠ some z → n.parent ≠ some z →
        m'.heap z = (layout dat T).heap z) ∧
      LinksConsistent m' ∧
      ∀ fuel, nodeCount T ≤ fuel →
        inorderH fuel (layout dat T) (layout dat T).root =
          some ((colouredInorder T).map fun p => (p.2, p.1, dat p.2)) ∧
        inorderH fuel m' m'.root =
          some ((colouredInorder T).map fun p => (p.2, p.1, dat p.2))) := by
  obtain ⟨ctx, c, l, r, hz⟩ := exists_loc x T [] (mem_of_layout_some dat T x n hn)
  simp only [zip] at hz
  subst hz
  rw [layout_read dat _ ctx c l r x rfl hT] at hn
  cases hn
  constructor
  · intro y hy
    cases r with
    | NULL => cases hy
    | mk c2 l2 y2 r2 =>
      simp only [ptr_mk, Option.some.injEq] at hy
      subst hy
      obtain ⟨m', h1, h2, h3, h4, h5, h6, h7, h8, h9⟩ :=
        leftRotationH_relinks dat ctx c c2 l l2 r2 x y2 hT
      refine ⟨_, m', layout_read dat _ (.ofRight c l x :: ctx) c2 l2 r2 y2 rfl hT, h1, h4, h5,
        h6, h7, h8, h9, ?_, ?_⟩
      · rw [h2]
        exact linksConsistent_layout dat _ h3
      · intro fuel hf
        refine ⟨inorderH_root dat _ hT fuel hf, ?_⟩
        have hc : colouredInorder (zip ctx (.mk c2 (.mk c l x l2) y2 r2)) =
            colouredInorder (zip ctx (.mk c l x (.mk c2 l2 y2 r2))) := by
          apply colouredInorder_zip_congr
          simp [colouredInorder]
        have hcount : nodeCount (zip ctx (.mk c2 (.mk c l x l2) y2 r2)) =
            nodeCount (zip ctx (.mk c l x (.mk c2 l2 y2 r2))) :=
          nodeCount_zip_congr ctx _ _ (by simp [inorder])
        rw [h2, inorderH_root dat _ h3 fuel (by omega), hc]
  · intro y hy
    cases l with
    | NULL => cases hy
    | mk c2 l2 y2 r2 =>
      simp only [ptr_mk, Option.some.injEq] at hy
      subst hy
      obtain ⟨m', h1, h2, h3, h4, h5, h6, h7, h8, h9⟩ :=
        rightRotationH_relinks dat ctx c c2 l2 r2 r x y2 hT
      refine ⟨_, m', layout_read dat _ (.ofLeft c x r :: ctx) c2 l2 r2 y2 rfl hT, h1, h4, h5,
        h6, h7, h8, h9, ?_, ?_⟩
      · rw [h2]
        exact linksConsistent_layout dat _ h3
      · intro fuel hf
        refine ⟨inorderH_root dat _ hT fuel hf, ?_⟩
        have hc : colouredInorder (zip ctx (.mk c2 l2 y2 (.mk c r2 x r))) =
            colouredInorder (zip ctx (.mk c (.mk c2 l2 y2 r2) x r)) := by
          apply colouredInorder_zip_congr
          simp [colouredInorder]
        have hcount : nodeCount (zip ctx (.mk c2 l2 y2 (.mk c r2 x r))) =
            nodeCount (zip ctx (.mk c (.mk c2 l2 y2 r2) x r)) :=
          nodeCount_zip_congr ctx _ _ (by simp [inorder])
        rw [h2, inorderH_root dat _ h3 fuel (by omega), hc]

theorem rotations_preserve_order_witness :
    (inorder addressTree).Nodup ∧
      (layout (fun a => (a : Int)) addressTree).heap 5 = some ⟨none, some 3, some 8, .BLACK, 5⟩ ∧
      (∃ ny m', (layout (fun a => (a : Int)) addressTree).heap 8 = some ny ∧
        leftRotationH (layout (fun a => (a : Int)) addressTree) (some 5) = some m' ∧
        m'.heap 8 = some ⟨none, some 5, ny.right, ny.color, ny.data⟩ ∧
        m'.heap 5 = some ⟨some 8, some 3, ny.left, .BLACK, 5⟩ ∧
        m'.root = some 8 ∧ LinksConsistent m') ∧
      ∃ ny m', (layout (fun a => (a : Int)) addressTree).heap 3 = some ny ∧
        rightRotationH (layout (fun a => (a : Int)) addressTree) (some 5) = some m' ∧
        m'.heap 3 = some ⟨none, ny.left, some 5, ny.color, ny.data⟩ ∧
        m'.heap 5 = some ⟨some 3, ny.right, some 8, .BLACK, 5⟩ ∧
        m'.root = some 3 ∧ LinksConsistent m' := by
  have h := rotations_preserve_order (fun a => (a : Int)) addressTree (by decide) 5
    ⟨none, some 3, some 8, .BLACK, 5⟩ rfl
  obtain ⟨ny, m', h1, h2, h3, h4, -, h5, -, -, h6, -⟩ := h.1 8 rfl
  obtain ⟨ny2, m2, g1, g2, g3, g4, -, g5, -, -, g6, -⟩ := h.2 3 rfl
  exact ⟨by decide, rfl, ⟨ny, m', h1, h2, h3, h4, (h5 rfl).2, h6⟩,
    ⟨ny2, m2, g1, g2, g3, g4, (g5 rfl).2, g6⟩⟩

end RBT

namespace Railway

theorem IsMin.congr {S T : Int → Prop} {v : Int} (h : IsMin S v) (hST : ∀ x, S x ↔ T x) :
    IsMin T v := by
  rcases h with ⟨h1, h2⟩ | ⟨h1, h2, h3⟩
  · exact Or.inl ⟨h1, fun x hx => h2 x ((hST x).2 hx)⟩
  · exact Or.inr ⟨h1, (hST v).1 h2, fun x hx => h3 x ((hST x).2 hx)⟩

theorem IsMin.le {S : Int → Prop} {v : Int} (h : IsMin S v) (x : Int) (hx : S x) : v ≤ x := by
  rcases h with ⟨-, h2⟩ | ⟨-, -, h3⟩
  · exact absurd hx (h2 x)
  · exact h3 x hx

theorem IsMin.mem {S : Int → Prop} {v : Int} (h : IsMin S v) (hv : v ≠ INT_MAX) : S v := by
  rcases h with ⟨h1, -⟩ | ⟨-, h2, -⟩
  · exact absurd h1 hv
  · exact h2

/-- One more candidate `x`, below every other new candidate, against the
current least value. -/
theorem IsMin.insert {S T : Int → Prop} {v x : Int} (h : IsMin S v) (hx : T x)
    (hlt : x < INT_MAX) (hT : ∀ y, T y → x ≤ y) :
    IsMin (fun y => S y ∨ T y) (if x < v then x else v) := by
  by_cases hxv : x < v
  · rw [if_pos hxv]
    refine Or.inr ⟨hlt, Or.inr hx, fun y hy => ?_⟩
    rcases hy with hy | hy
    · have := h.le y hy
      omega
    · exact hT y hy
  · rw [if_neg hxv]
    have hv : v ≠ INT_MAX := by omega
    refine Or.inr ⟨by omega, Or.inl (h.mem hv), fun y hy => ?_⟩
    rcases hy with hy | hy
    · exact h.le y hy
    · have := hT y hy
      omega

/-- A store of the counter keeps the indices apart, whatever the cell held
before. -/
theorem Numbered.write {arr arr1 : IndexArray} {n : Int} (h : Numbered arr n) (c : Int)
    (hw : arr.write c n = some arr1) : Numbered arr1 (n + 1) := by
  have hn := h.counter
  unfold IndexArray.write at hw
  split at hw
  · cases hw
    refine ⟨by omega, fun j => ?_, fun i j hij hi => ?_⟩
    · by_cases hj : j = c.toNat
      · simp only [hj, if_true]
        right
        omega
      · simp only [hj, if_false]
        rcases h.below j with h1 | h1
        · exact Or.inl h1
        · right
          omega
    · by_cases hi1 : i = c.toNat <;> by_cases hj1 : j = c.toNat
      · rw [hi1, hj1]
      · simp only [hi1, hj1, if_true, if_false] at hij
        rcases h.below j with h1 | h1
        · simp only [NOT_USED] at h1
          omega
        · omega
      · simp only [hi1, hj1, if_true, if_false] at hij
        rcases h.below i with h1 | h1
        · simp only [NOT_USED] at h1
          omega
        · omega
      · simp only [hi1, hj1, if_false] at hij hi
        exact h.distinct i j hij hi
  · cases hw

/-- C39, on the line `a,b,a`: `lineOfConnProcessAndValidate` reports success,
but the character `a`, whose index in the loop was 0, ends with the index 2,
given to it a second time as the last character of the line; `b` has the
index 1 and no character has the index 0, so the two distinct characters are
not numbered 0 and 1. -/
theorem lineOfConn_last_repeated :
    ∃ arr, lineOfConnProcessAndValidate [97, 44, 98, 44, 97] 5 initializeArrayOfChars =
        some (SUCCESSFUL, arr) ∧
      arr 97 = 2 ∧ arr 98 = 1 ∧ ∀ c, arr c ≠ 0 := by
  refine ⟨fun j => if j = 97 then 2 else if j = 98 then 1 else if j = 97 then 0 else -1,
    rfl, rfl, rfl, fun c => ?_⟩
  simp only
  split_ifs <;> decide

end Railway

namespace Students

/-! ### The best student -/

theorem roundHalfEven_close (q : ℚ) : |(roundHalfEven q : ℚ) - q| ≤ 1 / 2 := by
  have h1 := Int.floor_le q
  have h2 := Int.lt_floor_add_one q
  unfold roundHalfEven
  split_ifs with ha hb hc
  · rw [abs_le]; constructor <;> linarith
  · rw [abs_le]; push_cast; constructor <;> linarith
  · rw [abs_le]; constructor <;> linarith
  · rw [abs_le]; push_cast; constructor <;> linarith

theorem toDouble_zero : toDouble 0 = 0 := by simp [toDouble]

/-- Below 8 a `double` is within `2 ^ (-51)` of the number it rounds. -/
theorem toDouble_close (q : ℚ) (h0 : 0 < q) (h8 : q < 8) : |toDouble q - q| ≤ 1 / 2 ^ 51 := by
  have hq : q ≠ 0 := ne_of_gt h0
  have habs : |q| = q := abs_of_pos h0
  have hlog : Int.log 2 q < 3 := by
    rw [← Int.lt_zpow_iff_log_lt (by norm_num) h0]
    norm_num
    exact h8
  have hk : (50 : ℤ) ≤ 52 - Int.log 2 q := by omega
  have hs : (2 : ℚ) ^ (50 : ℤ) ≤ 2 ^ (52 - Int.log 2 q) := zpow_le_zpow_right₀ (by norm_num) hk
  have hs0 : (0 : ℚ) < 2 ^ (52 - Int.log 2 q) := zpow_pos (by norm_num) _
  have h50 : (2 : ℚ) ^ (50 : ℤ) = 2 ^ 50 := by norm_cast
  rw [h50] at hs
  simp only [toDouble, hq, if_false, habs]
  have hr := roundHalfEven_close (q * 2 ^ (52 - Int.log 2 q))
  generalize (2 : ℚ) ^ (52 - Int.log 2 q) = s at *
  generalize (roundHalfEven (q * s) : ℚ) = r at *
  have : r / s - q = (r - q * s) / s := by field_simp; ring
  rw [this, abs_div, abs_of_pos hs0, div_le_iff₀ hs0]
  calc |r - q * s| ≤ 1 / 2 := hr
    _ = 1 / 2 ^ 51 * 2 ^ 50 := by norm_num
    _ ≤ 1 / 2 ^ 51 * s := by
      apply mul_le_mul_of_nonneg_left hs
      positivity

/-- The quotients of `findBestStudent` keep their order when rounded. -/
theorem toDouble_lt (g a g1 a1 : Int) (hg : 0 ≤ g) (ha : 18 ≤ a) (ha' : a ≤ 120)
    (hg1 : g1 ≤ 100) (ha1 : 18 ≤ a1) (ha1' : a1 ≤ 120)
    (h : (g : ℚ) / a < (g1 : ℚ) / a1) :
    toDouble ((g : ℚ) / a) < toDouble ((g1 : ℚ) / a1) := by
  have hapos : (0 : ℚ) < a := by exact_mod_cast (by omega : (0 : Int) < a)
  have ha1pos : (0 : ℚ) < a1 := by exact_mod_cast (by omega : (0 : Int) < a1)
  have hx0 : (0 : ℚ) ≤ (g : ℚ) / a := div_nonneg (by exact_mod_cast hg) hapos.le
  have hy0 : (0 : ℚ) < (g1 : ℚ) / a1 := lt_of_le_of_lt hx0 h
  have hy8 : (g1 : ℚ) / a1 < 8 := by
    rw [div_lt_iff₀ ha1pos]
    have : (g1 : ℚ) ≤ 100 := by exact_mod_cast hg1
    have : (18 : ℚ) ≤ a1 := by exact_mod_cast ha1
    linarith
  -- the two quotients differ by at least 1 / (a * a1)
  have hcross : g * a1 + 1 ≤ g1 * a := by
    have h1 : (g : ℚ) * a1 < (g1 : ℚ) * a := by
      rw [div_lt_div_iff₀ hapos ha1pos] at h
      exact h
    have h2 : g * a1 < g1 * a := by exact_mod_cast h1
    omega
  have hgap : (1 : ℚ) / 14400 ≤ (g1 : ℚ) / a1 - (g : ℚ) / a := by
    have h1 : (g : ℚ) * a1 + 1 ≤ (g1 : ℚ) * a := by exact_mod_cast hcross
    have h2 : (g1 : ℚ) / a1 - (g : ℚ) / a = ((g1 : ℚ) * a - g * a1) / (a * a1) := by
      field_simp
      ring
    rw [h2, div_le_div_iff₀ (by norm_num) (mul_pos hapos ha1pos)]
    have h3 : (a : ℚ) * a1 ≤ 14400 := by
      have : (a : ℚ) ≤ 120 := by exact_mod_cast ha'
      have : (a1 : ℚ) ≤ 120 := by exact_mod_cast ha1'
      nlinarith
    nlinarith
  have hy := toDouble_close _ hy0 hy8
  rw [abs_le] at hy
  have hx : toDouble ((g : ℚ) / a) ≤ (g : ℚ) / a + 1 / 2 ^ 51 := by
    rcases eq_or_lt_of_le hx0 with h0 | h0
    · rw [← h0, toDouble_zero]
      norm_num
    · have hx8 : (g : ℚ) / a < 8 := lt_trans h hy8
      have := toDouble_close _ h0 hx8
      rw [abs_le] at this
      linarith
  have : (2 : ℚ) / 2 ^ 51 < 1 / 14400 := by norm_num
  have h51 : (1 : ℚ) / 2 ^ 51 + 1 / 2 ^ 51 = 2 / 2 ^ 51 := by ring
  linarith

/-- Comparing the rounded quotients is comparing the quotients. -/
theorem toDouble_lt_iff (g a g1 a1 : Int) (hg : 0 ≤ g) (hg' : g ≤ 100) (ha : 18 ≤ a)
    (ha' : a ≤ 120) (hg1 : 0 ≤ g1) (hg1' : g1 ≤ 100) (ha1 : 18 ≤ a1) (ha1' : a1 ≤ 120) :
    toDouble ((g : ℚ) / a) < toDouble ((g1 : ℚ) / a1) ↔ (g : ℚ) / a < (g1 : ℚ) / a1 := by
  constructor
  · intro h
    by_contra hn
    rcases eq_or_lt_of_le (not_lt.1 hn) with he | hl
    · rw [he] at h
      exact lt_irrefl _ h
    · exact lt_asymm h (toDouble_lt g1 a1 g a hg1 ha1 ha1' hg' ha ha' hl)
  · exact toDouble_lt g a g1 a1 hg ha ha' hg1' ha1 ha1'

theorem readAt_natCast (arr : List Student) (j : Nat) : readAt arr j = arr[j]? := by
  simp [readAt]

/-- The loop of `findBestStudent`: what holds of the best index and the best
value when the students before `j` have been looked at, and what the loop then
returns. -/
theorem findBestLoop_spec (arr : List Student) (n : Nat) (hlen : n ≤ arr.length)
    (hr : ∀ i s, i < n → arr[i]? = some s → s.InRange) :
    ∀ (fuel j best : Nat) (gb ab : Int), n - j < fuel → j ≤ n →
      0 ≤ gb → gb ≤ 100 → 18 ≤ ab → ab ≤ 120 →
      (∀ i s, i < j → arr[i]? = some s → s.ratio ≤ (gb : ℚ) / ab) →
      (∀ i s, i < best → arr[i]? = some s → s.ratio < (gb : ℚ) / ab) →
      (j = 0 → best = 0 ∧ gb = 0) →
      (0 < j → best < j ∧ ∃ s, arr[best]? = some s ∧ s.ratio = (gb : ℚ) / ab) →
      ∃ (b : Nat) (sb : Student),
        findBestLoop arr n fuel j best (toDouble ((gb : ℚ) / ab)) = some (b : Int) ∧
        (0 < n → b < n) ∧ (0 < n → arr[b]? = some sb ∧
          (∀ i s, i < n → arr[i]? = some s → s.ratio ≤ sb.ratio) ∧
          (∀ i s, i < b → arr[i]? = some s → s.ratio < sb.ratio)) := by
  intro fuel
  induction fuel with
  | zero => intro j best gb ab h; omega
  | succ fuel ih =>
    intro j best gb ab hfuel hjn hgb hgb' hab hab' hle hlt h0 hpos
    unfold findBestLoop
    by_cases hj : (j : Int) < n
    · have hjn' : j < n := by omega
      rw [if_pos hj, readAt_natCast]
      obtain ⟨s, hs⟩ : ∃ s, arr[j]? = some s := by
        have : j < arr.length := by omega
        exact ⟨arr[j], List.getElem?_eq_getElem this⟩
      obtain ⟨hsg, hsg', hsa, hsa'⟩ := hr j s hjn' hs
      have hage : s.age ≠ 0 := by omega
      simp only [hs, hage, if_false]
      have hiff := toDouble_lt_iff gb ab s.grade s.age hgb hgb' hab hab' hsg hsg' hsa hsa'
      have hgt : toDouble ((s.grade : ℚ) / s.age) > toDouble ((gb : ℚ) / ab) ↔
          (gb : ℚ) / ab < s.ratio := hiff
      by_cases hcur : (gb : ℚ) / ab < s.ratio
      · rw [if_pos (hgt.2 hcur)]
        apply ih (j + 1) j s.grade s.age (by omega) (by omega) hsg hsg' hsa hsa'
        · intro i t hi ht
          by_cases hij : i = j
          · subst hij
            rw [hs] at ht
            cases ht
            exact le_refl _
          · exact le_of_lt (lt_of_le_of_lt (hle i t (by omega) ht) hcur)
        · intro i t hi ht
          exact lt_of_le_of_lt (hle i t hi ht) hcur
        · intro h; omega
        · intro _
          exact ⟨by omega, s, hs, rfl⟩
      · rw [if_neg (fun h => hcur (hgt.1 h))]
        have hsle : s.ratio ≤ (gb : ℚ) / ab := not_lt.1 hcur
        apply ih (j + 1) best gb ab (by omega) (by omega) hgb hgb' hab hab'
        · intro i t hi ht
          by_cases hij : i = j
          · subst hij
            rw [hs] at ht
            cases ht
            exact hsle
          · exact hle i t (by omega) ht
        · exact hlt
        · intro h; omega
        · intro _
          by_cases hj0 : j = 0
          · obtain ⟨hb, hg⟩ := h0 hj0
            subst hj0 hb hg
            refine ⟨by omega, s, hs, ?_⟩
            have h1 : (0 : ℚ) ≤ s.ratio := by
              apply div_nonneg
              · exact_mod_cast hsg
              · exact_mod_cast (by omega : (0 : Int) ≤ s.age)
            have h2 : ((0 : Int) : ℚ) / ab = 0 := by simp
            rw [h2] at hsle ⊢
            exact le_antisymm hsle h1
          · obtain ⟨hb, sb, hsb, hrb⟩ := hpos (by omega)
            exact ⟨by omega, sb, hsb, hrb⟩
    · rw [if_neg hj]
      have hjn' : j = n := by omega
      subst hjn'
      by_cases hj0 : j = 0
      · exact ⟨best, ⟨[], [], 0, 0, [], []⟩, rfl, fun h => by omega, fun h => by omega⟩
      · obtain ⟨hb, sb, hsb, hrb⟩ := hpos (by omega)
        refine ⟨best, sb, rfl, fun _ => hb, fun _ => ⟨hsb, ?_, ?_⟩⟩
        · intro i t hi ht
          rw [hrb]
          exact hle i t hi ht
        · intro i t hi ht
          rw [hrb]
          exact hlt i t hi ht

/-- C38: `findBestStudent` on `n` students, at least one, with grades in
0..100 and ages in 18..120, the quotient of each division rounded to the
nearest `double`: the index `j` returned is below `n`, no student among the
`n` has a greater value grade/age (as a rational number) than the student at
`j`, and every student before `j` has a smaller one. -/
theorem findBestStudent_max (arr : List Student) (n : Nat) (hn : 1 ≤ n) (hlen : n ≤ arr.length)
    (hr : ∀ s ∈ arr.take n, s.InRange) :
    ∃ (j : Nat) (sj : Student), findBestStudent arr n = some (j : Int) ∧ j < n ∧
      arr[j]? = some sj ∧
      (∀ i s, i < n → arr[i]? = some s → s.ratio ≤ sj.ratio) ∧
      (∀ i s, i < j → arr[i]? = some s → s.ratio < sj.ratio) := by
  have hr1 : ∀ i s, i < n → arr[i]? = some s → s.InRange := by
    intro i s hi hs
    apply hr
    rw [List.mem_iff_getElem?]
    exact ⟨i, by rw [List.getElem?_take_of_lt hi, hs]⟩
  obtain ⟨b, sb, h1, h2, h3⟩ := findBestLoop_spec arr n hlen hr1 (n + 1) 0 0 0 18 (by omega)
    (by omega) (le_refl _) (by omega) (le_refl _) (by omega) (fun i s hi => by omega)
    (fun i s hi => by omega) (fun _ => ⟨rfl, rfl⟩) (fun h => by omega)
  obtain ⟨h4, h5, h6⟩ := h3 (by omega)
  refine ⟨b, sb, ?_, h2 (by omega), h4, h5, h6⟩
  have hz : toDouble (((0 : Int) : ℚ) / ((18 : Int) : ℚ)) = 0 := by simp [toDouble]
  rw [hz] at h1
  simpa [findBestStudent] using h1

theorem findBestStudent_max_witness :
    1 ≤ 3 ∧ 3 ≤ threeStudents.length ∧ (∀ s ∈ threeStudents.take 3, s.InRange) ∧
      ∃ (j : Nat) (sj : Student), findBestStudent threeStudents (3 : Nat) = some (j : Int) ∧
        j < 3 ∧ threeStudents[j]? = some sj ∧
        (∀ i s, i < 3 → threeStudents[i]? = some s → s.ratio ≤ sj.ratio) ∧
        (∀ i s, i < j → threeStudents[i]? = some s → s.ratio < sj.ratio) :=
  ⟨by decide, by decide, by decide,
    findBestStudent_max threeStudents 3 (by decide) (by decide) (by decide)⟩

end Students

namespace Students

/-! ### Sorting by grade -/

theorem getElem?_append_length (xs : List Student) (y : Student) (ys : List Student) :
    (xs ++ y :: ys)[xs.length]? = some y := by
  induction xs with
  | nil => simp
  | cons x xs ih => simpa using ih

theorem set_append_length (xs : List Student) (y z : Student) (ys : List Student) :
    (xs ++ y :: ys).set xs.length z = xs ++ z :: ys := by
  induction xs with
  | nil => rfl
  | cons x xs ih => simp [ih]

theorem readAt_append (xs : List Student) (y : Student) (ys : List Student) (k : Int)
    (hk : k = xs.length) : readAt (xs ++ y :: ys) k = some y := by
  subst hk
  simp only [readAt, Int.toNat_ofNat, getElem?_append_length]
  simp

theorem writeAt_append (xs : List Student) (y z : Student) (ys : List Student) (k : Int)
    (hk : k = xs.length) : writeAt (xs ++ y :: ys) k z = some (xs ++ z :: ys) := by
  subst hk
  have : (0 : Int) ≤ xs.length ∧ (xs.length : Int) < (xs ++ y :: ys).length := by
    simp only [List.length_append, List.length_cons]
    omega
  simp only [writeAt, this, and_self, if_true, Int.toNat_ofNat, set_append_length]

/-- The loop that fills a temporary array copies the students it is asked
for. -/
theorem copyLoop_spec (pre A post : List Student) (hA : A.length ≤ HALF_SIZE_OF_ARR) :
    ∀ (fuel i : Nat), A.length - i < fuel → i ≤ A.length →
      copyLoop (pre ++ A ++ post) pre.length A.length fuel i (A.take i) = some A := by
  intro fuel
  induction fuel with
  | zero => intro i h; omega
  | succ fuel ih =>
    intro i hfuel hi
    unfold copyLoop
    by_cases hlt : (i : Int) < A.length
    · have hi' : i < A.length := by omega
      rw [if_pos hlt, if_pos (by omega)]
      have hsplit : pre ++ A ++ post = (pre ++ A.take i) ++ A[i] :: (A.drop (i + 1) ++ post) := by
        have hA1 : A.take i ++ A[i] :: A.drop (i + 1) = A := by
          rw [List.getElem_cons_drop, List.take_append_drop]
        have : (pre ++ A.take i) ++ A[i] :: (A.drop (i + 1) ++ post) =
            pre ++ (A.take i ++ A[i] :: A.drop (i + 1)) ++ post := by
          simp only [List.append_assoc, List.cons_append]
        rw [this, hA1]
      rw [hsplit, readAt_append _ _ _ _ (by simp; omega)]
      simp only
      rw [← hsplit]
      have : A.take i ++ [A[i]] = A.take (i + 1) := by
        rw [List.take_succ, List.getElem?_eq_getElem hi']
        rfl
      rw [this]
      exact ih (i + 1) (by omega) (by omega)
    · rw [if_neg hlt]
      have : i = A.length := by omega
      rw [this, List.take_length]

/-- A temporary array is too small for more than `HALF_SIZE_OF_ARR`
students. -/
theorem copyLoop_overflow (arr : List Student) (base n : Int) (hn : (HALF_SIZE_OF_ARR : Int) < n) :
    ∀ (fuel i : Nat) (temp : List Student), i ≤ HALF_SIZE_OF_ARR →
      copyLoop arr base n fuel i temp = none := by
  intro fuel
  induction fuel with
  | zero => intro i temp _; rfl
  | succ fuel ih =>
    intro i temp hi
    unfold copyLoop
    rw [if_pos (by omega)]
    by_cases hlt : i < HALF_SIZE_OF_ARR
    · rw [if_pos hlt]
      cases readAt arr (base + i) with
      | none => rfl
      | some s => exact ih (i + 1) _ (by omega)
    · rw [if_neg hlt]

/-- The first loop of `merge` writes the merged list as far as it gets. -/
theorem mergeLoop_spec (A B : List Student) (pre post : List Student) :
    ∀ (fuel i j : Nat) (out rest : List Student), (A.length - i) + (B.length - j) < fuel →
      i ≤ A.length → j ≤ B.length → out.length = i + j →
      rest.length = (A.length - i) + (B.length - j) →
      out ++ List.merge (A.drop i) (B.drop j) gradeLE = List.merge A B gradeLE →
      ∃ i1 j1 out1 rest1,
        mergeLoop A B A.length B.length fuel (pre ++ out ++ rest ++ post) i j
            (pre.length + out.length : Nat) =
          some (pre ++ out1 ++ rest1 ++ post, i1, j1, ((pre.length + out1.length : Nat) : Int)) ∧
        (i1 = A.length ∨ j1 = B.length) ∧ i1 ≤ A.length ∧ j1 ≤ B.length ∧
        out1.length = i1 + j1 ∧ rest1.length = (A.length - i1) + (B.length - j1) ∧
        out1 ++ List.merge (A.drop i1) (B.drop j1) gradeLE = List.merge A B gradeLE := by
  intro fuel
  induction fuel with
  | zero => intro i j out rest h; omega
  | succ fuel ih =>
    intro i j out rest hfuel hi hj hout hrest hmerge
    unfold mergeLoop
    by_cases hc : (i : Int) < A.length ∧ (j : Int) < B.length
    · obtain ⟨hi1, hj1⟩ := hc
      have hi' : i < A.length := by omega
      have hj' : j < B.length := by omega
      rw [if_pos ⟨hi1, hj1⟩]
      simp only [List.getElem?_eq_getElem hi', List.getElem?_eq_getElem hj']
      obtain ⟨r0, rest', rfl⟩ : ∃ r0 rest', rest = r0 :: rest' := by
        cases rest with
        | nil => simp at hrest; omega
        | cons r0 rest' => exact ⟨r0, rest', rfl⟩
      have hA : A.drop i = A[i] :: A.drop (i + 1) := (List.getElem_cons_drop _ _ hi').symm
      have hB : B.drop j = B[j] :: B.drop (j + 1) := (List.getElem_cons_drop _ _ hj').symm
      have hw : ∀ z, writeAt (pre ++ out ++ r0 :: rest' ++ post) ((pre.length + out.length : Nat) : Int)
          z = some (pre ++ (out ++ [z]) ++ rest' ++ post) := by
        intro z
        have := writeAt_append (pre ++ out) r0 z (rest' ++ post)
          ((pre.length + out.length : Nat) : Int) (by simp)
        simpa using this
      simp only [List.length_cons] at hrest
      by_cases hle : A[i].grade ≤ B[j].grade
      · rw [if_pos hle, hw]
        simp only [Option.some_bind]
        obtain ⟨i1, j1, out1, rest1, h1, h2⟩ := ih (i + 1) j (out ++ [A[i]]) rest' (by omega)
          (by omega) hj (by rw [List.length_append, List.length_singleton]; omega) (by omega) (by
            rw [← hmerge, hA, hB, List.cons_merge_cons_pos _ _ _ (by simpa using hle)]
            simp only [List.append_assoc, List.singleton_append])
        refine ⟨i1, j1, out1, rest1, ?_, h2⟩
        rw [← h1]
        congr 1
        simp only [List.length_append, List.length_singleton]
        push_cast
        ring
      · rw [if_neg hle, hw]
        simp only [Option.some_bind]
        obtain ⟨i1, j1, out1, rest1, h1, h2⟩ := ih i (j + 1) (out ++ [B[j]]) rest' (by omega)
          hi (by omega) (by rw [List.length_append, List.length_singleton]; omega) (by omega) (by
            rw [← hmerge, hA, hB, List.cons_merge_cons_neg _ _ _ (by simpa using hle)]
            simp only [List.append_assoc, List.singleton_append])
        refine ⟨i1, j1, out1, rest1, ?_, h2⟩
        rw [← h1]
        congr 1
        simp only [List.length_append, List.length_singleton]
        push_cast
        ring
    · rw [if_neg hc]
      refine ⟨i, j, out, rest, rfl, ?_, hi, hj, hout, hrest, hmerge⟩
      by_contra hn
      push_neg at hn
      exact hc ⟨by omega, by omega⟩

/-- The loops of `merge` that copy the remaining elements back. -/
theorem copyBackLoop_spec (T pre post : List Student) :
    ∀ (fuel i : Nat) (out rest : List Student), T.length - i < fuel → i ≤ T.length →
      T.length - i ≤ rest.length →
      copyBackLoop T T.length fuel (pre ++ out ++ rest ++ post) i
          ((pre.length + out.length : Nat) : Int) =
        some (pre ++ (out ++ T.drop i) ++ rest.drop (T.length - i) ++ post,
          ((pre.length + (out ++ T.drop i).length : Nat) : Int)) := by
  intro fuel
  induction fuel with
  | zero => intro i out rest h; omega
  | succ fuel ih =>
    intro i out rest hfuel hi hrest
    unfold copyBackLoop
    by_cases hlt : (i : Int) < T.length
    · have hi' : i < T.length := by omega
      rw [if_pos hlt]
      simp only [List.getElem?_eq_getElem hi']
      obtain ⟨r0, rest', rfl⟩ : ∃ r0 rest', rest = r0 :: rest' := by
        cases rest with
        | nil => simp at hrest; omega
        | cons r0 rest' => exact ⟨r0, rest', rfl⟩
      have hT : T.drop i = T[i] :: T.drop (i + 1) := (List.getElem_cons_drop _ _ hi').symm
      have hw : writeAt (pre ++ out ++ r0 :: rest' ++ post)
          ((pre.length + out.length : Nat) : Int) T[i] =
            some (pre ++ (out ++ [T[i]]) ++ rest' ++ post) := by
        have := writeAt_append (pre ++ out) r0 T[i] (rest' ++ post)
          ((pre.length + out.length : Nat) : Int) (by simp)
        simpa using this
      simp only [List.length_cons] at hrest
      rw [hw]
      simp only [Option.some_bind]
      have h1 := ih (i + 1) (out ++ [T[i]]) rest' (by omega) (by omega) (by omega)
      have hk : (((pre.length + out.length : Nat) : Int) + 1) =
          ((pre.length + (out ++ [T[i]]).length : Nat) : Int) := by
        simp only [List.length_append, List.length_singleton]
        push_cast
        ring
      rw [hk, h1, hT]
      have hd : T.length - i = (T.length - (i + 1)) + 1 := by omega
      rw [hd, List.drop_succ_cons]
      simp only [List.append_assoc, List.singleton_append]
    · rw [if_neg hlt]
      have : T.length - i = 0 := by omega
      rw [this, List.drop_zero]
      have : T.drop i = [] := List.drop_eq_nil_of_le (by omega)
      rw [this, List.append_nil]

/-- `merge` on two neighbouring runs that fit the temporary arrays: the runs
are replaced by their merge, the rest of the array is as before. -/
theorem merge_spec (pre A B post : List Student) (hA : A.length ≤ HALF_SIZE_OF_ARR)
    (hB : B.length ≤ HALF_SIZE_OF_ARR) :
    merge (pre ++ A ++ B ++ post) pre.length ((pre.length : Int) + A.length - 1)
        ((pre.length : Int) + A.length - 1 + B.length) =
      some (pre ++ List.merge A B gradeLE ++ post) := by
  have hn1 : (pre.length : Int) + A.length - 1 - pre.length + 1 = (A.length : Int) := by ring
  have hn2 : (pre.length : Int) + A.length - 1 + B.length - ((pre.length : Int) + A.length - 1) =
      (B.length : Int) := by ring
  have hm : (pre.length : Int) + A.length - 1 + 1 = ((pre ++ A).length : Nat) := by
    simp only [List.length_append]
    push_cast
    ring
  have hL := copyLoop_spec pre A (B ++ post) hA (A.length + 1) 0 (by omega) (by omega)
  have hR := copyLoop_spec (pre ++ A) B post hB (B.length + 1) 0 (by omega) (by omega)
  simp only [List.take_zero] at hL hR
  have harr1 : pre ++ A ++ (B ++ post) = pre ++ A ++ B ++ post := by
    simp only [List.append_assoc]
  rw [harr1] at hL
  obtain ⟨i1, j1, out1, rest1, h1, h2, h3, h4, h5, h6, h7⟩ := mergeLoop_spec A B pre post
    (A.length + B.length + 1) 0 0 [] (A ++ B) (by omega) (by omega) (by omega) rfl
    (by simp) (by simp)
  have harr2 : pre ++ [] ++ (A ++ B) ++ post = pre ++ A ++ B ++ post := by
    simp only [List.append_nil, List.append_assoc]
  rw [harr2] at h1
  simp only [List.length_nil, Nat.add_zero] at h1
  have hc1 := copyBackLoop_spec A pre post (A.length + 1) i1 out1 rest1 (by omega) h3 (by omega)
  have hc2 := copyBackLoop_spec B pre post (B.length + 1) j1 (out1 ++ A.drop i1)
    (rest1.drop (A.length - i1)) (by omega) h4 (by simp only [List.length_drop]; omega)
  unfold merge
  simp only [hn1, hn2, hm, Int.toNat_ofNat, hL, hR, h1, hc1, hc2, Option.some_bind,
    Option.map_some', Option.some.injEq]
  have hfin : out1 ++ A.drop i1 ++ B.drop j1 = List.merge A B gradeLE := by
    rw [← h7]
    rcases h2 with h | h
    · have : A.drop i1 = [] := List.drop_eq_nil_of_le (by omega)
      rw [this]
      simp
    · have : B.drop j1 = [] := List.drop_eq_nil_of_le (by omega)
      rw [this]
      simp
  have hnil : (rest1.drop (A.length - i1)).drop (B.length - j1) = [] := by
    apply List.drop_eq_nil_of_le
    simp only [List.length_drop]
    omega
  rw [hfin, hnil, List.append_nil]

/-- When more than `HALF_SIZE_OF_ARR` students lie left of the middle, `merge`
writes past the end of its first temporary array. -/
theorem merge_overflow (arr : List Student) (left middle right : Int)
    (h : (HALF_SIZE_OF_ARR : Int) < middle - left + 1) : merge arr left middle right = none := by
  unfold merge
  simp only [copyLoop_overflow arr left _ h _ 0 [] (by omega), Option.none_bind]

/-- In the merge of two lists, the first of them sorted, the students with a
given grade are those of the first list and then those of the second. -/
theorem filter_merge (g : Int) : ∀ (A B : List Student),
    A.Pairwise (fun a b => a.grade ≤ b.grade) →
    (List.merge A B gradeLE).filter (fun s => s.grade = g) =
      A.filter (fun s => s.grade = g) ++ B.filter (fun s => s.grade = g) := by
  intro A
  induction A with
  | nil => intro B _; simp
  | cons a A ihA =>
    intro B
    induction B with
    | nil => intro _; simp
    | cons b B ihB =>
      intro hA
      by_cases hle : a.grade ≤ b.grade
      · rw [List.cons_merge_cons_pos _ _ _ (by simpa using hle)]
        simp only [List.filter_cons]
        rw [ihA (b :: B) (List.Pairwise.of_cons hA)]
        simp only [List.filter_cons]
        split_ifs <;> simp
      · rw [List.cons_merge_cons_neg _ _ _ (by simpa using hle)]
        have e1 := ihB hA
        -- when `b` has the grade asked for, every student of the first list has a greater one
        have hnone : b.grade = g → (a :: A).filter (fun s => decide (s.grade = g)) = [] := by
          intro hb
          rw [List.filter_eq_nil_iff]
          intro s hs
          have : a.grade ≤ s.grade := by
            rcases List.mem_cons.1 hs with h | h
            · rw [h]
            · exact List.rel_of_pairwise_cons hA h
          simp only [decide_eq_true_eq]
          omega
        generalize List.filter (fun s => decide (s.grade = g)) (a :: A) = F at e1 hnone ⊢
        simp only [List.filter_cons]
        rw [e1]
        by_cases hb : b.grade = g
        · simp [hb, hnone hb]
        · simp [hb]

theorem gradeLE_trans (a b c : Student) : gradeLE a b → gradeLE b c → gradeLE a c := by
  simp only [gradeLE, decide_eq_true_eq]
  omega

theorem gradeLE_total (a b : Student) : gradeLE a b || gradeLE b a := by
  simp only [gradeLE, Bool.or_eq_true, decide_eq_true_eq]
  omega

theorem pairwise_gradeLE (l : List Student) :
    l.Pairwise (fun a b => gradeLE a b) ↔ l.Pairwise (fun a b => a.grade ≤ b.grade) := by
  simp only [gradeLE, decide_eq_true_eq]

/-- `mergeSort` on a run of `n` students, at most `2 * HALF_SIZE_OF_ARR`: the
run is replaced by a sorted rearrangement of it in which the students of each
grade are in the order they were in, whatever lies before and after the run
and whatever the fuel, if it is at least `n`. -/
theorem mergeSort_spec : ∀ (n : Nat) (seg : List Student), seg.length = n → 1 ≤ n →
    n ≤ 2 * HALF_SIZE_OF_ARR →
    ∃ res, res.Perm seg ∧ res.Pairwise (fun a b => a.grade ≤ b.grade) ∧
      (∀ g, res.filter (fun s => s.grade = g) = seg.filter (fun s => s.grade = g)) ∧
      ∀ (fuel : Nat) (pre post : List Student), n ≤ fuel →
        mergeSort fuel (pre ++ seg ++ post) pre.length ((pre.length : Int) + n - 1) =
          some (pre ++ res ++ post) := by
  intro n
  induction n using Nat.strong_induction_on with
  | _ n ih =>
    intro seg hlen h1 hmax
    by_cases hn1 : n = 1
    · subst hn1
      refine ⟨seg, List.Perm.refl _, ?_, fun g => rfl, ?_⟩
      · match seg, hlen with
        | [x], _ => simp
      · intro fuel pre post hf
        obtain ⟨f, rfl⟩ : ∃ f, fuel = f + 1 := ⟨fuel - 1, by omega⟩
        unfold mergeSort
        rw [if_neg (by push_cast; omega)]
    · have hm1 : (n - 1) / 2 + 1 < n := by omega
      have hm2 : n - ((n - 1) / 2 + 1) < n := by omega
      have hAlen : (seg.take ((n - 1) / 2 + 1)).length = (n - 1) / 2 + 1 := by
        rw [List.length_take]
        omega
      have hBlen : (seg.drop ((n - 1) / 2 + 1)).length = n - ((n - 1) / 2 + 1) := by
        rw [List.length_drop, hlen]
      obtain ⟨resA, hpA, hsA, hfA, heA⟩ := ih _ hm1 (seg.take ((n - 1) / 2 + 1)) hAlen
        (by omega) (by omega)
      obtain ⟨resB, hpB, hsB, hfB, heB⟩ := ih _ hm2 (seg.drop ((n - 1) / 2 + 1)) hBlen
        (by omega) (by omega)
      have hsplit : seg.take ((n - 1) / 2 + 1) ++ seg.drop ((n - 1) / 2 + 1) = seg :=
        List.take_append_drop _ _
      generalize seg.take ((n - 1) / 2 + 1) = A at *
      generalize seg.drop ((n - 1) / 2 + 1) = B at *
      have hrA : resA.length = (n - 1) / 2 + 1 := by rw [hpA.length_eq, hAlen]
      have hrB : resB.length = n - ((n - 1) / 2 + 1) := by rw [hpB.length_eq, hBlen]
      refine ⟨List.merge resA resB gradeLE, ?_, ?_, ?_, ?_⟩
      · rw [← hsplit]
        exact (List.merge_perm_append gradeLE).trans (hpA.append hpB)
      · rw [← pairwise_gradeLE]
        exact List.sorted_merge gradeLE_trans gradeLE_total resA resB
          ((pairwise_gradeLE _).2 hsA) ((pairwise_gradeLE _).2 hsB)
      · intro g
        rw [filter_merge g resA resB hsA, hfA, hfB, ← hsplit, List.filter_append]
      · intro fuel pre post hf
        obtain ⟨f, rfl⟩ : ∃ f, fuel = f + 1 := ⟨fuel - 1, by omega⟩
        unfold mergeSort
        rw [if_pos (by omega)]
        have hmid : (pre.length : Int) + ((pre.length : Int) + n - 1 - pre.length).tdiv 2 =
            (pre.length : Int) + ((n - 1) / 2 + 1 : Nat) - 1 := by
          have h2 : (pre.length : Int) + n - 1 - pre.length = ((n - 1 : Nat) : Int) := by omega
          rw [h2]
          have h3 : ((n - 1 : Nat) : Int).tdiv 2 = (((n - 1) / 2 : Nat) : Int) :=
            (Int.ofNat_tdiv (n - 1) 2).symm
          rw [h3]
          push_cast
          ring
        simp only [hmid]
        have e1 := heA f pre (B ++ post) (by omega)
        have harr1 : pre ++ A ++ (B ++ post) = pre ++ seg ++ post := by
          rw [← hsplit]
          simp only [List.append_assoc]
        rw [harr1] at e1
        rw [e1]
        simp only [Option.some_bind]
        have e2 := heB f (pre ++ resA) post (by omega)
        have harr2 : pre ++ resA ++ (B ++ post) = pre ++ resA ++ B ++ post := by
          simp only [List.append_assoc]
        have hl2 : (pre.length : Int) + ((n - 1) / 2 + 1 : Nat) - 1 + 1 =
            ((pre ++ resA).length : Nat) := by
          rw [List.length_append, hrA]
          push_cast
          ring
        have hr2 : (pre.length : Int) + n - 1 =
            (((pre ++ resA).length : Nat) : Int) + (n - ((n - 1) / 2 + 1) : Nat) - 1 := by
          rw [List.length_append, hrA]
          omega
        rw [harr2, hl2, hr2, e2]
        simp only [Option.some_bind]
        have e3 := merge_spec pre resA resB post (by omega) (by omega)
        have hlen2 : (pre ++ resA).length = pre.length + resA.length := List.length_append _ _
        rw [← e3]
        congr 1 <;> omega

/-- C36, as amended: `mergeSort` on a run `arr[left..right]` of at most `2 *
HALF_SIZE_OF_ARR` = 5500 students.  The array is `pre ++ seg ++ post`, the run
`seg` is not empty, `left` is the length of `pre` and `right` the index of the
last student of `seg`: with fuel for as many nested calls as the run is long,
`mergeSort` returns the array `pre ++ res ++ post`, where `res` is a
permutation of `seg` with grades in non-decreasing order in which the
students of each grade are in the order they have in `seg`. -/
theorem mergeSort_sorts (pre seg post : List Student) (hne : seg ≠ [])
    (hlen : seg.length ≤ 2 * HALF_SIZE_OF_ARR) :
    ∃ res, (∀ fuel, seg.length ≤ fuel →
        mergeSort fuel (pre ++ seg ++ post) pre.length ((pre.length : Int) + seg.length - 1) =
          some (pre ++ res ++ post)) ∧
      res.Perm seg ∧ res.Pairwise (fun a b => a.grade ≤ b.grade) ∧
      ∀ g, res.filter (fun s => s.grade = g) = seg.filter (fun s => s.grade = g) := by
  have h1 : 1 ≤ seg.length := by
    cases seg with
    | nil => exact absurd rfl hne
    | cons x xs => simp
  obtain ⟨res, h2, h3, h4, h5⟩ := mergeSort_spec seg.length seg rfl h1 hlen
  exact ⟨res, fun fuel hf => h5 fuel pre post hf, h2, h3, h4⟩

theorem mergeSort_sorts_witness :
    [mkStudent [98] 50, mkStudent [101] 90, mkStudent [97] 50] ≠ [] ∧
      [mkStudent [98] 50, mkStudent [101] 90, mkStudent [97] 50].length ≤
        2 * HALF_SIZE_OF_ARR ∧
      ∃ res, (∀ fuel, 3 ≤ fuel →
          mergeSort fuel ([mkStudent [100] 70] ++
            [mkStudent [98] 50, mkStudent [101] 90, mkStudent [97] 50] ++ [mkStudent [99] 60])
            1 (1 + 3 - 1) = some ([mkStudent [100] 70] ++ res ++ [mkStudent [99] 60])) ∧
        res.Perm [mkStudent [98] 50, mkStudent [101] 90, mkStudent [97] 50] ∧
        res.Pairwise (fun a b => a.grade ≤ b.grade) ∧
        ∀ g, res.filter (fun s => s.grade = g) =
          [mkStudent [98] 50, mkStudent [101] 90, mkStudent [97] 50].filter
            (fun s => s.grade = g) :=
  ⟨by decide, by decide,
    mergeSort_sorts [mkStudent [100] 70]
      [mkStudent [98] 50, mkStudent [101] 90, mkStudent [97] 50] [mkStudent [99] 60]
      (by decide) (by decide)⟩

/-- A run of 5501 students: the last `merge` needs 2751 cells in its first
temporary array, whatever the array holds then. -/
theorem mergeSort_overflow :
    (∀ fuel, mergeSort fuel (List.replicate 5501 (mkStudent [97] 50)) 0 5500 = none) ∧
      ∀ arr, merge arr 0 2750 5500 = none := by
  have hm : ∀ arr, merge arr 0 2750 5500 = none := fun arr =>
    merge_overflow arr 0 2750 5500 (by decide)
  refine ⟨fun fuel => ?_, hm⟩
  cases fuel with
  | zero => rfl
  | succ f =>
    unfold mergeSort
    rw [if_pos (by decide)]
    have : (0 : Int) + ((5500 : Int) - 0).tdiv 2 = 2750 := by decide
    simp only [this]
    cases mergeSort f (List.replicate 5501 (mkStudent [97] 50)) 0 2750 with
    | none => rfl
    | some arr1 =>
      simp only [Option.some_bind]
      cases mergeSort f arr1 (2750 + 1) 5500 with
      | none => rfl
      | some arr2 => exact hm arr2

end Students

namespace Students

/-! ### Sorting by name -/

theorem charAt_append_cons (x : List Int) (c : Int) (a : List Int) :
    charAt (x ++ c :: a) x.length = some c := by
  have h : x.length < (x ++ c :: a).length := by simp
  simp only [charAt, h, if_true]
  induction x with
  | nil => simp
  | cons y x ih => simpa using ih (by simp)

theorem charAt_length (x : List Int) : charAt x x.length = some 0 := by
  simp [charAt]

theorem not_nameGreater_nil (b : List Int) : ¬ NameGreater [] b :=
  List.Lex.not_nil_right _ _

/-- The loop of `compareNames` behind a common beginning of the two names. -/
theorem compareNamesLoop_spec : ∀ (a x b : List Int), IsName a →
    compareNamesLoop (x ++ a) (x ++ b) a.length x.length =
      some (if NameGreater a b then FIRST else SECOND) := by
  intro a
  induction a with
  | nil =>
    intro x b _
    rw [if_neg (not_nameGreater_nil b)]
    rfl
  | cons c a ih =>
    intro x b ha
    have hc : 0 < c := ha c (List.mem_cons_self _ _)
    have ha' : IsName a := fun d hd => ha d (List.mem_cons_of_mem _ hd)
    simp only [List.length_cons, compareNamesLoop, charAt_append_cons]
    cases b with
    | nil =>
      rw [List.append_nil, charAt_length]
      simp only [gt_iff_lt, hc, if_true]
      rw [if_pos]
      exact List.Lex.nil
    | cons d b =>
      rw [charAt_append_cons]
      simp only [gt_iff_lt]
      by_cases h1 : d < c
      · rw [if_pos h1, if_pos]
        exact List.Lex.rel h1
      · rw [if_neg h1]
        by_cases h2 : c < d
        · rw [if_pos h2, if_neg]
          intro h
          cases h with
          | cons h => exact lt_irrefl _ h2
          | rel h => exact h1 h
        · rw [if_neg h2]
          have hcd : c = d := by omega
          subst hcd
          have e1 : x ++ c :: a = (x ++ [c]) ++ a := by simp
          have e2 : x ++ c :: b = (x ++ [c]) ++ b := by simp
          have e3 : x.length + 1 = (x ++ [c]).length := by simp
          rw [e1, e2, e3, ih (x ++ [c]) b ha']
          have : NameGreater (c :: a) (c :: b) ↔ NameGreater a b := List.Lex.cons_iff
          simp only [this]

/-- `compareNames(a, b)` returns `FIRST` exactly when `a` comes strictly after
`b`, and `SECOND` otherwise. -/
theorem compareNames_spec (a b : List Int) (ha : IsName a) :
    compareNames a b = some (if NameGreater a b then FIRST else SECOND) := by
  have := compareNamesLoop_spec a [] b ha
  simpa [compareNames] using this

theorem nameGreater_irrefl (a : List Int) : ¬ NameGreater a a :=
  irrefl_of (List.Lex (· < · : Int → Int → Prop)) a

theorem nameGreater_trans {a b c : List Int} (h1 : NameGreater a b) (h2 : NameGreater b c) :
    NameGreater a c :=
  trans_of (List.Lex (· < · : Int → Int → Prop)) h2 h1

/-- Not after the pivot, and the pivot strictly before: in order. -/
theorem not_nameGreater_of {a p b : List Int} (h1 : ¬ NameGreater a p) (h2 : NameGreater b p) :
    ¬ NameGreater a b := by
  intro h
  exact h1 (nameGreater_trans h h2)

/-! The array `pre ++ seg ++ post`, read and written within `seg`. -/

theorem getElem?_mid (pre seg post : List Student) (k : Nat) (hk : k < seg.length) :
    (pre ++ seg ++ post)[pre.length + k]? = seg[k]? := by
  rw [List.append_assoc, List.getElem?_append_right (by omega)]
  rw [show pre.length + k - pre.length = k by omega, List.getElem?_append_left hk]

theorem readAt_mid (pre seg post : List Student) (k : Nat) (hk : k < seg.length) :
    readAt (pre ++ seg ++ post) ((pre.length : Int) + k) = some seg[k] := by
  have h0 : (0 : Int) ≤ (pre.length : Int) + k := by omega
  have h1 : ((pre.length : Int) + k).toNat = pre.length + k := by omega
  simp only [readAt, h0, if_true, h1, getElem?_mid pre seg post k hk,
    List.getElem?_eq_getElem hk]

theorem set_mid (pre seg post : List Student) (k : Nat) (hk : k < seg.length) (s : Student) :
    (pre ++ seg ++ post).set (pre.length + k) s = pre ++ seg.set k s ++ post := by
  rw [List.append_assoc, List.append_assoc, List.set_append_right _ _ (by omega)]
  rw [show pre.length + k - pre.length = k by omega, List.set_append_left _ _ hk]

theorem writeAt_mid (pre seg post : List Student) (k : Nat) (hk : k < seg.length) (s : Student) :
    writeAt (pre ++ seg ++ post) ((pre.length : Int) + k) s = some (pre ++ seg.set k s ++ post) := by
  have h0 : (0 : Int) ≤ (pre.length : Int) + k ∧
      (pre.length : Int) + k < (pre ++ seg ++ post).length := by
    simp only [List.length_append]
    omega
  have h1 : ((pre.length : Int) + k).toNat = pre.length + k := by omega
  simp only [writeAt, h0, and_self, if_true, h1, set_mid pre seg post k hk]

theorem swapAt_mid (pre seg post : List Student) (i j : Nat) (hi : i < seg.length)
    (hj : j < seg.length) :
    swapAt (pre ++ seg ++ post) ((pre.length : Int) + i) ((pre.length : Int) + j) =
      some (pre ++ swapped seg i j hi hj ++ post) := by
  simp only [swapAt, readAt_mid pre seg post i hi, readAt_mid pre seg post j hj,
    writeAt_mid pre seg post i hi, Option.some_bind]
  rw [writeAt_mid pre _ post j (by simpa using hj)]
  rfl

theorem swapped_length (seg : List Student) (i j : Nat) (hi : i < seg.length)
    (hj : j < seg.length) : (swapped seg i j hi hj).length = seg.length := by
  simp [swapped]

theorem swapped_getElem? (seg : List Student) (i j : Nat) (hi : i < seg.length)
    (hj : j < seg.length) (k : Nat) :
    (swapped seg i j hi hj)[k]? =
      if k = j then some seg[i] else if k = i then some seg[j] else seg[k]? := by
  simp only [swapped, List.getElem?_set]
  by_cases h1 : j = k
  · subst h1
    simp [hj]
  · have h1' : ¬ k = j := fun h => h1 h.symm
    rw [if_neg h1, if_neg h1']
    by_cases h2 : i = k
    · subst h2
      simp [hi]
    · have h2' : ¬ k = i := fun h => h2 h.symm
      rw [if_neg h2, if_neg h2']

theorem swapped_perm (seg : List Student) (i j : Nat) (hi : i < seg.length)
    (hj : j < seg.length) : (swapped seg i j hi hj).Perm seg := by
  rw [List.perm_iff_count]
  intro s
  simp only [swapped]
  rw [List.count_set _ _ _ _ (by simpa using hj), List.count_set _ _ _ _ hi]
  simp only [List.getElem_set, ite_self]
  have h1 : 0 < List.count seg[i] seg := List.count_pos_iff.2 (List.getElem_mem _)
  have h2 : 0 < List.count seg[j] seg := List.count_pos_iff.2 (List.getElem_mem _)
  by_cases e1 : seg[i] = s <;> by_cases e2 : seg[j] = s <;>
    simp only [e1, e2, beq_self_eq_true, if_true, beq_iff_eq, if_false] <;>
    first
      | omega
      | (subst e1; omega)

theorem compare_second_iff (a p : List Int) :
    (if NameGreater a p then FIRST else SECOND) = SECOND ↔ ¬ NameGreater a p := by
  by_cases h : NameGreater a p <;> simp [h]

theorem compare_first_iff (a p : List Int) :
    (if NameGreater a p then FIRST else SECOND) = FIRST ↔ NameGreater a p := by
  by_cases h : NameGreater a p <;> simp [h]

/-- The first inner loop stops at the first student from `i` on who comes
after the pivot, or at `right`; where it stops does not depend on what lies
around the run. -/
theorem scanRight_spec (seg : List Student) (P : Student) (hP : seg[0]? = some P)
    (hnames : ∀ s ∈ seg, IsName s.name) :
    ∀ (m i : Nat), seg.length - i ≤ m → i < seg.length →
      ∃ i1 : Nat, i ≤ i1 ∧ i1 < seg.length ∧
        (∀ k, i ≤ k → k < i1 → ∀ s, seg[k]? = some s → ¬ NameGreater s.name P.name) ∧
        ((∀ s, seg[i]? = some s → ¬ NameGreater s.name P.name) → i + 1 < seg.length → i < i1) ∧
        (i1 + 1 < seg.length → ∀ s, seg[i1]? = some s → NameGreater s.name P.name) ∧
        ∀ (pre post : List Student) (fuel : Nat), seg.length - i ≤ fuel →
          scanRight (pre ++ seg ++ post) pre.length ((pre.length : Int) + seg.length - 1)
            fuel ((pre.length : Int) + i) = some ((pre.length : Int) + i1) := by
  intro m
  induction m with
  | zero => intro i h1 h2; omega
  | succ m ih =>
    intro i hm hi
    have h0 : 0 < seg.length := by omega
    have hP' : seg[0] = P := by
      rw [List.getElem?_eq_getElem h0] at hP
      exact Option.some.inj hP
    have hstep : ∀ (pre post : List Student) (f : Nat),
        scanRight (pre ++ seg ++ post) pre.length ((pre.length : Int) + seg.length - 1)
            (f + 1) ((pre.length : Int) + i) =
          if ¬ NameGreater seg[i].name P.name ∧ i + 1 < seg.length then
            scanRight (pre ++ seg ++ post) pre.length ((pre.length : Int) + seg.length - 1)
              f ((pre.length : Int) + (i + 1 : Nat))
          else some ((pre.length : Int) + i) := by
      intro pre post f
      have hpiv := readAt_mid pre seg post 0 h0
      simp only [Nat.cast_zero, add_zero] at hpiv
      rw [scanRight]
      simp only [readAt_mid pre seg post i hi, hpiv, hP',
        compareNames_spec _ P.name (hnames _ (List.getElem_mem hi)), compare_second_iff]
      have : (pre.length : Int) + i < (pre.length : Int) + seg.length - 1 ↔
          i + 1 < seg.length := by omega
      simp only [this]
      rfl
    by_cases hc : ¬ NameGreater seg[i].name P.name ∧ i + 1 < seg.length
    · obtain ⟨i1, h2, h3, h4, h5, h6, h7⟩ := ih (i + 1) (by omega) (by omega)
      refine ⟨i1, by omega, h3, ?_, fun _ _ => by omega, h6, ?_⟩
      · intro k hk1 hk2 s hs
        by_cases hki : k = i
        · subst hki
          rw [List.getElem?_eq_getElem hi] at hs
          cases hs
          exact hc.1
        · exact h4 k (by omega) hk2 s hs
      · intro pre post fuel hf
        obtain ⟨f, rfl⟩ : ∃ f, fuel = f + 1 := ⟨fuel - 1, by omega⟩
        rw [hstep, if_pos hc]
        exact h7 pre post f (by omega)
    · refine ⟨i, le_refl _, hi, fun k h1 h2 => by omega, ?_, ?_, ?_⟩
      · intro hle hlt
        exact absurd ⟨hle _ (List.getElem?_eq_getElem hi), hlt⟩ hc
      · intro hlt s hs
        rw [List.getElem?_eq_getElem hi] at hs
        cases hs
        by_contra hn
        exact hc ⟨hn, by omega⟩
      · intro pre post fuel hf
        obtain ⟨f, rfl⟩ : ∃ f, fuel = f + 1 := ⟨fuel - 1, by omega⟩
        rw [hstep, if_neg hc]

/-- One test of the condition of the second inner loop. -/
theorem scanLeft_step (seg : List Student) (P : Student) (hP : seg[0]? = some P)
    (hnames : ∀ s ∈ seg, IsName s.name) (j : Nat) (hj : j < seg.length)
    (pre post : List Student) (f : Nat) :
    scanLeft (pre ++ seg ++ post) pre.length (f + 1) ((pre.length : Int) + j) =
      if NameGreater seg[j].name P.name then
        scanLeft (pre ++ seg ++ post) pre.length f ((pre.length : Int) + j - 1)
      else some ((pre.length : Int) + j) := by
  have h0 : 0 < seg.length := by omega
  have hP' : seg[0] = P := by
    rw [List.getElem?_eq_getElem h0] at hP
    exact Option.some.inj hP
  have hpiv := readAt_mid pre seg post 0 h0
  simp only [Nat.cast_zero, add_zero] at hpiv
  rw [scanLeft]
  simp only [readAt_mid pre seg post j hj, hpiv, hP',
    compareNames_spec _ P.name (hnames _ (List.getElem_mem hj)), compare_first_iff]

/-- The second inner loop stops at the first student from `j` down who does
not come after the pivot; the pivot itself is such a student. -/
theorem scanLeft_spec (seg : List Student) (P : Student) (hP : seg[0]? = some P)
    (hnames : ∀ s ∈ seg, IsName s.name) :
    ∀ (m j : Nat), j ≤ m → j < seg.length →
      ∃ j1 : Nat, j1 ≤ j ∧
        (∀ k, j1 < k → k ≤ j → ∀ s, seg[k]? = some s → NameGreater s.name P.name) ∧
        (∀ s, seg[j1]? = some s → ¬ NameGreater s.name P.name) ∧
        ∀ (pre post : List Student) (fuel : Nat), j < fuel →
          scanLeft (pre ++ seg ++ post) pre.length fuel ((pre.length : Int) + j) =
            some ((pre.length : Int) + j1) := by
  have hstop : ∀ (j : Nat) (hj : j < seg.length), ¬ NameGreater seg[j].name P.name →
      ∃ j1 : Nat, j1 ≤ j ∧
        (∀ k, j1 < k → k ≤ j → ∀ s, seg[k]? = some s → NameGreater s.name P.name) ∧
        (∀ s, seg[j1]? = some s → ¬ NameGreater s.name P.name) ∧
        ∀ (pre post : List Student) (fuel : Nat), j < fuel →
          scanLeft (pre ++ seg ++ post) pre.length fuel ((pre.length : Int) + j) =
            some ((pre.length : Int) + j1) := by
    intro j hj hc
    refine ⟨j, le_refl _, fun k h1 h2 => by omega, ?_, ?_⟩
    · intro s hs
      rw [List.getElem?_eq_getElem hj] at hs
      cases hs
      exact hc
    · intro pre post fuel hf
      obtain ⟨f, rfl⟩ : ∃ f, fuel = f + 1 := ⟨fuel - 1, by omega⟩
      rw [scanLeft_step seg P hP hnames j hj, if_neg hc]
  have hzero : ∀ h0 : 0 < seg.length, ¬ NameGreater seg[0].name P.name := by
    intro h0
    have hP' : seg[0] = P := by
      rw [List.getElem?_eq_getElem h0] at hP
      exact Option.some.inj hP
    rw [hP']
    exact nameGreater_irrefl _
  intro m
  induction m with
  | zero =>
    intro j hj0 hj
    have hj' : j = 0 := by omega
    subst hj'
    exact hstop 0 hj (hzero hj)
  | succ m ih =>
    intro j hm hj
    by_cases hc : NameGreater seg[j].name P.name
    · have hj0 : j ≠ 0 := by
        intro h
        subst h
        exact hzero hj hc
      obtain ⟨j1, h2, h3, h4, h5⟩ := ih (j - 1) (by omega) (by omega)
      refine ⟨j1, by omega, ?_, h4, ?_⟩
      · intro k hk1 hk2 s hs
        by_cases hkj : k = j
        · subst hkj
          rw [List.getElem?_eq_getElem hj] at hs
          cases hs
          exact hc
        · exact h3 k hk1 (by omega) s hs
      · intro pre post fuel hf
        obtain ⟨f, rfl⟩ : ∃ f, fuel = f + 1 := ⟨fuel - 1, by omega⟩
        rw [scanLeft_step seg P hP hnames j hj, if_pos hc]
        have := h5 pre post f (by omega)
        rw [← this]
        congr 1
        omega
    · exact hstop j hj hc

/-- The outer loop of `quickSort` ends with every student before `j` not
after the pivot, the student at `j` not after it, and every student behind `j`
after it; the run and `j` at its end do not depend on what lies around the
run. -/
theorem partitionLoop_spec (seg0 : List Student) (P : Student)
    (hnames0 : ∀ s ∈ seg0, IsName s.name) :
    ∀ (m : Nat) (seg : List Student) (i j : Nat), PartInv seg0 seg P i j →
      seg.length - i ≤ m →
      ∃ (seg1 : List Student) (j1 : Nat),
        seg1.Perm seg0 ∧ seg1[0]? = some P ∧ j1 < seg1.length ∧
        (∀ k, k < j1 → ∀ s, seg1[k]? = some s → ¬ NameGreater s.name P.name) ∧
        (∀ k, j1 < k → ∀ s, seg1[k]? = some s → NameGreater s.name P.name) ∧
        (∀ s, seg1[j1]? = some s → ¬ NameGreater s.name P.name) ∧
        ∀ (pre post : List Student) (fuel : Nat), seg.length - i < fuel →
          partitionLoop pre.length ((pre.length : Int) + seg0.length - 1) fuel
              (pre ++ seg ++ post) ((pre.length : Int) + i) ((pre.length : Int) + j) =
            some (pre ++ seg1 ++ post, (pre.length : Int) + j1) := by
  intro m
  induction m with
  | zero => intro seg i j inv h; have := inv.i_lt; omega
  | succ m ih =>
    intro seg i j inv hm
    have hlen : seg.length = seg0.length := inv.perm.length_eq
    by_cases hij' : i < j
    · have hnames : ∀ s ∈ seg, IsName s.name := fun s hs => hnames0 s (inv.perm.subset hs)
      obtain ⟨i1, hi1, hi2, hi3, hi4, hi5, hs1⟩ := scanRight_spec seg P inv.pivot hnames
        (seg.length - i) i (le_refl _) inv.i_lt
      obtain ⟨j1, hj1, hj2, hj3, hs2⟩ := scanLeft_spec seg P inv.pivot hnames j j (le_refl _)
        inv.j_lt
      have hprog : i < i1 := hi4 (inv.cont hij') (by have := inv.j_lt; omega)
      have hlow : ∀ k, k < i1 → ∀ s, seg[k]? = some s → ¬ NameGreater s.name P.name := by
        intro k hk s hs
        by_cases hki : k < i
        · exact inv.low k hki s hs
        · exact hi3 k (by omega) hk s hs
      have hhigh : ∀ k, j1 < k → ∀ s, seg[k]? = some s → NameGreater s.name P.name := by
        intro k hk s hs
        by_cases hkj : k ≤ j
        · exact hj2 k hk hkj s hs
        · exact inv.high k (by omega) s hs
      have hj1lt : j1 < seg.length := by have := inv.j_lt; omega
      -- the two scans, then the test `i < j` before the exchange
      have hbody : ∀ (pre post : List Student) (f : Nat),
          partitionLoop pre.length ((pre.length : Int) + seg0.length - 1) (f + 1)
              (pre ++ seg ++ post) ((pre.length : Int) + i) ((pre.length : Int) + j) =
            ((if i1 < j1 then some (pre ++ swapped seg i1 j1 hi2 hj1lt ++ post)
              else some (pre ++ seg ++ post)).bind fun arr =>
                partitionLoop pre.length ((pre.length : Int) + seg0.length - 1) f arr
                  ((pre.length : Int) + i1) ((pre.length : Int) + j1)) := by
        intro pre post f
        rw [partitionLoop, if_pos (by omega)]
        have e1 := hs1 pre post ((pre ++ seg ++ post).length + 1)
          (by simp only [List.length_append]; omega)
        have e2 := hs2 pre post ((pre ++ seg ++ post).length + 1)
          (by have := inv.j_lt; simp only [List.length_append]; omega)
        rw [hlen] at e1
        rw [e1, e2]
        simp only [Option.some_bind]
        by_cases hsw : i1 < j1
        · rw [if_pos (by omega), if_pos hsw, swapAt_mid pre seg post i1 j1 hi2 hj1lt]
        · rw [if_neg (by omega), if_neg hsw]
      by_cases hsw : i1 < j1
      · have inv1 : PartInv seg0 (swapped seg i1 j1 hi2 hj1lt) P i1 j1 := by
          refine ⟨(swapped_perm seg i1 j1 hi2 hj1lt).trans inv.perm, ?_, ?_, ?_, ?_, ?_, ?_, ?_⟩
          · rw [swapped_getElem?, if_neg (by omega), if_neg (by omega)]
            exact inv.pivot
          · rw [swapped_length]; exact hi2
          · rw [swapped_length]; exact hj1lt
          · intro k hk s hs
            rw [swapped_getElem?, if_neg (by omega), if_neg (by omega)] at hs
            exact hlow k hk s hs
          · intro k hk s hs
            rw [swapped_getElem?, if_neg (by omega), if_neg (by omega)] at hs
            exact hhigh k hk s hs
          · intro _ s hs
            rw [swapped_getElem?, if_neg (by omega), if_pos rfl] at hs
            cases hs
            exact hj3 _ (List.getElem?_eq_getElem hj1lt)
          · intro h; omega
        obtain ⟨seg1, j2, h1, h2, h3, h4, h5, h6, h7⟩ := ih (swapped seg i1 j1 hi2 hj1lt) i1 j1
          inv1 (by rw [swapped_length]; omega)
        refine ⟨seg1, j2, h1, h2, h3, h4, h5, h6, fun pre post fuel hf => ?_⟩
        obtain ⟨f, rfl⟩ : ∃ f, fuel = f + 1 := ⟨fuel - 1, by omega⟩
        rw [hbody, if_pos hsw]
        simp only [Option.some_bind]
        exact h7 pre post f (by rw [swapped_length]; omega)
      · have inv1 : PartInv seg0 seg P i1 j1 :=
          ⟨inv.perm, inv.pivot, hi2, hj1lt, hlow, hhigh, fun h => by omega, fun _ => hj3⟩
        obtain ⟨seg1, j2, h1, h2, h3, h4, h5, h6, h7⟩ := ih seg i1 j1 inv1 (by omega)
        refine ⟨seg1, j2, h1, h2, h3, h4, h5, h6, fun pre post fuel hf => ?_⟩
        obtain ⟨f, rfl⟩ : ∃ f, fuel = f + 1 := ⟨fuel - 1, by omega⟩
        rw [hbody, if_neg hsw]
        simp only [Option.some_bind]
        exact h7 pre post f (by omega)
    · refine ⟨seg, j, inv.perm, inv.pivot, inv.j_lt, fun k hk => inv.low k (by omega), inv.high,
        inv.stop (by omega), fun pre post fuel hf => ?_⟩
      obtain ⟨f, rfl⟩ : ∃ f, fuel = f + 1 := ⟨fuel - 1, by omega⟩
      rw [partitionLoop, if_neg (by omega)]

/-- A list split at a place where a given student stands. -/
theorem split_at (seg : List Student) (j : Nat) (P : Student) (h : seg[j]? = some P) :
    seg = seg.take j ++ P :: seg.drop (j + 1) := by
  have hj : j < seg.length := by
    by_contra hn
    rw [List.getElem?_eq_none (by omega)] at h
    cases h
  rw [List.getElem?_eq_getElem hj] at h
  have hP : seg[j] = P := Option.some.inj h
  rw [← hP, List.getElem_cons_drop, List.take_append_drop]

theorem mem_take_getElem? (seg : List Student) (j : Nat) (s : Student) (h : s ∈ seg.take j) :
    ∃ k, k < j ∧ seg[k]? = some s := by
  obtain ⟨k, hk⟩ := List.mem_iff_getElem?.1 h
  rw [List.getElem?_take] at hk
  by_cases hkj : k < j
  · rw [if_pos hkj] at hk
    exact ⟨k, hkj, hk⟩
  · rw [if_neg hkj] at hk
    cases hk

theorem mem_drop_getElem? (seg : List Student) (j : Nat) (s : Student) (h : s ∈ seg.drop j) :
    ∃ k, j ≤ k ∧ seg[k]? = some s := by
  obtain ⟨k, hk⟩ := List.mem_iff_getElem?.1 h
  rw [List.getElem?_drop] at hk
  exact ⟨j + k, by omega, hk⟩

/-- `quickSort` on a run of `n` students with names of positive characters:
the run is replaced by a rearrangement of it in which no student comes after a
later one, whatever lies before and after the run and whatever the fuel, if it
is more than `n`. -/
theorem quickSort_spec : ∀ (n : Nat) (seg : List Student), seg.length = n →
    (∀ s ∈ seg, IsName s.name) →
    ∃ res, res.Perm seg ∧ res.Pairwise (fun a b => ¬ NameGreater a.name b.name) ∧
      ∀ (fuel : Nat) (pre post : List Student), n + 1 ≤ fuel →
        quickSort fuel (pre ++ seg ++ post) pre.length ((pre.length : Int) + n - 1) =
          some (pre ++ res ++ post) := by
  intro n
  induction n using Nat.strong_induction_on with
  | _ n ih =>
    intro seg hlen hnames
    by_cases hn : n ≤ 1
    · refine ⟨seg, List.Perm.refl _, ?_, ?_⟩
      · match seg, hlen with
        | [], _ => simp
        | [x], _ => simp
        | _ :: _ :: _, h => simp at h; omega
      · intro fuel pre post hf
        obtain ⟨f, rfl⟩ : ∃ f, fuel = f + 1 := ⟨fuel - 1, by omega⟩
        unfold quickSort
        rw [if_neg (by omega)]
    · have h0 : 0 < seg.length := by omega
      have hn1 : n - 1 < seg.length := by omega
      have inv0 : PartInv seg seg seg[0] 0 (n - 1) :=
        ⟨List.Perm.refl _, List.getElem?_eq_getElem h0, h0, hn1, fun k hk => by omega,
          fun k hk s hs => by
            have : k < seg.length := by
              by_contra hc
              rw [List.getElem?_eq_none (by omega)] at hs
              cases hs
            omega,
          fun _ s hs => by
            rw [List.getElem?_eq_getElem h0] at hs
            cases hs
            exact nameGreater_irrefl _,
          fun h => by omega⟩
      obtain ⟨seg1, j1, hp1, hpiv1, hj1, hlow, hhigh, hstop, hloop⟩ :=
        partitionLoop_spec seg seg[0] hnames (seg.length - 0) seg 0 (n - 1) inv0 (le_refl _)
      have hlen1 : seg1.length = seg.length := hp1.length_eq
      have h01 : 0 < seg1.length := by omega
      -- the pivot goes to its place `j1`
      have hP1 : seg1[0] = seg[0] := by
        rw [List.getElem?_eq_getElem h01] at hpiv1
        exact Option.some.inj hpiv1
      have hsplit := split_at (swapped seg1 0 j1 h01 hj1) j1 seg[0]
        (by rw [swapped_getElem?, if_pos rfl, hP1])
      have hLlen : ((swapped seg1 0 j1 h01 hj1).take j1).length = j1 := by
        rw [List.length_take, swapped_length]
        omega
      have hRlen : ((swapped seg1 0 j1 h01 hj1).drop (j1 + 1)).length = n - (j1 + 1) := by
        rw [List.length_drop, swapped_length, hlen1, hlen]
      have hperm2 : (swapped seg1 0 j1 h01 hj1).Perm seg :=
        (swapped_perm seg1 0 j1 h01 hj1).trans hp1
      have hL : ∀ s ∈ (swapped seg1 0 j1 h01 hj1).take j1,
          ¬ NameGreater s.name seg[0].name := by
        intro s hs
        obtain ⟨k, hk, hks⟩ := mem_take_getElem? _ _ _ hs
        rw [swapped_getElem?, if_neg (by omega)] at hks
        by_cases hk0 : k = 0
        · rw [if_pos hk0] at hks
          cases hks
          exact hstop _ (List.getElem?_eq_getElem hj1)
        · rw [if_neg hk0] at hks
          exact hlow k hk s hks
      have hR : ∀ s ∈ (swapped seg1 0 j1 h01 hj1).drop (j1 + 1),
          NameGreater s.name seg[0].name := by
        intro s hs
        obtain ⟨k, hk, hks⟩ := mem_drop_getElem? _ _ _ hs
        rw [swapped_getElem?, if_neg (by omega), if_neg (by omega)] at hks
        exact hhigh k (by omega) s hks
      have hnames2 : ∀ s ∈ swapped seg1 0 j1 h01 hj1, IsName s.name :=
        fun s hs => hnames s (hperm2.subset hs)
      generalize hLdef : (swapped seg1 0 j1 h01 hj1).take j1 = Lpart at hsplit hLlen hL
      generalize hRdef : (swapped seg1 0 j1 h01 hj1).drop (j1 + 1) = Rpart at hsplit hRlen hR
      obtain ⟨Lres, hpL, hsL, heL⟩ := ih j1 (by omega) Lpart hLlen
        (fun s hs => hnames2 s (by rw [hsplit]; exact List.mem_append_left _ hs))
      obtain ⟨Rres, hpR, hsR, heR⟩ := ih (n - (j1 + 1)) (by omega) Rpart hRlen
        (fun s hs => hnames2 s (by
          rw [hsplit]
          exact List.mem_append_right _ (List.mem_cons_of_mem _ hs)))
      refine ⟨Lres ++ seg[0] :: Rres, ?_, ?_, ?_⟩
      · refine List.Perm.trans ?_ hperm2
        rw [hsplit]
        exact hpL.append (hpR.cons _)
      · rw [List.pairwise_append]
        refine ⟨hsL, List.pairwise_cons.2 ⟨?_, hsR⟩, ?_⟩
        · intro b hb hgt
          exact nameGreater_irrefl _ (nameGreater_trans hgt (hR b (hpR.subset hb)))
        · intro a ha b hb
          rcases List.mem_cons.1 hb with h | h
          · rw [h]
            exact hL a (hpL.subset ha)
          · exact not_nameGreater_of (hL a (hpL.subset ha)) (hR b (hpR.subset h))
      · intro fuel pre post hf
        obtain ⟨f, rfl⟩ : ∃ f, fuel = f + 1 := ⟨fuel - 1, by omega⟩
        rw [quickSort, if_pos (by omega)]
        have e1 := hloop pre post ((pre ++ seg ++ post).length + 1)
          (by simp only [List.length_append]; omega)
        have hr : (pre.length : Int) + ((n - 1 : Nat) : Int) = (pre.length : Int) + n - 1 := by
          omega
        simp only [Nat.cast_zero, add_zero, hr, hlen] at e1
        rw [e1]
        simp only [Option.some_bind]
        have e2 := swapAt_mid pre seg1 post 0 j1 h01 hj1
        simp only [Nat.cast_zero, add_zero] at e2
        rw [e2]
        simp only [Option.some_bind]
        rw [hsplit]
        have e3 := heL f pre (seg[0] :: Rpart ++ post) (by omega)
        have harr3 : pre ++ Lpart ++ (seg[0] :: Rpart ++ post) =
            pre ++ (Lpart ++ seg[0] :: Rpart) ++ post := by
          simp only [List.append_assoc, List.cons_append]
        rw [harr3] at e3
        rw [e3]
        simp only [Option.some_bind]
        have e4 := heR f (pre ++ Lres ++ [seg[0]]) post (by omega)
        have harr4 : pre ++ Lres ++ [seg[0]] ++ Rpart ++ post =
            pre ++ Lres ++ (seg[0] :: Rpart ++ post) := by
          simp only [List.append_assoc, List.cons_append, List.singleton_append, List.nil_append]
        have hl4 : (((pre ++ Lres ++ [seg[0]]).length : Nat) : Int) = (pre.length : Int) + j1 + 1 := by
          simp only [List.length_append, List.length_singleton, hpL.length_eq, hLlen]
          push_cast
          ring
        have hr4 : (((pre ++ Lres ++ [seg[0]]).length : Nat) : Int) + ((n - (j1 + 1) : Nat) : Int)
            - 1 = (pre.length : Int) + n - 1 := by
          rw [hl4]
          omega
        rw [harr4, hl4] at e4
        rw [hl4] at hr4
        rw [hr4] at e4
        rw [e4]
        simp only [List.append_assoc, List.cons_append, List.singleton_append, List.nil_append]


/-- C37: `quickSort` sorts a run of students by name.  For every run `seg` of
students whose names are strings of positive character codes, `compareNames`
answers `FIRST` on two of its names exactly when the first comes strictly
after the second, and there is a rearrangement `res` of the run, in which no
student's name comes strictly after the name of a later one, such that
`quickSort` called with the first and the last index of the run returns, with
any fuel above the length of the run, and replaces the run by `res`, whatever
lies before and after the run in the array (nothing at all included, so no
read and no write goes outside the run), leaving that as it was. -/
theorem quickSort_sorts (seg : List Student) (hnames : ∀ s ∈ seg, IsName s.name) :
    (∀ s ∈ seg, ∀ t ∈ seg, compareNames s.name t.name =
        some (if NameGreater s.name t.name then FIRST else SECOND)) ∧
    ∃ res, res.Perm seg ∧ res.Pairwise (fun a b => ¬ NameGreater a.name b.name) ∧
      ∀ (fuel : Nat) (pre post : List Student), seg.length + 1 ≤ fuel →
        quickSort fuel (pre ++ seg ++ post) pre.length
            ((pre.length : Int) + seg.length - 1) = some (pre ++ res ++ post) :=
  ⟨fun s hs t _ => compareNames_spec s.name t.name (hnames s hs),
    quickSort_spec seg.length seg rfl hnames⟩

theorem quickSort_sorts_witness :
    (∀ s ∈ fiveStudents, IsName s.name) ∧
    ((∀ s ∈ fiveStudents, ∀ t ∈ fiveStudents, compareNames s.name t.name =
        some (if NameGreater s.name t.name then FIRST else SECOND)) ∧
    ∃ res, res.Perm fiveStudents ∧
      res.Pairwise (fun a b => ¬ NameGreater a.name b.name) ∧
      ∀ (fuel : Nat) (pre post : List Student), fiveStudents.length + 1 ≤ fuel →
        quickSort fuel (pre ++ fiveStudents ++ post) pre.length
            ((pre.length : Int) + fiveStudents.length - 1) = some (pre ++ res ++ post)) :=
  ⟨by decide, quickSort_sorts fiveStudents (by decide)⟩

end Students
